import Mathlib

/-!
# Biscuit kernel core: trap ring, paging, copy-on-write fork, syscalls

A shallow embedding of `biscuit/main.go`, `biscuit/pmap.go` and
`biscuit/syscall.go`, and of `symbols` in `cmd/internal/objfile/macho.go`.

Conventions of the embedding:

* a Go `int` holding a page-table entry, a physical address or a virtual
  address is the natural number below `2 ^ 64` with the same bit pattern;
  `^x` is `2 ^ 64 - 1 - x`;
* a Go `int` used as a counter, index, pid or trap-frame word is an `Int`;
* a pointer to a 4 KiB page (`*[512]int`) is the physical address of its
  frame, a pointer to one entry (`*int`) is a pair (frame, index);
* a `panic` (or a `for {}` halt) is `none`;
* Go maps are functions into `Option`;
* the filesystem, which is not among these sources, is a parameter of the
  syscall layer; the kernel's log through `fmt.Printf` is left out.
* the kernel page table that `kpmap()` returns and the map `allbins` of the
  built-in programs, both set up outside these sources, are parameters of
  program loading.
-/

namespace Biscuit

/-! ## Constants of `syscall.go` and `main.go` -/

def TFSIZE : Nat := 23
def TFREGS : Nat := 16
def TF_R8 : Nat := 8
def TF_RSI : Nat := 10
def TF_RDI : Nat := 11
def TF_RDX : Nat := 12
def TF_RCX : Nat := 13
def TF_RBX : Nat := 14
def TF_RAX : Nat := 15
def TF_TRAP : Nat := TFREGS
def TF_RIP : Nat := TFREGS + 2
def TF_CS : Nat := TFREGS + 3
def TF_RSP : Nat := TFREGS + 5
def TF_SS : Nat := TFREGS + 6
def TF_RFLAGS : Nat := TFREGS + 4

def GPFAULT : Int := 13
def PGFAULT : Int := 14
def TIMER : Int := 32
def SYSCALL : Int := 64
def IRQ_BASE : Int := 32
def IRQ_KBD : Int := 1
def IRQ_DISK : Int := 14
def INT_DISK : Int := IRQ_BASE + IRQ_DISK
def INT_KBD : Int := IRQ_BASE + IRQ_KBD

def maxtstore : Int := 64
def maxcpus : Int := 32

/-! ## The per-CPU trap ring (`main.go`) -/

/-- A trap frame `[TFSIZE]int`: the word at each index. -/
abbrev Tf := Nat → Int

/-- The record `trapstore_t`. -/
structure trapstore_t where
  trapno : Int
  pid : Int
  faultaddr : Int
  tf : Tf

/-- Go's zero value of `trapstore_t`. -/
def trapstore_t.zero : trapstore_t := ⟨0, 0, 0, fun _ => 0⟩

/-- The function `tsnext`; Go's `%` truncates towards zero. -/
def tsnext (c : Int) : Int := Int.tmod (c + 1) maxtstore

/-- The ring fields of `cpu_t`. -/
structure cpu_t where
  num : Int
  trapstore : Int → trapstore_t
  tshead : Int
  tstail : Int

/-- Go's zero value of `cpu_t`: the initial state of every entry of `cpus`. -/
def cpu_t.zero : cpu_t := ⟨0, fun _ => trapstore_t.zero, 0, 0⟩

/-- Where `trapstub` stands: each constructor names the next access to the
shared ring that the stub will make. -/
inductive StubPc
  | idle      -- not in the stub: interrupts are enabled
  | rdtail    -- `tail := cpus[lid].tstail` and the ring-full test
  | wtrapno   -- `ts.trapno = trapno`
  | wpid      -- `ts.pid = pid`
  | wtf       -- `ts.tf = *tf`
  | wfault    -- `if trapno == PGFAULT { ts.faultaddr = runtime.Rcr2() }`
  | commit    -- `cpus[lid].tshead = tsnext(head)` and the final `switch`
  | halted    -- one of the `for {}` loops
  deriving DecidableEq, Repr

/-- The arguments and locals of the running `trapstub`. -/
structure StubCtx where
  pc : StubPc
  tf : Tf
  pid : Int
  cr2 : Int
  head : Int
  tail : Int

/-- Where the dispatcher `trap` stands in its visit of this CPU's ring. -/
inductive TrapPc
  | rdhead    -- `head := cpus[cpu].tshead`
  | rdtail    -- `tail := cpus[cpu].tstail` and the `tail == head` test
  | copy      -- `tcur = cpus[cpu].trapstore[tail]`
  | advance   -- `cpus[cpu].tstail = tsnext(tail)` and the handler lookup
  | halted    -- `panic("no handler for trap ...")`
  deriving DecidableEq, Repr

/-- The locals of `trap` for this ring. -/
structure TrapCtx where
  pc : TrapPc
  head : Int
  tail : Int
  tcur : trapstore_t

/-- One CPU's ring together with its producer (the interrupt stub on that
CPU), its consumer (the dispatcher task), and the two observation logs: the
records whose enqueue was committed and the records the dispatcher took. The
logs are written by the steps and never read by them. -/
structure RingSys where
  cpu : cpu_t
  stub : StubCtx
  disp : TrapCtx
  enq : List trapstore_t
  deq : List trapstore_t

/-- The ring at boot. -/
def RingSys.init : RingSys :=
  { cpu := cpu_t.zero
    stub := ⟨StubPc.idle, fun _ => 0, 0, 0, 0, 0⟩
    disp := ⟨TrapPc.rdhead, 0, 0, trapstore_t.zero⟩
    enq := []
    deq := [] }

/-- What the scheduler of the model may pick next. -/
inductive Action
  /-- The hardware vectors into `trapstub(tf, pid)` with `cr2` in CR2; it can
  only happen while the stub is not running (interrupts are disabled in it).
  The action runs the stub up to and including `head := cpus[lid].tshead`. -/
  | interrupt (tf : Tf) (pid : Int) (cr2 : Int)
  /-- The running stub makes its next access to the ring. -/
  | stub
  /-- The dispatcher makes its next access to the ring. -/
  | trap

/-- Writes one slot of the ring. -/
def setSlot (st : Int → trapstore_t) (i : Int) (r : trapstore_t) : Int → trapstore_t :=
  fun j => if j = i then r else st j

/-- The entry of `trapstub`, lines 70-89: a kernel fault halts, otherwise
`head` is read. -/
def stub_enter (s : RingSys) (tf : Tf) (pid : Int) (cr2 : Int) : RingSys :=
  match s.stub.pc with
  | StubPc.idle =>
    let trapno := tf TF_TRAP
    if pid = 0 ∧ trapno < IRQ_BASE then
      { s with stub := { s.stub with pc := StubPc.halted, tf := tf, pid := pid, cr2 := cr2 } }
    else
      { s with stub := ⟨StubPc.rdtail, tf, pid, cr2, s.cpu.tshead, s.stub.tail⟩ }
  | _ => s

/-- The next statement of the running `trapstub`, lines 90-122. -/
def stub_step (s : RingSys) : RingSys :=
  let x := s.stub
  let ts := s.cpu.trapstore x.head
  match x.pc with
  | StubPc.idle => s
  | StubPc.halted => s
  | StubPc.rdtail =>
    let tail := s.cpu.tstail
    if tsnext x.head = tail then
      { s with stub := { x with pc := StubPc.halted, tail := tail } }
    else
      { s with stub := { x with pc := StubPc.wtrapno, tail := tail } }
  | StubPc.wtrapno =>
    { s with
      cpu := { s.cpu with trapstore := setSlot s.cpu.trapstore x.head { ts with trapno := x.tf TF_TRAP } }
      stub := { x with pc := StubPc.wpid } }
  | StubPc.wpid =>
    { s with
      cpu := { s.cpu with trapstore := setSlot s.cpu.trapstore x.head { ts with pid := x.pid } }
      stub := { x with pc := StubPc.wtf } }
  | StubPc.wtf =>
    { s with
      cpu := { s.cpu with trapstore := setSlot s.cpu.trapstore x.head { ts with tf := x.tf } }
      stub := { x with pc := StubPc.wfault } }
  | StubPc.wfault =>
    if x.tf TF_TRAP = PGFAULT then
      { s with
        cpu := { s.cpu with trapstore := setSlot s.cpu.trapstore x.head { ts with faultaddr := x.cr2 } }
        stub := { x with pc := StubPc.commit } }
    else
      { s with stub := { x with pc := StubPc.commit } }
  | StubPc.commit =>
    let head := tsnext x.head
    let trapno := x.tf TF_TRAP
    let returns : Bool :=
      trapno = SYSCALL ∨ trapno = PGFAULT ∨ trapno = INT_DISK ∨ trapno = INT_KBD
    { s with
      cpu := { s.cpu with tshead := head }
      stub := { x with pc := if returns then StubPc.idle else StubPc.halted, head := head }
      enq := s.enq ++ [⟨trapno, x.pid, x.cr2, x.tf⟩] }

/-- The next statement of `trap` on this ring, lines 193-215; `handlers`
tells which trap numbers have a registered handler. -/
def trap_step (handlers : Int → Bool) (s : RingSys) : RingSys :=
  let d := s.disp
  match d.pc with
  | TrapPc.halted => s
  | TrapPc.rdhead =>
    { s with disp := { d with pc := TrapPc.rdtail, head := s.cpu.tshead } }
  | TrapPc.rdtail =>
    let tail := s.cpu.tstail
    if tail = d.head then
      { s with disp := { d with pc := TrapPc.rdhead, tail := tail } }
    else
      { s with disp := { d with pc := TrapPc.copy, tail := tail } }
  | TrapPc.copy =>
    { s with disp := { d with pc := TrapPc.advance, tcur := s.cpu.trapstore d.tail } }
  | TrapPc.advance =>
    let tail := tsnext d.tail
    { s with
      cpu := { s.cpu with tstail := tail }
      disp := { d with pc := if handlers d.tcur.trapno then TrapPc.rdhead else TrapPc.halted,
                       tail := tail }
      deq := s.deq ++ [d.tcur] }

/-- One step of the interleaving. -/
def RingSys.step (handlers : Int → Bool) (s : RingSys) : Action → RingSys
  | Action.interrupt tf pid cr2 => stub_enter s tf pid cr2
  | Action.stub => stub_step s
  | Action.trap => trap_step handlers s

/-- The state after a whole interleaving, from boot. -/
def RingSys.run (handlers : Int → Bool) (sched : List Action) : RingSys :=
  sched.foldl (RingSys.step handlers) RingSys.init

/-- What a record carries: trap number, pid, trap frame, and the fault
address when the trap is a page fault (the stub leaves `faultaddr` of the slot
as it was for every other trap). -/
def trapstore_t.view (r : trapstore_t) : Int × Int × Tf × Option Int :=
  (r.trapno, r.pid, r.tf, if r.trapno = PGFAULT then some r.faultaddr else none)

/-- The records that are in the ring: enqueued and not yet taken. -/
def RingSys.inflight (s : RingSys) : Nat := s.enq.length - s.deq.length

/-- Progress of the stub through one enqueue: 0 outside it. -/
def StubPc.rank : StubPc → Nat
  | StubPc.idle => 0
  | StubPc.halted => 0
  | StubPc.rdtail => 1
  | StubPc.wtrapno => 2
  | StubPc.wpid => 3
  | StubPc.wtf => 4
  | StubPc.wfault => 5
  | StubPc.commit => 6

/-- The inductive invariant of the ring under interleaving. -/
structure RingInv (s : RingSys) : Prop where
  len : s.deq.length ≤ s.enq.length
  cap : s.enq.length ≤ s.deq.length + 63
  head_eq : s.cpu.tshead = (s.enq.length : Int) % 64
  tail_eq : s.cpu.tstail = (s.deq.length : Int) % 64
  live : ∀ k, s.deq.length ≤ k → k < s.enq.length →
    (s.enq.map trapstore_t.view)[k]? = some (s.cpu.trapstore ((k : Int) % 64)).view
  taken : s.deq.map trapstore_t.view = (s.enq.map trapstore_t.view).take s.deq.length
  stub_head : 1 ≤ s.stub.pc.rank → s.stub.head = s.cpu.tshead
  stub_room : 2 ≤ s.stub.pc.rank → s.enq.length ≤ s.deq.length + 62
  stub_f1 : 3 ≤ s.stub.pc.rank → (s.cpu.trapstore s.stub.head).trapno = s.stub.tf TF_TRAP
  stub_f2 : 4 ≤ s.stub.pc.rank → (s.cpu.trapstore s.stub.head).pid = s.stub.pid
  stub_f3 : 5 ≤ s.stub.pc.rank → (s.cpu.trapstore s.stub.head).tf = s.stub.tf
  stub_f4 : 6 ≤ s.stub.pc.rank → s.stub.tf TF_TRAP = PGFAULT →
    (s.cpu.trapstore s.stub.head).faultaddr = s.stub.cr2
  disp_head : s.disp.pc = TrapPc.rdtail → s.disp.head ≠ s.cpu.tstail →
    s.deq.length < s.enq.length
  disp_tail : s.disp.pc = TrapPc.copy ∨ s.disp.pc = TrapPc.advance →
    s.disp.tail = s.cpu.tstail ∧ s.deq.length < s.enq.length
  disp_cur : s.disp.pc = TrapPc.advance →
    (s.enq.map trapstore_t.view)[s.deq.length]? = some s.disp.tcur.view

/-! ## Paging (`pmap.go`) -/

def PTE_P : Nat := 1 <<< 0
def PTE_W : Nat := 1 <<< 1
def PTE_U : Nat := 1 <<< 2
def PTE_PCD : Nat := 1 <<< 4
def PTE_PS : Nat := 1 <<< 7
def PTE_COW : Nat := 1 <<< 9
def PGSIZE : Nat := 1 <<< 12
def PGOFFSET : Nat := 0xfff

/-- Go's `^x` on a 64-bit word. -/
def not64 (x : Nat) : Nat := 2 ^ 64 - 1 - x

def PGMASK : Nat := not64 PGOFFSET
def PTE_ADDR : Nat := PGMASK
def PTE_FLAGS : Nat := 0x1f

def VREC : Nat := 0x42
def VDIRECT : Nat := 0x44
def VEND : Nat := 0x50
def VUSER : Nat := 0x59

/-- The function `shl`. -/
def shl (c : Nat) : Nat := 12 + 9 * c

/-- The function `pgbits`: the four 9-bit table indices of a virtual
address, top level first. -/
def pgbits (v : Nat) : Nat × Nat × Nat × Nat :=
  let lb := fun (c : Nat) => (v >>> shl c) &&& 0x1ff
  (lb 3, lb 2, lb 1, lb 0)

/-- The function `mkpg`. -/
def mkpg (l4 l3 l2 l1 : Nat) : Nat :=
  let lb := fun (c : Nat) =>
    let ret := match c with
      | 3 => l4 &&& 0x1ff
      | 2 => l3 &&& 0x1ff
      | 1 => l2 &&& 0x1ff
      | 0 => l1 &&& 0x1ff
      | _ => 0
    ret <<< shl c
  lb 3 ||| lb 2 ||| lb 1 ||| lb 0

/-- The function `rounddown`, on non-negative arguments. -/
def rounddown (v b : Nat) : Nat := v - v % b

/-- The function `roundup`, on non-negative arguments. -/
def roundup (v b : Nat) : Nat := rounddown (v + b - 1) b

/-- Physical memory, by frame: the word at each index of the frame at each
physical address. Only indices below 512 are ever read or written. -/
abbrev Mem := Nat → Nat → Nat

/-- The assignment `pg[idx] = v`. -/
def Mem.write (m : Mem) (pg idx v : Nat) : Mem :=
  fun g j => if g = pg ∧ j = idx then v else m g j

/-- A frame as Go's allocator hands it out: all zero. -/
def Mem.zero (m : Mem) (pg : Nat) : Mem :=
  fun g j => if g = pg then 0 else m g j

/-- A tracking map `map[int]*[512]int`: physical address to page. -/
abbrev Tracker := Nat → Option Nat

/-- The assignment `t[k] = v` on a Go map. -/
def mapSet {β : Type} (t : Nat → Option β) (k : Nat) (v : β) : Nat → Option β :=
  fun j => if j = k then some v else t j

/-- The statement `delete(t, k)` on a Go map. -/
def mapDel {β : Type} (t : Nat → Option β) (k : Nat) : Nat → Option β :=
  fun j => if j = k then none else t j

/-- The machine state the paging code works on: physical memory, the pages
the Go allocator will hand out next (`heap n` is the page of the `n`-th call
of `new([512]int)`, `nalloc` counts the calls so far), and the log of
`invlpg` calls. -/
structure Phys where
  mem : Mem
  heap : Nat → Nat
  nalloc : Nat
  inval : List Nat

/-- The function `pg_new`: a zeroed page from the allocator, recorded in the
tracker under its physical address. The page and its frame are the same number
in the embedding, so the lookup of the frame in the kernel page table (which
panics when the page is not mapped) is the identity. -/
def pg_new (s : Phys) (ptracker : Tracker) : Option (Nat × Nat × Phys × Tracker) :=
  let pt := s.heap s.nalloc
  if pt &&& (PGSIZE - 1) ≠ 0 then none
  else
    let physaddr := pt
    some (pt, physaddr, { s with mem := s.mem.zero pt, nalloc := s.nalloc + 1 },
      mapSet ptracker physaddr pt)

/-- The function `dmap`: the page of a physical address in the direct map. -/
def dmap (p : Nat) : Option Nat :=
  if p ≥ 1 <<< 39 then none else some (rounddown p PGSIZE)

/-- The function `pe2pg`. -/
def pe2pg (pe : Nat) : Option Nat := dmap (pe &&& PTE_ADDR)

/-- The closure `instpg` of `pmap_walk`. -/
def instpg (perms : Nat) (s : Phys) (ptracker : Tracker) (pg idx : Nat) :
    Option (Nat × Phys × Tracker) :=
  match pg_new s ptracker with
  | none => none
  | some (_, p_np, s1, tr1) =>
    let npte := p_np ||| perms ||| PTE_P
    some (npte, { s1 with mem := s1.mem.write pg idx npte }, tr1)

/-- The closure `cpe` of `pmap_walk`. -/
def cpe (pe : Nat) : Option Nat :=
  if pe &&& PTE_PS ≠ 0 then none else pe2pg pe

/-- The block that `pmap_walk` repeats for each of the three upper levels:
read the entry `pg[idx]`, install a table when it is absent and `create` is
set, and follow it. The first component is `none` for `return nil`. -/
def walk_level (create : Bool) (perms : Nat) (s : Phys) (ptracker : Tracker) (pg idx : Nat) :
    Option (Option Nat × Phys × Tracker) :=
  let pe := s.mem pg idx
  if pe &&& PTE_P = 0 then
    if !create then some (none, s, ptracker)
    else
      match instpg perms s ptracker pg idx with
      | none => none
      | some (pe1, s1, tr1) =>
        match cpe pe1 with
        | none => none
        | some next => some (some next, s1, tr1)
  else
    match cpe pe with
    | none => none
    | some next => some (some next, s, ptracker)

/-- The function `pmap_walk`. The result is `none` for a panic; otherwise the
returned pointer (`none` for nil, else frame and index of the level-1 entry)
with the state and tracker after the call. -/
def pmap_walk (s : Phys) (ptracker : Tracker) (pml4 v : Nat) (create : Bool) (perms : Nat) :
    Option (Option (Nat × Nat) × Phys × Tracker) :=
  let (l4b, pdpb, pdb, ptb) := pgbits v
  if l4b ≥ VREC ∧ l4b ≤ VEND then none
  else if v &&& PGMASK = 0 ∧ create then none
  else
    match walk_level create perms s ptracker pml4 l4b with
    | none => none
    | some (none, s1, tr1) => some (none, s1, tr1)
    | some (some next, s1, tr1) =>
      match walk_level create perms s1 tr1 next pdpb with
      | none => none
      | some (none, s2, tr2) => some (none, s2, tr2)
      | some (some next, s2, tr2) =>
        match walk_level create perms s2 tr2 next pdb with
        | none => none
        | some (none, s3, tr3) => some (none, s3, tr3)
        | some (some next, s3, tr3) => some (some (next, ptb), s3, tr3)

/-- The optional callback of `copy_pmap`: from the old entry to the new entry
of the source and the entry of the copy. It may panic, and it may write the
tracker and a further piece of state `α` that its closure captured. -/
abbrev Ptemod (α : Type) := Nat → Tracker × α → Option ((Nat × Nat) × (Tracker × α))

/-- The state `copy_pmap1` threads: machine state, tracker, and the state of
the callback. -/
abbrev CopySt (α : Type) := Phys × Tracker × α

/-- The call `ptemod(val)` when `ptemod != nil`; both results are `val`
otherwise. -/
def run_ptemod {α : Type} (ptemod : Option (Ptemod α)) (val : Nat) (st : Tracker × α) :
    Option ((Nat × Nat) × (Tracker × α)) :=
  match ptemod with
  | none => some ((val, val), st)
  | some f => f val st

/-- The body of the loop `for i, c := range src` of `copy_pmap1` at index
`i`; `recurse` is `copy_pmap1` one level down, `acc` holds `doinval` and the
state so far. -/
def copy_entry {α : Type} (ptemod : Option (Ptemod α))
    (recurse : Nat → Nat → CopySt α → Option (Bool × CopySt α))
    (depth dst src : Nat) (acc : Bool × CopySt α) (i : Nat) : Option (Bool × CopySt α) :=
  let (doinval, s, tr, a) := acc
  let c := s.mem src i
  if c &&& PTE_P = 0 then some acc
  else if depth = 1 then
    let val := c
    match run_ptemod ptemod val (tr, a) with
    | none => none
    | some ((srcval, dstval), (tr1, a1)) =>
      let m1 := if srcval ≠ val then s.mem.write src i srcval else s.mem
      let doinval1 := if srcval ≠ val then true else doinval
      some (doinval1, { s with mem := m1.write dst i dstval }, tr1, a1)
  else if c &&& PTE_PS ≠ 0 then
    some (doinval, { s with mem := s.mem.write dst i c }, tr, a)
  else
    match pg_new s tr with
    | none => none
    | some (np, p_np, s1, tr1) =>
      let perms := c &&& PTE_FLAGS
      let s2 := { s1 with mem := s1.mem.write dst i (p_np ||| perms) }
      match pe2pg c with
      | none => none
      | some nsrc =>
        match recurse np nsrc (s2, tr1, a) with
        | none => none
        | some (r, st3) => some (if r then true else doinval, st3)

/-- The function `copy_pmap1`. The loop reads `src[i]` when it reaches
index `i`. Only depths 4 down to 1 occur. -/
def copy_pmap1 {α : Type} (ptemod : Option (Ptemod α)) :
    Nat → Nat → Nat → CopySt α → Option (Bool × CopySt α)
  | 0, _, _, _ => none
  | depth + 1, dst, src, st =>
    (List.range 512).foldlM
      (copy_entry ptemod (copy_pmap1 ptemod depth) (depth + 1) dst src) (false, st)

/-- The function `copy_pmap`: the new page-table root (pointer and physical
address), whether a source entry was changed, and the state after. -/
def copy_pmap {α : Type} (ptemod : Option (Ptemod α)) (pm : Nat) (st : CopySt α) :
    Option (Nat × Nat × Bool × CopySt α) :=
  match pg_new st.1 st.2.1 with
  | none => none
  | some (npm, p_npm, s1, tr1) =>
    match copy_pmap1 ptemod 4 npm pm (s1, tr1, st.2.2) with
    | none => none
    | some (doinval, st2) => some (npm, p_npm, doinval, st2)

/-! ## Processes (`main.go`) and the paging syscalls (`syscall.go`) -/

/-- The lowest user-space address `USERMIN`. -/
def USERMIN : Nat := VUSER <<< 39

/-- Go's `int` arithmetic wraps at 64 bits. -/
def wrap64 (x : Int) : Int := (x + 2 ^ 63) % 2 ^ 64 - 2 ^ 63

/-- The three sentinel descriptors `fd_stdin`, `fd_stdout`, `fd_stderr`: a
`*fd_t` is the number of the record it points to. -/
def fd_stdin : Nat := 0
def fd_stdout : Nat := 1
def fd_stderr : Nat := 2

/-- The record `file_t`, of which these sources use the one field `priv`,
the handle of the filesystem object. -/
structure file_t where
  priv : Int

/-- The sentinel `dummyfile`. -/
def dummyfile : file_t := ⟨-1⟩

/-- The record `fd_t`. A `*file_t` is the record it points to (nothing here
writes one), `none` for nil. -/
structure fd_t where
  file : Option file_t
  offset : Int
  perms : Int

/-- The record `proc_t` (without its unused `maplock`). -/
structure proc_t where
  pid : Int
  name : String
  pages : Tracker
  upages : Nat → Option Nat
  pmap : Nat
  p_pmap : Nat
  dead : Bool
  fds : Int → Option Nat
  nextfd : Int
  cwd : String

/-- The kernel's global state: the machine, the process table `allprocs`
with the counter `pid_cur`, and the log of the calls into the runtime's
scheduler (`runtime.Procadd`, `runtime.Procrunnable`, `runtime.Prockill`). A
`*proc_t` held by a caller is passed and returned by value. The records
`fd_t` live in `fdtab` under the numbers that stand for pointers to them
(the three sentinels first), `nfd` is the number of the next record that
`&fd_t{}` makes, and `console` is the log of `runtime.Putcha`. -/
structure Kernel where
  phys : Phys
  allprocs : Int → Option proc_t
  pid_cur : Int
  procadd : List (Tf × Int × Nat)
  runnable : List (Int × Option Tf)
  prockill : List Int := []
  fdtab : Nat → fd_t := fun _ => ⟨some dummyfile, 0, 0⟩
  nfd : Nat := 3
  console : List (Int × Int) := []

/-- The function `proc_new`. -/
def proc_new (k : Kernel) (name : String) : proc_t × Kernel :=
  let newpid := wrap64 (k.pid_cur + 1)
  let fds : Int → Option Nat := fun n =>
    if n = 0 then some fd_stdin else if n = 1 then some fd_stdout
    else if n = 2 then some fd_stderr else none
  let ret : proc_t :=
    { pid := newpid, name := name, pages := fun _ => none, upages := fun _ => none,
      pmap := 0, p_pmap := 0, dead := false, fds := fds, nextfd := 3, cwd := "/" }
  (ret, { k with pid_cur := newpid,
                 allprocs := fun n => if n = newpid then some ret else k.allprocs n })

/-- The method `page_insert`. A nil `pte` would panic at `*pte = ...`. -/
def page_insert (s : Phys) (p : proc_t) (va pg p_pg perms : Nat) (vempty : Bool) :
    Option (Phys × proc_t) :=
  match pmap_walk s p.pages p.pmap va true perms with
  | none => none
  | some (none, _, _) => none
  | some (some (fr, idx), s1, pages1) =>
    let s2 : Phys := { s1 with mem := s1.mem.write fr idx (p_pg ||| perms ||| PTE_P) }
    if s1.mem fr idx &&& PTE_P ≠ 0 then
      if vempty then none
      else
        let p_rem := s1.mem fr idx &&& PTE_ADDR
        match pages1 p_rem with
        | none => none
        | some _ =>
          match p.upages p_rem with
          | none => none
          | some _ =>
            some ({ s2 with inval := s2.inval ++ [va] },
              { p with pages := mapSet (mapDel pages1 p_rem) p_pg pg,
                       upages := mapSet (mapDel p.upages p_rem) p_pg (va &&& PGMASK) })
    else
      some (s2, { p with pages := mapSet pages1 p_pg pg,
                         upages := mapSet p.upages p_pg (va &&& PGMASK) })

/-- The method `page_remove`. -/
def page_remove (s : Phys) (p : proc_t) (va : Nat) : Option (Phys × proc_t) :=
  match pmap_walk s (fun _ => none) p.pmap va false 0 with
  | none => none
  | some (none, _, _) => some (s, p)
  | some (some (fr, idx), _, _) =>
    if s.mem fr idx &&& PTE_P ≠ 0 then
      let p_pa := s.mem fr idx &&& PTE_ADDR
      some ({ s with mem := s.mem.write fr idx 0, inval := s.inval ++ [va] },
        { p with pages := mapDel p.pages p_pa, upages := mapDel p.upages p_pa })
    else some (s, p)

/-- The method `sched_add`. -/
def sched_add (k : Kernel) (p : proc_t) (tf : Tf) : Kernel :=
  { k with procadd := k.procadd ++ [(tf, p.pid, p.p_pmap)] }

/-- The closure `mk_cow` of `sys_fork`: the tracker it writes is
`child.pages`, its further state is `child.upages`; `ppages` and `pupages` are
the parent's maps. -/
def mk_cow (ppages : Tracker) (pupages : Nat → Option Nat) : Ptemod (Nat → Option Nat) :=
  fun pte0 st =>
    if pte0 &&& PTE_U = 0 then some ((pte0, pte0), st)
    else
      let pte := if pte0 &&& PTE_W ≠ 0 then (pte0 ||| PTE_COW) &&& not64 PTE_W else pte0
      let p_pg := pte &&& PTE_ADDR
      match ppages p_pg with
      | none => none
      | some pg =>
        match pupages p_pg with
        | none => none
        | some upg => some ((pte, pte), (mapSet st.1 p_pg pg, mapSet st.2 p_pg upg))

/-- The function `sys_fork`: the returned pid and the child's record, with
the kernel state after. -/
def sys_fork (k : Kernel) (parent : proc_t) (ptf : Tf) : Option (Int × proc_t × Kernel) :=
  let (child, k1) := proc_new k (parent.name ++ String.singleton (Char.ofNat 39) ++ "s child")
  match copy_pmap (some (mk_cow parent.pages parent.upages)) parent.pmap
      (k1.phys, child.pages, child.upages) with
  | none => none
  | some (pmap, p_pmap, _, s2, cpages, cupages) =>
    let child1 := { child with pages := cpages, upages := cupages, pmap := pmap, p_pmap := p_pmap }
    let chtf : Tf := fun i => if i = TF_RAX then 0 else ptf i
    let k2 := { k1 with phys := s2,
                        allprocs := fun n => if n = child1.pid then some child1 else k1.allprocs n }
    some (child1.pid, child1, sched_add k2 child1 chtf)

/-- The loop `for i, c := range src { dst[i] = c }` of `sys_pgfault`: the 512
words of the page `src` copied into the page `dst`. -/
def copy_page (m : Mem) (dst src : Nat) : Mem :=
  fun g j => if g = dst ∧ j < 512 then m src j else m g j

/-- The function `sys_pgfault`; `pte` points to the faulting entry. -/
def sys_pgfault (k : Kernel) (proc : proc_t) (pte : Nat × Nat) (faultaddr : Nat) :
    Option (proc_t × Kernel) :=
  match pg_new k.phys proc.pages with
  | none => none
  | some (dst, p_dst, s1, pages1) =>
    let old := s1.mem pte.1 pte.2
    let p_src := old &&& PTE_ADDR
    match dmap p_src with
    | none => none
    | some src =>
      let s2 := { s1 with mem := copy_page s1.mem dst src }
      let va := faultaddr &&& PGMASK
      let perms := ((s2.mem pte.1 pte.2 &&& PTE_FLAGS) &&& not64 PTE_COW) ||| PTE_W
      match page_insert s2 { proc with pages := pages1 } va dst p_dst perms false with
      | none => none
      | some (s3, proc1) =>
        some (proc1, { k with phys := s3, runnable := k.runnable ++ [(proc.pid, none)] })

/-- The record `elf_phdr`; `sdata` holds the bytes of the segment. -/
structure elf_phdr where
  etype : Int
  flags : Int
  vaddr : Int
  filesz : Int
  memsz : Int
  sdata : List Nat

/-- The function `rounddown` on Go's `int`: `%` truncates towards zero. -/
def rounddown_int (v b : Int) : Int := wrap64 (v - Int.tmod v b)

/-- The function `roundup` on Go's `int`. -/
def roundup_int (v b : Int) : Int := rounddown_int (wrap64 (v + b - 1)) b

/-- The 64-bit pattern of a Go `int`, as the paging code reads an address. -/
def bits64 (x : Int) : Nat := (x % 2 ^ 64).toNat

/-- The byte number `q` of the page `pg`, little-endian within each word. -/
def page_byte (m : Mem) (pg q : Nat) : Nat := (m pg (q / 8) / 256 ^ (q % 8)) % 256

/-- The call `runtime.Memmove(dst, src, len)` of `elf_segload`: the first
`len` bytes of the page `pg` become the bytes `sdata[off:off+len]`, the others
stay. -/
def memmove_page (m : Mem) (pg : Nat) (sdata : List Nat) (off len : Nat) : Mem :=
  fun g j =>
    if g = pg ∧ j < 512 then
      (List.range 8).foldl (fun acc t =>
        acc + (if 8 * j + t < len then sdata.getD (off + 8 * j + t) 0 % 256
               else page_byte m pg (8 * j + t)) * 256 ^ t) 0
    else m g j

/-- The body of the loop of `elf_segload` for the offset `i`: a page from the
allocator, the segment's bytes moved into it when there are any at `i`, and the
page inserted at `vaddr + i`. A move of negative length or from outside `sdata`
is a fault. -/
def elf_segload_page (s : Phys) (p : proc_t) (hdr : elf_phdr) (perms : Nat) (i : Int) :
    Option (Phys × proc_t) :=
  match pg_new s p.pages with
  | none => none
  | some (pg, p_pg, s1, pages1) =>
    let rsz := hdr.filesz
    let moved : Option Phys :=
      if i < hdr.sdata.length then
        let left := wrap64 (rsz - i)
        let len := if 4096 > left then left else 4096
        if len < 0 ∨ i + len > hdr.sdata.length then none
        else some { s1 with mem := memmove_page s1.mem pg hdr.sdata i.toNat len.toNat }
      else some s1
    match moved with
    | none => none
    | some s2 =>
      page_insert s2 { p with pages := pages1 } (bits64 (wrap64 (hdr.vaddr + i))) pg p_pg
        perms true

/-- The loop `for i := 0; i < sz; i += PGSIZE` of `elf_segload`, with `n`
iterations left at offset `i`. -/
def elf_segload_loop (hdr : elf_phdr) (perms : Nat) :
    Nat → Int → Phys → proc_t → Option (Phys × proc_t)
  | 0, _, s, p => some (s, p)
  | n + 1, i, s, p =>
    match elf_segload_page s p hdr perms i with
    | none => none
    | some (s1, p1) => elf_segload_loop hdr perms n (i + 4096) s1 p1

/-- The size `sz` that `elf_segload` computes for a segment. -/
def elf_segload_sz (hdr : elf_phdr) : Int :=
  wrap64 (roundup_int (wrap64 (hdr.vaddr + hdr.memsz)) 4096 - rounddown_int hdr.vaddr 4096)

/-- The number of iterations of the loop of `elf_segload`: one for each
multiple of `PGSIZE` below `sz`. -/
def elf_segload_pages (hdr : elf_phdr) : Nat := ((elf_segload_sz hdr + 4095) / 4096).toNat

/-- The function `elf_segload`. With `sz` so large that `i += PGSIZE` would
overflow, the negative `i` that follows indexes `sdata` out of range, a
fault. -/
def elf_segload (s : Phys) (p : proc_t) (hdr : elf_phdr) : Option (Phys × proc_t) :=
  let perms := if Int.land hdr.flags 2 ≠ 0 then PTE_U ||| PTE_W else PTE_U
  let sz := elf_segload_sz hdr
  if sz > 2 ^ 63 - 4096 then none
  else elf_segload_loop hdr perms (elf_segload_pages hdr) 0 s p

/-! ## Predicates used to state the paging theorems -/

/-- The number of tables `copy_pmap1` allocates when it copies the table
`src` at the given depth: one for each present entry without PS that it
reaches above the leaf level, counted as often as it is reached. -/
def tables_below (m : Mem) : Nat → Nat → Nat
  | 0, _ => 0
  | 1, _ => 0
  | d + 2, src =>
    ((List.range 512).map fun i =>
      if m src i &&& PTE_P ≠ 0 ∧ m src i &&& PTE_PS = 0 then
        1 + tables_below m (d + 1) (m src i &&& PTE_ADDR)
      else 0).sum

/-- A family `V` of page tables by depth (`V d f`: the frame `f` may be
reached as a table of depth `d`, 4 for the root, 1 for a table of leaf entries)
is closed in the memory `m`: every present entry without PS of a table above
the leaf level names, inside the direct map, a table one level down. -/
def Shape (m : Mem) (V : Nat → Nat → Prop) : Prop :=
  ∀ d f i, V (d + 2) f → i < 512 → m f i &&& PTE_P ≠ 0 → m f i &&& PTE_PS = 0 →
    m f i &&& PTE_ADDR < 2 ^ 39 ∧ V (d + 1) (m f i &&& PTE_ADDR)

/-- The allocator's pages number `lo` up to `hi` are usable as fresh tables:
page-aligned frames inside the direct map, pairwise distinct, and none of them
a table of `V`. -/
structure GoodHeap (heap : Nat → Nat) (V : Nat → Nat → Prop) (lo hi : Nat) : Prop where
  aligned : ∀ k, lo ≤ k → k < hi → heap k % 4096 = 0
  low : ∀ k, lo ≤ k → k < hi → heap k < 2 ^ 39
  inj : ∀ k1 k2, lo ≤ k1 → k1 < hi → lo ≤ k2 → k2 < hi → heap k1 = heap k2 → k1 = k2
  fresh : ∀ k d, lo ≤ k → k < hi → ¬ V d (heap k)

/-- The frames of the allocator's pages number `lo` up to `hi`. -/
def Window (heap : Nat → Nat) (lo hi : Nat) (p : Nat) : Prop :=
  ∃ k, lo ≤ k ∧ k < hi ∧ p = heap k

/-- In the memory `m`, the table `dst` is a copy of depth `d` of the table
`src` under the leaf rewrite `c`, with every table of the copy taken from the
set `A`: an entry that is not present in `src` is zero in `dst`; a present leaf
entry is equal in both and a fixed point of `c`; a present entry with PS above
the leaf level is equal in both; any other present entry of `dst` carries the
five permission flags of the entry of `src` and points to a table of `A` that
is a copy, one level down, of the table the entry of `src` points to. -/
def IsCopy (c : Nat → Nat) (A : Nat → Prop) (m : Mem) : Nat → Nat → Nat → Prop
  | 0, _, _ => True
  | 1, src, dst => ∀ i, i < 512 →
      (m src i &&& PTE_P = 0 → m dst i = 0) ∧
      (m src i &&& PTE_P ≠ 0 → m dst i = m src i ∧ c (m src i) = m src i)
  | d + 2, src, dst => ∀ i, i < 512 →
      (m src i &&& PTE_P = 0 → m dst i = 0) ∧
      (m src i &&& PTE_P ≠ 0 → m src i &&& PTE_PS ≠ 0 → m dst i = m src i) ∧
      (m src i &&& PTE_P ≠ 0 → m src i &&& PTE_PS = 0 →
        ∃ p, A p ∧ p % 4096 = 0 ∧ p < 2 ^ 39 ∧ m dst i = p ||| (m src i &&& PTE_FLAGS) ∧
          IsCopy c A m (d + 1) (m src i &&& PTE_ADDR) p)

/-- What the theorems about `copy_pmap1` ask of the callback `ptemod`: on a
present entry `v` that satisfies `E` it returns `c v` for both the source and
the copy; `c` is idempotent and keeps the present bit and `E`; the invariant
`J` of the tracker and of the callback's state (indexed by the number of pages
allocated so far) is kept by the callback and by the recording of a new page;
and either `c` changes nothing, or no table of leaf entries is also a table
above the leaf level. -/
structure CopyHyp {α : Type} (ptemod : Option (Ptemod α)) (c : Nat → Nat)
    (V : Nat → Nat → Prop) (E : Nat → Prop) (J : Nat → Tracker × α → Prop)
    (heap : Nat → Nat) : Prop where
  idem : ∀ v, c (c v) = c v
  keepP : ∀ v, c v &&& PTE_P = v &&& PTE_P
  keepE : ∀ v, E v → E (c v)
  run : ∀ n v st, J n st → v &&& PTE_P ≠ 0 → E v →
    ∃ st2, run_ptemod ptemod v st = some ((c v, c v), st2) ∧ J n st2
  alloc : ∀ n tr a, J n (tr, a) → J (n + 1) (mapSet tr (heap n) (heap n), a)
  sep : (∀ v, c v = v) ∨ (∀ f d, V 1 f → ¬ V (d + 2) f)

/-- How a memory `m` may differ from an earlier memory `m0`: at the frames
`W`, at the cells `D`, and at present entries of tables of leaf entries, which
may have been rewritten by `c`. -/
def Frame (c : Nat → Nat) (V : Nat → Nat → Prop) (W : Nat → Prop) (D : Nat → Nat → Prop)
    (m0 m : Mem) : Prop :=
  ∀ f i, m f i = m0 f i ∨ W f ∨ D f i ∨
    (V 1 f ∧ i < 512 ∧ m0 f i &&& PTE_P ≠ 0 ∧ m f i = c (m0 f i))

/-- The number of tables `copy_pmap1` allocates for the entry `i` of the
table `src` at depth `d`. -/
def entry_cost (m : Mem) (d src i : Nat) : Nat :=
  match d with
  | 0 => 0
  | 1 => 0
  | d + 2 =>
    if m src i &&& PTE_P ≠ 0 ∧ m src i &&& PTE_PS = 0 then
      1 + tables_below m (d + 1) (m src i &&& PTE_ADDR)
    else 0

/-- The clause of `IsCopy` for the entry `i`. -/
def EntryCopy (c : Nat → Nat) (A : Nat → Prop) (m : Mem) (d src dst i : Nat) : Prop :=
  match d with
  | 0 => True
  | 1 =>
      (m src i &&& PTE_P = 0 → m dst i = 0) ∧
      (m src i &&& PTE_P ≠ 0 → m dst i = m src i ∧ c (m src i) = m src i)
  | d + 2 =>
      (m src i &&& PTE_P = 0 → m dst i = 0) ∧
      (m src i &&& PTE_P ≠ 0 → m src i &&& PTE_PS ≠ 0 → m dst i = m src i) ∧
      (m src i &&& PTE_P ≠ 0 → m src i &&& PTE_PS = 0 →
        ∃ p, A p ∧ p % 4096 = 0 ∧ p < 2 ^ 39 ∧ m dst i = p ||| (m src i &&& PTE_FLAGS) ∧
          IsCopy c A m (d + 1) (m src i &&& PTE_ADDR) p)

/-- What `copy_pmap1` needs before it copies the table `src` of depth `d`
into the zeroed page `dst`. -/
structure CopyPre {α : Type} (V : Nat → Nat → Prop) (E : Nat → Prop)
    (J : Nat → Tracker × α → Prop) (d dst src : Nat) (st : CopySt α) : Prop where
  depth : 1 ≤ d
  src_in : V d src
  shape : Shape st.1.mem V
  leaf : ∀ f i, V 1 f → i < 512 → st.1.mem f i &&& PTE_P ≠ 0 → E (st.1.mem f i)
  dst_zero : ∀ i, i < 512 → st.1.mem dst i = 0
  dst_out : ∀ k, ¬ V k dst
  good : GoodHeap st.1.heap V st.1.nalloc (st.1.nalloc + tables_below st.1.mem d src)
  dst_fresh : ∀ k, st.1.nalloc ≤ k → k < st.1.nalloc + tables_below st.1.mem d src →
    st.1.heap k ≠ dst
  inv : J st.1.nalloc st.2

/-- What `copy_pmap1` establishes when it has copied `n` entries of the
table `src` of depth `d` into `dst`, from the state `st` to the state `st2`
(all 512 entries when it returns). -/
structure CopyPost {α : Type} (c : Nat → Nat) (V : Nat → Nat → Prop)
    (J : Nat → Tracker × α → Prop) (d dst src n : Nat) (st : CopySt α)
    (r : Bool) (st2 : CopySt α) : Prop where
  heap_eq : st2.1.heap = st.1.heap
  inval_eq : st2.1.inval = st.1.inval
  nalloc_eq : st2.1.nalloc
    = st.1.nalloc + ((List.range n).map (entry_cost st.1.mem d src)).sum
  frame : Frame c V (Window st.1.heap st.1.nalloc st2.1.nalloc)
    (fun f i => f = dst ∧ i < n) st.1.mem st2.1.mem
  copy : ∀ i, i < n →
    EntryCopy c (Window st.1.heap st.1.nalloc st2.1.nalloc) st2.1.mem d src dst i
  inv : J st2.1.nalloc st2.2
  noinval : (∀ v, c v = v) → r = false

/-- One upper level of a walk that does not create, as a function of the
memory alone: `none` for a panic, `some none` for an absent entry, else the
table the entry points to. -/
def level_ro (m : Mem) (pg idx : Nat) : Option (Option Nat) :=
  if m pg idx &&& PTE_P = 0 then some none
  else
    match cpe (m pg idx) with
    | none => none
    | some next => some (some next)

/-- The function `pmap_walk` with `create = false`, as a function of the
memory alone. -/
def walk_ro (m : Mem) (pml4 v : Nat) : Option (Option (Nat × Nat)) :=
  if (pgbits v).1 ≥ VREC ∧ (pgbits v).1 ≤ VEND then none
  else
    match level_ro m pml4 (pgbits v).1 with
    | none => none
    | some none => some none
    | some (some n1) =>
      match level_ro m n1 (pgbits v).2.1 with
      | none => none
      | some none => some none
      | some (some n2) =>
        match level_ro m n2 (pgbits v).2.2.1 with
        | none => none
        | some none => some none
        | some (some n3) => some (some (n3, (pgbits v).2.2.2))

/-- What `copy_pmap` needs of the source page table `pm` and of the state. -/
structure PmapPre {α : Type} (V : Nat → Nat → Prop) (E : Nat → Prop)
    (J : Nat → Tracker × α → Prop) (pm : Nat) (st : CopySt α) : Prop where
  root_in : V 4 pm
  shape : Shape st.1.mem V
  leaf : ∀ f i, V 1 f → i < 512 → st.1.mem f i &&& PTE_P ≠ 0 → E (st.1.mem f i)
  good : GoodHeap st.1.heap V st.1.nalloc (st.1.nalloc + 1 + tables_below st.1.mem 4 pm)
  inv : J st.1.nalloc st.2

/-- What `copy_pmap` establishes: the new root `npm` is the next page of the
allocator; the memory changed only at the pages allocated since and at leaf
entries of the source rewritten by `c`; and `npm` is a copy of `pm`. -/
structure PmapCopied {α : Type} (c : Nat → Nat) (V : Nat → Nat → Prop)
    (J : Nat → Tracker × α → Prop) (pm : Nat) (st : CopySt α) (npm : Nat) (r : Bool)
    (st2 : CopySt α) : Prop where
  root : npm = st.1.heap st.1.nalloc
  heap_eq : st2.1.heap = st.1.heap
  inval_eq : st2.1.inval = st.1.inval
  nalloc_eq : st2.1.nalloc = st.1.nalloc + 1 + tables_below st.1.mem 4 pm
  frame : Frame c V (Window st.1.heap st.1.nalloc st2.1.nalloc) (fun _ _ => False)
    st.1.mem st2.1.mem
  copy : IsCopy c (Window st.1.heap (st.1.nalloc + 1) st2.1.nalloc) st2.1.mem 4 pm npm
  inv : J st2.1.nalloc st2.2
  noinval : (∀ v, c v = v) → r = false

/-- What `mk_cow` returns for a present entry of the parent: a writable user
entry loses W and gains COW, any other entry is returned as it is. -/
def cow_entry (pte : Nat) : Nat :=
  if pte &&& PTE_U = 0 then pte
  else if pte &&& PTE_W ≠ 0 then (pte ||| PTE_COW) &&& not64 PTE_W
  else pte

/-- The flag discipline of copy-on-write on one entry: COW only with U set
and W clear. -/
def CowOk (e : Nat) : Prop :=
  e &&& PTE_COW ≠ 0 → e &&& PTE_W = 0 ∧ e &&& PTE_U ≠ 0

/-- What `instpg` does to the state when the allocator's next page is
aligned: the page is zeroed and recorded, and the entry `pg[idx]` points to it
with `perms` and P. -/
def install (perms : Nat) (s : Phys) (tr : Tracker) (pg idx : Nat) : Phys × Tracker :=
  ({ s with
      mem := (s.mem.zero (s.heap s.nalloc)).write pg idx (s.heap s.nalloc ||| perms ||| PTE_P)
      nalloc := s.nalloc + 1 },
    mapSet tr (s.heap s.nalloc) (s.heap s.nalloc))

/-- The number of tables `pmap_walk` with `create` has to allocate for the
address `v`: the levels from the first absent entry on its path downwards. -/
def missing_levels (m : Mem) (pml4 v : Nat) : Nat :=
  match level_ro m pml4 (pgbits v).1 with
  | some (some n1) =>
    match level_ro m n1 (pgbits v).2.1 with
    | some (some n2) =>
      match level_ro m n2 (pgbits v).2.2.1 with
      | some (some _) => 0
      | _ => 1
    | _ => 2
  | _ => 3

/-- The permission argument of `pmap_walk` and `page_insert` holds flag bits
only: nothing in the address field, and not PS. -/
def FlagsOnly (perms : Nat) : Prop := perms < 4096 ∧ perms &&& PTE_PS = 0

/-- The address `v` may be mapped: its top-level index is outside the
reserved slots and it is not in page 0. -/
def LegalVa (v : Nat) : Prop :=
  ¬ ((pgbits v).1 ≥ VREC ∧ (pgbits v).1 ≤ VEND) ∧ v &&& PGMASK ≠ 0

/-- No present entry on the path of `v` has PS set. -/
def NoPsOnPath (m : Mem) (pml4 v : Nat) : Prop :=
  m pml4 (pgbits v).1 &&& PTE_P ≠ 0 →
    m pml4 (pgbits v).1 &&& PTE_PS = 0 ∧
    (m (m pml4 (pgbits v).1 &&& PTE_ADDR) (pgbits v).2.1 &&& PTE_P ≠ 0 →
      m (m pml4 (pgbits v).1 &&& PTE_ADDR) (pgbits v).2.1 &&& PTE_PS = 0 ∧
      (m (m (m pml4 (pgbits v).1 &&& PTE_ADDR) (pgbits v).2.1 &&& PTE_ADDR) (pgbits v).2.2.1
          &&& PTE_P ≠ 0 →
        m (m (m pml4 (pgbits v).1 &&& PTE_ADDR) (pgbits v).2.1 &&& PTE_ADDR) (pgbits v).2.2.1
          &&& PTE_PS = 0))

/-- How `pmap_walk` with `create` may change the memory, `W` being the pages
it allocated: a frame that is not new keeps every entry, except that an entry
that was not present may now point to a new page with `perms` and P; a new
page is zero, except for entries that point to a new page with `perms` and
P. -/
def Grown (perms : Nat) (W : Nat → Prop) (m0 m : Mem) : Prop :=
  ∀ f i,
    (¬ W f → m f i = m0 f i ∨
      (m0 f i &&& PTE_P = 0 ∧ ∃ q, W q ∧ m f i = q ||| perms ||| PTE_P)) ∧
    (W f → m f i = 0 ∨ ∃ q, W q ∧ m f i = q ||| perms ||| PTE_P)

/-- How a tracker changes when the pages `W` are allocated against it: each
is recorded under its own address, nothing else changes. -/
def Recorded (W : Nat → Prop) (tr tr2 : Tracker) : Prop :=
  (∀ p, W p → tr2 p = some p) ∧ (∀ p, ¬ W p → tr2 p = tr p)

/-- Every table of the family `V` has one depth only. -/
def Typed (V : Nat → Nat → Prop) : Prop := ∀ d1 d2 g, V d1 g → V d2 g → d1 = d2

/-- The family `V` with the page `p` added as a table of depth `d`. -/
def addTable (V : Nat → Nat → Prop) (d p : Nat) : Nat → Nat → Prop :=
  fun e g => V e g ∨ (e = d ∧ g = p)

/-- The family `V2` is what the family `V` has become in the memory `m2`
after the pages `W` were added as tables: it contains `V`, adds only pages of
`W`, is typed and closed in `m2`, and the table `f` of leaf entries is in
it. -/
structure Family (V V2 : Nat → Nat → Prop) (W : Nat → Prop) (m2 : Mem) (f : Nat) : Prop where
  sub : ∀ d g, V d g → V2 d g
  new : ∀ d g, V2 d g → V d g ∨ W g
  typed : Typed V2
  shape : Shape m2 V2
  leaf : V2 1 f

/-- What `pmap_walk` with `create` establishes when it returns the entry
`(f, idx)` for `v`: it allocated one page for each missing level, recorded
them, changed the memory only by installing entries into absent slots and
zeroing the new pages; the path of `v` now leads to `f`; with nothing missing
the state is untouched, otherwise `f` is a new page and still all zero. The
table `f` is none of the tables above it on the path when the tables of leaf
entries in `V` are apart from the upper tables; and when `V` is typed, it
extends to a typed family of the tables after the call. -/
structure WalkCreated (V : Nat → Nat → Prop) (perms pml4 v : Nat) (s : Phys) (tr : Tracker)
    (f : Nat) (s2 : Phys) (tr2 : Tracker) : Prop where
  heap_eq : s2.heap = s.heap
  inval_eq : s2.inval = s.inval
  nalloc_eq : s2.nalloc = s.nalloc + missing_levels s.mem pml4 v
  recorded : Recorded (Window s.heap s.nalloc s2.nalloc) tr tr2
  grown : Grown perms (Window s.heap s.nalloc s2.nalloc) s.mem s2.mem
  path : ∃ n1 n2, level_ro s2.mem pml4 (pgbits v).1 = some (some n1) ∧
    level_ro s2.mem n1 (pgbits v).2.1 = some (some n2) ∧
    level_ro s2.mem n2 (pgbits v).2.2.1 = some (some f) ∧
    ((∀ g d, V 1 g → ¬ V (d + 2) g) → f ≠ pml4 ∧ f ≠ n1 ∧ f ≠ n2)
  same : missing_levels s.mem pml4 v = 0 → s2 = s ∧ tr2 = tr ∧ V 1 f
  fresh_leaf : missing_levels s.mem pml4 v ≠ 0 →
    Window s.heap s.nalloc s2.nalloc f ∧ ∀ j, s2.mem f j = 0
  family : Typed V → ∃ V2, Family V V2 (Window s.heap s.nalloc s2.nalloc) s2.mem f

/-- The leaf entry of the address `v` in the page table `pml4`: the value
of the entry that `pmap_walk` without `create` returns, `none` when the walk
panics or returns nil. -/
def leaf_entry (m : Mem) (pml4 v : Nat) : Option Nat :=
  match walk_ro m pml4 v with
  | some (some (f, i)) => some (m f i)
  | _ => none

/-- What the paging code relies on in a state `s` for the page table with
root `pm`: its tables form the typed family `V`, closed in the memory and
inside the direct map, and the pages the allocator hands out next, up to its
`cap`-th, are fresh. -/
structure Env (V : Nat → Nat → Prop) (s : Phys) (pm : Nat) (cap : Nat) : Prop where
  typed : Typed V
  root : V 4 pm
  shape : Shape s.mem V
  fresh : GoodHeap s.heap V s.nalloc cap

/-- The copy-on-write flag discipline on every entry of every table of leaf
entries of the family `V`. -/
def CowInv (V : Nat → Nat → Prop) (m : Mem) : Prop :=
  ∀ g i, V 1 g → i < 512 → CowOk (m g i)

/-- The tracking maps of the process `p` agree with its page table: a frame
that is a key of `upages` is a key of `pages`, and `upages` holds for it a
page-aligned address whose leaf entry is present and maps the frame. -/
def TrackInv (m : Mem) (p : proc_t) : Prop :=
  ∀ F va, p.upages F = some va →
    p.pages F ≠ none ∧ va % 4096 = 0 ∧
    ∃ e, leaf_entry m p.pmap va = some e ∧ e &&& PTE_P ≠ 0 ∧ e &&& PTE_ADDR = F

/-! ## Concrete states used by the witnesses and counterexamples -/

/-- An allocator that hands out the frames from `0x100000` upwards. -/
def ex_heap : Nat → Nat := fun n => 0x100000 + 0x1000 * n

/-- A user page table: root `0x1000`, one table per level down to the table
of leaf entries `0x4000`, which maps the first user page to frame `0x5000`
(present, writable, user) and whose second entry is not present but not zero. -/
def ex_mem : Mem := fun f i =>
  if f = 0x1000 then (if i = 0x59 then 0x2007 else 0)
  else if f = 0x2000 then (if i = 0 then 0x3007 else 0)
  else if f = 0x3000 then (if i = 0 then 0x4007 else 0)
  else if f = 0x4000 then (if i = 0 then 0x5007 else if i = 1 then 0x2 else 0)
  else 0

def ex_phys : Phys := ⟨ex_mem, ex_heap, 0, []⟩

/-- The tables of `ex_mem`, by depth. -/
def ex_V : Nat → Nat → Prop := fun d f =>
  (d = 4 ∧ f = 0x1000) ∨ (d = 3 ∧ f = 0x2000) ∨ (d = 2 ∧ f = 0x3000) ∨ (d = 1 ∧ f = 0x4000)

/-- The address of the second user page. -/
def ex_va1 : Nat := mkpg VUSER 0 0 1

/-- A kernel page table as the boot code leaves it: root `0x1000` whose
recursive slot `VREC` points at the root itself with P and W. -/
def kern_mem : Mem := fun f i =>
  if f = 0x1000 then (if i = VREC then 0x1000 ||| PTE_P ||| PTE_W else 0) else 0

def kern_phys : Phys := ⟨kern_mem, ex_heap, 0, []⟩

/-- A process whose page table is the one of `ex_mem` and that tracks its one
mapped user frame. -/
def ex_parent : proc_t :=
  { pid := 1, name := "init"
    pages := fun p => if p = 0x5000 then some 0x5000 else none
    upages := fun p => if p = 0x5000 then some (mkpg VUSER 0 0 0) else none
    pmap := 0x1000, p_pmap := 0x1000, dead := false
    fds := fun _ => none, nextfd := 3, cwd := "/" }

def ex_kernel : Kernel :=
  { phys := ex_phys
    allprocs := fun n => if n = 1 then some ex_parent else none
    pid_cur := 1, procadd := [], runnable := [] }

/-- An address whose table of leaf entries is missing in `ex_mem`. -/
def ex_va2 : Nat := mkpg VUSER 0 1 0

/-- The address of the first user page, mapped to frame `0x5000` in `ex_mem`. -/
def ex_va0 : Nat := mkpg VUSER 0 0 0

/-- The page table of `ex_mem` after a fork: the first user page is mapped
copy-on-write (present, user, COW, not writable) to frame `0x5000`. -/
def cow_mem : Mem := ex_mem.write 0x4000 0 0x5205

def cow_kernel : Kernel := { ex_kernel with phys := { ex_phys with mem := cow_mem } }

/-- An address inside the first user page. -/
def ex_fa : Nat := ex_va0 + 0x10

/-! ## The syscall layer (`syscall.go`) and the page-fault handler (`main.go`) -/

def EPERM : Int := 1
def ENOENT : Int := 2
def EBADF : Int := 9
def EFAULT : Int := 14
def EEXIST : Int := 17
def ENOTDIR : Int := 20
def EINVAL : Int := 22
def ENAMETOOLONG : Int := 36
def ENOSYS : Int := 38

def SYS_READ : Int := 0
def SYS_WRITE : Int := 1
def SYS_OPEN : Int := 2
def O_RDONLY : Int := 0
def O_WRONLY : Int := 1
def O_RDWR : Int := 2
def O_CREAT : Int := 0x80
def O_APPEND : Int := 0x400
def SYS_GETPID : Int := 39
def SYS_FORK : Int := 57
def SYS_EXIT : Int := 60
def SYS_MKDIR : Int := 83
def SYS_LINK : Int := 86
def SYS_UNLINK : Int := 87

/-- A byte slice `[]uint8` into the direct map: the physical address of its
first byte and its length. The nil slice has address 0 and length 0. -/
structure Slice where
  ptr : Nat
  len : Nat
deriving DecidableEq

/-- The nil slice, the zero value of `[]uint8`. -/
def Slice.nil : Slice := ⟨0, 0⟩

/-- The function `dmap8`: the bytes of the page of `p` from `p` to the end of
the page. -/
def dmap8 (p : Nat) : Option Slice :=
  match dmap p with
  | none => none
  | some pg =>
    let off := p &&& PGOFFSET
    some ⟨pg + off, PGSIZE - off⟩

/-- The byte at the physical address `a`. -/
def phys_byte (m : Mem) (a : Nat) : Nat := page_byte m (rounddown a PGSIZE) (a % 4096)

/-- The bytes a slice holds in the memory `m`, in order. -/
def Slice.bytes (m : Mem) (sl : Slice) : List Nat :=
  (List.range sl.len).map fun j => phys_byte m (sl.ptr + j)

/-- The conversion `int8(c)` of a byte. -/
def int8 (c : Nat) : Int := if c % 256 ≥ 128 then ((c % 256 : Nat) : Int) - 256 else ((c % 256 : Nat) : Int)

/-- The loop of `is_mapped` with `n` pages left, the next one at `p`: `none`
when the walk panics, else whether every page has a present leaf entry. -/
def is_mapped_loop (s : Phys) (pmap : Nat) : Nat → Int → Option Bool
  | 0, _ => some true
  | n + 1, p =>
    match pmap_walk s (fun _ => none) pmap (bits64 p) false 0 with
    | none => none
    | some (none, _, _) => some false
    | some (some (fr, idx), _, _) =>
      if s.mem fr idx &&& PTE_P = 0 then some false
      else is_mapped_loop s pmap n (p + 4096)

/-- The function `is_mapped`. The loop runs once for each multiple of
`PGSIZE` from `p` up to `end`, none when `end` is not above `p`. -/
def is_mapped (s : Phys) (pmap : Nat) (va size : Int) : Option Bool :=
  let p := rounddown_int va 4096
  let e := roundup_int (wrap64 (va + size)) 4096
  is_mapped_loop s pmap ((e - p) / 4096).toNat p

/-- The loop of `is_mapped_str` at the offset `i` with the bytes `ret` read so
far: the string, whether it is mapped, and whether it is too long. Every turn
that does not return appends at least one byte, so the loop takes at most
`lenmax` turns (one when `lenmax` is not positive); the first argument counts
the turns left and is never used up. -/
def is_mapped_str_loop (s : Phys) (pmap : Nat) (va lenmax : Int) :
    Nat → Int → List Nat → Option (List Nat × Bool × Bool)
  | 0, _, _ => none
  | n + 1, i, ret =>
    match pmap_walk s (fun _ => none) pmap (bits64 (wrap64 (va + i))) false 0 with
    | none => none
    | some (none, _, _) => some ([], false, false)
    | some (some (fr, idx), _, _) =>
      if s.mem fr idx &&& PTE_P = 0 then some ([], false, false)
      else
        let phys := (s.mem fr idx &&& PTE_ADDR) + (bits64 va &&& PGOFFSET)
        match dmap8 phys with
        | none => none
        | some str =>
          let bytes := str.bytes s.mem
          let pre := bytes.takeWhile (fun c => c ≠ 0)
          if pre.length < bytes.length then some (ret ++ pre, true, false)
          else
            let ret1 := ret ++ bytes
            if (ret1.length : Int) ≥ lenmax then some ([], true, true)
            else is_mapped_str_loop s pmap va lenmax n (wrap64 (i + str.len)) ret1

/-- The function `is_mapped_str`. -/
def is_mapped_str (s : Phys) (pmap : Nat) (va lenmax : Int) : Option (List Nat × Bool × Bool) :=
  is_mapped_str_loop s pmap va lenmax (lenmax.toNat + 1) 0 []

/-- The filesystem and the path sanitizer are not part of these sources; they
are parameters, as functions of the filesystem's own state `σ`. The function
`fs_read` fills the slices it is given, so it also returns the memory. -/
structure FsOps (σ : Type) where
  NAME_MAX : Int
  path_sanitize : String → List Nat → List (List Nat) × Bool
  fs_read : List Slice → Int → Int → Mem → σ → (Int × Int) × Mem × σ
  fs_write : List Slice → Int → Int → Bool → Mem → σ → (Int × Int) × σ
  fs_open : List (List Nat) → Int → Int → σ → (Option file_t × Int) × σ
  fs_mkdir : List (List Nat) → Int → σ → Int × σ
  fs_link : List (List Nat) → List (List Nat) → σ → Int × σ
  fs_unlink : List (List Nat) → σ → Int × σ

/-- The function `proc_get`. -/
def proc_get (k : Kernel) (pid : Int) : Option proc_t := k.allprocs pid

/-- The record of the object that the table holds under `pid` is replaced by
`p`: what a write through a `*proc_t` fetched under `pid` does to the table. -/
def proc_put (k : Kernel) (pid : Int) (p : proc_t) : Kernel :=
  { k with allprocs := fun n => if n = pid then some p else k.allprocs n }

/-- The function `proc_kill`: the record it marked dead, and the kernel
without it. -/
def proc_kill (k : Kernel) (pid : Int) : Option (proc_t × Kernel) :=
  match k.allprocs pid with
  | none => none
  | some p =>
    some ({ p with dead := true },
      { k with allprocs := fun n => if n = pid then none else k.allprocs n,
               prockill := k.prockill ++ [pid] })

/-- The method `fd_new`: the descriptor number, the pointer to the new
record, and the process and kernel after. -/
def fd_new (k : Kernel) (p : proc_t) : Option (Int × Nat × proc_t × Kernel) :=
  let fdn := p.nextfd
  let fd := k.nfd
  match p.fds fdn with
  | some _ => none
  | none =>
    some (fdn, fd,
      { p with nextfd := wrap64 (p.nextfd + 1), fds := fun n => if n = fdn then some fd else p.fds n },
      { k with nfd := k.nfd + 1, fdtab := fun r => if r = fd then ⟨none, 0, 0⟩ else k.fdtab r })

/-- The closure `vtop` of `sys_read` and `sys_write`: the physical address of
the virtual address `va`. A nil `pte` panics at `*pte`. -/
def vtop (s : Phys) (pmap : Nat) (va : Int) : Option Nat :=
  match pmap_walk s (fun _ => none) pmap (bits64 va) false 0 with
  | none => none
  | some (none, _, _) => none
  | some (some (fr, idx), _, _) =>
    some ((s.mem fr idx &&& PTE_ADDR) + (bits64 va &&& PGOFFSET))

/-- The loop `for c < sz` of `sys_read` and of `sys_write`, which appends one
slice for each page of the buffer to the list `acc`. Every turn advances `c`
by at least one, so `sz` turns are enough; the first argument counts the turns
left. -/
def scatter_loop (s : Phys) (pmap : Nat) (bufp sz : Int) :
    Nat → Int → List Slice → Option (List Slice)
  | 0, _, acc => some acc
  | n + 1, c, acc =>
    if c < sz then
      match vtop s pmap (wrap64 (bufp + c)) with
      | none => none
      | some p_bufp =>
        match dmap8 p_bufp with
        | none => none
        | some dst =>
          let left := wrap64 (sz - c)
          let dst1 : Slice := if (dst.len : Int) > left then ⟨dst.ptr, left.toNat⟩ else dst
          scatter_loop s pmap bufp sz n (wrap64 (c + dst1.len)) (acc ++ [dst1])
    else some acc

/-- The list of slices that `sys_read` and `sys_write` build for the buffer:
`make([][]uint8, 1)` followed by the appends of the loop. -/
def scatter (s : Phys) (pmap : Nat) (bufp sz : Int) : Option (List Slice) :=
  scatter_loop s pmap bufp sz sz.toNat 0 [Slice.nil]

/-- The assignment `fd.offset += ret` on the record `fd` points to. -/
def fd_advance (k : Kernel) (fd : Nat) (ret : Int) : Kernel :=
  { k with fdtab := fun r =>
      if r = fd then { k.fdtab fd with offset := wrap64 ((k.fdtab fd).offset + ret) }
      else k.fdtab r }

/-- The function `sys_read`: its return value, with the kernel and the
filesystem after. -/
def sys_read {σ : Type} (fs : FsOps σ) (k : Kernel) (w : σ) (proc : proc_t)
    (fdn bufp sz : Int) : Option (Int × Kernel × σ) :=
  if sz = 0 then some (0, k, w)
  else
    match is_mapped k.phys proc.pmap bufp sz with
    | none => none
    | some false => some (-EFAULT, k, w)
    | some true =>
      match proc.fds fdn with
      | none => some (-EBADF, k, w)
      | some fd =>
        match scatter k.phys proc.pmap bufp sz with
        | none => none
        | some dsts =>
          match (k.fdtab fd).file with
          | none => none
          | some file =>
            let r := fs.fs_read dsts file.priv (k.fdtab fd).offset k.phys.mem w
            let k1 : Kernel := { k with phys := { k.phys with mem := r.2.1 } }
            if r.1.2 ≠ 0 then some (r.1.2, k1, r.2.2)
            else some (r.1.1, fd_advance k1 fd r.1.1, r.2.2)

/-- The closure that `sys_write` uses in place of `fs_write` for the
descriptors of the console: every byte of every slice goes to
`runtime.Putcha` with the attribute `0x17`; it returns the number of bytes. -/
def console_write (k : Kernel) (srcs : List Slice) : (Int × Int) × Kernel :=
  let out := srcs.foldl
    (fun (st : List (Int × Int) × Int) sl =>
      (st.1 ++ (sl.bytes k.phys.mem).map (fun c => (int8 c, 0x17)), wrap64 (st.2 + sl.len)))
    (k.console, 0)
  ((out.2, 0), { k with console := out.1 })

/-- The function `sys_write`. -/
def sys_write {σ : Type} (fs : FsOps σ) (k : Kernel) (w : σ) (proc : proc_t)
    (fdn bufp sz : Int) : Option (Int × Kernel × σ) :=
  if sz = 0 then some (0, k, w)
  else
    match is_mapped k.phys proc.pmap bufp sz with
    | none => none
    | some false => some (-EFAULT, k, w)
    | some true =>
      match proc.fds fdn with
      | none => some (-EBADF, k, w)
      | some fd =>
        let apnd : Bool := decide (Int.land (k.fdtab fd).perms O_APPEND ≠ 0)
        match scatter k.phys proc.pmap bufp sz with
        | none => none
        | some srcs =>
          match (k.fdtab fd).file with
          | none => none
          | some file =>
            let r : (Int × Int) × Kernel × σ :=
              if fd = fd_stdout ∨ fd = fd_stderr then
                ((console_write k srcs).1, (console_write k srcs).2, w)
              else
                ((fs.fs_write srcs file.priv (k.fdtab fd).offset apnd k.phys.mem w).1, k,
                  (fs.fs_write srcs file.priv (k.fdtab fd).offset apnd k.phys.mem w).2)
            if r.1.2 ≠ 0 then some (r.1.2, r.2.1, r.2.2)
            else some (r.1.1, fd_advance r.2.1 fd r.1.1, r.2.2)

/-- The function `sys_open`: its return value, with the process, the kernel
and the filesystem after. -/
def sys_open {σ : Type} (fs : FsOps σ) (k : Kernel) (w : σ) (proc : proc_t)
    (pathn flags mode : Int) : Option (Int × proc_t × Kernel × σ) :=
  match is_mapped_str k.phys proc.pmap pathn fs.NAME_MAX with
  | none => none
  | some (path, ok, toolong) =>
    if !ok then some (-EFAULT, proc, k, w)
    else if toolong then some (-ENAMETOOLONG, proc, k, w)
    else
      let temp := Int.land flags (Int.lor (Int.lor O_RDONLY O_WRONLY) O_RDWR)
      if temp ≠ O_RDONLY ∧ temp ≠ O_WRONLY ∧ temp ≠ O_RDWR then some (-EINVAL, proc, k, w)
      else
        let sp := fs.path_sanitize proc.cwd path
        if sp.2 then some (-ENOENT, proc, k, w)
        else
          let r := fs.fs_open sp.1 flags mode w
          if r.1.2 ≠ 0 then some (r.1.2, proc, k, r.2)
          else
            match fd_new k proc with
            | none => none
            | some (fdn, fd, proc1, k1) =>
              let perms := if Int.land flags O_APPEND ≠ 0 then Int.lor temp O_APPEND else temp
              some (fdn, proc1,
                { k1 with fdtab := fun n => if n = fd then ⟨r.1.1, 0, perms⟩ else k1.fdtab n },
                r.2)

/-- The function `sys_mkdir`. -/
def sys_mkdir {σ : Type} (fs : FsOps σ) (k : Kernel) (w : σ) (proc : proc_t)
    (pathn mode : Int) : Option (Int × σ) :=
  match is_mapped_str k.phys proc.pmap pathn fs.NAME_MAX with
  | none => none
  | some (path, ok, toolong) =>
    if !ok then some (-EFAULT, w)
    else if toolong then some (-ENAMETOOLONG, w)
    else
      let sp := fs.path_sanitize proc.cwd path
      if sp.2 then some (-ENOENT, w)
      else some (fs.fs_mkdir sp.1 mode w)

/-- The function `sys_link`. -/
def sys_link {σ : Type} (fs : FsOps σ) (k : Kernel) (w : σ) (proc : proc_t)
    (oldn newn : Int) : Option (Int × σ) :=
  match is_mapped_str k.phys proc.pmap oldn fs.NAME_MAX with
  | none => none
  | some (old, ok1, toolong1) =>
    match is_mapped_str k.phys proc.pmap newn fs.NAME_MAX with
    | none => none
    | some (new, ok2, toolong2) =>
      if !ok1 ∨ !ok2 then some (-EFAULT, w)
      else if toolong1 ∨ toolong2 then some (-ENAMETOOLONG, w)
      else
        let op := fs.path_sanitize proc.cwd old
        let np := fs.path_sanitize proc.cwd new
        if op.2 ∨ np.2 then some (-ENOENT, w)
        else some (fs.fs_link op.1 np.1 w)

/-- The function `sys_unlink`. -/
def sys_unlink {σ : Type} (fs : FsOps σ) (k : Kernel) (w : σ) (proc : proc_t)
    (pathn : Int) : Option (Int × σ) :=
  match is_mapped_str k.phys proc.pmap pathn fs.NAME_MAX with
  | none => none
  | some (path, ok, toolong) =>
    if !ok then some (-EFAULT, w)
    else if toolong then some (-ENAMETOOLONG, w)
    else
      let sp := fs.path_sanitize proc.cwd path
      if sp.2 then some (-ENOENT, w)
      else some (fs.fs_unlink sp.1 w)

/-- The function `sys_getpid`. -/
def sys_getpid (proc : proc_t) : Int := proc.pid

/-- The function `sys_exit`: the record `proc_kill` marked dead and the
kernel after. -/
def sys_exit (k : Kernel) (proc : proc_t) (_status : Int) : Option (proc_t × Kernel) :=
  proc_kill k proc.pid

/-- The `switch` of `syscall` for the process `p` fetched under `pid`: the
value of `ret` after it, with the record of `p`, the kernel and the filesystem.
What a handler writes through `p` reaches the table under `pid`; `proc_kill`
marks the object under `p.pid`, which is `p` itself when `p.pid` is the key it
was fetched under, every key holding an object of its own. -/
def syscall_switch {σ : Type} (fs : FsOps σ) (k : Kernel) (w : σ) (pid : Int) (p : proc_t)
    (tf : Tf) : Option (Int × proc_t × Kernel × σ) :=
  let trap := tf TF_RAX
  let a1 := tf TF_RDI
  let a2 := tf TF_RSI
  let a3 := tf TF_RDX
  if trap = SYS_READ then
    (sys_read fs k w p a1 a2 a3).map fun r => (r.1, p, r.2.1, r.2.2)
  else if trap = SYS_WRITE then
    (sys_write fs k w p a1 a2 a3).map fun r => (r.1, p, r.2.1, r.2.2)
  else if trap = SYS_OPEN then
    (sys_open fs k w p a1 a2 a3).map fun r => (r.1, r.2.1, proc_put r.2.2.1 pid r.2.1, r.2.2.2)
  else if trap = SYS_GETPID then some (sys_getpid p, p, k, w)
  else if trap = SYS_FORK then
    (sys_fork k p tf).map fun r => (r.1, p, r.2.2, w)
  else if trap = SYS_EXIT then
    (sys_exit k p a1).map fun r => (-ENOSYS, if p.pid = pid then r.1 else p, r.2, w)
  else if trap = SYS_MKDIR then
    (sys_mkdir fs k w p a1 a2).map fun r => (r.1, p, k, r.2)
  else if trap = SYS_LINK then
    (sys_link fs k w p a1 a2).map fun r => (r.1, p, k, r.2)
  else if trap = SYS_UNLINK then
    (sys_unlink fs k w p a1).map fun r => (r.1, p, k, r.2)
  else some (-ENOSYS, p, k, w)

/-- The function `syscall`: the trap frame after the call, the record of the
calling process, the kernel and the filesystem. -/
def syscall {σ : Type} (fs : FsOps σ) (k : Kernel) (w : σ) (pid : Int) (tf : Tf) :
    Option (Tf × proc_t × Kernel × σ) :=
  match proc_get k pid with
  | none => none
  | some p =>
    match syscall_switch fs k w pid p tf with
    | none => none
    | some (ret, p1, k1, w1) =>
      let tf1 : Tf := fun i => if i = TF_RAX then ret else tf i
      if !p1.dead then
        some (tf1, p1, { k1 with runnable := k1.runnable ++ [(pid, some tf1)] }, w1)
      else some (tf1, p1, k1, w1)

/-- The function `trap_syscall`. -/
def trap_syscall {σ : Type} (fs : FsOps σ) (k : Kernel) (w : σ) (ts : trapstore_t) :
    Option (Tf × proc_t × Kernel × σ) :=
  syscall fs k w ts.pid ts.tf

/-- The function `trap_pgfault`: the kernel after it, `none` for a panic. -/
def trap_pgfault (k : Kernel) (ts : trapstore_t) : Option Kernel :=
  let pid := ts.pid
  let fa := ts.faultaddr
  match proc_get k pid with
  | none => none
  | some proc =>
    match pmap_walk k.phys (fun _ => none) proc.pmap (bits64 fa) false 0 with
    | none => none
    | some (none, _, _) => (proc_kill k pid).map fun r => r.2
    | some (some pte, _, _) =>
      if k.phys.mem pte.1 pte.2 &&& PTE_COW ≠ 0 then
        if fa < (USERMIN : Int) then none
        else (sys_pgfault k proc pte (bits64 fa)).map fun r => proc_put r.2 pid r.1
      else (proc_kill k pid).map fun r => r.2

/-! ## Predicates used to state the theorems about lookups and syscalls -/

/-- The top-level index of the address `v` lies in the reserved slots
`VREC` to `VEND`. -/
def ReservedVa (v : Nat) : Prop := (pgbits v).1 ≥ VREC ∧ (pgbits v).1 ≤ VEND

/-- One of the three intermediate entries (of the PML4, of the PDPT, of the
PD) on the path of `v` is not present. The path goes on from an entry that is
present and has PS clear to the table the entry names. -/
def AbsentOnPath (m : Mem) (pml4 v : Nat) : Prop :=
  m pml4 (pgbits v).1 &&& PTE_P = 0 ∨
  (m pml4 (pgbits v).1 &&& PTE_P ≠ 0 ∧ m pml4 (pgbits v).1 &&& PTE_PS = 0 ∧
    (m (m pml4 (pgbits v).1 &&& PTE_ADDR) (pgbits v).2.1 &&& PTE_P = 0 ∨
      (m (m pml4 (pgbits v).1 &&& PTE_ADDR) (pgbits v).2.1 &&& PTE_P ≠ 0 ∧
        m (m pml4 (pgbits v).1 &&& PTE_ADDR) (pgbits v).2.1 &&& PTE_PS = 0 ∧
        m (m (m pml4 (pgbits v).1 &&& PTE_ADDR) (pgbits v).2.1 &&& PTE_ADDR) (pgbits v).2.2.1
          &&& PTE_P = 0)))

/-- A present intermediate entry on the path of `v` has PS set. -/
def PsOnPath (m : Mem) (pml4 v : Nat) : Prop :=
  m pml4 (pgbits v).1 &&& PTE_P ≠ 0 ∧
  (m pml4 (pgbits v).1 &&& PTE_PS ≠ 0 ∨
    (m (m pml4 (pgbits v).1 &&& PTE_ADDR) (pgbits v).2.1 &&& PTE_P ≠ 0 ∧
      (m (m pml4 (pgbits v).1 &&& PTE_ADDR) (pgbits v).2.1 &&& PTE_PS ≠ 0 ∨
        (m (m (m pml4 (pgbits v).1 &&& PTE_ADDR) (pgbits v).2.1 &&& PTE_ADDR) (pgbits v).2.2.1
            &&& PTE_P ≠ 0 ∧
          m (m (m pml4 (pgbits v).1 &&& PTE_ADDR) (pgbits v).2.1 &&& PTE_ADDR) (pgbits v).2.2.1
            &&& PTE_PS ≠ 0))))

/-- The page of the address `va` has a present leaf entry in the page table
`pmap`. -/
def page_mapped (m : Mem) (pmap va : Nat) : Bool :=
  match leaf_entry m pmap va with
  | some e => decide (e &&& PTE_P ≠ 0)
  | none => false

/-- The pages that `is_mapped` visits for the buffer of `size` bytes at `va`:
their number and the address of the first. -/
def buffer_pages (va size : Int) : Nat × Int :=
  (((roundup_int (wrap64 (va + size)) 4096 - rounddown_int va 4096) / 4096).toNat,
    rounddown_int va 4096)

/-- The physical address of the user address `va` in the page table `pmap`:
the frame of its leaf entry, plus the offset of `va` in its page. -/
def user_phys (m : Mem) (pmap : Nat) (va : Int) : Nat :=
  ((leaf_entry m pmap (bits64 va)).getD 0 &&& PTE_ADDR) + (bits64 va &&& PGOFFSET)

/-- The number of pages that the buffer of `sz` bytes at `bufp` overlaps. -/
def buf_npages (bufp sz : Int) : Nat := ((bufp % 4096 + sz + 4095) / 4096).toNat

/-- The number of bytes of the buffer of `sz` bytes at `bufp` that lie in its
first `j` pages. -/
def buf_cut (bufp sz : Int) (j : Nat) : Int :=
  if j = 0 then 0
  else if 4096 * (j : Int) - bufp % 4096 < sz then 4096 * (j : Int) - bufp % 4096
  else sz

/-- The slice for the `j`-th page of the buffer: it begins at the physical
address of the first byte of the buffer in that page and holds the bytes of the
buffer in that page. -/
def buf_slice (m : Mem) (pmap : Nat) (bufp sz : Int) (j : Nat) : Slice :=
  ⟨user_phys m pmap (bufp + buf_cut bufp sz j),
    (buf_cut bufp sz (j + 1) - buf_cut bufp sz j).toNat⟩

/-- The physical addresses of the bytes of a slice, in order. -/
def Slice.addrs (sl : Slice) : List Nat := (List.range sl.len).map fun t => sl.ptr + t

/-! ## Concrete inputs for the syscall layer -/

/-- An address in the reserved top-level slot `0x43`, which no page table
maps. -/
def ex_reserved : Int := 0x218000000000

/-- A filesystem that does nothing: `fs_write` and `fs_read` report the number
of slices they were handed, every other call succeeds with 0. -/
def ex_fs : FsOps Unit :=
  { NAME_MAX := 512
    path_sanitize := fun _ _ => ([], false)
    fs_read := fun dsts _ _ m w => ((dsts.length, 0), m, w)
    fs_write := fun srcs _ _ _ _ w => ((srcs.length, 0), w)
    fs_open := fun _ _ _ w => ((some ⟨7⟩, 0), w)
    fs_mkdir := fun _ _ w => (0, w)
    fs_link := fun _ _ w => (0, w)
    fs_unlink := fun _ w => (0, w) }

/-- The process of `ex_parent` with the three descriptors of the console and
a descriptor 3 for the record number 3. -/
def ex_user : proc_t :=
  { ex_parent with
    fds := fun n => if n = 0 then some fd_stdin else if n = 1 then some fd_stdout
      else if n = 2 then some fd_stderr else if n = 3 then some 3 else none
    nextfd := 4 }

/-- The kernel of `ex_kernel` with `ex_user` as process 1 and an open file
under the record number 3. -/
def ex_kernel_u : Kernel :=
  { ex_kernel with
    allprocs := fun n => if n = 1 then some ex_user else none
    fdtab := fun r => if r = 3 then ⟨some ⟨7⟩, 0, 1⟩ else ⟨some dummyfile, 0, 0⟩
    nfd := 4 }

/-- A trap frame that holds `n` in RAX and the arguments `a1`, `a2`, `a3` in
RDI, RSI, RDX. -/
def ex_tf (n a1 a2 a3 : Int) : Tf := fun i =>
  if i = TF_RAX then n else if i = TF_RDI then a1 else if i = TF_RSI then a2
  else if i = TF_RDX then a3 else 0

/-- A buffer address inside the first user page, `0x10` bytes into it. -/
def ex_buf : Int := 0x2c8000000010

/-! ## Sequences of statements and of calls -/

/-- The trap frame and the kernel at the four points of `syscall`: on entry,
after the `switch` has run the handler, after `tf[TF_RAX] = ret`, and on return
(after the `if !p.dead`). -/
def syscall_states {σ : Type} (fs : FsOps σ) (k : Kernel) (w : σ) (pid : Int) (tf : Tf) :
    Option (List (Tf × Kernel)) :=
  match proc_get k pid with
  | none => none
  | some p =>
    match syscall_switch fs k w pid p tf with
    | none => none
    | some (ret, p1, k1, _) =>
      let tf1 : Tf := fun i => if i = TF_RAX then ret else tf i
      some [(tf, k), (tf, k1), (tf1, k1),
        (tf1, if !p1.dead then { k1 with runnable := k1.runnable ++ [(pid, some tf1)] } else k1)]

/-- A call of `proc_new` or of `proc_kill`. -/
inductive ProcOp
  | new (name : String)
  | kill (pid : Int)

/-- A sequence of calls of `proc_new` and `proc_kill` from the kernel `k`:
the kernel after them and the pids that `proc_new` returned, in order; `none`
when a `proc_kill` panics. -/
def proc_run : Kernel → List ProcOp → Option (Kernel × List Int)
  | k, [] => some (k, [])
  | k, ProcOp.new name :: ops =>
    match proc_run (proc_new k name).2 ops with
    | none => none
    | some (k2, pids) => some (k2, (proc_new k name).1.pid :: pids)
  | k, ProcOp.kill pid :: ops =>
    match proc_kill k pid with
    | none => none
    | some (_, k1) => proc_run k1 ops

/-- How a call of `trapstub` ends: in one of its `for {}` loops, in
`runtime.Procyield`, in `runtime.Proccontinue`, or in the panic of an index
outside `cpus` or `trapstore`. -/
inductive StubEnd
  | halted
  | yielded
  | continued
  | outofrange
  deriving DecidableEq, Repr

/-- The function `trapstub`, run without interruption on the array `cpus`;
`lapid` is what `lap_id()` reads and `cr2` what `runtime.Rcr2()` reads. -/
def trapstub (cpus : Int → cpu_t) (lapid : Int) (tf : Tf) (pid cr2 : Int) :
    StubEnd × (Int → cpu_t) :=
  let trapno := tf TF_TRAP
  if pid = 0 ∧ trapno < IRQ_BASE then (StubEnd.halted, cpus)
  else if ¬ (0 ≤ lapid ∧ lapid < maxcpus) then (StubEnd.outofrange, cpus)
  else
    let lid := (cpus lapid).num
    if ¬ (0 ≤ lid ∧ lid < maxcpus) then (StubEnd.outofrange, cpus)
    else
      let head := (cpus lid).tshead
      let tail := (cpus lid).tstail
      if tsnext head = tail then (StubEnd.halted, cpus)
      else if ¬ (0 ≤ head ∧ head < maxtstore) then (StubEnd.outofrange, cpus)
      else
        let ts := (cpus lid).trapstore head
        let ts1 : trapstore_t :=
          { trapno := trapno, pid := pid, tf := tf,
            faultaddr := if trapno = PGFAULT then cr2 else ts.faultaddr }
        let cpus1 : Int → cpu_t := fun j =>
          if j = lid then
            { cpus lid with trapstore := setSlot (cpus lid).trapstore head ts1,
                            tshead := tsnext head }
          else cpus j
        if trapno = SYSCALL ∨ trapno = PGFAULT then (StubEnd.yielded, cpus1)
        else if trapno = INT_DISK ∨ trapno = INT_KBD then (StubEnd.continued, cpus1)
        else (StubEnd.halted, cpus1)

/-- The descriptors of the process `p` are all below its `nextfd`, which has
room to grow. -/
def FdInv (p : proc_t) : Prop :=
  (∀ n, p.fds n ≠ none → n < p.nextfd) ∧ 0 ≤ p.nextfd ∧ p.nextfd < 2 ^ 63 - 1

/-- The kernel's globals as their initializers leave them, on the machine
state `s`: no process, `pid_cur` 0, the three sentinel descriptors with the
sentinel file, nothing logged. -/
def kernel_boot (s : Phys) : Kernel :=
  { phys := s, allprocs := fun _ => none, pid_cur := 0, procadd := [], runnable := [] }

/-- The process table of `k` holds records only under the pids handed out so
far, 1 to `pid_cur`. -/
def PidInv (k : Kernel) : Prop :=
  0 ≤ k.pid_cur ∧ ∀ n, k.allprocs n ≠ none → 1 ≤ n ∧ n ≤ k.pid_cur

/-! ## A memory with a string across a page boundary -/

/-- The memory of `ex_mem` with the second and third user page mapped to the
frames `0x6000` and `0x7000`, the bytes `h`, `e` at the end of frame `0x5000`,
the bytes `l`, `l`, `o` and a NUL at the start of frame `0x6000`, and the bytes
`a`, `b`, `c` and a NUL at the end of frame `0x7000`. -/
def ex_mem2 : Mem := fun f i =>
  if f = 0x4000 ∧ i = 1 then 0x6007
  else if f = 0x4000 ∧ i = 2 then 0x7007
  else if f = 0x5000 ∧ i = 511 then 0x6568000000000000
  else if f = 0x6000 ∧ i = 0 then 0x6f6c6c
  else if f = 0x7000 ∧ i = 511 then 0x0063626100000000
  else ex_mem f i

def ex_phys2 : Phys := ⟨ex_mem2, ex_heap, 0, []⟩

/-- The kernel of `ex_kernel_u` on the memory `ex_mem2`. -/
def ex_kernel2 : Kernel := { ex_kernel_u with phys := ex_phys2 }

/-- The address of the string `hello`: two bytes before the end of the first
user page. -/
def ex_hello : Int := 0x2c8000000ffe

/-- The address of the string `abc`: four bytes before the end of the third
user page. -/
def ex_abc : Int := 0x2c8000002ffc

/-! ## The dispatcher `trap`, `ap_entry` and the keyboard daemon (`main.go`) -/

/-- The keys of the map `handlers` that `main` builds and passes to `trap`. -/
def main_handlers (trapno : Int) : Bool :=
  decide (trapno = GPFAULT ∨ trapno = PGFAULT ∨ trapno = SYSCALL ∨ trapno = INT_DISK
    ∨ trapno = INT_KBD)

/-- How `trap` can panic: on an index outside `cpus` or `trapstore`, or with
`no handler for trap` and the trap number and pid of the record. -/
inductive TrapPanic
  | index
  | nohandler (trapno pid : Int)
  deriving DecidableEq

/-- The body of the loop `for cpu := 0; cpu < numcpus; cpu += 1` of `trap`:
the array after it and the record handed to `go h(&tcur)`, if any. The keys of
`handlers` are given by their characteristic function. -/
def trap_visit (handlers : Int → Bool) (cpus : Int → cpu_t) (cpu : Int) :
    Except TrapPanic ((Int → cpu_t) × Option trapstore_t) :=
  if ¬ (0 ≤ cpu ∧ cpu < maxcpus) then Except.error TrapPanic.index
  else
    let head := (cpus cpu).tshead
    let tail := (cpus cpu).tstail
    if tail = head then Except.ok (cpus, none)
    else if ¬ (0 ≤ tail ∧ tail < maxtstore) then Except.error TrapPanic.index
    else
      let tcur := (cpus cpu).trapstore tail
      let trapno := tcur.trapno
      let pid := tcur.pid
      let cpus1 : Int → cpu_t := fun j =>
        if j = cpu then { cpus cpu with tstail := tsnext tail } else cpus j
      if handlers trapno then Except.ok (cpus1, some tcur)
      else Except.error (TrapPanic.nohandler trapno pid)

/-- The loop over the CPUs of `trap` with `n` CPUs left, the next one `cpu`;
`acc` lists the CPUs and records of the handler tasks started so far. -/
def trap_sweep_loop (handlers : Int → Bool) :
    Nat → Int → (Int → cpu_t) → List (Int × trapstore_t) →
      Except TrapPanic ((Int → cpu_t) × List (Int × trapstore_t))
  | 0, _, cpus, acc => Except.ok (cpus, acc)
  | n + 1, cpu, cpus, acc =>
    match trap_visit handlers cpus cpu with
    | Except.error e => Except.error e
    | Except.ok (cpus1, none) => trap_sweep_loop handlers n (cpu + 1) cpus1 acc
    | Except.ok (cpus1, some tcur) =>
      trap_sweep_loop handlers n (cpu + 1) cpus1 (acc ++ [(cpu, tcur)])

/-- One turn of the outer `for` of `trap`: the sweep over the CPUs
`0 .. numcpus - 1`, up to `runtime.Gosched()`. -/
def trap_sweep (handlers : Int → Bool) (numcpus : Int) (cpus : Int → cpu_t) :
    Except TrapPanic ((Int → cpu_t) × List (Int × trapstore_t)) :=
  trap_sweep_loop handlers numcpus.toNat 0 cpus []

/-- How a call of `ap_entry` ends: in its `for {}` loop, in
`runtime.Procyield`, or in the panic of an index outside `cpus`. -/
inductive ApEnd
  | halted
  | yielded
  | outofrange
  deriving DecidableEq, Repr

/-- The function `ap_entry`; `lapid` is what `lap_id()` reads. -/
def ap_entry (cpus : Int → cpu_t) (lapid myid : Int) : ApEnd × (Int → cpu_t) :=
  let lid := lapid
  if lid > maxcpus ∨ lid < 0 then (ApEnd.halted, cpus)
  else if ¬ (0 ≤ lid ∧ lid < maxcpus) then (ApEnd.outofrange, cpus)
  else (ApEnd.yielded, fun j => if j = lid then { cpus lid with num := myid } else cpus j)

/-- The byte `NO` of `kbd_init`. -/
def NO : Nat := 0

/-- The table `tm` of `kbd_init`: the character of each scancode. -/
def kbd_tm : List Nat :=
  [NO, 0x1B, '1'.toNat, '2'.toNat, '3'.toNat, '4'.toNat, '5'.toNat, '6'.toNat,
   '7'.toNat, '8'.toNat, '9'.toNat, '0'.toNat, '-'.toNat, '='.toNat, 8, 9,
   'q'.toNat, 'w'.toNat, 'e'.toNat, 'r'.toNat, 't'.toNat, 'y'.toNat, 'u'.toNat, 'i'.toNat,
   'o'.toNat, 'p'.toNat, '['.toNat, ']'.toNat, 10, NO, 'a'.toNat, 's'.toNat,
   'd'.toNat, 'f'.toNat, 'g'.toNat, 'h'.toNat, 'j'.toNat, 'k'.toNat, 'l'.toNat, ';'.toNat,
   39, 96, NO, 92, 'z'.toNat, 'x'.toNat, 'c'.toNat, 'v'.toNat,
   'b'.toNat, 'n'.toNat, 'm'.toNat, ','.toNat, '.'.toNat, '/'.toNat, NO, '*'.toNat,
   NO, ' '.toNat, NO, NO, NO, NO, NO, NO,
   NO, NO, NO, NO, NO, NO, NO, '7'.toNat,
   '8'.toNat, '9'.toNat, '-'.toNat, '4'.toNat, '5'.toNat, '6'.toNat, '+'.toNat, '1'.toNat,
   '2'.toNat, '3'.toNat, '0'.toNat, '.'.toNat, NO, NO, NO, NO]

/-- The map `km` that `kbd_init` fills with `for i, c := range tm { km[i] = c }`
and hands to `kbd_daemon`: every index of the table is a key. -/
def kbd_km (sc : Int) : Option Nat :=
  if 0 ≤ sc then kbd_tm[sc.toNat]? else none

/-- The locals of `kbd_daemon` at the head of its loop: the accumulator `data`
and whether `reqc` is `cons.reqc` (and not nil). -/
structure KbdState where
  data : List Nat
  reqc : Bool
  deriving DecidableEq

/-- The locals of `kbd_daemon` when it enters its loop. -/
def kbd_boot : KbdState := ⟨[], false⟩

/-- The closure `kready` of `kbd_daemon`; `st` is what `inb(0x64)` reads. -/
def kready (st : Int) : Bool :=
  let ibf : Int := 1
  if Int.land st ibf = 0 then false else true

/-- One turn of the loop of `kbd_daemon` on the case `<- cons.kbd_int`; `st`
and `sc` are what `inb(0x64)` and `inb(0x60)` read. -/
def kbd_irq (km : Int → Option Nat) (s : KbdState) (st sc : Int) : KbdState :=
  if !kready st then s
  else
    let data := match km sc with
      | some c => s.data ++ [c]
      | none => s.data
    { data := data, reqc := decide (data.length ≠ 0) }

/-- What a sender on `cons.reqc` meets: the daemon does not receive (its
`reqc` is nil), or it faults on `data[0:l]`, or it sends the reply on
`cons.reader` and goes on with the given locals. -/
inductive KbdReq
  | blocked
  | fault
  | reply (bytes : List Nat) (s : KbdState)
  deriving DecidableEq

/-- One turn of the loop of `kbd_daemon` on the case `l := <- reqc`. -/
def kbd_req (s : KbdState) (l : Int) : KbdReq :=
  if !s.reqc then KbdReq.blocked
  else
    let l1 : Int := if l > s.data.length then s.data.length else l
    if l1 < 0 then KbdReq.fault
    else KbdReq.reply (s.data.take l1.toNat) { data := [], reqc := false }

/-- The function `kbd_get`, with the daemon at `s`; `irqs` are the keyboard
interrupts (status and scancode read) that the daemon takes before it takes
the request. The call blocks while the daemon does not receive. -/
def kbd_get (km : Int → Option Nat) (s : KbdState) (irqs : List (Int × Int)) (cnt : Int) :
    KbdReq :=
  if cnt < 0 then KbdReq.fault
  else kbd_req (irqs.foldl (fun t e => kbd_irq km t e.1 e.2) s) cnt

/-! ## The codecs `readn` and `writen` (`syscall.go`) -/

/-- The loop of `readn` with `k` turns left at `i`, on the 64-bit pattern
`ret`; an index outside `a` is a fault. -/
def readn_loop (a : List Nat) (off : Int) : Nat → Nat → Nat → Option Nat
  | 0, _, ret => some ret
  | k + 1, i, ret =>
    if 0 ≤ off + i ∧ off + i < a.length then
      readn_loop a off k (i + 1) (ret ||| (a.getD (off + i).toNat 0 <<< (i * 8)) % 2 ^ 64)
    else none

/-- The function `readn`. -/
def readn (a : List Nat) (n off : Int) : Option Int :=
  (readn_loop a off n.toNat 0 0).map fun (ret : Nat) => wrap64 (ret : Int)

/-- The loop of `writen` with `k` turns left at `i`. -/
def writen_loop (off : Int) (v : Nat) : Nat → Nat → List Nat → Option (List Nat)
  | 0, _, a => some a
  | k + 1, i, a =>
    if 0 ≤ off + i ∧ off + i < a.length then
      writen_loop off v k (i + 1) (a.set (off + i).toNat (((v >>> (i * 8)) &&& 0xff) % 256))
    else none

/-- The function `writen`: the slice after it. -/
def writen (a : List Nat) (n off val : Int) : Option (List Nat) :=
  writen_loop off (bits64 val) n.toNat 0 a

/-! ## The symbols of a Mach-O file (`cmd/internal/objfile/macho.go`) -/

/-- The fields of `macho.Symbol` that `symbols` reads. -/
structure macho_Symbol where
  Name : String
  Sect : Nat
  Value : Nat

/-- The fields of `macho.Section` that `symbols` reads. -/
structure macho_Section where
  Name : String
  Seg : String

/-- The fields of `macho.File` that `symbols` reads; `Symtab` is nil or holds
the list `Syms`. -/
structure macho_File where
  Symtab : Option (List macho_Symbol)
  Sections : List macho_Section

/-- The fields of `Sym` that `symbols` sets. -/
structure Sym where
  Name : String
  Addr : Nat
  Size : Int
  Code : Char
  deriving DecidableEq

/-- The `Code` that `symbols` gives the symbol `s`. -/
def macho_code (f : macho_File) (s : macho_Symbol) : Char :=
  if s.Sect = 0 then 'U'
  else if s.Sect ≤ f.Sections.length then
    match f.Sections[s.Sect - 1]? with
    | none => '?'
    | some sect =>
      let c1 : Char :=
        if sect.Seg = "__TEXT" then 'R' else if sect.Seg = "__DATA" then 'D' else '?'
      if sect.Seg ++ " " ++ sect.Name = "__TEXT __text" then 'T'
      else if sect.Seg ++ " " ++ sect.Name = "__DATA __bss"
          ∨ sect.Seg ++ " " ++ sect.Name = "__DATA __noptrbss" then 'B'
      else c1
  else '?'

/-- The method `machoFile.symbols`. The functions `sort.Sort` (on `uint64s`)
and `sort.Search` of the package `sort`, which is not among these sources, are
the parameters `sortf` and `search`. -/
def machoFile_symbols (sortf : List Nat → List Nat) (search : Nat → (Nat → Bool) → Nat)
    (f : macho_File) : Except String (List Sym) :=
  match f.Symtab with
  | none => Except.error "missing symbol table"
  | some syms =>
    let addrs := sortf (syms.map fun s => s.Value)
    Except.ok (syms.map fun s =>
      let i := search addrs.length (fun x => decide (addrs.getD x 0 > s.Value))
      let size : Int :=
        if i < addrs.length then wrap64 (((addrs.getD i 0 + 2 ^ 64 - s.Value) % 2 ^ 64 : Nat) : Int)
        else 0
      { Name := s.Name, Addr := s.Value, Size := size, Code := macho_code f s })

/-! ## Vocabulary of the statements about the dispatcher -/

/-- The array `cpus` after a sweep of the CPUs `0 .. numcpus - 1` that takes
one record from every ring that is not empty: the `tail` of such a ring is one
further, modulo 64; nothing else differs. -/
def swept (cpus : Int → cpu_t) (numcpus : Int) : Int → cpu_t := fun j =>
  if 0 ≤ j ∧ j < numcpus ∧ (cpus j).tstail ≠ (cpus j).tshead then
    { cpus j with tstail := ((cpus j).tstail + 1) % 64 }
  else cpus j

/-- The records at the `tail` of the rings of the CPUs `0 .. numcpus - 1` that
are not empty, each with its CPU, in the order of the CPUs. -/
def sweep_records (cpus : Int → cpu_t) (numcpus : Int) : List (Int × trapstore_t) :=
  (List.range numcpus.toNat).filterMap fun (c : Nat) =>
    if (cpus (c : Int)).tstail ≠ (cpus (c : Int)).tshead then
      some ((c : Int), (cpus (c : Int)).trapstore (cpus (c : Int)).tstail)
    else none

/-! ## Vocabulary of the statements about the keyboard daemon -/

/-- At the head of the loop of `kbd_daemon` the channel `reqc` is `cons.reqc`
exactly when the accumulator is not empty. -/
def KbdInv (s : KbdState) : Prop := s.reqc = true ↔ s.data ≠ []

/-! ## Concrete inputs for the dispatcher, the loader and the symbol table -/

/-- The array `cpus` with one record, a system call of process 1, in the ring
of CPU 0 and a full ring on CPU 1. -/
def ex_cpus : Int → cpu_t := fun c =>
  if c = 0 then
    { num := 0, trapstore := fun i => if i = 0 then ⟨SYSCALL, 1, 0, fun _ => 0⟩ else trapstore_t.zero,
      tshead := 1, tstail := 0 }
  else if c = 1 then { num := 1, trapstore := fun _ => trapstore_t.zero, tshead := 4, tstail := 5 }
  else cpu_t.zero

/-- A sort of `uint64s` that meets the contract of `sort.Sort`. -/
def ex_sort (l : List Nat) : List Nat := l.insertionSort (fun a b => a ≤ b)

/-- The search from `i` on over `k` indices for the first one at which `p`
holds. -/
def lin_search (p : Nat → Bool) : Nat → Nat → Nat
  | 0, i => i
  | k + 1, i => if p i then i else lin_search p k (i + 1)

/-- A search that meets the contract of `sort.Search`: the first index below
`n` at which `p` holds, `n` when there is none. -/
def ex_search (n : Nat) (p : Nat → Bool) : Nat := lin_search p n 0

/-- A Mach-O file with two undefined symbols, at the addresses 0 and
`2 ^ 63`. -/
def ex_macho : macho_File :=
  { Symtab := some [⟨"a", 0, 0⟩, ⟨"b", 0, 2 ^ 63⟩], Sections := [] }

/-- A Mach-O file with three symbols in its text section, two of them at one
address and not in the order of their addresses. -/
def ex_macho2 : macho_File :=
  { Symtab := some [⟨"f", 1, 0x2000⟩, ⟨"g", 1, 0x1000⟩, ⟨"h", 1, 0x2000⟩, ⟨"u", 0, 0x2040⟩],
    Sections := [⟨"__text", "__TEXT"⟩] }

/-- A loadable segment of three bytes, "abc", whose `vaddr` lies `0x10` bytes
into the third user page, which `ex_mem` does not map. -/
def ex_hdr : elf_phdr :=
  { etype := 1, flags := 4, vaddr := 0x2c8000002010, filesz := 3, memsz := 3,
    sdata := [0x61, 0x62, 0x63] }

/-- The segment of `ex_hdr` at the start of that page. -/
def ex_hdr_aligned : elf_phdr := { ex_hdr with vaddr := 0x2c8000002000 }

/-! ## The tables of a page table, and where a copy puts them -/

/-- The tables of the page table under the table `t` of depth `d`:
`Subtable m d t e g` when `g` is `t` itself (`e = d`) or is reached from `t`
through present entries without PS as a table of depth `e`. Tables of depth 1
hold leaf entries, which are not followed. -/
def Subtable (m : Mem) : Nat → Nat → Nat → Nat → Prop
  | 0, _, _, _ => False
  | 1, t, e, g => e = 1 ∧ g = t
  | d + 2, t, e, g => (e = d + 2 ∧ g = t) ∨
      ∃ i, i < 512 ∧ m t i &&& PTE_P ≠ 0 ∧ m t i &&& PTE_PS = 0 ∧
        Subtable m (d + 1) (m t i &&& PTE_ADDR) e g

/-- The tables under the table `t` of depth `d` are the allocator's pages
number `lo` up to `hi`, in the order in which `copy_pmap1` takes them: the
table of each present entry without PS is the first page of a range of its own,
the tables under it are the rest of that range, and the ranges of the entries
follow each other (`cut i` is where the range of entry `i` starts). -/
def Placed (heap : Nat → Nat) (m : Mem) : Nat → Nat → Nat → Nat → Prop
  | 0, _, _, _ => True
  | 1, _, _, _ => True
  | d + 2, t, lo, hi => ∃ cut : Nat → Nat, cut 0 = lo ∧ cut 512 = hi ∧
      ∀ i, i < 512 → cut i ≤ cut (i + 1) ∧
        (m t i &&& PTE_P ≠ 0 → m t i &&& PTE_PS = 0 →
          cut i < cut (i + 1) ∧ m t i &&& PTE_ADDR = heap (cut i) ∧
          Placed heap m (d + 1) (heap (cut i)) (cut i + 1) (cut (i + 1)))

/-- The number of the allocator's page at which `copy_pmap1`, having started
at page `lo`, begins the entry `i` of the table `src` of depth `d`. -/
def copy_cut (m : Mem) (d src lo i : Nat) : Nat :=
  lo + ((List.range i).map (entry_cost m d src)).sum

/-- The copy-on-write flag discipline on every entry of every table of the
family `V`, at every depth. -/
def CowAll (V : Nat → Nat → Prop) (m : Mem) : Prop :=
  ∀ d g i, V d g → i < 512 → CowOk (m g i)

/-- What an operation did to the page tables of the processes, from the
state `s` with the typed family `V` of their tables to the state `s2` with the
family `V2`: the allocator only advanced; `V2` holds `V`, and what it adds are
pages the allocator handed out in between; `V2` is typed and closed in the new
memory; the copy-on-write flag discipline carries over; and a frame that is
neither a table of `V` nor a page handed out in between holds what it held. -/
structure PtStep (V V2 : Nat → Nat → Prop) (s s2 : Phys) : Prop where
  heap_eq : s2.heap = s.heap
  lo : s.nalloc ≤ s2.nalloc
  sub : ∀ d g, V d g → V2 d g
  new : ∀ d g, V2 d g → V d g ∨ Window s.heap s.nalloc s2.nalloc g
  typed : Typed V2
  shape : Shape s2.mem V2
  cow : CowAll V s.mem → CowAll V2 s2.mem
  frame : ∀ g j, (∀ d, ¬ V d g) → ¬ Window s.heap s.nalloc s2.nalloc g → s2.mem g j = s.mem g j

/-- The rewrite of `mk_cow` without its bookkeeping: a callback that returns
`cow_entry` of the entry for the source and for the copy, and never panics. -/
def cow_all : Ptemod Unit := fun v st => some ((cow_entry v, cow_entry v), st)

/-! ## Program loading (`syscall.go`) -/

/-- The record `elf_t`. -/
structure elf_t where
  data : List Nat

def ELF_QUARTER : Int := 2
def ELF_HALF : Int := 4
def ELF_OFF : Int := 8
def ELF_ADDR : Int := 8
def ELF_XWORD : Int := 8

/-- The method `npheaders`; `none` for a fault or for the panic on the
magic number. -/
def elf_t.npheaders (e : elf_t) : Option Int :=
  match readn e.data ELF_HALF 0 with
  | none => none
  | some mag =>
    if mag ≠ 0x464c457f then none
    else readn e.data ELF_QUARTER 0x38

/-- The method `header`: the record it fills in for the header number `c`.
The slice expression `d[off:off + ret.filesz]` panics when its upper bound has
wrapped below `off`. -/
def elf_t.header (e : elf_t) (c : Int) : Option elf_phdr :=
  match e.npheaders with
  | none => none
  | some nph =>
    if c ≥ nph then none
    else
      let d := e.data
      match readn d ELF_OFF 0x20, readn d ELF_QUARTER 0x36 with
      | some hoff, some hsz =>
        let f := fun (w sz : Int) => readn d sz (wrap64 (wrap64 (hoff + wrap64 (c * hsz)) + w))
        match f 0x0 ELF_HALF, f 0x4 ELF_HALF, f 0x10 ELF_ADDR, f 0x20 ELF_XWORD,
            f 0x28 ELF_XWORD, f 0x8 ELF_OFF with
        | some etype, some flags, some vaddr, some filesz, some memsz, some off =>
          if off < 0 ∨ off ≥ d.length then none
          else if filesz < 0 ∨ wrap64 (off + filesz) ≥ d.length then none
          else if wrap64 (off + filesz) < off then none
          else
            some { etype := etype, flags := flags, vaddr := vaddr, filesz := filesz,
                   memsz := memsz, sdata := (d.drop off.toNat).take filesz.toNat }
        | _, _, _, _, _, _ => none
      | _, _ => none

/-- The method `headers`. The count that `npheaders` reads from two bytes is
not negative. -/
def elf_t.headers (e : elf_t) : Option (List elf_phdr) :=
  match e.npheaders with
  | none => none
  | some num => (List.range num.toNat).mapM fun (i : Nat) => e.header (i : Int)

/-- The method `entry`. -/
def elf_t.entry (e : elf_t) : Option Int := readn e.data ELF_ADDR 0x18

/-- The loop `for _, hdr := range e.headers()` of `elf_load` over the
headers left. -/
def elf_load_loop : Phys → proc_t → List elf_phdr → Option (Phys × proc_t)
  | s, p, [] => some (s, p)
  | s, p, hdr :: rest =>
    if hdr.etype = 1 ∧ hdr.vaddr ≥ (USERMIN : Int) then
      match elf_segload s p hdr with
      | none => none
      | some (s1, p1) => elf_load_loop s1 p1 rest
    else elf_load_loop s p rest

/-- The function `elf_load`. -/
def elf_load (s : Phys) (p : proc_t) (e : elf_t) : Option (Phys × proc_t) :=
  match e.headers with
  | none => none
  | some hdrs => elf_load_loop s p hdrs

def TF_FL_IF : Nat := 1 <<< 9

/-- The statements that `sys_test` and `sys_execv` have in common, from the
call of `pg_new` for the stack to `proc.sched_add(&tf)`, for the process record
`proc` that `proc_new` returned and the program `elf`: the stack page, the
trap frame, the copy of the kernel page table `kpmap()` (the table `kpm`), the
stack mapped below `stackva`, and the segments loaded. The record of the new
process is returned with the kernel state. -/
def exec_image (kpm : Nat) (k : Kernel) (proc : proc_t) (elf : elf_t) :
    Option (proc_t × Kernel) :=
  match pg_new k.phys proc.pages with
  | none => none
  | some (stack, p_stack, s1, pages1) =>
    let stackva : Int := wrap64 ((mkpg (VUSER + 1) 0 0 0 : Nat) : Int)
    match elf.entry with
    | none => none
    | some rip =>
      let ucseg : Nat := 4
      let udseg : Nat := 5
      let tf : Tf := fun i =>
        if i = TF_RSP then wrap64 (stackva - 8)
        else if i = TF_RIP then rip
        else if i = TF_RFLAGS then (TF_FL_IF : Int)
        else if i = TF_CS then ((ucseg <<< 3 ||| 3 : Nat) : Int)
        else if i = TF_SS then ((udseg <<< 3 ||| 3 : Nat) : Int)
        else 0
      match copy_pmap (none : Option (Ptemod Unit)) kpm (s1, pages1, ()) with
      | none => none
      | some (upmap, p_upmap, _, s2, pages2, _) =>
        let proc1 := { proc with pages := pages2, pmap := upmap, p_pmap := p_upmap }
        match page_insert s2 proc1 (bits64 (wrap64 (stackva - (PGSIZE : Int)))) stack p_stack
            (PTE_U ||| PTE_W) true with
        | none => none
        | some (s3, proc2) =>
          match elf_load s3 proc2 elf with
          | none => none
          | some (s4, proc3) =>
            let k2 := { k with
              phys := s4
              allprocs := fun n => if n = proc3.pid then some proc3 else k.allprocs n }
            some (proc3, sched_add k2 proc3 tf)

/-- The function `sys_test`: the record of the new process and the kernel
state after. The map `allbins` of the built-in programs, which is generated
outside these sources, is a parameter. -/
def sys_test (allbins : String → Option elf_t) (kpm : Nat) (k : Kernel) (program : String) :
    Option (proc_t × Kernel) :=
  let (proc, k1) := proc_new k (program ++ "test")
  match allbins program with
  | none => none
  | some elf => exec_image kpm k1 proc elf

/-- The function `sys_execv`: the value it returns, the record of the new
process when it made one, and the kernel state after. What the call of
`fs_open` and the loop over `fs_read` end with is the parameter `file`: the
error that makes `sys_execv` return, or the bytes `eobj` gathered from the
file. -/
def sys_execv (file : Except Int (List Nat)) (kpm : Nat) (k : Kernel) (path args : List String) :
    Option (Int × Option proc_t × Kernel) :=
  if args.length ≠ 0 then none
  else
    match file with
    | Except.error err => some (err, none, k)
    | Except.ok eobj =>
      let cmd := "/" ++ String.intercalate "/" path ++ String.intercalate " " args
      let (proc, k1) := proc_new k cmd
      match exec_image kpm k1 proc ⟨eobj⟩ with
      | none => none
      | some (proc1, k2) => some (0, some proc1, k2)

/-! ## The page tables that are reached -/

/-- The number of pages of the allocator that suffice for `elf_load_loop`
on the headers `hdrs`: four for each page of a segment it loads. -/
def elf_load_room : List elf_phdr → Nat
  | [] => 0
  | hdr :: rest =>
    (if hdr.etype = 1 ∧ hdr.vaddr ≥ (USERMIN : Int) then 4 * elf_segload_pages hdr else 0)
      + elf_load_room rest

/-- The number of pages of the allocator that suffice for `exec_image`: the
stack, the copy of the kernel page table `kpm`, three tables for the stack's
mapping, and the segments. -/
def exec_room (m : Mem) (kpm : Nat) (elf : elf_t) : Nat :=
  1 + (1 + tables_below m 4 kpm) + 3 +
    (match elf.headers with
     | some hdrs => elf_load_room hdrs
     | none => 0)

/-- What the theorems about the reached page tables ask of the state in
which the first process is made: the tables of the kernel page table `kpm` lie
inside the direct map, no entry of its tables breaks the copy-on-write flag
discipline, and the pages the allocator hands out next, up
to its `cap`-th, are page-aligned frames inside the direct map, pairwise
distinct, and none of them a table of the kernel page table. The kernel page
table may hold its tables at more than one depth, as it does with its
recursive slot. -/
structure BootOk (kpm cap : Nat) (s : Phys) : Prop where
  low : ∀ d g i, Subtable s.mem 4 kpm (d + 2) g → i < 512 → s.mem g i &&& PTE_P ≠ 0 →
    s.mem g i &&& PTE_PS = 0 → s.mem g i &&& PTE_ADDR < 2 ^ 39
  cow : ∀ d g i, Subtable s.mem 4 kpm d g → i < 512 → CowOk (s.mem g i)
  heap : GoodHeap s.heap (Subtable s.mem 4 kpm) s.nalloc cap

/-- The states reached from the state `s0` by program loading (`sys_test`,
`sys_execv`), `sys_fork` and `sys_pgfault`, each with the roots of the page
tables of the processes made so far. An operation may run on any kernel state
with the machine state reached, for any process record whose page table is one
of those made so far, as long as the allocator has pages left below its
`cap`-th for what the operation may take. -/
inductive PtReach (kpm cap : Nat) (s0 : Phys) : Phys → (Nat → Prop) → Prop
  | boot : PtReach kpm cap s0 s0 (fun _ => False)
  | test (k : Kernel) (R : Nat → Prop) (allbins : String → Option elf_t) (program : String)
      (elf : elf_t) (proc : proc_t) (k2 : Kernel) :
      PtReach kpm cap s0 k.phys R → allbins program = some elf →
      k.phys.nalloc + exec_room k.phys.mem kpm elf ≤ cap →
      sys_test allbins kpm k program = some (proc, k2) →
      PtReach kpm cap s0 k2.phys (fun pm => R pm ∨ pm = proc.pmap)
  | execv (k : Kernel) (R : Nat → Prop) (eobj : List Nat) (path args : List String)
      (ret : Int) (proc : proc_t) (k2 : Kernel) :
      PtReach kpm cap s0 k.phys R →
      k.phys.nalloc + exec_room k.phys.mem kpm ⟨eobj⟩ ≤ cap →
      sys_execv (Except.ok eobj) kpm k path args = some (ret, some proc, k2) →
      PtReach kpm cap s0 k2.phys (fun pm => R pm ∨ pm = proc.pmap)
  | fork (k : Kernel) (R : Nat → Prop) (parent : proc_t) (ptf : Tf) (pid : Int)
      (child : proc_t) (k2 : Kernel) :
      PtReach kpm cap s0 k.phys R → R parent.pmap →
      k.phys.nalloc + 1 + tables_below k.phys.mem 4 parent.pmap ≤ cap →
      sys_fork k parent ptf = some (pid, child, k2) →
      PtReach kpm cap s0 k2.phys (fun pm => R pm ∨ pm = child.pmap)
  | pgfault (k : Kernel) (R : Nat → Prop) (proc : proc_t) (pte : Nat × Nat) (fa : Nat)
      (proc1 : proc_t) (k2 : Kernel) :
      PtReach kpm cap s0 k.phys R → R proc.pmap →
      k.phys.nalloc + 4 ≤ cap →
      sys_pgfault k proc pte fa = some (proc1, k2) →
      PtReach kpm cap s0 k2.phys R

/-- The invariant of the reached states: the allocator only advanced, the
tables of the kernel page table hold what they held, and the tables of the
page tables of the processes form a typed family `V` of pages handed out since,
closed in the memory, with the copy-on-write flag discipline on every entry of
its tables. -/
structure PtInv (V : Nat → Nat → Prop) (kpm cap : Nat) (s0 s : Phys) (R : Nat → Prop) :
    Prop where
  heap_eq : s.heap = s0.heap
  lo : s0.nalloc ≤ s.nalloc
  kmem : ∀ d g j, Subtable s0.mem 4 kpm d g → s.mem g j = s0.mem g j
  vwin : ∀ d g, V d g → Window s0.heap s0.nalloc (min s.nalloc cap) g
  typed : Typed V
  roots : ∀ pm, R pm → V 4 pm
  shape : Shape s.mem V
  cow : CowAll V s.mem

/-! ## A concrete run: program loading, fork and the copy-on-write fault of the child -/

/-- A kernel state on the kernel page table `kern_mem`, with no process. -/
def kern_kernel : Kernel :=
  { phys := kern_phys, allprocs := fun _ => none, pid_cur := 0, procadd := [], runnable := [] }

/-- A program without segments: the magic number, entry 0, no program
headers. -/
def ex_elf : elf_t := ⟨[0x7f, 0x45, 0x4c, 0x46] ++ List.replicate 60 0⟩

/-- A map `allbins` with the one program `init`. -/
def ex_bins (name : String) : Option elf_t := if name = "init" then some ex_elf else none

/-- The address of the stack page that `exec_image` maps. -/
def ex_stackva : Nat := mkpg (VUSER + 1) 0 0 0 - PGSIZE

/-- A run on `kern_kernel`: `sys_test` loads `init`, the new process forks,
and the child takes a copy-on-write fault on its stack page. The result holds
what the allocator had handed out before the fork and before the fault, the
number of tables the fork copies, then the roots of the two page tables and the
leaf entries of the stack page in the parent and in the child, after the fork
and after the fault. -/
def ex_run : Option (List Nat) :=
  match sys_test ex_bins 0x1000 kern_kernel "init" with
  | none => none
  | some (parent, k1) =>
    match sys_fork k1 parent (fun _ => 0) with
    | none => none
    | some (_, child, k2) =>
      match walk_ro k2.phys.mem child.pmap ex_stackva with
      | some (some pte) =>
        match sys_pgfault k2 child pte ex_stackva with
        | none => none
        | some (child1, k3) =>
          some [k1.phys.nalloc, tables_below k1.phys.mem 4 parent.pmap, k2.phys.nalloc,
            parent.pmap, child.pmap, child1.pmap,
            (leaf_entry k2.phys.mem parent.pmap ex_stackva).getD 0,
            (leaf_entry k2.phys.mem child.pmap ex_stackva).getD 0,
            (leaf_entry k3.phys.mem parent.pmap ex_stackva).getD 0,
            (leaf_entry k3.phys.mem child1.pmap ex_stackva).getD 0]
      | _ => none

/-! ## The trap ring under interleaving -/

theorem tsnext_mod (n : Nat) : tsnext ((n : Int) % 64) = ((n + 1 : Nat) : Int) % 64 := by
  unfold tsnext maxtstore
  rw [Int.tmod_eq_emod (by omega) (by norm_num)]
  omega

theorem RingInv.init : RingInv RingSys.init := by
  constructor <;> simp [RingSys.init, cpu_t.zero, StubPc.rank]

theorem RingInv.enter {s : RingSys} (h : RingInv s) (tf : Tf) (pid cr2 : Int) :
    RingInv (stub_enter s tf pid cr2) := by
  obtain ⟨cpu, ⟨pc, tf0, pid0, cr0, hd, tl⟩, disp, enq, deq⟩ := s
  obtain ⟨h1, h2, h3, h4, h5, h6, h7, h8, h9, h10, h11, h12, h13, h14, h15⟩ := h
  cases pc <;> simp only [stub_enter] <;>
    first
    | exact ⟨h1, h2, h3, h4, h5, h6, h7, h8, h9, h10, h11, h12, h13, h14, h15⟩
    | (split <;> constructor <;> simp_all [StubPc.rank])

theorem setSlot_ne {st : Int → trapstore_t} {i j : Int} {r : trapstore_t} (h : j ≠ i) :
    setSlot st i r j = st j := by
  simp [setSlot, h]

theorem setSlot_eq {st : Int → trapstore_t} {i : Int} {r : trapstore_t} :
    setSlot st i r i = r := by
  simp [setSlot]

theorem live_setSlot {enq : List trapstore_t} {D : Nat} {store : Int → trapstore_t} {hd : Int}
    (r : trapstore_t) (hhd : hd = (enq.length : Int) % 64) (hroom : enq.length ≤ D + 62)
    (h5 : ∀ k, D ≤ k → k < enq.length →
      (enq.map trapstore_t.view)[k]? = some (store ((k : Int) % 64)).view) :
    ∀ k, D ≤ k → k < enq.length →
      (enq.map trapstore_t.view)[k]? = some (setSlot store hd r ((k : Int) % 64)).view := by
  intro k hk1 hk2
  rw [setSlot_ne (by omega)]
  exact h5 k hk1 hk2

theorem RingInv.stub_write {s : RingSys} (h : RingInv s) (r : trapstore_t) (pc : StubPc)
    (hpc0 : 2 ≤ s.stub.pc.rank)
    (g1 : 3 ≤ pc.rank → r.trapno = s.stub.tf TF_TRAP)
    (g2 : 4 ≤ pc.rank → r.pid = s.stub.pid)
    (g3 : 5 ≤ pc.rank → r.tf = s.stub.tf)
    (g4 : 6 ≤ pc.rank → s.stub.tf TF_TRAP = PGFAULT → r.faultaddr = s.stub.cr2) :
    RingInv { s with
      cpu := { s.cpu with trapstore := setSlot s.cpu.trapstore s.stub.head r }
      stub := { s.stub with pc := pc } } := by
  have hhd := h.stub_head (by omega)
  have hroom := h.stub_room hpc0
  have hE := h.head_eq
  exact
  { len := h.len, cap := h.cap, head_eq := h.head_eq, tail_eq := h.tail_eq
    live := live_setSlot r (hhd.trans hE) hroom h.live
    taken := h.taken
    stub_head := fun _ => hhd
    stub_room := fun _ => hroom
    stub_f1 := fun hr => by simpa [setSlot] using g1 hr
    stub_f2 := fun hr => by simpa [setSlot] using g2 hr
    stub_f3 := fun hr => by simpa [setSlot] using g3 hr
    stub_f4 := fun hr ht => by simpa [setSlot] using g4 hr ht
    disp_head := h.disp_head
    disp_tail := h.disp_tail
    disp_cur := h.disp_cur }

theorem RingInv.stub_nowrite {s : RingSys} (h : RingInv s) (hpc : s.stub.pc = StubPc.wfault)
    (hne : ¬ s.stub.tf TF_TRAP = PGFAULT) :
    RingInv { s with stub := { s.stub with pc := StubPc.commit } } := by
  have hr : s.stub.pc.rank = 5 := by rw [hpc]; rfl
  exact
  { len := h.len, cap := h.cap, head_eq := h.head_eq, tail_eq := h.tail_eq
    live := h.live
    taken := h.taken
    stub_head := fun _ => h.stub_head (by omega)
    stub_room := fun _ => h.stub_room (by omega)
    stub_f1 := fun _ => h.stub_f1 (by omega)
    stub_f2 := fun _ => h.stub_f2 (by omega)
    stub_f3 := fun _ => h.stub_f3 (by omega)
    stub_f4 := fun _ ht => absurd ht hne
    disp_head := h.disp_head
    disp_tail := h.disp_tail
    disp_cur := h.disp_cur }

theorem RingInv.stub {s : RingSys} (h : RingInv s) : RingInv (stub_step s) := by
  unfold stub_step
  cases hpc : s.stub.pc
  case idle => simpa [hpc] using h
  case halted => simpa [hpc] using h
  case wtrapno =>
    simp only [hpc]
    have hr : s.stub.pc.rank = 2 := by rw [hpc]; rfl
    have f1 := h.stub_f1; have f2 := h.stub_f2; have f3 := h.stub_f3; have f4 := h.stub_f4
    exact h.stub_write _ StubPc.wpid (by omega) (fun _ => rfl)
      (fun hr2 => by simp [StubPc.rank] at hr2) (fun hr2 => by simp [StubPc.rank] at hr2)
      (fun hr2 => by simp [StubPc.rank] at hr2)
  case wpid =>
    simp only [hpc]
    have hr : s.stub.pc.rank = 3 := by rw [hpc]; rfl
    have f1 := h.stub_f1 (by omega)
    exact h.stub_write _ StubPc.wtf (by omega) (fun _ => f1) (fun _ => rfl)
      (fun hr2 => by simp [StubPc.rank] at hr2) (fun hr2 => by simp [StubPc.rank] at hr2)
  case wtf =>
    simp only [hpc]
    have hr : s.stub.pc.rank = 4 := by rw [hpc]; rfl
    have f1 := h.stub_f1 (by omega)
    have f2 := h.stub_f2 (by omega)
    exact h.stub_write _ StubPc.wfault (by omega) (fun _ => f1) (fun _ => f2) (fun _ => rfl)
      (fun hr2 => by simp [StubPc.rank] at hr2)
  case wfault =>
    simp only [hpc]
    have hr : s.stub.pc.rank = 5 := by rw [hpc]; rfl
    have f1 := h.stub_f1 (by omega)
    have f2 := h.stub_f2 (by omega)
    have f3 := h.stub_f3 (by omega)
    split
    · exact h.stub_write _ StubPc.commit (by omega) (fun _ => f1) (fun _ => f2) (fun _ => f3)
        (fun _ _ => rfl)
    · rename_i hne
      exact h.stub_nowrite hpc hne
  case rdtail =>
    simp only [hpc]
    have hr : s.stub.pc.rank = 1 := by rw [hpc]; rfl
    have hhd := h.stub_head (by omega)
    split
    · exact
      { len := h.len, cap := h.cap, head_eq := h.head_eq, tail_eq := h.tail_eq
        live := h.live, taken := h.taken
        stub_head := fun hr2 => by simp [StubPc.rank] at hr2
        stub_room := fun hr2 => by simp [StubPc.rank] at hr2
        stub_f1 := fun hr2 => by simp [StubPc.rank] at hr2
        stub_f2 := fun hr2 => by simp [StubPc.rank] at hr2
        stub_f3 := fun hr2 => by simp [StubPc.rank] at hr2
        stub_f4 := fun hr2 => by simp [StubPc.rank] at hr2
        disp_head := h.disp_head, disp_tail := h.disp_tail, disp_cur := h.disp_cur }
    · rename_i hne
      have hroom : s.enq.length ≤ s.deq.length + 62 := by
        have h1 := h.len; have h2 := h.cap; have h3 := h.head_eq; have h4 := h.tail_eq
        rw [hhd, h3, tsnext_mod, h4] at hne
        omega
      exact
      { len := h.len, cap := h.cap, head_eq := h.head_eq, tail_eq := h.tail_eq
        live := h.live, taken := h.taken
        stub_head := fun _ => hhd
        stub_room := fun _ => hroom
        stub_f1 := fun hr2 => by simp [StubPc.rank] at hr2
        stub_f2 := fun hr2 => by simp [StubPc.rank] at hr2
        stub_f3 := fun hr2 => by simp [StubPc.rank] at hr2
        stub_f4 := fun hr2 => by simp [StubPc.rank] at hr2
        disp_head := h.disp_head, disp_tail := h.disp_tail, disp_cur := h.disp_cur }
  case commit =>
    simp only [hpc]
    have hr : s.stub.pc.rank = 6 := by rw [hpc]; rfl
    have hhd := h.stub_head (by omega)
    have hroom := h.stub_room (by omega)
    have f1 := h.stub_f1 (by omega)
    have f2 := h.stub_f2 (by omega)
    have f3 := h.stub_f3 (by omega)
    have f4 := h.stub_f4 (by omega)
    have h1 := h.len; have h3 := h.head_eq; have h4 := h.tail_eq
    have hrk : ∀ (b : Bool) (n : Nat), 1 ≤ n →
        n ≤ (if b = true then StubPc.idle else StubPc.halted).rank → False := by
      intro b n hn; cases b <;> simp [StubPc.rank] <;> omega
    have hview : (s.cpu.trapstore s.stub.head).view
        = (⟨s.stub.tf TF_TRAP, s.stub.pid, s.stub.cr2, s.stub.tf⟩ : trapstore_t).view := by
      simp only [trapstore_t.view, f1, f2, f3]
      by_cases ht : s.stub.tf TF_TRAP = PGFAULT
      · simp [ht, f4 ht]
      · simp [ht]
    exact
    { len := by simp only [List.length_append, List.length_singleton]; omega
      cap := by simp only [List.length_append, List.length_singleton]; omega
      head_eq := by
        simp only [List.length_append, List.length_singleton]
        rw [hhd, h3, tsnext_mod]
      tail_eq := h.tail_eq
      live := by
        intro k hk1 hk2
        simp only [List.length_append, List.length_singleton] at hk2
        by_cases hk : k < s.enq.length
        · rw [List.map_append, List.getElem?_append_left (by simpa using hk)]
          exact h.live k hk1 hk
        · have hk3 : k = s.enq.length := by omega
          subst hk3
          rw [List.map_append, List.getElem?_append_right (by simp)]
          simp only [List.length_map, Nat.sub_self, List.map_cons, List.map_nil,
            List.getElem?_cons_zero]
          rw [← h3, ← hhd, hview]
      taken := by
        rw [List.map_append, List.take_append_of_le_length (by simpa using h1)]
        exact h.taken
      stub_head := fun hr2 => (hrk _ 1 (by decide) hr2).elim
      stub_room := fun hr2 => (hrk _ 2 (by decide) hr2).elim
      stub_f1 := fun hr2 => (hrk _ 3 (by decide) hr2).elim
      stub_f2 := fun hr2 => (hrk _ 4 (by decide) hr2).elim
      stub_f3 := fun hr2 => (hrk _ 5 (by decide) hr2).elim
      stub_f4 := fun hr2 => (hrk _ 6 (by decide) hr2).elim
      disp_head := fun hp hne => by
        have := h.disp_head hp hne
        simp only [List.length_append, List.length_singleton]; omega
      disp_tail := fun hp => by
        have := h.disp_tail hp
        simp only [List.length_append, List.length_singleton]
        exact ⟨this.1, by omega⟩
      disp_cur := fun hp => by
        have hlt := (h.disp_tail (Or.inr hp)).2
        rw [List.map_append, List.getElem?_append_left (by simpa using hlt)]
        exact h.disp_cur hp }

theorem RingInv.trap (handlers : Int → Bool) {s : RingSys} (h : RingInv s) :
    RingInv (trap_step handlers s) := by
  unfold trap_step
  have h1 := h.len; have h2 := h.cap; have h3 := h.head_eq; have h4 := h.tail_eq
  cases hpc : s.disp.pc
  case halted => simpa [hpc] using h
  case rdhead =>
    simp only [hpc]
    exact
    { len := h.len, cap := h.cap, head_eq := h.head_eq, tail_eq := h.tail_eq
      live := h.live, taken := h.taken
      stub_head := h.stub_head, stub_room := h.stub_room
      stub_f1 := h.stub_f1, stub_f2 := h.stub_f2, stub_f3 := h.stub_f3, stub_f4 := h.stub_f4
      disp_head := fun _ hne => by
        have hne2 : ¬ s.cpu.tshead = s.cpu.tstail := hne
        show s.deq.length < s.enq.length
        rw [h3, h4] at hne2
        by_contra hc
        have : s.deq.length = s.enq.length := by omega
        rw [this] at hne2
        exact hne2 rfl
      disp_tail := fun hp => by simp at hp
      disp_cur := fun hp => by simp at hp }
  case rdtail =>
    simp only [hpc]
    split
    · exact
      { len := h.len, cap := h.cap, head_eq := h.head_eq, tail_eq := h.tail_eq
        live := h.live, taken := h.taken
        stub_head := h.stub_head, stub_room := h.stub_room
        stub_f1 := h.stub_f1, stub_f2 := h.stub_f2, stub_f3 := h.stub_f3, stub_f4 := h.stub_f4
        disp_head := fun hp => by simp at hp
        disp_tail := fun hp => by simp at hp
        disp_cur := fun hp => by simp at hp }
    · rename_i hne
      have hlt := h.disp_head hpc (fun hh => hne hh.symm)
      exact
      { len := h.len, cap := h.cap, head_eq := h.head_eq, tail_eq := h.tail_eq
        live := h.live, taken := h.taken
        stub_head := h.stub_head, stub_room := h.stub_room
        stub_f1 := h.stub_f1, stub_f2 := h.stub_f2, stub_f3 := h.stub_f3, stub_f4 := h.stub_f4
        disp_head := fun hp => by simp at hp
        disp_tail := fun _ => ⟨rfl, hlt⟩
        disp_cur := fun hp => by simp at hp }
  case copy =>
    simp only [hpc]
    have ht := h.disp_tail (Or.inl hpc)
    exact
    { len := h.len, cap := h.cap, head_eq := h.head_eq, tail_eq := h.tail_eq
      live := h.live, taken := h.taken
      stub_head := h.stub_head, stub_room := h.stub_room
      stub_f1 := h.stub_f1, stub_f2 := h.stub_f2, stub_f3 := h.stub_f3, stub_f4 := h.stub_f4
      disp_head := fun hp => by simp at hp
      disp_tail := fun _ => ht
      disp_cur := fun _ => by
        have := h.live s.deq.length (le_refl _) ht.2
        rw [this]
        simp only [ht.1, h4] }
  case advance =>
    simp only [hpc]
    have ht := h.disp_tail (Or.inr hpc)
    have hc := h.disp_cur hpc
    have hpc2 : ∀ b : Bool, (if b = true then TrapPc.rdhead else TrapPc.halted) ≠ TrapPc.rdtail ∧
        (if b = true then TrapPc.rdhead else TrapPc.halted) ≠ TrapPc.copy ∧
        (if b = true then TrapPc.rdhead else TrapPc.halted) ≠ TrapPc.advance := by
      intro b; cases b <;> simp
    exact
    { len := by simp only [List.length_append, List.length_singleton]; omega
      cap := by simp only [List.length_append, List.length_singleton]; omega
      head_eq := h.head_eq
      tail_eq := by
        simp only [List.length_append, List.length_singleton]
        rw [ht.1, h4, tsnext_mod]
      live := fun k hk1 hk2 => by
        simp only [List.length_append, List.length_singleton] at hk1
        exact h.live k (by omega) hk2
      taken := by
        simp only [List.length_append, List.length_singleton, List.map_append, List.map_cons,
          List.map_nil]
        rw [List.take_succ, hc, ← h.taken]
        rfl
      stub_head := h.stub_head
      stub_room := fun hr => by
        have := h.stub_room hr
        simp only [List.length_append, List.length_singleton]; omega
      stub_f1 := h.stub_f1, stub_f2 := h.stub_f2, stub_f3 := h.stub_f3, stub_f4 := h.stub_f4
      disp_head := fun hp => ((hpc2 _).1 hp).elim
      disp_tail := fun hp => by
        rcases hp with hp | hp
        · exact ((hpc2 _).2.1 hp).elim
        · exact ((hpc2 _).2.2 hp).elim
      disp_cur := fun hp => ((hpc2 _).2.2 hp).elim }

theorem RingInv.step (handlers : Int → Bool) {s : RingSys} (h : RingInv s) (a : Action) :
    RingInv (s.step handlers a) := by
  cases a
  · exact h.enter _ _ _
  · exact h.stub
  · exact h.trap handlers

theorem RingInv.foldl (handlers : Int → Bool) (sched : List Action) :
    ∀ s : RingSys, RingInv s → RingInv (sched.foldl (RingSys.step handlers) s) := by
  induction sched with
  | nil => intro s h; exact h
  | cons a rest ih => intro s h; exact ih _ (h.step handlers a)

theorem RingInv.run (handlers : Int → Bool) (sched : List Action) :
    RingInv (RingSys.run handlers sched) :=
  RingInv.foldl handlers sched _ RingInv.init

theorem step_store (handlers : Int → Bool) (s : RingSys) (a : Action) (i : Int) :
    (s.step handlers a).cpu.trapstore i = s.cpu.trapstore i ∨
      (2 ≤ s.stub.pc.rank ∧ i = s.stub.head) := by
  cases a with
  | interrupt tf pid cr2 =>
    left
    simp only [RingSys.step, stub_enter]
    split
    · split <;> rfl
    · rfl
  | trap =>
    left
    simp only [RingSys.step, trap_step]
    split
    · rfl
    · rfl
    · split <;> rfl
    · rfl
    · rfl
  | stub =>
    by_cases hi : i = s.stub.head
    · by_cases hr : 2 ≤ s.stub.pc.rank
      · exact Or.inr ⟨hr, hi⟩
      · left
        simp only [RingSys.step, stub_step]
        cases hpc : s.stub.pc <;> simp only [hpc, StubPc.rank] at hr ⊢ <;>
          first | rfl | omega | (split <;> rfl)
    · left
      simp only [RingSys.step, stub_step]
      cases hpc : s.stub.pc <;> simp only [] <;>
        first | rfl | (split <;> rfl) | (simp only [setSlot, if_neg hi]) |
          (split <;> simp only [setSlot, if_neg hi])

theorem step_head (handlers : Int → Bool) (s : RingSys) (a : Action) :
    (s.step handlers a).cpu.tshead = s.cpu.tshead ∨
      ((s.step handlers a).enq.length = s.enq.length + 1 ∧ (s.step handlers a).deq = s.deq) := by
  cases a with
  | interrupt tf pid cr2 =>
    left
    simp only [RingSys.step, stub_enter]
    split
    · split <;> rfl
    · rfl
  | trap =>
    left
    simp only [RingSys.step, trap_step]
    split
    · rfl
    · rfl
    · split <;> rfl
    · rfl
    · rfl
  | stub =>
    simp only [RingSys.step, stub_step]
    cases hpc : s.stub.pc
    case commit => right; exact ⟨by simp, rfl⟩
    case rdtail => left; dsimp only; split <;> rfl
    case wfault => left; dsimp only; split <;> rfl
    all_goals (left; rfl)

/-- C1: from `head = tail = 0` and under every interleaving of the statements
of the interrupt stub and of the dispatcher, `0 ≤ head, tail < 64`; the ring
holds `(head - tail) mod 64` records, at most 63; a step that moves `head` (the
commit of an enqueue) never makes it equal to `tail`; and no step changes a
slot that holds a record not yet taken by the dispatcher. -/
theorem C1_ring_indices_in_range (handlers : Int → Bool) (sched : List Action) (a : Action) :
    (0 ≤ (RingSys.run handlers sched).cpu.tshead ∧ (RingSys.run handlers sched).cpu.tshead < 64) ∧
    (0 ≤ (RingSys.run handlers sched).cpu.tstail ∧ (RingSys.run handlers sched).cpu.tstail < 64) ∧
    ((RingSys.run handlers sched).cpu.tshead - (RingSys.run handlers sched).cpu.tstail) % 64
      = ((RingSys.run handlers sched).inflight : Int) ∧
    (RingSys.run handlers sched).inflight ≤ 63 ∧
    (((RingSys.run handlers sched).step handlers a).cpu.tshead
        ≠ (RingSys.run handlers sched).cpu.tshead →
      ((RingSys.run handlers sched).step handlers a).cpu.tshead
        ≠ ((RingSys.run handlers sched).step handlers a).cpu.tstail) ∧
    (∀ j : Nat, j < (RingSys.run handlers sched).inflight →
      ((RingSys.run handlers sched).step handlers a).cpu.trapstore
          (((RingSys.run handlers sched).cpu.tstail + j) % 64)
        = (RingSys.run handlers sched).cpu.trapstore
          (((RingSys.run handlers sched).cpu.tstail + j) % 64)) := by
  have h := RingInv.run handlers sched
  have h2 := h.step handlers a
  generalize RingSys.run handlers sched = s at h h2
  have e1 := h.len; have e2 := h.cap; have e3 := h.head_eq; have e4 := h.tail_eq
  unfold RingSys.inflight
  refine ⟨by omega, by omega, by omega, by omega, ?_, ?_⟩
  · intro hne
    rcases step_head handlers s a with hh | ⟨hE, hD⟩
    · exact absurd hh hne
    · have f1 := h2.len; have f2 := h2.cap; have f3 := h2.head_eq; have f4 := h2.tail_eq
      rw [hD] at f1 f2 f4
      rw [f3, f4, hE]
      omega
  · intro j hj
    rcases step_store handlers s a ((s.cpu.tstail + j) % 64) with hs | ⟨hr, hi⟩
    · exact hs
    · have e5 := h.stub_head (by omega)
      have e6 := h.stub_room hr
      omega

/-- C2: under every interleaving, the records taken by the dispatcher (trap
number, pid, trap frame, and the fault address of a page fault) are, in order,
the first records whose enqueue the stub committed. -/
theorem C2_ring_fifo (handlers : Int → Bool) (sched : List Action) :
    (RingSys.run handlers sched).deq.map trapstore_t.view
      <+: (RingSys.run handlers sched).enq.map trapstore_t.view := by
  have h := RingInv.run handlers sched
  rw [h.taken]
  exact List.take_prefix _ _

/-! ## Bit-level facts about page-table entries -/

theorem PTE_ADDR_eq : PTE_ADDR = (2 ^ 52 - 1) <<< 12 := by decide

theorem testBit_PTE_ADDR (i : Nat) :
    PTE_ADDR.testBit i = (decide (12 ≤ i) && decide (i < 64)) := by
  rw [PTE_ADDR_eq, Nat.testBit_shiftLeft, Nat.testBit_two_pow_sub_one]
  by_cases h : 12 ≤ i
  · simp only [ge_iff_le, h, decide_True, Bool.true_and, decide_eq_decide]; omega
  · simp [h]

theorem testBit_of_aligned {p : Nat} (h : p % 4096 = 0) (i : Nat) (hi : i < 12) :
    p.testBit i = false := by
  have : p = (p / 4096) <<< 12 := by
    rw [Nat.shiftLeft_eq]; omega
  rw [this, Nat.testBit_shiftLeft]
  simp only [ge_iff_le, Bool.and_eq_false_imp, decide_eq_true_eq]
  omega

theorem testBit_of_lt {p : Nat} (n i : Nat) (h : p < 2 ^ n) (hi : n ≤ i) : p.testBit i = false :=
  Nat.testBit_lt_two_pow (lt_of_lt_of_le h (Nat.pow_le_pow_right (by norm_num) hi))

theorem and_PTE_ADDR_mod (e : Nat) : (e &&& PTE_ADDR) % 4096 = 0 := by
  have : (e &&& PTE_ADDR) % 2 ^ 12 = 0 := by
    rw [← Nat.and_pow_two_sub_one_eq_mod]
    apply Nat.eq_of_testBit_eq
    intro i
    simp only [Nat.testBit_land, testBit_PTE_ADDR, Nat.testBit_two_pow_sub_one, Nat.zero_testBit]
    by_cases h : 12 ≤ i
    · have : ¬ i < 12 := by omega
      simp [this]
    · simp [h]
  simpa using this

theorem and_PTE_ADDR_lt (e : Nat) : e &&& PTE_ADDR < 2 ^ 64 :=
  lt_of_le_of_lt Nat.and_le_right (by decide)

theorem rounddown_addr (e : Nat) : rounddown (e &&& PTE_ADDR) PGSIZE = e &&& PTE_ADDR := by
  have h := and_PTE_ADDR_mod e
  have : PGSIZE = 4096 := by decide
  simp only [rounddown, this, h, Nat.sub_zero]

theorem pe2pg_of_lt {e : Nat} (h : e &&& PTE_ADDR < 2 ^ 39) : pe2pg e = some (e &&& PTE_ADDR) := by
  have h2 : ¬ (e &&& PTE_ADDR ≥ 1 <<< 39) := by
    have : (1 : Nat) <<< 39 = 2 ^ 39 := by decide
    rw [this]; omega
  simp only [pe2pg, dmap, h2, if_false, rounddown_addr]

theorem pe2pg_of_ge {e : Nat} (h : 2 ^ 39 ≤ e &&& PTE_ADDR) : pe2pg e = none := by
  have h2 : (e &&& PTE_ADDR ≥ 1 <<< 39) := by
    have : (1 : Nat) <<< 39 = 2 ^ 39 := by decide
    rw [this]; omega
  simp only [pe2pg, dmap, h2, if_true]

/-- The address field of an entry made of a page-aligned frame and flag
bits below bit 12. -/
theorem entry_addr {p fl : Nat} (hp : p % 4096 = 0) (hlt : p < 2 ^ 64) (hfl : fl < 4096) :
    (p ||| fl) &&& PTE_ADDR = p := by
  apply Nat.eq_of_testBit_eq
  intro i
  simp only [Nat.testBit_land, Nat.testBit_lor, testBit_PTE_ADDR]
  by_cases h1 : 12 ≤ i
  · by_cases h2 : i < 64
    · simp [h1, h2, testBit_of_lt 12 i hfl h1]
    · simp [h1, h2, testBit_of_lt 64 i hlt (by omega)]
  · simp [h1, testBit_of_aligned hp i (by omega)]

/-- A flag bit of an entry made of a page-aligned frame and flag bits. -/
theorem entry_bit {p fl : Nat} (k : Nat) (hk : k < 12) (hp : p % 4096 = 0) :
    (p ||| fl) &&& 2 ^ k = fl &&& 2 ^ k := by
  apply Nat.eq_of_testBit_eq
  intro i
  simp only [Nat.testBit_land, Nat.testBit_lor, Nat.testBit_two_pow]
  by_cases h : k = i
  · subst h; simp [testBit_of_aligned hp k hk]
  · simp [h]

theorem PTE_P_eq : PTE_P = 2 ^ 0 := by decide
theorem PTE_W_eq : PTE_W = 2 ^ 1 := by decide
theorem PTE_U_eq : PTE_U = 2 ^ 2 := by decide
theorem PTE_PS_eq : PTE_PS = 2 ^ 7 := by decide
theorem PTE_COW_eq : PTE_COW = 2 ^ 9 := by decide
theorem PTE_FLAGS_eq : PTE_FLAGS = 2 ^ 5 - 1 := by decide

theorem flags_lt (c : Nat) : c &&& PTE_FLAGS < 4096 :=
  lt_of_le_of_lt Nat.and_le_right (by decide)

theorem flags_bit (c k : Nat) (hk : k < 5) : (c &&& PTE_FLAGS) &&& 2 ^ k = c &&& 2 ^ k := by
  apply Nat.eq_of_testBit_eq
  intro i
  simp only [Nat.testBit_land, PTE_FLAGS_eq, Nat.testBit_two_pow_sub_one, Nat.testBit_two_pow]
  by_cases h : k = i
  · subst h; simp [hk]
  · simp [h]

theorem flags_bit_high (c k : Nat) (hk : 5 ≤ k) : (c &&& PTE_FLAGS) &&& 2 ^ k = 0 := by
  apply Nat.eq_of_testBit_eq
  intro i
  simp only [Nat.testBit_land, PTE_FLAGS_eq, Nat.testBit_two_pow_sub_one, Nat.testBit_two_pow,
    Nat.zero_testBit]
  by_cases h : k = i
  · subst h
    have : ¬ k < 5 := by omega
    simp [this]
  · simp [h]

/-- The entry `copy_pmap1` installs for a table: same present bit as the
entry it copies, no PS, and the new table as its address. -/
theorem copied_entry {p c : Nat} (hp : p % 4096 = 0) (hlt : p < 2 ^ 39) :
    (p ||| (c &&& PTE_FLAGS)) &&& PTE_ADDR = p ∧
    (p ||| (c &&& PTE_FLAGS)) &&& PTE_P = c &&& PTE_P ∧
    (p ||| (c &&& PTE_FLAGS)) &&& PTE_PS = 0 := by
  refine ⟨entry_addr hp (lt_trans hlt (by decide)) (flags_lt c), ?_, ?_⟩
  · rw [PTE_P_eq, entry_bit 0 (by decide) hp, flags_bit c 0 (by decide)]
  · rw [PTE_PS_eq, entry_bit 7 (by decide) hp, flags_bit_high c 7 (by decide)]

theorem aligned_iff (pt : Nat) : pt &&& (PGSIZE - 1) = 0 ↔ pt % 4096 = 0 := by
  have : PGSIZE - 1 = 2 ^ 12 - 1 := by decide
  rw [this, Nat.and_pow_two_sub_one_eq_mod]

/-! ## `copy_pmap1`: the copy is faithful -/

theorem sum_map_zero (l : List Nat) : (l.map fun _ => 0).sum = 0 := by
  induction l with
  | nil => rfl
  | cons a l ih => simp [ih]

theorem tables_below_eq_sum (m : Mem) (d src : Nat) :
    tables_below m d src = ((List.range 512).map (entry_cost m d src)).sum := by
  match d with
  | 0 =>
    have : entry_cost m 0 src = fun _ => 0 := by funext i; rfl
    rw [this, sum_map_zero]; rfl
  | 1 =>
    have : entry_cost m 1 src = fun _ => 0 := by funext i; rfl
    rw [this, sum_map_zero]; rfl
  | d + 2 => rfl

theorem cost_sum_succ (m : Mem) (d src n : Nat) :
    ((List.range (n + 1)).map (entry_cost m d src)).sum
      = ((List.range n).map (entry_cost m d src)).sum + entry_cost m d src n := by
  rw [List.range_succ, List.map_append, List.sum_append]
  simp

theorem cost_sum_mono (m : Mem) (d src : Nat) {a b : Nat} (h : a ≤ b) :
    ((List.range a).map (entry_cost m d src)).sum
      ≤ ((List.range b).map (entry_cost m d src)).sum := by
  induction h with
  | refl => exact le_refl _
  | step _ ih => rw [cost_sum_succ]; omega

theorem Window.window_mono {heap : Nat → Nat} {lo hi lo2 hi2 p : Nat} (h : Window heap lo hi p)
    (h1 : lo2 ≤ lo) (h2 : hi ≤ hi2) : Window heap lo2 hi2 p := by
  obtain ⟨k, hk1, hk2, hk3⟩ := h
  exact ⟨k, by omega, by omega, hk3⟩

theorem IsCopy_iff (c : Nat → Nat) (A : Nat → Prop) (m : Mem) (d src dst : Nat) (hd : 1 ≤ d) :
    IsCopy c A m d src dst ↔ ∀ i, i < 512 → EntryCopy c A m d src dst i := by
  match d with
  | 0 => omega
  | 1 => exact Iff.rfl
  | d + 2 => exact Iff.rfl

theorem IsCopy.copy_mono {c : Nat → Nat} {A B : Nat → Prop} {m : Mem} (hAB : ∀ p, A p → B p) :
    ∀ (d src dst : Nat), IsCopy c A m d src dst → IsCopy c B m d src dst
  | 0, _, _, _ => trivial
  | 1, _, _, h => h
  | d + 2, src, dst, h => by
    intro i hi
    obtain ⟨h1, h2, h3⟩ := h i hi
    refine ⟨h1, h2, fun hp hps => ?_⟩
    obtain ⟨p, hA, hal, hlt, hval, hsub⟩ := h3 hp hps
    exact ⟨p, hAB p hA, hal, hlt, hval, IsCopy.copy_mono hAB (d + 1) _ _ hsub⟩

theorem EntryCopy.entry_mono {c : Nat → Nat} {A B : Nat → Prop} {m : Mem} (hAB : ∀ p, A p → B p)
    (d src dst i : Nat) (h : EntryCopy c A m d src dst i) : EntryCopy c B m d src dst i := by
  match d with
  | 0 => trivial
  | 1 => exact h
  | d + 2 =>
    obtain ⟨h1, h2, h3⟩ := h
    refine ⟨h1, h2, fun hp hps => ?_⟩
    obtain ⟨p, hA, hal, hlt, hval, hsub⟩ := h3 hp hps
    exact ⟨p, hAB p hA, hal, hlt, hval, IsCopy.copy_mono hAB (d + 1) _ _ hsub⟩

/-- A copy that is complete stays one when the memory changes only outside
the tables of the copy, and at entries of the source that the rewrite `c`
changes. -/
theorem IsCopy.copy_stable {c : Nat → Nat} {A : Nat → Prop} {V : Nat → Nat → Prop} {m1 m2 : Mem}
    (hsh : Shape m1 V)
    (hA : ∀ f i, A f → m2 f i = m1 f i)
    (hinner : ∀ f i k, V (k + 2) f → m2 f i = m1 f i)
    (hleaf : ∀ f i, V 1 f → i < 512 →
      m2 f i = m1 f i ∨ (m1 f i &&& PTE_P ≠ 0 ∧ m2 f i = c (m1 f i))) :
    ∀ (d src dst : Nat), V d src → (∀ i, i < 512 → m2 dst i = m1 dst i) →
      IsCopy c A m1 d src dst → IsCopy c A m2 d src dst
  | 0, _, _, _, _, _ => trivial
  | 1, src, dst, hV, hdst, h => by
    intro i hi
    obtain ⟨h1, h2⟩ := h i hi
    have hsrc : m2 src i = m1 src i := by
      rcases hleaf src i hV hi with e | ⟨hp, e⟩
      · exact e
      · rw [e, (h2 hp).2]
    rw [hsrc, hdst i hi]
    exact ⟨h1, h2⟩
  | d + 2, src, dst, hV, hdst, h => by
    intro i hi
    obtain ⟨h1, h2, h3⟩ := h i hi
    rw [hinner src i d hV, hdst i hi]
    refine ⟨h1, h2, fun hp hps => ?_⟩
    obtain ⟨p, hAp, hal, hlt, hval, hsub⟩ := h3 hp hps
    refine ⟨p, hAp, hal, hlt, hval, ?_⟩
    exact IsCopy.copy_stable hsh hA hinner hleaf (d + 1) _ p (hsh d src i hV hi hp hps).2
      (fun j _ => hA p j hAp) hsub

theorem EntryCopy.entry_stable {c : Nat → Nat} {A : Nat → Prop} {V : Nat → Nat → Prop} {m1 m2 : Mem}
    (hsh : Shape m1 V)
    (hA : ∀ f i, A f → m2 f i = m1 f i)
    (hinner : ∀ f i k, V (k + 2) f → m2 f i = m1 f i)
    (hleaf : ∀ f i, V 1 f → i < 512 →
      m2 f i = m1 f i ∨ (m1 f i &&& PTE_P ≠ 0 ∧ m2 f i = c (m1 f i)))
    (d src dst i : Nat) (hi : i < 512) (hV : V d src) (hdst : m2 dst i = m1 dst i)
    (h : EntryCopy c A m1 d src dst i) : EntryCopy c A m2 d src dst i := by
  match d with
  | 0 => trivial
  | 1 =>
    obtain ⟨h1, h2⟩ := h
    have hsrc : m2 src i = m1 src i := by
      rcases hleaf src i hV hi with e | ⟨hp, e⟩
      · exact e
      · rw [e, (h2 hp).2]
    show (_ → _) ∧ (_ → _)
    rw [hsrc, hdst]
    exact ⟨h1, h2⟩
  | d + 2 =>
    obtain ⟨h1, h2, h3⟩ := h
    show (_ → _) ∧ (_ → _ → _) ∧ (_ → _ → _)
    rw [hinner src i d hV, hdst]
    refine ⟨h1, h2, fun hp hps => ?_⟩
    obtain ⟨p, hAp, hal, hlt, hval, hsub⟩ := h3 hp hps
    refine ⟨p, hAp, hal, hlt, hval, ?_⟩
    exact IsCopy.copy_stable hsh hA hinner hleaf (d + 1) _ p (hsh d src i hV hi hp hps).2
      (fun j _ => hA p j hAp) hsub

theorem Frame.frame_refl (c : Nat → Nat) (V : Nat → Nat → Prop) (W : Nat → Prop)
    (D : Nat → Nat → Prop) (m : Mem) : Frame c V W D m m :=
  fun _ _ => Or.inl rfl

theorem Frame.frame_mono {c : Nat → Nat} {V : Nat → Nat → Prop} {W W2 : Nat → Prop}
    {D D2 : Nat → Nat → Prop} {m0 m : Mem} (h : Frame c V W D m0 m)
    (hW : ∀ f, W f → W2 f) (hD : ∀ f i, D f i → D2 f i) : Frame c V W2 D2 m0 m := by
  intro f i
  rcases h f i with e | w | d | l
  · exact Or.inl e
  · exact Or.inr (Or.inl (hW f w))
  · exact Or.inr (Or.inr (Or.inl (hD f i d)))
  · exact Or.inr (Or.inr (Or.inr l))

theorem Frame.mono2 {c : Nat → Nat} {V : Nat → Nat → Prop} {W W2 : Nat → Prop}
    {D D2 : Nat → Nat → Prop} {m0 m : Mem} (h : Frame c V W D m0 m)
    (hW : ∀ f, W f → W2 f) (hD : ∀ f i, D f i → W2 f ∨ D2 f i) : Frame c V W2 D2 m0 m := by
  intro f i
  rcases h f i with e | w | d | l
  · exact Or.inl e
  · exact Or.inr (Or.inl (hW f w))
  · rcases hD f i d with w | d2
    · exact Or.inr (Or.inl w)
    · exact Or.inr (Or.inr (Or.inl d2))
  · exact Or.inr (Or.inr (Or.inr l))

/-- Two changes in a row. -/
theorem Frame.frame_trans {c : Nat → Nat} {V : Nat → Nat → Prop} {W : Nat → Prop}
    {D : Nat → Nat → Prop} {m0 m1 m2 : Mem} (hidem : ∀ v, c (c v) = c v)
    (h1 : Frame c V W D m0 m1) (h2 : Frame c V W D m1 m2) : Frame c V W D m0 m2 := by
  intro f i
  rcases h2 f i with e | w | d | ⟨hv, hi, hp, e⟩
  · rw [e]; exact h1 f i
  · exact Or.inr (Or.inl w)
  · exact Or.inr (Or.inr (Or.inl d))
  · rcases h1 f i with e1 | w | d | ⟨_, _, hp1, e1⟩
    · rw [e1] at hp e
      exact Or.inr (Or.inr (Or.inr ⟨hv, hi, hp, e⟩))
    · exact Or.inr (Or.inl w)
    · exact Or.inr (Or.inr (Or.inl d))
    · rw [e1, hidem] at e
      exact Or.inr (Or.inr (Or.inr ⟨hv, hi, hp1, e⟩))

/-- Tables above the leaf level are not changed. -/
theorem Frame.frame_inner {c : Nat → Nat} {V : Nat → Nat → Prop} {W : Nat → Prop}
    {D : Nat → Nat → Prop} {m0 m : Mem} (h : Frame c V W D m0 m)
    (hsep : (∀ v, c v = v) ∨ (∀ f d, V 1 f → ¬ V (d + 2) f))
    (hW : ∀ f k, W f → ¬ V k f) (hD : ∀ f i k, D f i → ¬ V k f) :
    ∀ f i k, V (k + 2) f → m f i = m0 f i := by
  intro f i k hV
  rcases h f i with e | w | d | ⟨hv, _, _, e⟩
  · exact e
  · exact absurd hV (hW f _ w)
  · exact absurd hV (hD f i _ d)
  · rcases hsep with hid | hs
    · rw [e, hid]
    · exact absurd hV (hs f k hv)

/-- Tables of leaf entries change only by the rewrite. -/
theorem Frame.leaf {c : Nat → Nat} {V : Nat → Nat → Prop} {W : Nat → Prop}
    {D : Nat → Nat → Prop} {m0 m : Mem} (h : Frame c V W D m0 m)
    (hW : ∀ f k, W f → ¬ V k f) (hD : ∀ f i k, D f i → ¬ V k f) :
    ∀ f i, V 1 f → i < 512 →
      m f i = m0 f i ∨ (m0 f i &&& PTE_P ≠ 0 ∧ m f i = c (m0 f i)) := by
  intro f i hV _
  rcases h f i with e | w | d | ⟨_, _, hp, e⟩
  · exact Or.inl e
  · exact absurd hV (hW f _ w)
  · exact absurd hV (hD f i _ d)
  · exact Or.inr ⟨hp, e⟩

theorem Shape.shape_congr {V : Nat → Nat → Prop} {m0 m : Mem} (hsh : Shape m0 V)
    (hin : ∀ f i k, V (k + 2) f → m f i = m0 f i) : Shape m V := by
  intro d f i hV hi hp hps
  rw [hin f i d hV] at hp hps ⊢
  exact hsh d f i hV hi hp hps

theorem tables_below_congr {V : Nat → Nat → Prop} {m0 m : Mem} (hsh : Shape m0 V)
    (hin : ∀ f i k, V (k + 2) f → m f i = m0 f i) :
    ∀ (d src : Nat), V d src → tables_below m d src = tables_below m0 d src
  | 0, _, _ => rfl
  | 1, _, _ => rfl
  | d + 2, src, hV => by
    rw [tables_below_eq_sum m, tables_below_eq_sum m0]
    apply congrArg List.sum
    apply List.map_congr_left
    intro i hi
    have hi2 : i < 512 := List.mem_range.mp hi
    show (if m src i &&& PTE_P ≠ 0 ∧ m src i &&& PTE_PS = 0 then
        1 + tables_below m (d + 1) (m src i &&& PTE_ADDR) else 0)
      = (if m0 src i &&& PTE_P ≠ 0 ∧ m0 src i &&& PTE_PS = 0 then
        1 + tables_below m0 (d + 1) (m0 src i &&& PTE_ADDR) else 0)
    rw [hin src i d hV]
    by_cases hc : m0 src i &&& PTE_P ≠ 0 ∧ m0 src i &&& PTE_PS = 0
    · rw [if_pos hc, if_pos hc,
        tables_below_congr hsh hin (d + 1) _ (hsh d src i hV hi2 hc.1 hc.2).2]
    · rw [if_neg hc, if_neg hc]

theorem pg_new_eq {s : Phys} (tr : Tracker) (h : s.heap s.nalloc % 4096 = 0) :
    pg_new s tr = some (s.heap s.nalloc, s.heap s.nalloc,
      { s with mem := s.mem.zero (s.heap s.nalloc), nalloc := s.nalloc + 1 },
      mapSet tr (s.heap s.nalloc) (s.heap s.nalloc)) := by
  have := (aligned_iff (s.heap s.nalloc)).mpr h
  simp only [pg_new, this, ne_eq, not_true_eq_false, if_false]

theorem pg_new_none {s : Phys} (tr : Tracker) (h : s.heap s.nalloc % 4096 ≠ 0) :
    pg_new s tr = none := by
  have : ¬ s.heap s.nalloc &&& (PGSIZE - 1) = 0 := fun e => h ((aligned_iff _).mp e)
  simp only [pg_new, ne_eq, this, not_false_eq_true, if_true]

theorem Mem.write_same (m : Mem) (pg idx v : Nat) : m.write pg idx v pg idx = v := by
  simp [Mem.write]

theorem Mem.write_other (m : Mem) (pg idx v f i : Nat) (h : ¬ (f = pg ∧ i = idx)) :
    m.write pg idx v f i = m f i := by
  simp only [Mem.write, h, if_false]

theorem Mem.zero_same (m : Mem) (pg i : Nat) : m.zero pg pg i = 0 := by
  simp [Mem.zero]

theorem Mem.zero_other (m : Mem) (pg f i : Nat) (h : f ≠ pg) : m.zero pg f i = m f i := by
  simp only [Mem.zero, h, if_false]

section CopyProof

variable {α : Type} {ptemod : Option (Ptemod α)} {c : Nat → Nat} {V : Nat → Nat → Prop}
  {E : Nat → Prop} {J : Nat → Tracker × α → Prop}

theorem CopyPost.nalloc_le {d dst src n : Nat} {st st1 : CopySt α} {r : Bool}
    (hn : n ≤ 512) (hpost : CopyPost c V J d dst src n st r st1) :
    st1.1.nalloc ≤ st.1.nalloc + tables_below st.1.mem d src := by
  rw [hpost.nalloc_eq, tables_below_eq_sum]
  exact Nat.add_le_add_left (cost_sum_mono _ _ _ hn) _

theorem CopyPre.window_out {d dst src : Nat} {st : CopySt α} {hi : Nat}
    (hpre : CopyPre V E J d dst src st)
    (hhi : hi ≤ st.1.nalloc + tables_below st.1.mem d src) :
    ∀ f k, Window st.1.heap st.1.nalloc hi f → ¬ V k f := by
  intro f k ⟨j, h1, h2, h3⟩
  rw [h3]
  exact hpre.good.fresh j k h1 (by omega)

theorem CopyPre.window_dst {d dst src : Nat} {st : CopySt α} {hi : Nat}
    (hpre : CopyPre V E J d dst src st)
    (hhi : hi ≤ st.1.nalloc + tables_below st.1.mem d src) :
    ∀ f, Window st.1.heap st.1.nalloc hi f → f ≠ dst := by
  intro f ⟨j, h1, h2, h3⟩
  rw [h3]
  exact hpre.dst_fresh j h1 (by omega)

theorem CopyPost.post_inner {heap : Nat → Nat} (hyp : CopyHyp ptemod c V E J heap)
    {d dst src n : Nat} {st st1 : CopySt α} {r : Bool}
    (hpre : CopyPre V E J d dst src st) (hn : n ≤ 512)
    (hpost : CopyPost c V J d dst src n st r st1) :
    ∀ f i k, V (k + 2) f → st1.1.mem f i = st.1.mem f i :=
  hpost.frame.frame_inner hyp.sep (hpre.window_out (hpost.nalloc_le hn))
    (fun f _ k hd => by rw [hd.1]; exact hpre.dst_out k)

theorem CopyPost.leafrel {d dst src n : Nat} {st st1 : CopySt α} {r : Bool}
    (hpre : CopyPre V E J d dst src st) (hn : n ≤ 512)
    (hpost : CopyPost c V J d dst src n st r st1) :
    ∀ f i, V 1 f → i < 512 → st1.1.mem f i = st.1.mem f i ∨
      (st.1.mem f i &&& PTE_P ≠ 0 ∧ st1.1.mem f i = c (st.1.mem f i)) :=
  hpost.frame.leaf (hpre.window_out (hpost.nalloc_le hn))
    (fun f _ k hd => by rw [hd.1]; exact hpre.dst_out k)

theorem CopyPost.shape {heap : Nat → Nat} (hyp : CopyHyp ptemod c V E J heap)
    {d dst src n : Nat} {st st1 : CopySt α} {r : Bool}
    (hpre : CopyPre V E J d dst src st) (hn : n ≤ 512)
    (hpost : CopyPost c V J d dst src n st r st1) : Shape st1.1.mem V :=
  hpre.shape.shape_congr (hpost.post_inner hyp hpre hn)

theorem CopyPost.leafE {heap : Nat → Nat} (hyp : CopyHyp ptemod c V E J heap)
    {d dst src n : Nat} {st st1 : CopySt α} {r : Bool}
    (hpre : CopyPre V E J d dst src st) (hn : n ≤ 512)
    (hpost : CopyPost c V J d dst src n st r st1) :
    ∀ f i, V 1 f → i < 512 → st1.1.mem f i &&& PTE_P ≠ 0 → E (st1.1.mem f i) := by
  intro f i hV hi hp
  rcases hpost.leafrel hpre hn f i hV hi with e | ⟨hp0, e⟩
  · rw [e] at hp ⊢; exact hpre.leaf f i hV hi hp
  · rw [e]; exact hyp.keepE _ (hpre.leaf f i hV hi hp0)

theorem CopyPost.dst_rest {d dst src n : Nat} {st st1 : CopySt α} {r : Bool}
    (hpre : CopyPre V E J d dst src st) (hn : n ≤ 512)
    (hpost : CopyPost c V J d dst src n st r st1) :
    ∀ i, n ≤ i → i < 512 → st1.1.mem dst i = 0 := by
  intro i hni hi
  rcases hpost.frame dst i with e | w | d | ⟨hv, _⟩
  · rw [e]; exact hpre.dst_zero i hi
  · exact absurd rfl (hpre.window_dst (hpost.nalloc_le hn) dst w)
  · omega
  · exact absurd hv (hpre.dst_out 1)

/-- The step of the loop: from the first `n` entries to the first `n + 1`,
given what the body did to the memory at entry `n`. -/
theorem CopyPost.extend {heap : Nat → Nat} (hyp : CopyHyp ptemod c V E J heap)
    {d dst src n : Nat} {st st1 st2 : CopySt α} {r r2 : Bool}
    (hpre : CopyPre V E J d dst src st) (hn : n < 512)
    (hpost : CopyPost c V J d dst src n st r st1)
    (h_heap : st2.1.heap = st1.1.heap) (h_inval : st2.1.inval = st1.1.inval)
    (h_nalloc : st2.1.nalloc = st1.1.nalloc + entry_cost st.1.mem d src n)
    (h_frame : Frame c V (Window st.1.heap st1.1.nalloc st2.1.nalloc)
      (fun f i => f = dst ∧ i = n) st1.1.mem st2.1.mem)
    (h_copy : EntryCopy c (Window st.1.heap st.1.nalloc st2.1.nalloc) st2.1.mem d src dst n)
    (h_inv : J st2.1.nalloc st2.2)
    (h_r : (∀ v, c v = v) → r2 = false) :
    CopyPost c V J d dst src (n + 1) st r2 st2 := by
  have hn1 : st.1.nalloc ≤ st1.1.nalloc := by rw [hpost.nalloc_eq]; omega
  have hn2 : st1.1.nalloc ≤ st2.1.nalloc := by rw [h_nalloc]; omega
  have hsum : st2.1.nalloc
      = st.1.nalloc + ((List.range (n + 1)).map (entry_cost st.1.mem d src)).sum := by
    rw [cost_sum_succ, h_nalloc, hpost.nalloc_eq]; omega
  have hn3 : st2.1.nalloc ≤ st.1.nalloc + tables_below st.1.mem d src := by
    rw [hsum, tables_below_eq_sum]
    exact Nat.add_le_add_left (cost_sum_mono _ _ _ (by omega)) _
  have hWout := hpre.window_out hn3
  have hWdst := hpre.window_dst hn3
  have hW2out : ∀ f k, Window st.1.heap st1.1.nalloc st2.1.nalloc f → ¬ V k f :=
    fun f k w => hWout f k (w.window_mono hn1 (le_refl _))
  have hDout : ∀ f i k, (f = dst ∧ i = n) → ¬ V k f :=
    fun f _ k hd => by rw [hd.1]; exact hpre.dst_out k
  refine
  { heap_eq := h_heap.trans hpost.heap_eq
    inval_eq := h_inval.trans hpost.inval_eq
    nalloc_eq := hsum
    frame := Frame.frame_trans hyp.idem
      (hpost.frame.frame_mono (fun f w => w.window_mono (le_refl _) hn2) (fun f i hd => ⟨hd.1, by omega⟩))
      (h_frame.frame_mono (fun f w => w.window_mono hn1 (le_refl _)) (fun f i hd => ⟨hd.1, by omega⟩))
    copy := ?_
    inv := h_inv
    noinval := h_r }
  intro i hi
  by_cases hin : i = n
  · rw [hin]; exact h_copy
  · have hi2 : i < n := by omega
    apply EntryCopy.entry_mono (fun p (w : Window st.1.heap st.1.nalloc st1.1.nalloc p) =>
      w.window_mono (le_refl _) hn2)
    refine EntryCopy.entry_stable (hpost.shape hyp hpre (by omega)) ?_
      (h_frame.frame_inner hyp.sep hW2out hDout) (h_frame.leaf hW2out hDout) d src dst i (by omega)
      hpre.src_in ?_ (hpost.copy i hi2)
    · intro f j ⟨k, hk1, hk2, hk3⟩
      rcases h_frame f j with e | ⟨k2, hk4, hk5, hk6⟩ | dd | ⟨hv, _⟩
      · exact e
      · have := hpre.good.inj k k2 hk1 (by omega) (by omega) (by omega) (by rw [← hk3, ← hk6])
        omega
      · exact absurd dd.1 (hWdst f ⟨k, hk1, by omega, hk3⟩)
      · exact absurd hv (hWout f 1 ⟨k, hk1, by omega, hk3⟩)
    · rcases h_frame dst i with e | w | dd | ⟨hv, _⟩
      · exact e
      · exact absurd rfl (hWdst dst (w.window_mono hn1 (le_refl _)))
      · exact absurd dd.2 hin
      · exact absurd hv (hpre.dst_out 1)

theorem copy_entry_absent (recurse : Nat → Nat → CopySt α → Option (Bool × CopySt α))
    (depth dst src i : Nat) (r : Bool) (s : Phys) (tr : Tracker) (a : α)
    (hp : s.mem src i &&& PTE_P = 0) :
    copy_entry ptemod recurse depth dst src (r, s, tr, a) i = some (r, s, tr, a) := by
  simp only [copy_entry, hp, if_true]

theorem copy_entry_leaf (recurse : Nat → Nat → CopySt α → Option (Bool × CopySt α))
    (dst src i : Nat) (r : Bool) (s : Phys) (tr : Tracker) (a : α)
    (hp : s.mem src i &&& PTE_P ≠ 0) (v : Nat) (st2 : Tracker × α)
    (hrun : run_ptemod ptemod (s.mem src i) (tr, a) = some ((v, v), st2)) :
    copy_entry ptemod recurse 1 dst src (r, s, tr, a) i
      = some (if v ≠ s.mem src i then true else r,
          { s with mem := (if v ≠ s.mem src i then s.mem.write src i v else s.mem).write dst i v },
          st2) := by
  simp only [copy_entry, hp, if_false, if_true, hrun]

theorem copy_entry_ps (recurse : Nat → Nat → CopySt α → Option (Bool × CopySt α))
    (depth dst src i : Nat) (r : Bool) (s : Phys) (tr : Tracker) (a : α)
    (hp : s.mem src i &&& PTE_P ≠ 0) (hd : depth ≠ 1) (hps : s.mem src i &&& PTE_PS ≠ 0) :
    copy_entry ptemod recurse depth dst src (r, s, tr, a) i
      = some (r, { s with mem := s.mem.write dst i (s.mem src i) }, tr, a) := by
  simp only [copy_entry, hp, if_false, hd, hps, ne_eq, not_false_eq_true, if_true]

theorem copy_entry_rec (recurse : Nat → Nat → CopySt α → Option (Bool × CopySt α))
    (depth dst src i : Nat) (r : Bool) (s : Phys) (tr : Tracker) (a : α)
    (hp : s.mem src i &&& PTE_P ≠ 0) (hd : depth ≠ 1) (hps : s.mem src i &&& PTE_PS = 0)
    (hal : s.heap s.nalloc % 4096 = 0) (hlt : s.mem src i &&& PTE_ADDR < 2 ^ 39) :
    copy_entry ptemod recurse depth dst src (r, s, tr, a) i
      = (recurse (s.heap s.nalloc) (s.mem src i &&& PTE_ADDR)
          ({ s with
              mem := (s.mem.zero (s.heap s.nalloc)).write dst i
                (s.heap s.nalloc ||| (s.mem src i &&& PTE_FLAGS))
              nalloc := s.nalloc + 1 },
            mapSet tr (s.heap s.nalloc) (s.heap s.nalloc), a)).map
          (fun x => (if x.1 then true else r, x.2)) := by
  simp only [copy_entry, hp, if_false, hd, hps, ne_eq, not_true_eq_false, pg_new_eq tr hal,
    pe2pg_of_lt hlt]
  cases recurse (s.heap s.nalloc) (s.mem src i &&& PTE_ADDR)
          ({ s with
              mem := (s.mem.zero (s.heap s.nalloc)).write dst i
                (s.heap s.nalloc ||| (s.mem src i &&& PTE_FLAGS))
              nalloc := s.nalloc + 1 },
            mapSet tr (s.heap s.nalloc) (s.heap s.nalloc), a) <;> rfl

end CopyProof

section CopyStep

variable {α : Type} {ptemod : Option (Ptemod α)} {c : Nat → Nat} {V : Nat → Nat → Prop}
  {E : Nat → Prop} {J : Nat → Tracker × α → Prop}

theorem entry_cost_leaf (m : Mem) (src i : Nat) : entry_cost m 1 src i = 0 := rfl

theorem entry_cost_inner (m : Mem) (d src i : Nat) :
    entry_cost m (d + 2) src i
      = if m src i &&& PTE_P ≠ 0 ∧ m src i &&& PTE_PS = 0 then
          1 + tables_below m (d + 1) (m src i &&& PTE_ADDR)
        else 0 := rfl

/-- The body of the loop on an entry that is not present. -/
theorem copy_entry_spec_absent {heap : Nat → Nat} (hyp : CopyHyp ptemod c V E J heap)
    {d dst src n : Nat} {st : CopySt α}
    (hpre : CopyPre V E J d dst src st) (hn : n < 512)
    {r : Bool} {s1 : Phys} {tr1 : Tracker} {a1 : α}
    (hpost : CopyPost c V J d dst src n st r (s1, tr1, a1))
    (hp : s1.mem src n &&& PTE_P = 0) :
    CopyPost c V J d dst src (n + 1) st r (s1, tr1, a1) := by
  have hzero := hpost.dst_rest hpre (le_of_lt hn) n (le_refl _) hn
  refine hpost.extend hyp hpre hn rfl rfl ?_ (Frame.frame_refl _ _ _ _ _) ?_ hpost.inv hpost.noinval
  · match d with
    | 0 => rfl
    | 1 => rfl
    | d + 2 =>
      have e := hpost.post_inner hyp hpre (le_of_lt hn) src n d hpre.src_in
      have e2 : s1.mem src n = st.1.mem src n := e
      rw [entry_cost_inner, ← e2, if_neg (fun h => h.1 hp)]
      rfl
  · match d with
    | 0 => trivial
    | 1 => exact ⟨fun _ => hzero, fun h => absurd hp h⟩
    | d + 2 => exact ⟨fun _ => hzero, fun h => absurd hp h, fun h => absurd hp h⟩

/-- The body of the loop on a present leaf entry. -/
theorem copy_entry_spec_leaf {heap : Nat → Nat} (hyp : CopyHyp ptemod c V E J heap)
    {dst src n : Nat} {st : CopySt α}
    (hpre : CopyPre V E J 1 dst src st) (hn : n < 512)
    {r : Bool} {s1 : Phys} {tr1 : Tracker} {a1 : α}
    (hpost : CopyPost c V J 1 dst src n st r (s1, tr1, a1))
    (hp : s1.mem src n &&& PTE_P ≠ 0) (st2 : Tracker × α)
    (hJ : J s1.nalloc st2) :
    CopyPost c V J 1 dst src (n + 1) st
      (if c (s1.mem src n) ≠ s1.mem src n then true else r)
      ({ s1 with mem := (if c (s1.mem src n) ≠ s1.mem src n
          then s1.mem.write src n (c (s1.mem src n)) else s1.mem).write dst n (c (s1.mem src n)) },
        st2) := by
  have hsd : src ≠ dst := fun e => hpre.dst_out 1 (e ▸ hpre.src_in)
  refine hpost.extend hyp hpre hn rfl rfl rfl ?_ ?_ hJ ?_
  · intro f i
    by_cases h1 : f = dst ∧ i = n
    · exact Or.inr (Or.inr (Or.inl h1))
    · by_cases h2 : f = src ∧ i = n
      · by_cases hc : c (s1.mem src n) ≠ s1.mem src n
        · refine Or.inr (Or.inr (Or.inr ⟨h2.1 ▸ hpre.src_in, h2.2 ▸ hn, ?_, ?_⟩))
          · rw [h2.1, h2.2]; exact hp
          · show Mem.write _ dst n _ f i = _
            rw [Mem.write_other _ _ _ _ _ _ h1, if_pos hc, h2.1, h2.2, Mem.write_same]
        · left
          show Mem.write _ dst n _ f i = _
          rw [Mem.write_other _ _ _ _ _ _ h1, if_neg hc]
      · left
        show Mem.write _ dst n _ f i = _
        rw [Mem.write_other _ _ _ _ _ _ h1]
        by_cases hc : c (s1.mem src n) ≠ s1.mem src n
        · rw [if_pos hc, Mem.write_other _ _ _ _ _ _ h2]
        · rw [if_neg hc]
  · have hs : (Mem.write (if c (s1.mem src n) ≠ s1.mem src n
          then s1.mem.write src n (c (s1.mem src n)) else s1.mem) dst n (c (s1.mem src n))) src n
        = c (s1.mem src n) := by
      rw [Mem.write_other _ _ _ _ _ _ (fun h => hsd h.1)]
      by_cases hc : c (s1.mem src n) ≠ s1.mem src n
      · rw [if_pos hc, Mem.write_same]
      · rw [if_neg hc]; exact (not_not.mp hc).symm
    show (_ → _) ∧ (_ → _)
    simp only [hs, Mem.write_same]
    exact ⟨fun h => by rw [hyp.keepP] at h; exact absurd h hp, fun _ => ⟨trivial, hyp.idem _⟩⟩
  · intro hid
    rw [if_neg (not_not.mpr (hid _))]
    exact hpost.noinval hid

/-- The body of the loop on a present entry with PS above the leaf level. -/
theorem copy_entry_spec_ps {heap : Nat → Nat} (hyp : CopyHyp ptemod c V E J heap)
    {d dst src n : Nat} {st : CopySt α}
    (hpre : CopyPre V E J (d + 2) dst src st) (hn : n < 512)
    {r : Bool} {s1 : Phys} {tr1 : Tracker} {a1 : α}
    (hpost : CopyPost c V J (d + 2) dst src n st r (s1, tr1, a1))
    (hp : s1.mem src n &&& PTE_P ≠ 0) (hps : s1.mem src n &&& PTE_PS ≠ 0) :
    CopyPost c V J (d + 2) dst src (n + 1) st r
      ({ s1 with mem := s1.mem.write dst n (s1.mem src n) }, tr1, a1) := by
  have hsd : src ≠ dst := fun e => hpre.dst_out (d + 2) (e ▸ hpre.src_in)
  have e : s1.mem src n = st.1.mem src n := hpost.post_inner hyp hpre (le_of_lt hn) src n d hpre.src_in
  refine hpost.extend hyp hpre hn rfl rfl ?_ ?_ ?_ hpost.inv hpost.noinval
  · rw [entry_cost_inner, ← e, if_neg (fun h => hps h.2)]
    rfl
  · intro f i
    by_cases h1 : f = dst ∧ i = n
    · exact Or.inr (Or.inr (Or.inl h1))
    · left
      show Mem.write _ dst n _ f i = _
      rw [Mem.write_other _ _ _ _ _ _ h1]
  · show (_ → _) ∧ (_ → _ → _) ∧ (_ → _ → _)
    have hs : (s1.mem.write dst n (s1.mem src n)) src n = s1.mem src n :=
      Mem.write_other _ _ _ _ _ _ (fun h => hsd h.1)
    simp only [hs, Mem.write_same]
    exact ⟨fun h => absurd h hp, fun _ _ => trivial, fun _ h => absurd h hps⟩

/-- The body of the loop on a present entry that points to a table. -/
theorem copy_entry_spec_rec {heap : Nat → Nat} (hyp : CopyHyp ptemod c V E J heap)
    {d dst src n : Nat} {st : CopySt α} (hheap : st.1.heap = heap)
    (hpre : CopyPre V E J (d + 2) dst src st) (hn : n < 512)
    {r : Bool} {s1 : Phys} {tr1 : Tracker} {a1 : α}
    (hpost : CopyPost c V J (d + 2) dst src n st r (s1, tr1, a1))
    (hp : s1.mem src n &&& PTE_P ≠ 0) (hps : s1.mem src n &&& PTE_PS = 0)
    (recurse : Nat → Nat → CopySt α → Option (Bool × CopySt α))
    (hrec : ∀ dst2 src2 st2, st2.1.heap = heap → CopyPre V E J (d + 1) dst2 src2 st2 →
      ∃ r3 st3, recurse dst2 src2 st2 = some (r3, st3) ∧
        CopyPost c V J (d + 1) dst2 src2 512 st2 r3 st3) :
    ∃ r2 st2, copy_entry ptemod recurse (d + 2) dst src (r, s1, tr1, a1) n = some (r2, st2) ∧
      CopyPost c V J (d + 2) dst src (n + 1) st r2 st2 := by
  have hle := le_of_lt hn
  have hheap1 : s1.heap = st.1.heap := hpost.heap_eq
  have e : s1.mem src n = st.1.mem src n := hpost.post_inner hyp hpre hle src n d hpre.src_in
  have hsh1 : Shape s1.mem V := hpost.shape hyp hpre hle
  obtain ⟨hlt, hVa⟩ := hsh1 d src n hpre.src_in hn hp hps
  have hcost : entry_cost st.1.mem (d + 2) src n
      = 1 + tables_below st.1.mem (d + 1) (s1.mem src n &&& PTE_ADDR) := by
    rw [entry_cost_inner, ← e, if_pos ⟨hp, hps⟩]
  have hn1 : s1.nalloc = st.1.nalloc
      + ((List.range n).map (entry_cost st.1.mem (d + 2) src)).sum := hpost.nalloc_eq
  have hn3 : s1.nalloc + 1 + tables_below st.1.mem (d + 1) (s1.mem src n &&& PTE_ADDR)
      ≤ st.1.nalloc + tables_below st.1.mem (d + 2) src := by
    have h1 := cost_sum_succ st.1.mem (d + 2) src n
    have h2 := cost_sum_mono st.1.mem (d + 2) src (show n + 1 ≤ 512 by omega)
    rw [hcost] at h1
    rw [tables_below_eq_sum st.1.mem (d + 2)]
    omega
  have hlo : st.1.nalloc ≤ s1.nalloc := by omega
  have hal : s1.heap s1.nalloc % 4096 = 0 := by
    rw [hheap1]; exact hpre.good.aligned _ hlo (by omega)
  have hplt : s1.heap s1.nalloc < 2 ^ 39 := by
    rw [hheap1]; exact hpre.good.low _ hlo (by omega)
  have hpout : ∀ k, ¬ V k (s1.heap s1.nalloc) := by
    intro k; rw [hheap1]; exact hpre.good.fresh _ k hlo (by omega)
  have hpd : s1.heap s1.nalloc ≠ dst := by
    rw [hheap1]; exact hpre.dst_fresh _ hlo (by omega)
  rw [copy_entry_rec recurse (d + 2) dst src n r s1 tr1 a1 hp (by omega) hps hal hlt]
  -- the state handed to the recursive call
  have hm2 : ∀ f i k, V k f →
      ((s1.mem.zero (s1.heap s1.nalloc)).write dst n
        (s1.heap s1.nalloc ||| (s1.mem src n &&& PTE_FLAGS))) f i = s1.mem f i := by
    intro f i k hV
    rw [Mem.write_other _ _ _ _ _ _ (fun h => hpre.dst_out k (by rw [← h.1]; exact hV)),
      Mem.zero_other _ _ _ _ (fun h => hpout k (by rw [← h]; exact hV))]
  have hin2 : ∀ f i k, V (k + 2) f →
      ((s1.mem.zero (s1.heap s1.nalloc)).write dst n
        (s1.heap s1.nalloc ||| (s1.mem src n &&& PTE_FLAGS))) f i = st.1.mem f i := by
    intro f i k hV
    rw [hm2 f i _ hV]; exact hpost.post_inner hyp hpre hle f i k hV
  have htb := tables_below_congr hpre.shape hin2 (d + 1) _ hVa
  have hpre2 : CopyPre V E J (d + 1) (s1.heap s1.nalloc) (s1.mem src n &&& PTE_ADDR)
      ({ s1 with
          mem := (s1.mem.zero (s1.heap s1.nalloc)).write dst n
            (s1.heap s1.nalloc ||| (s1.mem src n &&& PTE_FLAGS))
          nalloc := s1.nalloc + 1 },
        mapSet tr1 (s1.heap s1.nalloc) (s1.heap s1.nalloc), a1) :=
    { depth := by omega
      src_in := hVa
      shape := hpre.shape.shape_congr hin2
      leaf := fun f i hV hi hpr => by
        have := hm2 f i 1 hV
        simp only at hpr ⊢
        rw [this] at hpr ⊢
        exact hpost.leafE hyp hpre hle f i hV hi hpr
      dst_zero := fun i _ => by
        show Mem.write _ dst n _ _ i = 0
        rw [Mem.write_other _ _ _ _ _ _ (fun h => hpd h.1), Mem.zero_same]
      dst_out := hpout
      good := by
        show GoodHeap s1.heap V (s1.nalloc + 1) (s1.nalloc + 1 + tables_below _ (d + 1) _)
        rw [htb, hheap1]
        exact
        { aligned := fun k h1 h2 => hpre.good.aligned k (by omega) (by omega)
          low := fun k h1 h2 => hpre.good.low k (by omega) (by omega)
          inj := fun k1 k2 h1 h2 h3 h4 =>
            hpre.good.inj k1 k2 (by omega) (by omega) (by omega) (by omega)
          fresh := fun k j h1 h2 => hpre.good.fresh k j (by omega) (by omega) }
      dst_fresh := fun k h1 h2 heq => by
        have h1b : s1.nalloc + 1 ≤ k := h1
        have h2b : k < s1.nalloc + 1 + tables_below _ (d + 1) _ := h2
        rw [htb] at h2b
        have heq2 : st.1.heap k = st.1.heap s1.nalloc := by rw [← hheap1]; exact heq
        have := hpre.good.inj k s1.nalloc (by omega) (by omega) hlo (by omega) heq2
        omega
      inv := by
        show J (s1.nalloc + 1) (mapSet tr1 (s1.heap s1.nalloc) (s1.heap s1.nalloc), a1)
        rw [hheap1, hheap]
        exact hyp.alloc s1.nalloc tr1 a1 hpost.inv }
  obtain ⟨r3, st3, hrun, hpost3⟩ := hrec _ _ _ (hheap1.trans hheap) hpre2
  rw [hrun]
  refine ⟨_, st3, rfl, ?_⟩
  have h3heap : st3.1.heap = s1.heap := hpost3.heap_eq
  have h3n : st3.1.nalloc
      = s1.nalloc + 1 + tables_below st.1.mem (d + 1) (s1.mem src n &&& PTE_ADDR) := by
    have := hpost3.nalloc_eq
    rw [← tables_below_eq_sum, htb] at this
    exact this
  have hW3out : ∀ f k, Window s1.heap (s1.nalloc + 1) st3.1.nalloc f → ¬ V k f := by
    intro f k ⟨j, h1, h2, h3⟩
    have h1b : s1.nalloc + 1 ≤ j := h1
    have h2b : j < st3.1.nalloc := h2
    rw [h3, hheap1]
    exact hpre.good.fresh j k (by omega) (by omega)
  have hD3out : ∀ f i k, (f = s1.heap s1.nalloc ∧ i < 512) → ¬ V k f :=
    fun f _ k hd => by rw [hd.1]; exact hpout k
  have hin3 : ∀ f i k, V (k + 2) f → st3.1.mem f i = s1.mem f i := by
    intro f i k hV
    have := hpost3.frame.frame_inner hyp.sep hW3out hD3out f i k hV
    rw [this]
    exact hm2 f i _ hV
  refine hpost.extend hyp hpre hn (h3heap) hpost3.inval_eq ?_ ?_ ?_ hpost3.inv ?_
  · show st3.1.nalloc = s1.nalloc + _
    rw [h3n, hcost]; omega
  · -- the memory changed only at new pages and at `dst[n]`
    have hstep : Frame c V (Window st.1.heap s1.nalloc st3.1.nalloc)
        (fun f i => f = dst ∧ i = n) s1.mem
        ((s1.mem.zero (s1.heap s1.nalloc)).write dst n
          (s1.heap s1.nalloc ||| (s1.mem src n &&& PTE_FLAGS))) := by
      intro f i
      by_cases h1 : f = dst ∧ i = n
      · exact Or.inr (Or.inr (Or.inl h1))
      · rw [Mem.write_other _ _ _ _ _ _ h1]
        by_cases h2 : f = s1.heap s1.nalloc
        · exact Or.inr (Or.inl ⟨s1.nalloc, le_refl _, by rw [h3n]; omega, by rw [h2, hheap1]⟩)
        · exact Or.inl (Mem.zero_other _ _ _ _ h2)
    refine Frame.frame_trans hyp.idem hstep (hpost3.frame.mono2 ?_ ?_)
    · intro f w
      have w2 : Window st.1.heap (s1.nalloc + 1) st3.1.nalloc f := by rw [← hheap1]; exact w
      exact w2.window_mono (Nat.le_succ _) (le_refl _)
    · intro f i hd
      exact Or.inl ⟨s1.nalloc, le_refl _, by rw [h3n]; omega, by rw [hd.1, hheap1]⟩
  · show (_ → _) ∧ (_ → _ → _) ∧ (_ → _ → _)
    have hs : st3.1.mem src n = s1.mem src n := hin3 src n d hpre.src_in
    have hdv : st3.1.mem dst n = s1.heap s1.nalloc ||| (s1.mem src n &&& PTE_FLAGS) := by
      rcases hpost3.frame dst n with e | ⟨j, h1, h2, h3⟩ | dd | ⟨hv, _⟩
      · rw [e]; exact Mem.write_same _ _ _ _
      · exfalso
        have h3b : st.1.heap j = dst := by rw [← hheap1]; exact h3.symm
        have h1b : s1.nalloc + 1 ≤ j := h1
        have h2b : j < st3.1.nalloc := h2
        exact hpre.dst_fresh j (by omega) (by omega) h3b
      · exact absurd dd.1.symm hpd
      · exact absurd hv (hpre.dst_out 1)
    rw [hs, hdv]
    refine ⟨fun h => absurd h hp, fun _ h => absurd hps h, fun _ _ => ?_⟩
    refine ⟨s1.heap s1.nalloc, ⟨s1.nalloc, hlo, by rw [h3n]; omega, by rw [hheap1]⟩, hal, hplt,
      rfl, ?_⟩
    have hc3 : IsCopy c (Window s1.heap (s1.nalloc + 1) st3.1.nalloc) st3.1.mem (d + 1)
        (s1.mem src n &&& PTE_ADDR) (s1.heap s1.nalloc) :=
      (IsCopy_iff _ _ _ _ _ _ (by omega)).mpr hpost3.copy
    refine IsCopy.copy_mono ?_ _ _ _ hc3
    intro q w
    have w2 : Window st.1.heap (s1.nalloc + 1) st3.1.nalloc q := by rw [← hheap1]; exact w
    exact w2.window_mono (by omega) (le_refl _)
  · intro hid
    have := hpost3.noinval hid
    rw [this]
    exact hpost.noinval hid

/-- The body of the loop keeps the loop invariant. -/
theorem copy_entry_spec {heap : Nat → Nat} (hyp : CopyHyp ptemod c V E J heap)
    {d dst src n : Nat} {st : CopySt α} (hheap : st.1.heap = heap)
    (hpre : CopyPre V E J (d + 1) dst src st) (hn : n < 512)
    {r : Bool} {st1 : CopySt α}
    (hpost : CopyPost c V J (d + 1) dst src n st r st1)
    (recurse : Nat → Nat → CopySt α → Option (Bool × CopySt α))
    (hrec : ∀ dst2 src2 st2, st2.1.heap = heap → CopyPre V E J d dst2 src2 st2 →
      ∃ r3 st3, recurse dst2 src2 st2 = some (r3, st3) ∧
        CopyPost c V J d dst2 src2 512 st2 r3 st3) :
    ∃ r2 st2, copy_entry ptemod recurse (d + 1) dst src (r, st1) n = some (r2, st2) ∧
      CopyPost c V J (d + 1) dst src (n + 1) st r2 st2 := by
  obtain ⟨s1, tr1, a1⟩ := st1
  by_cases hp : s1.mem src n &&& PTE_P = 0
  · exact ⟨r, (s1, tr1, a1), copy_entry_absent recurse _ dst src n r s1 tr1 a1 hp,
      copy_entry_spec_absent hyp hpre hn hpost hp⟩
  · match d with
    | 0 =>
      have hE := hpost.leafE hyp hpre (le_of_lt hn) src n hpre.src_in hn hp
      obtain ⟨st2, hrun, hJ⟩ := hyp.run s1.nalloc (s1.mem src n) (tr1, a1) hpost.inv hp hE
      exact ⟨_, _, copy_entry_leaf recurse dst src n r s1 tr1 a1 hp _ st2 hrun,
        copy_entry_spec_leaf hyp hpre hn hpost hp st2 hJ⟩
    | d + 1 =>
      by_cases hps : s1.mem src n &&& PTE_PS = 0
      · exact copy_entry_spec_rec hyp hheap hpre hn hpost hp hps recurse hrec
      · exact ⟨r, _, copy_entry_ps recurse _ dst src n r s1 tr1 a1 hp (by omega) hps,
          copy_entry_spec_ps hyp hpre hn hpost hp hps⟩

/-- The loop of `copy_pmap1` over the first `n` entries. -/
theorem copy_loop_spec {heap : Nat → Nat} (hyp : CopyHyp ptemod c V E J heap)
    {d dst src : Nat} {st : CopySt α} (hheap : st.1.heap = heap)
    (hpre : CopyPre V E J (d + 1) dst src st)
    (recurse : Nat → Nat → CopySt α → Option (Bool × CopySt α))
    (hrec : ∀ dst2 src2 st2, st2.1.heap = heap → CopyPre V E J d dst2 src2 st2 →
      ∃ r3 st3, recurse dst2 src2 st2 = some (r3, st3) ∧
        CopyPost c V J d dst2 src2 512 st2 r3 st3) :
    ∀ n, n ≤ 512 → ∃ r st2,
      (List.range n).foldlM (copy_entry ptemod recurse (d + 1) dst src) (false, st)
        = some (r, st2) ∧ CopyPost c V J (d + 1) dst src n st r st2 := by
  intro n
  induction n with
  | zero =>
    intro _
    refine ⟨false, st, rfl, ?_⟩
    exact
    { heap_eq := rfl, inval_eq := rfl, nalloc_eq := rfl
      frame := Frame.frame_refl _ _ _ _ _
      copy := fun i hi => absurd hi (Nat.not_lt_zero i)
      inv := hpre.inv
      noinval := fun _ => rfl }
  | succ n ih =>
    intro hn
    obtain ⟨r, st1, hrun, hpost⟩ := ih (by omega)
    obtain ⟨r2, st2, hrun2, hpost2⟩ :=
      copy_entry_spec hyp hheap hpre (show n < 512 by omega) hpost recurse hrec
    refine ⟨r2, st2, ?_, hpost2⟩
    rw [List.range_succ, List.foldlM_append, hrun]
    simp only [List.foldlM, Option.bind_eq_bind, Option.some_bind, hrun2]
    rfl

/-- The function `copy_pmap1` returns, and what it returns is a copy. -/
theorem copy_pmap1_spec {heap : Nat → Nat} (hyp : CopyHyp ptemod c V E J heap) :
    ∀ (d dst src : Nat) (st : CopySt α), st.1.heap = heap → CopyPre V E J d dst src st →
      ∃ r st2, copy_pmap1 ptemod d dst src st = some (r, st2) ∧
        CopyPost c V J d dst src 512 st r st2
  | 0, _, _, _, _, hpre => absurd hpre.depth (by decide)
  | d + 1, dst, src, st, hheap, hpre =>
    copy_loop_spec hyp hheap hpre (copy_pmap1 ptemod d)
      (fun dst2 src2 st2 h1 h2 => copy_pmap1_spec hyp d dst2 src2 st2 h1 h2) 512 (le_refl _)

end CopyStep

/-! ## `pmap_walk` without `create` -/

theorem and_1ff_lt (x : Nat) : x &&& 0x1ff < 512 :=
  lt_of_le_of_lt Nat.and_le_right (by decide)

theorem pgbits_lt (v : Nat) :
    (pgbits v).1 < 512 ∧ (pgbits v).2.1 < 512 ∧ (pgbits v).2.2.1 < 512 ∧ (pgbits v).2.2.2 < 512 :=
  ⟨and_1ff_lt _, and_1ff_lt _, and_1ff_lt _, and_1ff_lt _⟩

theorem walk_level_ro (perms : Nat) (s : Phys) (tr : Tracker) (pg idx : Nat) :
    walk_level false perms s tr pg idx = (level_ro s.mem pg idx).map (fun r => (r, s, tr)) := by
  unfold walk_level level_ro
  by_cases hp : s.mem pg idx &&& PTE_P = 0
  · simp [hp]
  · simp only [hp, if_false]
    cases cpe (s.mem pg idx) <;> rfl

/-- A walk that does not create reads the memory and changes nothing. -/
theorem pmap_walk_ro (s : Phys) (tr : Tracker) (pml4 v perms : Nat) :
    pmap_walk s tr pml4 v false perms = (walk_ro s.mem pml4 v).map (fun r => (r, s, tr)) := by
  unfold pmap_walk walk_ro
  simp only [walk_level_ro]
  by_cases h : (pgbits v).1 ≥ VREC ∧ (pgbits v).1 ≤ VEND
  · simp [h]
  · simp only [h, if_false, Bool.false_eq_true, and_false]
    cases level_ro s.mem pml4 (pgbits v).1 with
    | none => rfl
    | some o1 =>
      cases o1 with
      | none => rfl
      | some n1 =>
        simp only [Option.map_some']
        cases level_ro s.mem n1 (pgbits v).2.1 with
        | none => rfl
        | some o2 =>
          cases o2 with
          | none => rfl
          | some n2 =>
            simp only [Option.map_some']
            cases level_ro s.mem n2 (pgbits v).2.2.1 with
            | none => rfl
            | some o3 =>
              cases o3 with
              | none => rfl
              | some n3 => rfl

theorem level_ro_absent {m : Mem} {pg idx : Nat} (hp : m pg idx &&& PTE_P = 0) :
    level_ro m pg idx = some none := by
  simp only [level_ro, hp, if_true]

theorem level_ro_ps {m : Mem} {pg idx : Nat} (hp : m pg idx &&& PTE_P ≠ 0)
    (hps : m pg idx &&& PTE_PS ≠ 0) : level_ro m pg idx = none := by
  simp only [level_ro, hp, if_false, cpe, hps, ne_eq, not_false_eq_true, if_true]

theorem level_ro_next {m : Mem} {pg idx : Nat} (hp : m pg idx &&& PTE_P ≠ 0)
    (hps : m pg idx &&& PTE_PS = 0) (hlt : m pg idx &&& PTE_ADDR < 2 ^ 39) :
    level_ro m pg idx = some (some (m pg idx &&& PTE_ADDR)) := by
  simp only [level_ro, hp, if_false, cpe, hps, ne_eq, not_true_eq_false, pe2pg_of_lt hlt]

theorem level_ro_far {m : Mem} {pg idx : Nat} (hp : m pg idx &&& PTE_P ≠ 0)
    (hps : m pg idx &&& PTE_PS = 0) (hge : 2 ^ 39 ≤ m pg idx &&& PTE_ADDR) :
    level_ro m pg idx = none := by
  simp only [level_ro, hp, if_false, cpe, hps, ne_eq, not_true_eq_false, pe2pg_of_ge hge]

/-- What a level of the walk returns, by the entry it reads. -/
theorem level_ro_some {m : Mem} {pg idx n : Nat} (h : level_ro m pg idx = some (some n)) :
    m pg idx &&& PTE_P ≠ 0 ∧ m pg idx &&& PTE_PS = 0 ∧ m pg idx &&& PTE_ADDR < 2 ^ 39 ∧
      n = m pg idx &&& PTE_ADDR := by
  by_cases hp : m pg idx &&& PTE_P = 0
  · rw [level_ro_absent hp] at h; cases h
  · by_cases hps : m pg idx &&& PTE_PS = 0
    · by_cases hlt : m pg idx &&& PTE_ADDR < 2 ^ 39
      · rw [level_ro_next hp hps hlt] at h
        injection h with h; injection h with h
        exact ⟨hp, hps, hlt, h.symm⟩
      · rw [level_ro_far hp hps (by omega)] at h; cases h
    · rw [level_ro_ps hp hps] at h; cases h

theorem level_ro_congr {m m2 : Mem} {pg idx : Nat} (h : m2 pg idx = m pg idx) :
    level_ro m2 pg idx = level_ro m pg idx := by
  simp only [level_ro, h]

/-- One level of the walk in a table and in its copy. -/
theorem level_copy {c : Nat → Nat} {A : Nat → Prop} {V : Nat → Nat → Prop} {m : Mem}
    (hsh : Shape m V) {d src dst i : Nat} (hV : V (d + 2) src)
    (hcopy : IsCopy c A m (d + 2) src dst) (hi : i < 512) :
    (level_ro m src i = none → level_ro m dst i = none) ∧
    (level_ro m src i = some none → level_ro m dst i = some none) ∧
    (∀ n, level_ro m src i = some (some n) →
      ∃ n2, level_ro m dst i = some (some n2) ∧ A n2 ∧ V (d + 1) n ∧
        IsCopy c A m (d + 1) n n2) := by
  obtain ⟨h1, h2, h3⟩ := hcopy i hi
  by_cases hp : m src i &&& PTE_P = 0
  · have hd : m dst i &&& PTE_P = 0 := by rw [h1 hp]; rfl
    rw [level_ro_absent hp, level_ro_absent hd]
    exact ⟨fun h => (by cases h), fun _ => rfl, fun n h => (by cases h)⟩
  · by_cases hps : m src i &&& PTE_PS = 0
    · obtain ⟨hlt, hVn⟩ := hsh d src i hV hi hp hps
      obtain ⟨p, hA, hal, hplt, hval, hsub⟩ := h3 hp hps
      obtain ⟨ea, ep, es⟩ := copied_entry (c := m src i) hal hplt
      rw [← hval] at ea ep es
      have hdst : level_ro m dst i = some (some p) := by
        rw [level_ro_next (by rw [ep]; exact hp) es (by rw [ea]; exact hplt), ea]
      rw [level_ro_next hp hps hlt, hdst]
      refine ⟨fun h => (by cases h), fun h => (by cases h), fun n h => ?_⟩
      injection h with h; injection h with h
      subst h
      exact ⟨p, rfl, hA, hVn, hsub⟩
    · have hd : m dst i = m src i := h2 hp hps
      rw [level_ro_ps hp hps, level_ro_ps (by rw [hd]; exact hp) (by rw [hd]; exact hps)]
      exact ⟨fun _ => rfl, fun h => (by cases h), fun n h => (by cases h)⟩

/-- A walk in a page table and the same walk in its copy. -/
theorem walk_copy {c : Nat → Nat} {A : Nat → Prop} {V : Nat → Nat → Prop} {m : Mem}
    (hsh : Shape m V) {src dst : Nat} (hV : V 4 src) (hcopy : IsCopy c A m 4 src dst) (v : Nat) :
    (walk_ro m src v = none → walk_ro m dst v = none) ∧
    (walk_ro m src v = some none → walk_ro m dst v = some none) ∧
    (∀ f i, walk_ro m src v = some (some (f, i)) →
      ∃ f2, walk_ro m dst v = some (some (f2, i)) ∧ A f2 ∧ V 1 f ∧ i < 512 ∧
        (m f i &&& PTE_P = 0 → m f2 i = 0) ∧
        (m f i &&& PTE_P ≠ 0 → m f2 i = m f i ∧ c (m f i) = m f i)) := by
  obtain ⟨b4, b3, b2, b1⟩ := pgbits_lt v
  unfold walk_ro
  by_cases hres : (pgbits v).1 ≥ VREC ∧ (pgbits v).1 ≤ VEND
  · rw [if_pos hres, if_pos hres]
    exact ⟨fun _ => rfl, fun h => (by cases h), fun f i h => (by cases h)⟩
  · rw [if_neg hres, if_neg hres]
    obtain ⟨l1, l2, l3⟩ := level_copy hsh hV hcopy b4
    cases h4 : level_ro m src (pgbits v).1 with
    | none =>
      rw [l1 h4]
      exact ⟨fun _ => rfl, fun h => (by cases h), fun f i h => (by cases h)⟩
    | some o4 =>
      cases o4 with
      | none =>
        rw [l2 h4]
        exact ⟨fun h => (by cases h), fun _ => rfl, fun f i h => (by cases h)⟩
      | some n4 =>
        obtain ⟨n4b, e4, _, hV3, hc3⟩ := l3 n4 h4
        rw [e4]
        simp only []
        obtain ⟨k1, k2, k3⟩ := level_copy hsh hV3 hc3 b3
        cases h3 : level_ro m n4 (pgbits v).2.1 with
        | none =>
          rw [k1 h3]
          exact ⟨fun _ => rfl, fun h => (by cases h), fun f i h => (by cases h)⟩
        | some o3 =>
          cases o3 with
          | none =>
            rw [k2 h3]
            exact ⟨fun h => (by cases h), fun _ => rfl, fun f i h => (by cases h)⟩
          | some n3 =>
            obtain ⟨n3b, e3, _, hV2, hc2⟩ := k3 n3 h3
            rw [e3]
            simp only []
            obtain ⟨j1, j2, j3⟩ := level_copy hsh hV2 hc2 b2
            cases h2 : level_ro m n3 (pgbits v).2.2.1 with
            | none =>
              rw [j1 h2]
              exact ⟨fun _ => rfl, fun h => (by cases h), fun f i h => (by cases h)⟩
            | some o2 =>
              cases o2 with
              | none =>
                rw [j2 h2]
                exact ⟨fun h => (by cases h), fun _ => rfl, fun f i h => (by cases h)⟩
              | some n2 =>
                obtain ⟨n2b, e2, hA, hV1, hc1⟩ := j3 n2 h2
                rw [e2]
                simp only []
                refine ⟨fun h => (by cases h), fun h => (by cases h), fun f i h => ?_⟩
                injection h with h; injection h with h
                injection h with hf hi
                subst hf; subst hi
                exact ⟨n2b, rfl, hA, hV1, b1, (hc1 _ b1).1, (hc1 _ b1).2⟩

/-- A walk that does not create depends only on the tables above the leaf
level. -/
theorem walk_ro_congr {V : Nat → Nat → Prop} {m m2 : Mem} (hsh : Shape m V)
    (hin : ∀ f i k, V (k + 2) f → m2 f i = m f i) {pm : Nat} (hV : V 4 pm) (v : Nat) :
    walk_ro m2 pm v = walk_ro m pm v := by
  obtain ⟨b4, b3, b2, b1⟩ := pgbits_lt v
  unfold walk_ro
  by_cases hres : (pgbits v).1 ≥ VREC ∧ (pgbits v).1 ≤ VEND
  · simp only [hres, and_self, if_true]
  · simp only [hres, if_false]
    rw [level_ro_congr (hin pm (pgbits v).1 2 hV)]
    cases h4 : level_ro m pm (pgbits v).1 with
    | none => rfl
    | some o4 =>
      cases o4 with
      | none => rfl
      | some n4 =>
        simp only []
        obtain ⟨p4, s4, _, e4⟩ := level_ro_some h4
        have hV3 : V 3 n4 := by rw [e4]; exact (hsh 2 pm _ hV b4 p4 s4).2
        rw [level_ro_congr (hin n4 (pgbits v).2.1 1 hV3)]
        cases h3 : level_ro m n4 (pgbits v).2.1 with
        | none => rfl
        | some o3 =>
          cases o3 with
          | none => rfl
          | some n3 =>
            simp only []
            obtain ⟨p3, s3, _, e3⟩ := level_ro_some h3
            have hV2 : V 2 n3 := by rw [e3]; exact (hsh 1 n4 _ hV3 b3 p3 s3).2
            rw [level_ro_congr (hin n3 (pgbits v).2.2.1 0 hV2)]

/-- The table of leaf entries that a walk ends in is one of the family. -/
theorem walk_ro_leaf {V : Nat → Nat → Prop} {m : Mem} (hsh : Shape m V) {pm : Nat}
    (hV : V 4 pm) {v f i : Nat} (h : walk_ro m pm v = some (some (f, i))) :
    V 1 f ∧ i < 512 := by
  obtain ⟨b4, b3, b2, b1⟩ := pgbits_lt v
  unfold walk_ro at h
  by_cases hres : (pgbits v).1 ≥ VREC ∧ (pgbits v).1 ≤ VEND
  · simp only [hres, and_self, if_true] at h; cases h
  · simp only [hres, if_false] at h
    cases h4 : level_ro m pm (pgbits v).1 with
    | none => rw [h4] at h; cases h
    | some o4 =>
      cases o4 with
      | none => rw [h4] at h; cases h
      | some n4 =>
        rw [h4] at h
        simp only [] at h
        obtain ⟨p4, s4, _, e4⟩ := level_ro_some h4
        have hV3 : V 3 n4 := by rw [e4]; exact (hsh 2 pm _ hV b4 p4 s4).2
        cases h3 : level_ro m n4 (pgbits v).2.1 with
        | none => rw [h3] at h; cases h
        | some o3 =>
          cases o3 with
          | none => rw [h3] at h; cases h
          | some n3 =>
            rw [h3] at h
            simp only [] at h
            obtain ⟨p3, s3, _, e3⟩ := level_ro_some h3
            have hV2 : V 2 n3 := by rw [e3]; exact (hsh 1 n4 _ hV3 b3 p3 s3).2
            cases h2 : level_ro m n3 (pgbits v).2.2.1 with
            | none => rw [h2] at h; cases h
            | some o2 =>
              cases o2 with
              | none => rw [h2] at h; cases h
              | some n2 =>
                rw [h2] at h
                simp only [] at h
                obtain ⟨p2, s2, _, e2⟩ := level_ro_some h2
                have hV1 : V 1 n2 := by rw [e2]; exact (hsh 0 n3 _ hV2 b2 p2 s2).2
                injection h with h; injection h with h
                injection h with hf hi
                subst hf; subst hi
                exact ⟨hV1, b1⟩

/-! ## `copy_pmap` -/

section CopyPmap

variable {α : Type} {ptemod : Option (Ptemod α)} {c : Nat → Nat} {V : Nat → Nat → Prop}
  {E : Nat → Prop} {J : Nat → Tracker × α → Prop}

/-- The function `copy_pmap` returns, and the table it returns is a copy of
the source. -/
theorem copy_pmap_spec {heap : Nat → Nat} (hyp : CopyHyp ptemod c V E J heap)
    {pm : Nat} {st : CopySt α} (hheap : st.1.heap = heap) (hpre : PmapPre V E J pm st) :
    ∃ r st2, copy_pmap ptemod pm st
        = some (st.1.heap st.1.nalloc, st.1.heap st.1.nalloc, r, st2) ∧
      PmapCopied c V J pm st (st.1.heap st.1.nalloc) r st2 := by
  obtain ⟨s, tr, a⟩ := st
  have hheap0 : s.heap = heap := hheap
  have hgood : GoodHeap s.heap V s.nalloc (s.nalloc + 1 + tables_below s.mem 4 pm) := hpre.good
  have hal : s.heap s.nalloc % 4096 = 0 := hgood.aligned _ (le_refl _) (by omega)
  have hout : ∀ k, ¬ V k (s.heap s.nalloc) := fun k =>
    hgood.fresh _ k (le_refl _) (by omega)
  have hm1 : ∀ f i k, V k f → (s.mem.zero (s.heap s.nalloc)) f i = s.mem f i := by
    intro f i k hV
    exact Mem.zero_other _ _ _ _ (fun h => hout k (by rw [← h]; exact hV))
  have htb : tables_below (s.mem.zero (s.heap s.nalloc)) 4 pm = tables_below s.mem 4 pm :=
    tables_below_congr hpre.shape (fun f i k hV => hm1 f i _ hV) 4 pm hpre.root_in
  have hpre1 : CopyPre V E J 4 (s.heap s.nalloc) pm
      ({ s with mem := s.mem.zero (s.heap s.nalloc), nalloc := s.nalloc + 1 },
        mapSet tr (s.heap s.nalloc) (s.heap s.nalloc), a) :=
    { depth := by decide
      src_in := hpre.root_in
      shape := hpre.shape.shape_congr (fun f i k hV => hm1 f i _ hV)
      leaf := fun f i hV hi hp => by
        have := hm1 f i 1 hV
        simp only at hp ⊢
        rw [this] at hp ⊢
        exact hpre.leaf f i hV hi hp
      dst_zero := fun i _ => Mem.zero_same _ _ _
      dst_out := hout
      good := by
        show GoodHeap s.heap V (s.nalloc + 1) (s.nalloc + 1 + tables_below _ 4 pm)
        rw [htb]
        exact
        { aligned := fun k h1 h2 => hgood.aligned k (by omega) h2
          low := fun k h1 h2 => hgood.low k (by omega) h2
          inj := fun k1 k2 h1 h2 h3 h4 => hgood.inj k1 k2 (by omega) h2 (by omega) h4
          fresh := fun k j h1 h2 => hgood.fresh k j (by omega) h2 }
      dst_fresh := fun k h1 h2 heq => by
        have h1b : s.nalloc + 1 ≤ k := h1
        have h2b : k < s.nalloc + 1 + tables_below _ 4 pm := h2
        rw [htb] at h2b
        have := hgood.inj k s.nalloc (by omega) h2b (le_refl _) (by omega) heq
        omega
      inv := by
        show J (s.nalloc + 1) (mapSet tr (s.heap s.nalloc) (s.heap s.nalloc), a)
        rw [hheap0]
        exact hyp.alloc s.nalloc tr a hpre.inv }
  obtain ⟨r, st2, hrun, hpost⟩ := copy_pmap1_spec hyp 4 _ pm _ hheap0 hpre1
  refine ⟨r, st2, ?_, ?_⟩
  · simp only [copy_pmap, pg_new_eq tr hal, hrun]
  · have hn2 : st2.1.nalloc = s.nalloc + 1 + tables_below s.mem 4 pm := by
      have := hpost.nalloc_eq
      rw [← tables_below_eq_sum, htb] at this
      exact this
    exact
    { root := rfl
      heap_eq := hpost.heap_eq
      inval_eq := hpost.inval_eq
      nalloc_eq := hn2
      frame := by
        have hstep : Frame c V (Window s.heap s.nalloc st2.1.nalloc) (fun _ _ => False)
            s.mem (s.mem.zero (s.heap s.nalloc)) := by
          intro f i
          by_cases h : f = s.heap s.nalloc
          · exact Or.inr (Or.inl ⟨s.nalloc, le_refl _, by rw [hn2]; omega, h⟩)
          · exact Or.inl (Mem.zero_other _ _ _ _ h)
        refine Frame.frame_trans hyp.idem hstep (hpost.frame.mono2 ?_ ?_)
        · intro f w
          exact Window.window_mono w (Nat.le_succ _) (le_refl _)
        · intro f i hd
          exact Or.inl ⟨s.nalloc, le_refl _, by rw [hn2]; omega, hd.1⟩
      copy := (IsCopy_iff _ _ _ _ _ _ (by decide)).mpr hpost.copy
      inv := hpost.inv
      noinval := hpost.noinval }

end CopyPmap

/-! ## `copy_pmap` without callback (C7, C8) -/

/-- The hypotheses on the callback hold when there is none: the rewrite is
the identity, and the tracker gains exactly the new pages. -/
theorem copyHyp_nil (heap : Nat → Nat) (V : Nat → Nat → Prop) (tr : Tracker) (lo : Nat) :
    CopyHyp (none : Option (Ptemod Unit)) id V (fun _ => True)
      (fun n st => lo ≤ n ∧ (∀ k, lo ≤ k → k < n → st.1 (heap k) = some (heap k)) ∧
        (∀ p, ¬ Window heap lo n p → st.1 p = tr p)) heap :=
  { idem := fun _ => rfl
    keepP := fun _ => rfl
    keepE := fun _ _ => trivial
    run := fun n v st hJ _ _ => ⟨st, rfl, hJ⟩
    alloc := fun n tr2 a ⟨h0, h1, h2⟩ => by
      refine ⟨by omega, fun k hk1 hk2 => ?_, fun p hp => ?_⟩
      · show mapSet tr2 (heap n) (heap n) (heap k) = some (heap k)
        by_cases hk : heap k = heap n
        · simp only [mapSet, hk, if_true]
        · simp only [mapSet, hk, if_false]
          by_cases hkn : k = n
          · exact absurd (by rw [hkn]) hk
          · exact h1 k hk1 (by omega)
      · show mapSet tr2 (heap n) (heap n) p = tr p
        have hpn : p ≠ heap n := fun e => hp ⟨n, h0, by omega, e⟩
        simp only [mapSet, hpn, if_false]
        exact h2 p (fun w => hp (w.window_mono (le_refl _) (Nat.le_succ _)))
    sep := Or.inl (fun _ => rfl) }

/-- C7, amended: on a source page table `pm` whose tables `V` lie inside the
direct map, and with the allocator's next pages fresh, `copy_pmap(nil, pm)`
returns with `did_invalidate = false`; it allocates one page for the root and
one for each present entry without PS above the leaf level; the memory outside
these pages (so every source table) is unchanged; every new page is recorded
in the tracker and is none of the source tables; the new root is a copy of `pm`
made of new pages, in which every present entry with PS is equal to the
source's; and a walk without `create` of the new table panics, or returns nil,
exactly when the same walk of the source does, and otherwise returns an entry
of a new page that is equal to the source's entry when that one is present and
zero when it is not. -/
theorem C7_copy_pmap_nil_is_deep_copy (s : Phys) (tr : Tracker) (pm : Nat)
    (V : Nat → Nat → Prop) (hroot : V 4 pm) (hshape : Shape s.mem V)
    (hgood : GoodHeap s.heap V s.nalloc (s.nalloc + 1 + tables_below s.mem 4 pm)) :
    ∃ s2 tr2,
      copy_pmap (none : Option (Ptemod Unit)) pm (s, tr, ())
        = some (s.heap s.nalloc, s.heap s.nalloc, false, s2, tr2, ()) ∧
      s2.nalloc = s.nalloc + 1 + tables_below s.mem 4 pm ∧
      (∀ f i, ¬ Window s.heap s.nalloc s2.nalloc f → s2.mem f i = s.mem f i) ∧
      (∀ p, Window s.heap s.nalloc s2.nalloc p → tr2 p = some p ∧ ∀ d, ¬ V d p) ∧
      (∀ p, ¬ Window s.heap s.nalloc s2.nalloc p → tr2 p = tr p) ∧
      IsCopy id (Window s.heap (s.nalloc + 1) s2.nalloc) s2.mem 4 pm (s.heap s.nalloc) ∧
      (∀ v perms,
        (pmap_walk s tr pm v false perms = none ↔
          pmap_walk s2 tr2 (s.heap s.nalloc) v false perms = none) ∧
        (pmap_walk s tr pm v false perms = some (none, s, tr) ↔
          pmap_walk s2 tr2 (s.heap s.nalloc) v false perms = some (none, s2, tr2)) ∧
        (∀ f i, pmap_walk s tr pm v false perms = some (some (f, i), s, tr) →
          ∃ f2, pmap_walk s2 tr2 (s.heap s.nalloc) v false perms = some (some (f2, i), s2, tr2) ∧
            Window s.heap (s.nalloc + 1) s2.nalloc f2 ∧
            (s.mem f i &&& PTE_P ≠ 0 → s2.mem f2 i = s.mem f i) ∧
            (s.mem f i &&& PTE_P = 0 → s2.mem f2 i = 0))) := by
  have hyp := copyHyp_nil s.heap V tr s.nalloc
  have hpre : PmapPre V (fun _ => True)
      (fun n (st : Tracker × Unit) => s.nalloc ≤ n ∧
        (∀ k, s.nalloc ≤ k → k < n → st.1 (s.heap k) = some (s.heap k)) ∧
        (∀ p, ¬ Window s.heap s.nalloc n p → st.1 p = tr p)) pm (s, tr, ()) :=
    { root_in := hroot
      shape := hshape
      leaf := fun _ _ _ _ _ => trivial
      good := hgood
      inv := ⟨le_refl _, fun k h1 h2 => absurd h2 (by show ¬ k < s.nalloc; omega), fun _ _ => rfl⟩ }
  obtain ⟨r, ⟨s2, tr2, u⟩, hrun, hc⟩ := copy_pmap_spec hyp rfl hpre
  have hr : r = false := hc.noinval (fun _ => rfl)
  subst hr
  have hn2 : s2.nalloc = s.nalloc + 1 + tables_below s.mem 4 pm := hc.nalloc_eq
  have hframe : ∀ f i, ¬ Window s.heap s.nalloc s2.nalloc f → s2.mem f i = s.mem f i := by
    intro f i hw
    rcases hc.frame f i with e | w | d | ⟨_, _, _, e⟩
    · exact e
    · exact absurd w hw
    · exact absurd d id
    · exact e
  have hWout : ∀ p k, Window s.heap s.nalloc s2.nalloc p → ¬ V k p := by
    intro p k ⟨j, h1, h2, h3⟩
    have h2b : j < s2.nalloc := h2
    rw [h3]
    exact hgood.fresh j k h1 (by omega)
  have hJ := hc.inv
  have hin : ∀ f i k, V k f → s2.mem f i = s.mem f i :=
    fun f i k hV => hframe f i (fun w => hWout f k w hV)
  have hsh2 : Shape s2.mem V := hshape.shape_congr (fun f i k hV => hin f i _ hV)
  refine ⟨s2, tr2, hrun, hn2, hframe, ?_, hJ.2.2, hc.copy, ?_⟩
  · intro p ⟨j, h1, h2, h3⟩
    refine ⟨?_, fun d => hWout p d ⟨j, h1, h2, h3⟩⟩
    rw [h3]
    exact hJ.2.1 j h1 h2
  · intro v perms
    rw [pmap_walk_ro, pmap_walk_ro]
    have hsame : walk_ro s2.mem pm v = walk_ro s.mem pm v :=
      walk_ro_congr hshape (fun f i k hV => hin f i _ hV) hroot v
    obtain ⟨w1, w2, w3⟩ := walk_copy hsh2 hroot hc.copy v
    rw [hsame] at w1 w2 w3
    cases hsrc : walk_ro s.mem pm v with
    | none =>
      rw [w1 hsrc]
      exact ⟨⟨fun _ => rfl, fun _ => rfl⟩, ⟨fun h => (by cases h), fun h => (by cases h)⟩,
        fun f i h => (by cases h)⟩
    | some o =>
      cases o with
      | none =>
        rw [w2 hsrc]
        exact ⟨⟨fun h => (by cases h), fun h => (by cases h)⟩, ⟨fun _ => rfl, fun _ => rfl⟩,
          fun f i h => (by cases h)⟩
      | some fi =>
        obtain ⟨f0, i0⟩ := fi
        obtain ⟨f2, e2, hA, hV1, hi, z1, z2⟩ := w3 f0 i0 hsrc
        rw [e2]
        refine ⟨⟨fun h => (by cases h), fun h => (by cases h)⟩,
          ⟨fun h => (by cases h), fun h => (by cases h)⟩, fun f i h => ?_⟩
        have hfi : f0 = f ∧ i0 = i := by
          simp only [Option.map_some', Option.some.injEq, Prod.mk.injEq] at h
          exact ⟨h.1.1, h.1.2⟩
        obtain ⟨hf, hi2⟩ := hfi
        subst hf; subst hi2
        have hsrcv : s2.mem f0 i0 = s.mem f0 i0 := hin f0 i0 1 hV1
        rw [hsrcv] at z1 z2
        exact ⟨f2, rfl, hA, fun hp => (z2 hp).1, z1⟩

theorem ex_tables : tables_below ex_mem 4 0x1000 = 3 := by decide!

theorem ex_shape : Shape ex_mem ex_V := by
  intro d f i hV hi hp hps
  rcases hV with ⟨hd, hf⟩ | ⟨hd, hf⟩ | ⟨hd, hf⟩ | ⟨hd, hf⟩
  · have hd2 : d = 2 := by omega
    subst hd2; subst hf
    by_cases h : i = 0x59
    · subst h
      exact ⟨by decide, Or.inr (Or.inl ⟨rfl, by decide⟩)⟩
    · exact absurd (show ex_mem 0x1000 i &&& PTE_P = 0 by simp [ex_mem, h]) hp
  · have hd2 : d = 1 := by omega
    subst hd2; subst hf
    by_cases h : i = 0
    · subst h
      exact ⟨by decide, Or.inr (Or.inr (Or.inl ⟨rfl, by decide⟩))⟩
    · exact absurd (show ex_mem 0x2000 i &&& PTE_P = 0 by simp [ex_mem, h]) hp
  · have hd2 : d = 0 := by omega
    subst hd2; subst hf
    by_cases h : i = 0
    · subst h
      exact ⟨by decide, Or.inr (Or.inr (Or.inr ⟨rfl, by decide⟩))⟩
    · exact absurd (show ex_mem 0x3000 i &&& PTE_P = 0 by simp [ex_mem, h]) hp
  · omega

theorem ex_good (n : Nat) (hn : n ≤ 1000) : GoodHeap ex_heap ex_V 0 n :=
  { aligned := fun k _ _ => by simp only [ex_heap]; omega
    low := fun k _ hk => by simp only [ex_heap]; omega
    inj := fun k1 k2 _ _ _ _ h => by simp only [ex_heap] at h; omega
    fresh := fun k d _ _ hV => by
      simp only [ex_V, ex_heap] at hV
      omega }

/-- A witness of C7 on the page table `ex_mem`. -/
theorem C7_witness :
    ex_V 4 0x1000 ∧ Shape ex_phys.mem ex_V ∧
    GoodHeap ex_phys.heap ex_V ex_phys.nalloc
      (ex_phys.nalloc + 1 + tables_below ex_phys.mem 4 0x1000) ∧
    ∃ s2 tr2,
      copy_pmap (none : Option (Ptemod Unit)) 0x1000 (ex_phys, fun _ => none, ())
        = some (ex_phys.heap ex_phys.nalloc, ex_phys.heap ex_phys.nalloc, false, s2, tr2, ()) ∧
      s2.nalloc = ex_phys.nalloc + 1 + tables_below ex_phys.mem 4 0x1000 :=
  have h1 : ex_V 4 0x1000 := Or.inl ⟨rfl, rfl⟩
  have h3 : GoodHeap ex_phys.heap ex_V ex_phys.nalloc
      (ex_phys.nalloc + 1 + tables_below ex_phys.mem 4 0x1000) := by
    have e : ex_phys.nalloc + 1 + tables_below ex_phys.mem 4 0x1000 = 4 := by decide!
    rw [e]
    exact ex_good 4 (by decide)
  ⟨h1, ex_shape, h3,
    (C7_copy_pmap_nil_is_deep_copy ex_phys (fun _ => none) 0x1000 ex_V h1 ex_shape h3).imp
      (fun _ h => h.imp (fun _ h2 => ⟨h2.1, h2.2.1⟩))⟩

/-- C7 as stated fails: the second user page of `ex_mem` has an entry that
is not present and holds 2; the walk of the source returns that entry, the walk
of the copy returns an entry at the same index that holds 0. -/
theorem C7_counterexample :
    (match copy_pmap (none : Option (Ptemod Unit)) 0x1000 (ex_phys, fun _ => none, ()) with
      | none => none
      | some (npm, _, _, s2, tr2, _) =>
        match pmap_walk ex_phys (fun _ => none) 0x1000 ex_va1 false 0,
              pmap_walk s2 tr2 npm ex_va1 false 0 with
        | some (some (f, i), _, _), some (some (f2, i2), _, _) =>
          some (ex_phys.mem f i, i, s2.mem f2 i2, i2)
        | _, _ => none)
      = some (2, 1, 0, 1) := by
  decide!

/-- C8: the kernel page table `kern_mem` has its recursive slot pointing at
itself with P and W; in the page table that `copy_pmap` returns for it the
recursive slot points, with P and W, at the page `0x101000` allocated for a
copied subtree, not at the new root `0x100000`. -/
theorem C8_recursive_slot_is_copied_as_subtree :
    kern_phys.mem 0x1000 VREC = 0x1000 ||| PTE_P ||| PTE_W ∧
    (copy_pmap (none : Option (Ptemod Unit)) 0x1000 (kern_phys, fun _ => none, ())).map
        (fun r => (r.1, r.2.2.2.1.mem r.1 VREC))
      = some (0x100000, 0x101000 ||| PTE_P ||| PTE_W) := by
  decide!

/-! ## `sys_fork` (C3) -/

theorem not64_W_eq : not64 PTE_W = (2 ^ 62 - 1) <<< 2 ||| 1 := by decide

theorem testBit_not64_W (i : Nat) :
    (not64 PTE_W).testBit i = (decide (i ≠ 1) && decide (i < 64)) := by
  rw [not64_W_eq, Nat.testBit_lor, Nat.testBit_shiftLeft, Nat.testBit_two_pow_sub_one]
  have h1 : (1 : Nat) = 2 ^ 0 := rfl
  rw [h1, Nat.testBit_two_pow]
  by_cases h0 : i = 0
  · subst h0; simp
  · by_cases h2 : i = 1
    · subst h2; simp
    · have : 2 ≤ i := by omega
      simp only [ge_iff_le, this, decide_True, Bool.true_and, ne_eq, h2, not_false_eq_true,
        Bool.or_eq_true, decide_eq_true_eq]
      have e1 : decide (0 = i) = false := by simp; omega
      rw [e1, Bool.or_false]
      by_cases h3 : i < 64
      · have : i - 2 < 62 := by omega
        simp [h3, this, h2]
      · have : ¬ i - 2 < 62 := by omega
        simp [h3, this]

/-- The bits of an entry after `(pte | PTE_COW) & ^PTE_W`. -/
theorem testBit_cow (v i : Nat) :
    ((v ||| PTE_COW) &&& not64 PTE_W).testBit i
      = ((v.testBit i || decide (i = 9)) && (decide (i ≠ 1) && decide (i < 64))) := by
  rw [Nat.testBit_land, Nat.testBit_lor, testBit_not64_W, PTE_COW_eq, Nat.testBit_two_pow]
  by_cases h : i = 9
  · subst h; simp
  · have : ¬ 9 = i := fun e => h e.symm
    simp [h, this]

theorem and_bit_eq {a b k : Nat} (h : a.testBit k = b.testBit k) : a &&& 2 ^ k = b &&& 2 ^ k := by
  apply Nat.eq_of_testBit_eq
  intro i
  simp only [Nat.testBit_land, Nat.testBit_two_pow]
  by_cases hk : k = i
  · subst hk; simp [h]
  · simp [hk]

theorem and_bit_ne_zero {a k : Nat} : a &&& 2 ^ k ≠ 0 ↔ a.testBit k = true := by
  rw [Nat.and_two_pow]
  cases a.testBit k <;> simp

theorem cow_keeps_bit (v k : Nat) (hk : k < 64) (h1 : k ≠ 1) (h9 : k ≠ 9) :
    ((v ||| PTE_COW) &&& not64 PTE_W) &&& 2 ^ k = v &&& 2 ^ k := by
  apply and_bit_eq
  rw [testBit_cow]
  simp [h1, h9, hk]

theorem cow_clears_W (v : Nat) : ((v ||| PTE_COW) &&& not64 PTE_W) &&& PTE_W = 0 := by
  have hb := testBit_cow v 1
  generalize (v ||| PTE_COW) &&& not64 PTE_W = x at hb ⊢
  rw [PTE_W_eq]
  by_contra h
  have := and_bit_ne_zero.mp h
  rw [hb] at this
  simp at this

theorem cow_sets_COW (v : Nat) : ((v ||| PTE_COW) &&& not64 PTE_W) &&& PTE_COW ≠ 0 := by
  have hb := testBit_cow v 9
  generalize (v ||| PTE_COW) &&& not64 PTE_W = x at hb ⊢
  rw [PTE_COW_eq]
  apply and_bit_ne_zero.mpr
  rw [hb]
  simp

theorem cow_keeps_addr (v : Nat) :
    ((v ||| PTE_COW) &&& not64 PTE_W) &&& PTE_ADDR = v &&& PTE_ADDR := by
  apply Nat.eq_of_testBit_eq
  intro i
  rw [Nat.testBit_land, testBit_cow, Nat.testBit_land, testBit_PTE_ADDR]
  by_cases h1 : 12 ≤ i
  · by_cases h2 : i < 64
    · have h3 : i ≠ 9 := by omega
      have h4 : i ≠ 1 := by omega
      simp [h1, h2, h3, h4]
    · simp [h2]
  · simp [h1]

theorem cow_entry_kernel {v : Nat} (hU : v &&& PTE_U = 0) : cow_entry v = v := by
  simp only [cow_entry, hU, if_true]

theorem cow_entry_writable {v : Nat} (hU : v &&& PTE_U ≠ 0) (hW : v &&& PTE_W ≠ 0) :
    cow_entry v = (v ||| PTE_COW) &&& not64 PTE_W := by
  simp only [cow_entry, hU, if_false, hW, ne_eq, not_false_eq_true, if_true]

theorem cow_entry_readonly {v : Nat} (hU : v &&& PTE_U ≠ 0) (hW : v &&& PTE_W = 0) :
    cow_entry v = v := by
  simp only [cow_entry, hU, if_false, hW, ne_eq, not_true_eq_false]

theorem cow_entry_P (v : Nat) : cow_entry v &&& PTE_P = v &&& PTE_P := by
  unfold cow_entry
  split
  · rfl
  · split
    · rw [PTE_P_eq]; exact cow_keeps_bit v 0 (by decide) (by decide) (by decide)
    · rfl

theorem cow_entry_U (v : Nat) : cow_entry v &&& PTE_U = v &&& PTE_U := by
  unfold cow_entry
  split
  · rfl
  · split
    · rw [PTE_U_eq]; exact cow_keeps_bit v 2 (by decide) (by decide) (by decide)
    · rfl

theorem cow_entry_addr (v : Nat) : cow_entry v &&& PTE_ADDR = v &&& PTE_ADDR := by
  unfold cow_entry
  split
  · rfl
  · split
    · exact cow_keeps_addr v
    · rfl

theorem cow_entry_idem (v : Nat) : cow_entry (cow_entry v) = cow_entry v := by
  by_cases hU : v &&& PTE_U = 0
  · rw [cow_entry_kernel hU, cow_entry_kernel hU]
  · by_cases hW : v &&& PTE_W = 0
    · rw [cow_entry_readonly hU hW, cow_entry_readonly hU hW]
    · have hU2 : cow_entry v &&& PTE_U ≠ 0 := by rw [cow_entry_U]; exact hU
      have hW2 : cow_entry v &&& PTE_W = 0 := by
        rw [cow_entry_writable hU hW]; exact cow_clears_W v
      exact cow_entry_readonly hU2 hW2

/-- The hypotheses on the callback hold for `mk_cow`, on a page table whose
tables of leaf entries are not also tables above the leaf level and whose user
pages the parent tracks; the child's `upages` stays within its `pages` and
within the parent's `upages`. -/
theorem copyHyp_mk_cow (heap : Nat → Nat) (V : Nat → Nat → Prop) (ppages : Tracker)
    (pupages : Nat → Option Nat) (hsep : ∀ f d, V 1 f → ¬ V (d + 2) f) :
    CopyHyp (some (mk_cow ppages pupages)) cow_entry V
      (fun v => v &&& PTE_U ≠ 0 →
        ppages (v &&& PTE_ADDR) ≠ none ∧ pupages (v &&& PTE_ADDR) ≠ none)
      (fun _ st => (∀ F, st.2 F ≠ none → st.1 F ≠ none) ∧
        ∀ F va, st.2 F = some va → pupages F = some va) heap :=
  { idem := cow_entry_idem
    keepP := cow_entry_P
    keepE := fun v hE hU => by
      rw [cow_entry_U] at hU
      rw [cow_entry_addr]
      exact hE hU
    run := fun n v st hJ _ hE => by
      by_cases hU : v &&& PTE_U = 0
      · refine ⟨st, ?_, hJ⟩
        simp only [run_ptemod, mk_cow, hU, if_true, cow_entry_kernel hU]
      · obtain ⟨h1, h2⟩ := hE hU
        obtain ⟨pg, hpg⟩ := Option.ne_none_iff_exists'.mp h1
        obtain ⟨upg, hupg⟩ := Option.ne_none_iff_exists'.mp h2
        have hc : (if v &&& PTE_W ≠ 0 then (v ||| PTE_COW) &&& not64 PTE_W else v)
            = cow_entry v := by
          simp only [cow_entry, hU, if_false]
        refine ⟨(mapSet st.1 (v &&& PTE_ADDR) pg, mapSet st.2 (v &&& PTE_ADDR) upg), ?_, ?_⟩
        · simp only [run_ptemod, mk_cow, hU, if_false, hc, cow_entry_addr, hpg, hupg]
        · constructor
          · intro F hF
            by_cases hFe : F = v &&& PTE_ADDR
            · simp [mapSet, hFe]
            · simp only [mapSet, hFe, if_false] at hF ⊢
              exact hJ.1 F hF
          · intro F va hF
            by_cases hFe : F = v &&& PTE_ADDR
            · simp only [mapSet, hFe, if_true, Option.some.injEq] at hF
              rw [hFe, ← hF]; exact hupg
            · simp only [mapSet, hFe, if_false] at hF
              exact hJ.2 F va hF
    alloc := fun n tr a hJ => ⟨fun F hF => by
      by_cases hFe : F = heap n
      · simp [mapSet, hFe]
      · simp only [mapSet, hFe, if_false]
        exact hJ.1 F hF, hJ.2⟩
    sep := Or.inr hsep }

/-- The function `sys_fork` returns, and the child's page table is a copy of
the parent's under the rewrite of `mk_cow`. -/
theorem sys_fork_spec (k : Kernel) (parent : proc_t) (ptf : Tf) (V : Nat → Nat → Prop)
    (hroot : V 4 parent.pmap) (hshape : Shape k.phys.mem V)
    (hsep : ∀ f d, V 1 f → ¬ V (d + 2) f)
    (htrack : ∀ f i, V 1 f → i < 512 → k.phys.mem f i &&& PTE_P ≠ 0 →
      k.phys.mem f i &&& PTE_U ≠ 0 →
      parent.pages (k.phys.mem f i &&& PTE_ADDR) ≠ none ∧
        parent.upages (k.phys.mem f i &&& PTE_ADDR) ≠ none)
    (hgood : GoodHeap k.phys.heap V k.phys.nalloc
      (k.phys.nalloc + 1 + tables_below k.phys.mem 4 parent.pmap)) :
    ∃ child k2 r, sys_fork k parent ptf = some (child.pid, child, k2) ∧
      child.pid = wrap64 (k.pid_cur + 1) ∧
      child.pmap = k.phys.heap k.phys.nalloc ∧ child.p_pmap = k.phys.heap k.phys.nalloc ∧
      k2.allprocs child.pid = some child ∧
      PmapCopied cow_entry V (fun _ (st : Tracker × (Nat → Option Nat)) =>
          (∀ F, st.2 F ≠ none → st.1 F ≠ none) ∧
          ∀ F va, st.2 F = some va → parent.upages F = some va)
        parent.pmap (k.phys, fun _ => none, fun _ => none) child.pmap r
        (k2.phys, child.pages, child.upages) := by
  have hyp := copyHyp_mk_cow k.phys.heap V parent.pages parent.upages hsep
  have hpre : PmapPre V
      (fun v => v &&& PTE_U ≠ 0 →
        parent.pages (v &&& PTE_ADDR) ≠ none ∧ parent.upages (v &&& PTE_ADDR) ≠ none)
      (fun _ (st : Tracker × (Nat → Option Nat)) =>
        (∀ F, st.2 F ≠ none → st.1 F ≠ none) ∧
        ∀ F va, st.2 F = some va → parent.upages F = some va)
      parent.pmap (k.phys, fun _ => none, fun _ => none) :=
    { root_in := hroot
      shape := hshape
      leaf := fun f i hV hi hp hU => htrack f i hV hi hp hU
      good := hgood
      inv := ⟨fun F hF => absurd rfl hF, fun F va hF => by cases hF⟩ }
  obtain ⟨r, ⟨s2, cp, cu⟩, hrun, hc⟩ := copy_pmap_spec hyp rfl hpre
  have hrun2 : copy_pmap (some (mk_cow parent.pages parent.upages)) parent.pmap
      (k.phys, fun _ => none, fun _ => none)
      = some (k.phys.heap k.phys.nalloc, k.phys.heap k.phys.nalloc, r, s2, cp, cu) := hrun
  let nm := parent.name ++ String.singleton (Char.ofNat 39) ++ "s child"
  let child : proc_t :=
    { (proc_new k nm).1 with
      pages := cp, upages := cu, pmap := k.phys.heap k.phys.nalloc,
      p_pmap := k.phys.heap k.phys.nalloc }
  let k2 : Kernel :=
    sched_add
      { (proc_new k nm).2 with
        phys := s2
        allprocs := fun n => if n = child.pid then some child else (proc_new k nm).2.allprocs n }
      child (fun i => if i = TF_RAX then 0 else ptf i)
  refine ⟨child, k2, r, ?_, rfl, rfl, rfl, ?_, hc⟩
  · simp only [sys_fork, proc_new, hrun2]
    rfl
  · show (if child.pid = child.pid then some child else _) = some child
    rw [if_pos rfl]

/-- C3: on a parent whose page table is made of the tables `V` (tables of
leaf entries apart from the tables above them, all inside the direct map),
whose present user pages are tracked in `pages` and `upages`, and with the
allocator's next pages fresh, `sys_fork` returns; and for every virtual address
whose leaf entry is present in the parent before the fork, the parent's walk
still ends at that entry, the child's walk ends at an entry equal to it, a user
entry that had W now has W clear and COW set and the same frame in both, and a
user entry without W or a kernel entry is unchanged in the parent and copied
unchanged into the child. No frame other than the new tables and the tables of
leaf entries is written. -/
theorem C3_fork_marks_writable_user_pages_cow (k : Kernel) (parent : proc_t) (ptf : Tf)
    (V : Nat → Nat → Prop)
    (hroot : V 4 parent.pmap) (hshape : Shape k.phys.mem V)
    (hsep : ∀ f d, V 1 f → ¬ V (d + 2) f)
    (htrack : ∀ f i, V 1 f → i < 512 → k.phys.mem f i &&& PTE_P ≠ 0 →
      k.phys.mem f i &&& PTE_U ≠ 0 →
      parent.pages (k.phys.mem f i &&& PTE_ADDR) ≠ none ∧
        parent.upages (k.phys.mem f i &&& PTE_ADDR) ≠ none)
    (hgood : GoodHeap k.phys.heap V k.phys.nalloc
      (k.phys.nalloc + 1 + tables_below k.phys.mem 4 parent.pmap)) :
    ∃ child k2, sys_fork k parent ptf = some (child.pid, child, k2) ∧
      (∀ g j, ¬ V 1 g → ¬ Window k.phys.heap k.phys.nalloc k2.phys.nalloc g →
        k2.phys.mem g j = k.phys.mem g j) ∧
      ∀ v perms f i,
        pmap_walk k.phys parent.pages parent.pmap v false perms
          = some (some (f, i), k.phys, parent.pages) →
        k.phys.mem f i &&& PTE_P ≠ 0 →
        pmap_walk k2.phys parent.pages parent.pmap v false perms
          = some (some (f, i), k2.phys, parent.pages) ∧
        ∃ f2, pmap_walk k2.phys child.pages child.pmap v false perms
            = some (some (f2, i), k2.phys, child.pages) ∧
          k2.phys.mem f2 i = k2.phys.mem f i ∧
          (k.phys.mem f i &&& PTE_U ≠ 0 → k.phys.mem f i &&& PTE_W ≠ 0 →
            k2.phys.mem f i = (k.phys.mem f i ||| PTE_COW) &&& not64 PTE_W ∧
            k2.phys.mem f i &&& PTE_W = 0 ∧ k2.phys.mem f i &&& PTE_COW ≠ 0 ∧
            k2.phys.mem f i &&& PTE_ADDR = k.phys.mem f i &&& PTE_ADDR) ∧
          (k.phys.mem f i &&& PTE_U ≠ 0 → k.phys.mem f i &&& PTE_W = 0 →
            k2.phys.mem f i = k.phys.mem f i) ∧
          (k.phys.mem f i &&& PTE_U = 0 → k2.phys.mem f i = k.phys.mem f i) := by
  obtain ⟨child, k2, r, hrun, _, hpm, _, _, hc⟩ :=
    sys_fork_spec k parent ptf V hroot hshape hsep htrack hgood
  have hn2 : k2.phys.nalloc = k.phys.nalloc + 1 + tables_below k.phys.mem 4 parent.pmap :=
    hc.nalloc_eq
  have hWout : ∀ p d, Window k.phys.heap k.phys.nalloc k2.phys.nalloc p → ¬ V d p := by
    intro p d ⟨j, h1, h2, h3⟩
    have h2b : j < k2.phys.nalloc := h2
    rw [h3]
    exact hgood.fresh j d h1 (by omega)
  have hframe : Frame cow_entry V (Window k.phys.heap k.phys.nalloc k2.phys.nalloc)
      (fun _ _ => False) k.phys.mem k2.phys.mem := hc.frame
  have hin : ∀ f i d, V (d + 2) f → k2.phys.mem f i = k.phys.mem f i :=
    hframe.frame_inner (Or.inr hsep) (fun f d w => hWout f d w) (fun _ _ _ h => h.elim)
  have hsh2 : Shape k2.phys.mem V := hshape.shape_congr hin
  refine ⟨child, k2, hrun, ?_, ?_⟩
  · intro g j hg hw
    rcases hframe g j with e | w | d | ⟨hv, _⟩
    · exact e
    · exact absurd w hw
    · exact d.elim
    · exact absurd hv hg
  · intro v perms f i hwalk hp
    rw [pmap_walk_ro] at hwalk
    have hw0 : walk_ro k.phys.mem parent.pmap v = some (some (f, i)) := by
      cases hx : walk_ro k.phys.mem parent.pmap v with
      | none => rw [hx] at hwalk; cases hwalk
      | some o =>
        rw [hx] at hwalk
        simp only [Option.map_some', Option.some.injEq, Prod.mk.injEq, and_true] at hwalk
        rw [hwalk]
    have hw2 : walk_ro k2.phys.mem parent.pmap v = some (some (f, i)) := by
      rw [walk_ro_congr hshape hin hroot v]; exact hw0
    obtain ⟨hV1, hi⟩ := walk_ro_leaf hshape hroot hw0
    have hcopy : IsCopy cow_entry (Window k.phys.heap (k.phys.nalloc + 1) k2.phys.nalloc)
        k2.phys.mem 4 parent.pmap child.pmap := hc.copy
    obtain ⟨_, _, w3⟩ := walk_copy hsh2 hroot hcopy v
    obtain ⟨f2, e2, _, _, _, _, z2⟩ := w3 f i hw2
    -- the parent's entry after the fork
    have hnew : k2.phys.mem f i = cow_entry (k.phys.mem f i) ∧ k2.phys.mem f i &&& PTE_P ≠ 0 := by
      rcases hframe f i with e | w | d | ⟨_, _, _, e⟩
      · have hp2 : k2.phys.mem f i &&& PTE_P ≠ 0 := by rw [e]; exact hp
        have := (z2 hp2).2
        rw [e] at this ⊢
        exact ⟨this.symm, hp⟩
      · exact absurd hV1 (hWout f 1 w)
      · exact d.elim
      · exact ⟨e, by rw [e, cow_entry_P]; exact hp⟩
    refine ⟨by rw [pmap_walk_ro, hw2]; rfl, f2, by rw [pmap_walk_ro, e2]; rfl,
      (z2 hnew.2).1, ?_, ?_, ?_⟩
    · intro hU hW
      rw [hnew.1, cow_entry_writable hU hW]
      exact ⟨rfl, cow_clears_W _, cow_sets_COW _, cow_keeps_addr _⟩
    · intro hU hW
      rw [hnew.1, cow_entry_readonly hU hW]
    · intro hU
      rw [hnew.1, cow_entry_kernel hU]

theorem ex_sep : ∀ f d, ex_V 1 f → ¬ ex_V (d + 2) f := by
  intro f d h1 h2
  simp only [ex_V] at h1 h2
  omega

theorem ex_mem_leaf (i : Nat) (hp : ex_mem 0x4000 i &&& PTE_P ≠ 0) : i = 0 := by
  by_contra h
  by_cases h1 : i = 1
  · subst h1; exact hp (by decide)
  · exact hp (by simp [ex_mem, h, h1])

theorem ex_track : ∀ f i, ex_V 1 f → i < 512 → ex_kernel.phys.mem f i &&& PTE_P ≠ 0 →
    ex_kernel.phys.mem f i &&& PTE_U ≠ 0 →
    ex_parent.pages (ex_kernel.phys.mem f i &&& PTE_ADDR) ≠ none ∧
      ex_parent.upages (ex_kernel.phys.mem f i &&& PTE_ADDR) ≠ none := by
  intro f i hV _ hp _
  have hf : f = 0x4000 := by
    simp only [ex_V] at hV
    omega
  subst hf
  have hi : i = 0 := ex_mem_leaf i hp
  subst hi
  exact ⟨by decide, by decide⟩

theorem ex_good_fork : GoodHeap ex_kernel.phys.heap ex_V ex_kernel.phys.nalloc
    (ex_kernel.phys.nalloc + 1 + tables_below ex_kernel.phys.mem 4 ex_parent.pmap) := by
  have e : ex_kernel.phys.nalloc + 1 + tables_below ex_kernel.phys.mem 4 ex_parent.pmap = 4 := by
    decide!
  rw [e]
  exact ex_good 4 (by decide)

/-- A witness of C3: the process `ex_parent` forks. -/
theorem C3_witness :
    ex_V 4 ex_parent.pmap ∧ Shape ex_kernel.phys.mem ex_V ∧
    ∃ child k2, sys_fork ex_kernel ex_parent (fun _ => 0) = some (child.pid, child, k2) :=
  ⟨Or.inl ⟨rfl, rfl⟩, ex_shape,
    (C3_fork_marks_writable_user_pages_cow ex_kernel ex_parent (fun _ => 0) ex_V
      (Or.inl ⟨rfl, rfl⟩) ex_shape ex_sep ex_track ex_good_fork).imp
      (fun _ h => h.imp (fun _ h2 => h2.1))⟩

/-! ## `pmap_walk` with `create` (C10) -/

/-- The entry `instpg` installs: present, no PS, and the new page as its
address. -/
theorem installed_entry {p perms : Nat} (hperm : FlagsOnly perms) (hp : p % 4096 = 0)
    (hlt : p < 2 ^ 39) :
    (p ||| perms ||| PTE_P) &&& PTE_ADDR = p ∧ (p ||| perms ||| PTE_P) &&& PTE_P ≠ 0 ∧
      (p ||| perms ||| PTE_P) &&& PTE_PS = 0 := by
  have hfl : perms ||| PTE_P < 4096 := by
    have : PTE_P < 2 ^ 12 := by decide
    exact Nat.or_lt_two_pow hperm.1 this
  rw [Nat.lor_assoc]
  refine ⟨entry_addr hp (lt_trans hlt (by decide)) hfl, ?_, ?_⟩
  · rw [PTE_P_eq, entry_bit 0 (by decide) hp]
    apply and_bit_ne_zero.mpr
    rw [Nat.testBit_lor]
    simp
  · have h7 : perms &&& 2 ^ 7 = 0 := by rw [← PTE_PS_eq]; exact hperm.2
    have hP : PTE_P.testBit 7 = false := by decide
    rw [PTE_PS_eq, entry_bit 7 (by decide) hp]
    rw [Nat.and_two_pow] at h7 ⊢
    rw [Nat.testBit_lor, hP]
    cases h : perms.testBit 7
    · rfl
    · rw [h] at h7; exact absurd h7 (by decide)

theorem walk_level_present (create : Bool) (perms : Nat) (s : Phys) (tr : Tracker)
    (pg idx : Nat) (hp : s.mem pg idx &&& PTE_P ≠ 0) (hps : s.mem pg idx &&& PTE_PS = 0)
    (hlt : s.mem pg idx &&& PTE_ADDR < 2 ^ 39) :
    walk_level create perms s tr pg idx = some (some (s.mem pg idx &&& PTE_ADDR), s, tr) := by
  simp only [walk_level, hp, if_false, cpe, hps, ne_eq, not_true_eq_false, pe2pg_of_lt hlt]

theorem walk_level_install (perms : Nat) (s : Phys) (tr : Tracker) (pg idx : Nat)
    (hperm : FlagsOnly perms) (hp : s.mem pg idx &&& PTE_P = 0)
    (hal : s.heap s.nalloc % 4096 = 0) (hlt : s.heap s.nalloc < 2 ^ 39) :
    walk_level true perms s tr pg idx
      = some (some (s.heap s.nalloc), (install perms s tr pg idx).1,
          (install perms s tr pg idx).2) := by
  obtain ⟨ea, _, eps⟩ := installed_entry hperm hal hlt
  simp only [walk_level, hp, if_true, Bool.not_true, Bool.false_eq_true, if_false, instpg,
    pg_new_eq tr hal, cpe, eps, ne_eq, not_true_eq_false, pe2pg_of_lt (by rw [ea]; exact hlt), ea,
    install]

/-- After an install the entry is followed to the new page. -/
theorem level_ro_install (perms : Nat) (s : Phys) (tr : Tracker) (pg idx : Nat)
    (hperm : FlagsOnly perms) (hal : s.heap s.nalloc % 4096 = 0)
    (hlt : s.heap s.nalloc < 2 ^ 39) :
    level_ro (install perms s tr pg idx).1.mem pg idx = some (some (s.heap s.nalloc)) := by
  obtain ⟨ea, ep, eps⟩ := installed_entry hperm hal hlt
  have hv : (install perms s tr pg idx).1.mem pg idx = s.heap s.nalloc ||| perms ||| PTE_P :=
    Mem.write_same _ _ _ _
  rw [level_ro_next (by rw [hv]; exact ep) (by rw [hv]; exact eps) (by rw [hv, ea]; exact hlt),
    hv, ea]

/-- The new page is zero after an install into another page. -/
theorem install_new_zero (perms : Nat) (s : Phys) (tr : Tracker) (pg idx j : Nat)
    (hne : s.heap s.nalloc ≠ pg) : (install perms s tr pg idx).1.mem (s.heap s.nalloc) j = 0 := by
  show Mem.write _ pg idx _ _ j = 0
  rw [Mem.write_other _ _ _ _ _ _ (fun h => hne h.1), Mem.zero_same]

theorem install_other (perms : Nat) (s : Phys) (tr : Tracker) (pg idx f j : Nat)
    (h1 : f ≠ s.heap s.nalloc) (h2 : ¬ (f = pg ∧ j = idx)) :
    (install perms s tr pg idx).1.mem f j = s.mem f j := by
  show Mem.write _ pg idx _ f j = _
  rw [Mem.write_other _ _ _ _ _ _ h2, Mem.zero_other _ _ _ _ h1]

theorem installed_present (q perms : Nat) : (q ||| perms ||| PTE_P) &&& PTE_P ≠ 0 := by
  rw [PTE_P_eq]
  apply and_bit_ne_zero.mpr
  rw [Nat.testBit_lor]
  simp

theorem Grown.grown_refl (perms : Nat) (W : Nat → Prop) (m : Mem)
    (hz : ∀ f i, W f → m f i = 0) : Grown perms W m m :=
  fun f i => ⟨fun _ => Or.inl rfl, fun h => Or.inl (hz f i h)⟩

theorem Grown.grown_congr {perms : Nat} {W W2 : Nat → Prop} {m0 m : Mem} (h : Grown perms W m0 m)
    (hW : ∀ p, W p ↔ W2 p) : Grown perms W2 m0 m := by
  intro f i
  obtain ⟨h1, h2⟩ := h f i
  refine ⟨fun hf => ?_, fun hf => ?_⟩
  · rcases h1 (fun c => hf ((hW f).mp c)) with e | ⟨a, q, hq, e⟩
    · exact Or.inl e
    · exact Or.inr ⟨a, q, (hW q).mp hq, e⟩
  · rcases h2 ((hW f).mpr hf) with e | ⟨q, hq, e⟩
    · exact Or.inl e
    · exact Or.inr ⟨q, (hW q).mp hq, e⟩

theorem Grown.grown_trans {perms : Nat} {W1 W2 : Nat → Prop} {m0 m1 m2 : Mem}
    (h1 : Grown perms W1 m0 m1) (h2 : Grown perms W2 m1 m2) :
    Grown perms (fun p => W1 p ∨ W2 p) m0 m2 := by
  intro f i
  obtain ⟨a1, b1⟩ := h1 f i
  obtain ⟨a2, b2⟩ := h2 f i
  refine ⟨fun hf => ?_, fun hf => ?_⟩
  · have hf1 : ¬ W1 f := fun c => hf (Or.inl c)
    have hf2 : ¬ W2 f := fun c => hf (Or.inr c)
    rcases a2 hf2 with e2 | ⟨ab2, q2, hq2, e2⟩
    · rcases a1 hf1 with e1 | ⟨ab1, q1, hq1, e1⟩
      · exact Or.inl (e2.trans e1)
      · exact Or.inr ⟨ab1, q1, Or.inl hq1, e2.trans e1⟩
    · rcases a1 hf1 with e1 | ⟨ab1, q1, hq1, e1⟩
      · exact Or.inr ⟨by rw [← e1]; exact ab2, q2, Or.inr hq2, e2⟩
      · rw [e1] at ab2
        exact absurd ab2 (installed_present q1 perms)
  · by_cases hf2 : W2 f
    · rcases b2 hf2 with e | ⟨q, hq, e⟩
      · exact Or.inl e
      · exact Or.inr ⟨q, Or.inr hq, e⟩
    · have hf1 : W1 f := hf.resolve_right hf2
      rcases a2 hf2 with e2 | ⟨_, q2, hq2, e2⟩
      · rcases b1 hf1 with e1 | ⟨q1, hq1, e1⟩
        · exact Or.inl (e2.trans e1)
        · exact Or.inr ⟨q1, Or.inl hq1, e2.trans e1⟩
      · exact Or.inr ⟨q2, Or.inr hq2, e2⟩

/-- One install into an absent slot. -/
theorem Grown.grown_install (perms : Nat) (s : Phys) (tr : Tracker) (pg idx : Nat)
    (hp : s.mem pg idx &&& PTE_P = 0) (hne : s.heap s.nalloc ≠ pg) :
    Grown perms (fun p => p = s.heap s.nalloc) s.mem (install perms s tr pg idx).1.mem := by
  intro f i
  refine ⟨fun hf => ?_, fun hf => ?_⟩
  · by_cases hc : f = pg ∧ i = idx
    · obtain ⟨rfl, rfl⟩ := hc
      exact Or.inr ⟨hp, _, rfl, Mem.write_same _ _ _ _⟩
    · exact Or.inl (install_other perms s tr pg idx f i hf hc)
  · have hf2 : f = s.heap s.nalloc := hf
    rw [hf2]
    exact Or.inl (install_new_zero perms s tr pg idx i hne)

theorem Recorded.recorded_trans {W1 W2 : Nat → Prop} {t0 t1 t2 : Tracker} (h1 : Recorded W1 t0 t1)
    (h2 : Recorded W2 t1 t2) : Recorded (fun p => W1 p ∨ W2 p) t0 t2 := by
  refine ⟨fun p hp => ?_, fun p hp => ?_⟩
  · by_cases hp2 : W2 p
    · exact h2.1 p hp2
    · rw [h2.2 p hp2]; exact h1.1 p (hp.resolve_right hp2)
  · rw [h2.2 p (fun c => hp (Or.inr c)), h1.2 p (fun c => hp (Or.inl c))]

theorem Recorded.recorded_congr {W W2 : Nat → Prop} {t0 t : Tracker} (h : Recorded W t0 t)
    (hW : ∀ p, W p ↔ W2 p) : Recorded W2 t0 t :=
  ⟨fun p hp => h.1 p ((hW p).mpr hp), fun p hp => h.2 p (fun c => hp ((hW p).mp c))⟩

theorem Recorded.recorded_install (perms : Nat) (s : Phys) (tr : Tracker) (pg idx : Nat) :
    Recorded (fun p => p = s.heap s.nalloc) tr (install perms s tr pg idx).2 := by
  refine ⟨fun p hp => ?_, fun p hp => ?_⟩
  · have hp2 : p = s.heap s.nalloc := hp
    show mapSet tr _ _ p = _
    rw [hp2]; simp [mapSet]
  · show mapSet tr _ _ p = _
    simp only [mapSet]
    rw [if_neg hp]

theorem Window.one (heap : Nat → Nat) (n p : Nat) : Window heap n (n + 1) p ↔ p = heap n := by
  constructor
  · rintro ⟨k, h1, h2, rfl⟩
    have : k = n := by omega
    rw [this]
  · intro h; exact ⟨n, le_refl _, Nat.lt_succ_self _, h⟩

theorem Window.two (heap : Nat → Nat) (n p : Nat) :
    Window heap n (n + 2) p ↔ (p = heap n ∨ p = heap (n + 1)) := by
  constructor
  · rintro ⟨k, h1, h2, rfl⟩
    have : k = n ∨ k = n + 1 := by omega
    rcases this with e | e <;> rw [e]
    · exact Or.inl rfl
    · exact Or.inr rfl
  · rintro (h | h)
    · exact ⟨n, le_refl _, by omega, h⟩
    · exact ⟨n + 1, by omega, by omega, h⟩

theorem Window.three (heap : Nat → Nat) (n p : Nat) :
    Window heap n (n + 3) p ↔ ((p = heap n ∨ p = heap (n + 1)) ∨ p = heap (n + 2)) := by
  constructor
  · rintro ⟨k, h1, h2, rfl⟩
    have : k = n ∨ k = n + 1 ∨ k = n + 2 := by omega
    rcases this with e | e | e <;> rw [e]
    · exact Or.inl (Or.inl rfl)
    · exact Or.inl (Or.inr rfl)
    · exact Or.inr rfl
  · rintro ((h | h) | h)
    · exact ⟨n, le_refl _, by omega, h⟩
    · exact ⟨n + 1, by omega, by omega, h⟩
    · exact ⟨n + 2, by omega, by omega, h⟩

theorem level_ro_keep (perms : Nat) (s : Phys) (tr : Tracker) (pg idx f j : Nat)
    (h1 : f ≠ s.heap s.nalloc) (h2 : ¬ (f = pg ∧ j = idx)) :
    level_ro (install perms s tr pg idx).1.mem f j = level_ro s.mem f j := by
  unfold level_ro
  rw [install_other perms s tr pg idx f j h1 h2]
theorem pmap_walk_create_of_levels (s : Phys) (tr : Tracker) (pml4 v perms : Nat)
    (hleg : LegalVa v) {n1 n2 f : Nat} {s1 s2 s3 : Phys} {tr1 tr2 tr3 : Tracker}
    (h1 : walk_level true perms s tr pml4 (pgbits v).1 = some (some n1, s1, tr1))
    (h2 : walk_level true perms s1 tr1 n1 (pgbits v).2.1 = some (some n2, s2, tr2))
    (h3 : walk_level true perms s2 tr2 n2 (pgbits v).2.2.1 = some (some f, s3, tr3)) :
    pmap_walk s tr pml4 v true perms = some (some (f, (pgbits v).2.2.2), s3, tr3) := by
  unfold pmap_walk
  have hl : ¬ ((pgbits v).1 ≥ VREC ∧ (pgbits v).1 ≤ VEND) := hleg.1
  have hz : ¬ (v &&& PGMASK = 0 ∧ True) := fun c => hleg.2 c.1
  simp only [hl, if_false, h1, h2, h3]
  rw [if_neg hz]

theorem walk_level_of_ro (create : Bool) (perms : Nat) (s : Phys) (tr : Tracker)
    (pg idx n : Nat) (h : level_ro s.mem pg idx = some (some n)) :
    walk_level create perms s tr pg idx = some (some n, s, tr) := by
  unfold level_ro at h
  unfold walk_level
  by_cases hp : s.mem pg idx &&& PTE_P = 0
  · rw [if_pos hp] at h; cases h
  · rw [if_neg hp] at h
    simp only [hp, if_false]
    cases hc : cpe (s.mem pg idx) with
    | none => rw [hc] at h; cases h
    | some x => rw [hc] at h; cases h; rfl

/-- The allocator's next page is not a table of `V`, so not the root or a
table reached from it. -/
theorem GoodHeap.ne {heap : Nat → Nat} {V : Nat → Nat → Prop} {lo hi : Nat}
    (h : GoodHeap heap V lo hi) {k d g : Nat} (h1 : lo ≤ k) (h2 : k < hi) (hg : V d g) :
    heap k ≠ g := fun c => h.fresh k d h1 h2 (by rw [c]; exact hg)

theorem Shape.next {m : Mem} {V : Nat → Nat → Prop} (h : Shape m V) {d g i n : Nat}
    (hg : V (d + 2) g) (hi : i < 512) (hl : level_ro m g i = some (some n)) : V (d + 1) n := by
  obtain ⟨a, b, _, e⟩ := level_ro_some hl
  rw [e]
  exact (h d g i hg hi a b).2

/-- One install into an absent slot of a table of depth `d + 2` keeps the
family typed and closed, with the new page as a table of depth `d + 1`. -/
theorem shape_install (perms : Nat) (s : Phys) (tr : Tracker) (pg idx : Nat)
    (V : Nat → Nat → Prop) (d : Nat) (hty : Typed V) (hsh : Shape s.mem V)
    (hpg : V (d + 2) pg) (hperm : FlagsOnly perms)
    (hal : s.heap s.nalloc % 4096 = 0) (hlow : s.heap s.nalloc < 2 ^ 39)
    (hfresh : ∀ e, ¬ V e (s.heap s.nalloc)) :
    Typed (addTable V (d + 1) (s.heap s.nalloc)) ∧
      Shape (install perms s tr pg idx).1.mem (addTable V (d + 1) (s.heap s.nalloc)) := by
  have hne : s.heap s.nalloc ≠ pg := fun c => hfresh _ (by rw [c]; exact hpg)
  constructor
  · intro d1 d2 g h1 h2
    rcases h1 with h1 | ⟨e1, g1⟩
    · rcases h2 with h2 | ⟨e2, g2⟩
      · exact hty d1 d2 g h1 h2
      · rw [g2] at h1; exact absurd h1 (hfresh _)
    · rcases h2 with h2 | ⟨e2, g2⟩
      · rw [g1] at h2; exact absurd h2 (hfresh _)
      · rw [e1, e2]
  · intro e g i hV hi hp hps
    rcases hV with hV | ⟨e1, g1⟩
    · have hg : g ≠ s.heap s.nalloc := fun c => hfresh _ (by rw [← c]; exact hV)
      by_cases hc : g = pg ∧ i = idx
      · obtain ⟨rfl, rfl⟩ := hc
        have he : e + 2 = d + 2 := hty _ _ _ hV hpg
        have hv : (install perms s tr g i).1.mem g i = s.heap s.nalloc ||| perms ||| PTE_P :=
          Mem.write_same _ _ _ _
        rw [hv, (installed_entry hperm hal hlow).1]
        exact ⟨hlow, Or.inr ⟨by omega, rfl⟩⟩
      · rw [install_other perms s tr pg idx g i hg hc] at hp hps ⊢
        exact ⟨(hsh e g i hV hi hp hps).1, Or.inl (hsh e g i hV hi hp hps).2⟩
    · rw [g1, install_new_zero perms s tr pg idx i hne] at hp
      exact absurd rfl hp

/-- All three levels present: nothing is created. -/
theorem walk_create_s0 (V : Nat → Nat → Prop) (perms pml4 v : Nat) (s : Phys) (tr : Tracker)
    (hleg : LegalVa v) (hroot : V 4 pml4) (hshape : Shape s.mem V) {n1 n2 f : Nat}
    (h4 : level_ro s.mem pml4 (pgbits v).1 = some (some n1))
    (h3 : level_ro s.mem n1 (pgbits v).2.1 = some (some n2))
    (h2 : level_ro s.mem n2 (pgbits v).2.2.1 = some (some f)) :
    pmap_walk s tr pml4 v true perms = some (some (f, (pgbits v).2.2.2), s, tr) ∧
      WalkCreated V perms pml4 v s tr f s tr := by
  obtain ⟨b4, b3, b2, b1⟩ := pgbits_lt v
  have hm : missing_levels s.mem pml4 v = 0 := by
    simp only [missing_levels, h4, h3, h2]
  have hw : walk_ro s.mem pml4 v = some (some (f, (pgbits v).2.2.2)) := by
    unfold walk_ro
    simp only [hleg.1, if_false, h4, h3, h2]
  have hV1 := (walk_ro_leaf hshape hroot hw).1
  have hn1 : V 3 n1 := hshape.next hroot b4 h4
  have hn2 : V 2 n2 := hshape.next hn1 b3 h3
  have hW : ∀ p, ¬ Window s.heap s.nalloc s.nalloc p := by
    rintro p ⟨k, a, b, _⟩; omega
  refine ⟨pmap_walk_create_of_levels s tr pml4 v perms hleg
    (walk_level_of_ro _ _ _ _ _ _ _ h4) (walk_level_of_ro _ _ _ _ _ _ _ h3)
    (walk_level_of_ro _ _ _ _ _ _ _ h2), ?_⟩
  refine ⟨rfl, rfl, by rw [hm, Nat.add_zero], ?_, ?_, ⟨n1, n2, h4, h3, h2, fun hsep => ?_⟩,
    fun _ => ⟨rfl, rfl, hV1⟩, fun c => absurd hm c,
    fun hty => ⟨V, fun _ _ h => h, fun _ _ h => Or.inl h, hty, hshape, hV1⟩⟩
  · exact ⟨fun p hp => absurd hp (hW p), fun p _ => rfl⟩
  · exact fun g i => ⟨fun _ => Or.inl rfl, fun hp => absurd hp (hW g)⟩
  · refine ⟨?_, ?_, ?_⟩
    · rintro rfl; exact hsep _ 2 hV1 hroot
    · rintro rfl; exact hsep _ 1 hV1 hn1
    · rintro rfl; exact hsep _ 0 hV1 hn2

/-- A present entry is still followed after an install into an absent slot. -/
theorem level_ro_keep_present (perms : Nat) (s : Phys) (tr : Tracker) (pg idx f j n : Nat)
    (h : level_ro s.mem f j = some (some n)) (hp : s.mem pg idx &&& PTE_P = 0)
    (hne : f ≠ s.heap s.nalloc) :
    level_ro (install perms s tr pg idx).1.mem f j = some (some n) := by
  rw [level_ro_keep perms s tr pg idx f j hne, h]
  rintro ⟨rfl, rfl⟩
  exact (level_ro_some h).1 hp

theorem zero_absent {m : Mem} {g j : Nat} (h : m g j = 0) : m g j &&& PTE_P = 0 := by
  rw [h]; rfl

/-- The lowest level is missing: one table is created. -/
theorem walk_create_s1 (V : Nat → Nat → Prop) (perms pml4 v : Nat) (s : Phys) (tr : Tracker)
    (hleg : LegalVa v) (hperm : FlagsOnly perms) (hroot : V 4 pml4) (hshape : Shape s.mem V)
    (hgood : GoodHeap s.heap V s.nalloc (s.nalloc + 1)) {n1 n2 : Nat}
    (h4 : level_ro s.mem pml4 (pgbits v).1 = some (some n1))
    (h3 : level_ro s.mem n1 (pgbits v).2.1 = some (some n2))
    (h2 : s.mem n2 (pgbits v).2.2.1 &&& PTE_P = 0) :
    ∃ f s2 tr2, pmap_walk s tr pml4 v true perms = some (some (f, (pgbits v).2.2.2), s2, tr2) ∧
      WalkCreated V perms pml4 v s tr f s2 tr2 := by
  obtain ⟨b4, b3, b2, b1⟩ := pgbits_lt v
  have hm : missing_levels s.mem pml4 v = 1 := by
    simp only [missing_levels, h4, h3, level_ro_absent h2]
  have hn1 : V 3 n1 := hshape.next hroot b4 h4
  have hn2 : V 2 n2 := hshape.next hn1 b3 h3
  have ha0 := hgood.aligned s.nalloc (le_refl _) (Nat.lt_succ_self _)
  have hl0 := hgood.low s.nalloc (le_refl _) (Nat.lt_succ_self _)
  have hf0 : ∀ d g, V d g → s.heap s.nalloc ≠ g :=
    fun d g hg => hgood.ne (le_refl _) (Nat.lt_succ_self _) hg
  refine ⟨s.heap s.nalloc, (install perms s tr n2 (pgbits v).2.2.1).1,
    (install perms s tr n2 (pgbits v).2.2.1).2,
    pmap_walk_create_of_levels s tr pml4 v perms hleg
      (walk_level_of_ro _ _ _ _ _ _ _ h4) (walk_level_of_ro _ _ _ _ _ _ _ h3)
      (walk_level_install perms s tr n2 _ hperm h2 ha0 hl0), ?_⟩
  refine ⟨rfl, rfl, (by rw [hm]; rfl), ?_, ?_, ⟨n1, n2, ?_, ?_, ?_, fun _ => ?_⟩,
    fun c => (by rw [hm] at c; cases c), fun _ => ⟨?_, ?_⟩, fun hty => ?_⟩
  · exact (Recorded.recorded_install perms s tr n2 _).recorded_congr (fun p => (Window.one _ _ p).symm)
  · exact (Grown.grown_install perms s tr n2 _ h2 (hf0 _ _ hn2)).grown_congr
      (fun p => (Window.one _ _ p).symm)
  · exact level_ro_keep_present perms s tr _ _ _ _ _ h4 h2 (hf0 _ _ hroot).symm
  · exact level_ro_keep_present perms s tr _ _ _ _ _ h3 h2 (hf0 _ _ hn1).symm
  · exact level_ro_install perms s tr n2 _ hperm ha0 hl0
  · exact ⟨hf0 _ _ hroot, hf0 _ _ hn1, hf0 _ _ hn2⟩
  · exact (Window.one _ _ _).mpr rfl
  · exact fun j => install_new_zero perms s tr n2 _ j (hf0 _ _ hn2)
  · obtain ⟨t1, sh1⟩ := shape_install perms s tr n2 (pgbits v).2.2.1 V 0 hty hshape hn2 hperm
      ha0 hl0 (fun e c => hf0 e _ c rfl)
    refine ⟨_, fun _ _ h => Or.inl h, fun d g h => ?_, t1, sh1, Or.inr ⟨rfl, rfl⟩⟩
    rcases h with h | ⟨_, h⟩
    · exact Or.inl h
    · exact Or.inr ((Window.one _ _ _).mpr h)

/-- The two lowest levels are missing: two tables are created. -/
theorem walk_create_s2 (V : Nat → Nat → Prop) (perms pml4 v : Nat) (s : Phys) (tr : Tracker)
    (hleg : LegalVa v) (hperm : FlagsOnly perms) (hroot : V 4 pml4) (hshape : Shape s.mem V)
    (hgood : GoodHeap s.heap V s.nalloc (s.nalloc + 2)) {n1 : Nat}
    (h4 : level_ro s.mem pml4 (pgbits v).1 = some (some n1))
    (h3 : s.mem n1 (pgbits v).2.1 &&& PTE_P = 0) :
    ∃ f s2 tr2, pmap_walk s tr pml4 v true perms = some (some (f, (pgbits v).2.2.2), s2, tr2) ∧
      WalkCreated V perms pml4 v s tr f s2 tr2 := by
  obtain ⟨b4, b3, b2, b1⟩ := pgbits_lt v
  have hm : missing_levels s.mem pml4 v = 2 := by
    simp only [missing_levels, h4, level_ro_absent h3]
  have hn1 : V 3 n1 := hshape.next hroot b4 h4
  have ha0 := hgood.aligned s.nalloc (le_refl _) (by omega)
  have hl0 := hgood.low s.nalloc (le_refl _) (by omega)
  have ha1 := hgood.aligned (s.nalloc + 1) (by omega) (by omega)
  have hl1 := hgood.low (s.nalloc + 1) (by omega) (by omega)
  have hf0 : ∀ d g, V d g → s.heap s.nalloc ≠ g :=
    fun d g hg => hgood.ne (le_refl _) (by omega) hg
  have hf1 : ∀ d g, V d g → s.heap (s.nalloc + 1) ≠ g :=
    fun d g hg => hgood.ne (by omega) (by omega) hg
  have h01 : s.heap (s.nalloc + 1) ≠ s.heap s.nalloc := fun c => by
    have := hgood.inj _ _ (by omega) (by omega) (le_refl _) (by omega) c
    omega
  have z1 : (install perms s tr n1 (pgbits v).2.1).1.mem (s.heap s.nalloc) (pgbits v).2.2.1
      &&& PTE_P = 0 := zero_absent (install_new_zero perms s tr n1 _ _ (hf0 _ _ hn1))
  refine ⟨s.heap (s.nalloc + 1),
    (install perms (install perms s tr n1 (pgbits v).2.1).1 (install perms s tr n1 (pgbits v).2.1).2
      (s.heap s.nalloc) (pgbits v).2.2.1).1,
    (install perms (install perms s tr n1 (pgbits v).2.1).1 (install perms s tr n1 (pgbits v).2.1).2
      (s.heap s.nalloc) (pgbits v).2.2.1).2,
    pmap_walk_create_of_levels s tr pml4 v perms hleg
      (walk_level_of_ro _ _ _ _ _ _ _ h4)
      (walk_level_install perms s tr n1 _ hperm h3 ha0 hl0)
      (walk_level_install perms _ _ (s.heap s.nalloc) _ hperm z1 ha1 hl1), ?_⟩
  refine ⟨rfl, rfl, (by rw [hm]; rfl), ?_, ?_, ⟨n1, s.heap s.nalloc, ?_, ?_, ?_, fun _ => ?_⟩,
    fun c => (by rw [hm] at c; cases c), fun _ => ⟨?_, ?_⟩, fun hty => ?_⟩
  · exact ((Recorded.recorded_install perms s tr n1 _).recorded_trans (Recorded.recorded_install perms _ _ _ _)).recorded_congr
      (fun p => (Window.two _ _ p).symm)
  · exact ((Grown.grown_install perms s tr n1 _ h3 (hf0 _ _ hn1)).grown_trans
      (Grown.grown_install perms _ _ (s.heap s.nalloc) _ z1 h01)).grown_congr
      (fun p => (Window.two _ _ p).symm)
  · exact level_ro_keep_present perms _ _ _ _ _ _ _
      (level_ro_keep_present perms s tr _ _ _ _ _ h4 h3 (hf0 _ _ hroot).symm) z1
      (hf1 _ _ hroot).symm
  · exact level_ro_keep_present perms _ _ _ _ _ _ _
      (level_ro_install perms s tr n1 _ hperm ha0 hl0) z1 (hf1 _ _ hn1).symm
  · exact level_ro_install perms _ _ (s.heap s.nalloc) _ hperm ha1 hl1
  · exact ⟨hf1 _ _ hroot, hf1 _ _ hn1, h01⟩
  · exact (Window.two _ _ _).mpr (Or.inr rfl)
  · exact fun j => install_new_zero perms _ _ (s.heap s.nalloc) _ j h01
  · obtain ⟨t1, sh1⟩ := shape_install perms s tr n1 (pgbits v).2.1 V 1 hty hshape hn1 hperm
      ha0 hl0 (fun e c => hf0 e _ c rfl)
    obtain ⟨t2, sh2⟩ := shape_install perms _ _ (s.heap s.nalloc) (pgbits v).2.2.1 _ 0 t1 sh1
      (Or.inr ⟨rfl, rfl⟩) hperm ha1 hl1 (fun e c => by
        rcases c with c | ⟨_, c⟩
        · exact hf1 e _ c rfl
        · exact h01 c)
    refine ⟨_, fun _ _ h => Or.inl (Or.inl h), fun d g h => ?_, t2, sh2, Or.inr ⟨rfl, rfl⟩⟩
    rcases h with (h | ⟨_, h⟩) | ⟨_, h⟩
    · exact Or.inl h
    · exact Or.inr ((Window.two _ _ _).mpr (Or.inl h))
    · exact Or.inr ((Window.two _ _ _).mpr (Or.inr h))

/-- All three levels are missing: three tables are created. -/
theorem walk_create_s3 (V : Nat → Nat → Prop) (perms pml4 v : Nat) (s : Phys) (tr : Tracker)
    (hleg : LegalVa v) (hperm : FlagsOnly perms) (hroot : V 4 pml4) (hshape : Shape s.mem V)
    (hgood : GoodHeap s.heap V s.nalloc (s.nalloc + 3))
    (h4 : s.mem pml4 (pgbits v).1 &&& PTE_P = 0) :
    ∃ f s2 tr2, pmap_walk s tr pml4 v true perms = some (some (f, (pgbits v).2.2.2), s2, tr2) ∧
      WalkCreated V perms pml4 v s tr f s2 tr2 := by
  have hm : missing_levels s.mem pml4 v = 3 := by
    simp only [missing_levels, level_ro_absent h4]
  have ha0 := hgood.aligned s.nalloc (le_refl _) (by omega)
  have hl0 := hgood.low s.nalloc (le_refl _) (by omega)
  have ha1 := hgood.aligned (s.nalloc + 1) (by omega) (by omega)
  have hl1 := hgood.low (s.nalloc + 1) (by omega) (by omega)
  have ha2 := hgood.aligned (s.nalloc + 2) (by omega) (by omega)
  have hl2 := hgood.low (s.nalloc + 2) (by omega) (by omega)
  have hf0 : s.heap s.nalloc ≠ pml4 := hgood.ne (le_refl _) (by omega) hroot
  have hf1 : s.heap (s.nalloc + 1) ≠ pml4 := hgood.ne (by omega) (by omega) hroot
  have hf2 : s.heap (s.nalloc + 2) ≠ pml4 := hgood.ne (by omega) (by omega) hroot
  have h01 : s.heap (s.nalloc + 1) ≠ s.heap s.nalloc := fun c => by
    have := hgood.inj _ _ (by omega) (by omega) (le_refl _) (by omega) c
    omega
  have h02 : s.heap (s.nalloc + 2) ≠ s.heap s.nalloc := fun c => by
    have := hgood.inj _ _ (by omega) (by omega) (le_refl _) (by omega) c
    omega
  have h12 : s.heap (s.nalloc + 2) ≠ s.heap (s.nalloc + 1) := fun c => by
    have := hgood.inj _ _ (by omega) (by omega) (by omega) (by omega) c
    omega
  have z1 : (install perms s tr pml4 (pgbits v).1).1.mem (s.heap s.nalloc) (pgbits v).2.1
      &&& PTE_P = 0 := zero_absent (install_new_zero perms s tr pml4 _ _ hf0)
  have z2 : (install perms (install perms s tr pml4 (pgbits v).1).1
      (install perms s tr pml4 (pgbits v).1).2 (s.heap s.nalloc) (pgbits v).2.1).1.mem
      (s.heap (s.nalloc + 1)) (pgbits v).2.2.1 &&& PTE_P = 0 :=
    zero_absent (install_new_zero perms _ _ (s.heap s.nalloc) _ _ h01)
  refine ⟨s.heap (s.nalloc + 2), _, _,
    pmap_walk_create_of_levels s tr pml4 v perms hleg
      (walk_level_install perms s tr pml4 _ hperm h4 ha0 hl0)
      (walk_level_install perms _ _ (s.heap s.nalloc) _ hperm z1 ha1 hl1)
      (walk_level_install perms _ _ (s.heap (s.nalloc + 1)) _ hperm z2 ha2 hl2), ?_⟩
  refine ⟨rfl, rfl, (by rw [hm]; rfl), ?_, ?_,
    ⟨s.heap s.nalloc, s.heap (s.nalloc + 1), ?_, ?_, ?_, fun _ => ?_⟩,
    fun c => (by rw [hm] at c; cases c), fun _ => ⟨?_, ?_⟩, fun hty => ?_⟩
  · exact (((Recorded.recorded_install perms s tr pml4 _).recorded_trans (Recorded.recorded_install perms _ _ _ _)).recorded_trans
      (Recorded.recorded_install perms _ _ _ _)).recorded_congr (fun p => (Window.three _ _ p).symm)
  · exact (((Grown.grown_install perms s tr pml4 _ h4 hf0).grown_trans
      (Grown.grown_install perms _ _ (s.heap s.nalloc) _ z1 h01)).grown_trans
      (Grown.grown_install perms _ _ (s.heap (s.nalloc + 1)) _ z2 h12)).grown_congr
      (fun p => (Window.three _ _ p).symm)
  · exact level_ro_keep_present perms _ _ _ _ _ _ _
      (level_ro_keep_present perms _ _ _ _ _ _ _
        (level_ro_install perms s tr pml4 _ hperm ha0 hl0) z1 hf1.symm) z2 hf2.symm
  · exact level_ro_keep_present perms _ _ _ _ _ _ _
      (level_ro_install perms _ _ (s.heap s.nalloc) _ hperm ha1 hl1) z2 h02.symm
  · exact level_ro_install perms _ _ (s.heap (s.nalloc + 1)) _ hperm ha2 hl2
  · exact ⟨hf2, h02, h12⟩
  · exact (Window.three _ _ _).mpr (Or.inr rfl)
  · exact fun j => install_new_zero perms _ _ (s.heap (s.nalloc + 1)) _ j h12
  · have hfr : ∀ k, k < 3 → ∀ e, ¬ V e (s.heap (s.nalloc + k)) :=
      fun k hk e => hgood.fresh _ e (by omega) (by omega)
    obtain ⟨t1, sh1⟩ := shape_install perms s tr pml4 (pgbits v).1 V 2 hty hshape hroot hperm
      ha0 hl0 (hfr 0 (by decide))
    obtain ⟨t2, sh2⟩ := shape_install perms _ _ (s.heap s.nalloc) (pgbits v).2.1 _ 1 t1 sh1
      (Or.inr ⟨rfl, rfl⟩) hperm ha1 hl1 (fun e c => by
        rcases c with c | ⟨_, c⟩
        · exact hfr 1 (by decide) e c
        · exact h01 c)
    obtain ⟨t3, sh3⟩ := shape_install perms _ _ (s.heap (s.nalloc + 1)) (pgbits v).2.2.1 _ 0
      t2 sh2 (Or.inr ⟨rfl, rfl⟩) hperm ha2 hl2 (fun e c => by
        rcases c with (c | ⟨_, c⟩) | ⟨_, c⟩
        · exact hfr 2 (by decide) e c
        · exact h02 c
        · exact h12 c)
    refine ⟨_, fun _ _ h => Or.inl (Or.inl (Or.inl h)), fun d g h => ?_, t3, sh3,
      Or.inr ⟨rfl, rfl⟩⟩
    rcases h with ((h | ⟨_, h⟩) | ⟨_, h⟩) | ⟨_, h⟩
    · exact Or.inl h
    · exact Or.inr ((Window.three _ _ _).mpr (Or.inl (Or.inl h)))
    · exact Or.inr ((Window.three _ _ _).mpr (Or.inl (Or.inr h)))
    · exact Or.inr ((Window.three _ _ _).mpr (Or.inr h))

/-- The function `pmap_walk` with `create` on a legal address, flag-only
`perms`, a page table whose tables lie in the direct map, no PS entry on the
path, and fresh pages for the missing levels: it returns the entry and
establishes `WalkCreated`. -/
theorem pmap_walk_create_spec (V : Nat → Nat → Prop) (perms pml4 v : Nat) (s : Phys)
    (tr : Tracker) (hleg : LegalVa v) (hperm : FlagsOnly perms) (hroot : V 4 pml4)
    (hshape : Shape s.mem V) (hps : NoPsOnPath s.mem pml4 v)
    (hgood : GoodHeap s.heap V s.nalloc (s.nalloc + missing_levels s.mem pml4 v)) :
    ∃ f s2 tr2, pmap_walk s tr pml4 v true perms = some (some (f, (pgbits v).2.2.2), s2, tr2) ∧
      WalkCreated V perms pml4 v s tr f s2 tr2 := by
  obtain ⟨b4, b3, b2, b1⟩ := pgbits_lt v
  by_cases a4 : s.mem pml4 (pgbits v).1 &&& PTE_P = 0
  · have hm : missing_levels s.mem pml4 v = 3 := by
      simp only [missing_levels, level_ro_absent a4]
    rw [hm] at hgood
    exact walk_create_s3 V perms pml4 v s tr hleg hperm hroot hshape hgood a4
  obtain ⟨p4, hps3⟩ := hps a4
  have h4 := level_ro_next a4 p4 (hshape 2 pml4 _ hroot b4 a4 p4).1
  have hn1 : V 3 _ := hshape.next hroot b4 h4
  by_cases a3 : s.mem (s.mem pml4 (pgbits v).1 &&& PTE_ADDR) (pgbits v).2.1 &&& PTE_P = 0
  · have hm : missing_levels s.mem pml4 v = 2 := by
      simp only [missing_levels, h4, level_ro_absent a3]
    rw [hm] at hgood
    exact walk_create_s2 V perms pml4 v s tr hleg hperm hroot hshape hgood h4 a3
  obtain ⟨p3, hps2⟩ := hps3 a3
  have h3 := level_ro_next a3 p3 (hshape 1 _ _ hn1 b3 a3 p3).1
  have hn2 : V 2 _ := hshape.next hn1 b3 h3
  by_cases a2 : s.mem (s.mem (s.mem pml4 (pgbits v).1 &&& PTE_ADDR) (pgbits v).2.1 &&& PTE_ADDR)
      (pgbits v).2.2.1 &&& PTE_P = 0
  · have hm : missing_levels s.mem pml4 v = 1 := by
      simp only [missing_levels, h4, h3, level_ro_absent a2]
    rw [hm] at hgood
    exact walk_create_s1 V perms pml4 v s tr hleg hperm hroot hshape hgood h4 h3 a2
  have h2 := level_ro_next a2 (hps2 a2) (hshape 0 _ _ hn2 b2 a2 (hps2 a2)).1
  exact ⟨_, s, tr, walk_create_s0 V perms pml4 v s tr hleg hroot hshape h4 h3 h2⟩

/-- The walk without `create` on the path that `WalkCreated` describes. -/
theorem WalkCreated.again {V : Nat → Nat → Prop} {perms pml4 v : Nat} {s : Phys} {tr : Tracker}
    {f : Nat} {s2 : Phys} {tr2 : Tracker} (h : WalkCreated V perms pml4 v s tr f s2 tr2)
    (hleg : LegalVa v) : walk_ro s2.mem pml4 v = some (some (f, (pgbits v).2.2.2)) := by
  obtain ⟨n1, n2, h4, h3, h2, _⟩ := h.path
  unfold walk_ro
  simp only [hleg.1, if_false, h4, h3, h2]
/-- C10 (amended): `pmap_walk` with `create = true` on a legal address (top
index outside `[VREC, VEND]`, not in page 0, no PS entry on the path), with
`perms` holding only flag bits below bit 12 without PS, on a page table whose
tables lie inside the direct map and with fresh allocator pages for the missing
levels, returns a non-null pointer to the level-1 entry of `v`. It allocates
one page for each missing level and records each under its address in the
tracker, which is otherwise unchanged; a present entry outside the new pages is
unchanged, an entry outside the new pages that changed now holds the address of
a new page with `perms` and P, and a new page is zero except for such entries;
and a following `pmap_walk` with `create = false` returns the same entry and
leaves the state and tracker as they are. -/
theorem C10_pmap_walk_create (V : Nat → Nat → Prop) (perms pml4 v : Nat) (s : Phys)
    (tr : Tracker) (hleg : LegalVa v) (hperm : FlagsOnly perms) (hroot : V 4 pml4)
    (hshape : Shape s.mem V) (hps : NoPsOnPath s.mem pml4 v)
    (hgood : GoodHeap s.heap V s.nalloc (s.nalloc + missing_levels s.mem pml4 v)) :
    ∃ f s2 tr2, pmap_walk s tr pml4 v true perms = some (some (f, (pgbits v).2.2.2), s2, tr2) ∧
      s2.nalloc = s.nalloc + missing_levels s.mem pml4 v ∧
      (∀ k, k < missing_levels s.mem pml4 v →
        tr2 (s.heap (s.nalloc + k)) = some (s.heap (s.nalloc + k))) ∧
      (∀ p, ¬ Window s.heap s.nalloc s2.nalloc p → tr2 p = tr p) ∧
      (∀ g j, ¬ Window s.heap s.nalloc s2.nalloc g → s.mem g j &&& PTE_P ≠ 0 →
        s2.mem g j = s.mem g j) ∧
      (∀ g j, ¬ Window s.heap s.nalloc s2.nalloc g → s2.mem g j ≠ s.mem g j →
        ∃ k, k < missing_levels s.mem pml4 v ∧
          s2.mem g j = s.heap (s.nalloc + k) ||| perms ||| PTE_P) ∧
      (∀ k j, k < missing_levels s.mem pml4 v →
        s2.mem (s.heap (s.nalloc + k)) j = 0 ∨
        ∃ k2, k2 < missing_levels s.mem pml4 v ∧
          s2.mem (s.heap (s.nalloc + k)) j = s.heap (s.nalloc + k2) ||| perms ||| PTE_P) ∧
      pmap_walk s2 tr2 pml4 v false perms = some (some (f, (pgbits v).2.2.2), s2, tr2) := by
  obtain ⟨f, s2, tr2, hrun, hw⟩ :=
    pmap_walk_create_spec V perms pml4 v s tr hleg hperm hroot hshape hps hgood
  have hn := hw.nalloc_eq
  have hwin : ∀ k, k < missing_levels s.mem pml4 v →
      Window s.heap s.nalloc s2.nalloc (s.heap (s.nalloc + k)) :=
    fun k hk => ⟨s.nalloc + k, by omega, by omega, rfl⟩
  have hidx : ∀ q, Window s.heap s.nalloc s2.nalloc q →
      ∃ k, k < missing_levels s.mem pml4 v ∧ q = s.heap (s.nalloc + k) := by
    rintro q ⟨k, h1, h2, rfl⟩
    exact ⟨k - s.nalloc, by omega, by rw [Nat.add_sub_cancel' h1]⟩
  refine ⟨f, s2, tr2, hrun, hn, fun k hk => hw.recorded.1 _ (hwin k hk), hw.recorded.2,
    fun g j hg hp => ?_, fun g j hg hne => ?_, fun k j hk => ?_, ?_⟩
  · rcases (hw.grown g j).1 hg with e | ⟨ab, _⟩
    · exact e
    · exact absurd ab hp
  · rcases (hw.grown g j).1 hg with e | ⟨_, q, hq, e⟩
    · exact absurd e hne
    · obtain ⟨k, hk, rfl⟩ := hidx q hq
      exact ⟨k, hk, e⟩
  · rcases (hw.grown _ j).2 (hwin k hk) with e | ⟨q, hq, e⟩
    · exact Or.inl e
    · obtain ⟨k2, hk2, rfl⟩ := hidx q hq
      exact Or.inr ⟨k2, hk2, e⟩
  · rw [pmap_walk_ro, hw.again hleg]
    rfl

theorem ex_legal2 : LegalVa ex_va2 := by
  unfold LegalVa
  decide

theorem ex_nops2 : NoPsOnPath ex_mem 0x1000 ex_va2 := by
  unfold NoPsOnPath
  decide

theorem ex_missing2 : missing_levels ex_mem 0x1000 ex_va2 = 1 := by decide

theorem C10_witness :
    LegalVa ex_va2 ∧ FlagsOnly (PTE_U ||| PTE_W) ∧
    ∃ f s2 tr2, pmap_walk ex_phys (fun _ => none) 0x1000 ex_va2 true (PTE_U ||| PTE_W)
      = some (some (f, (pgbits ex_va2).2.2.2), s2, tr2) ∧ s2.nalloc = 1 :=
  ⟨ex_legal2, ⟨by decide, by decide⟩,
    (C10_pmap_walk_create ex_V (PTE_U ||| PTE_W) 0x1000 ex_va2 ex_phys (fun _ => none)
      ex_legal2 ⟨by decide, by decide⟩ (Or.inl ⟨rfl, rfl⟩) ex_shape ex_nops2
      (by
        show GoodHeap ex_heap ex_V 0 (0 + missing_levels ex_mem 0x1000 ex_va2)
        rw [ex_missing2]
        exact ex_good 1 (by decide))).imp
      (fun _ h => h.imp (fun s2 h2 => h2.imp (fun _ h3 => ⟨h3.1, by
        have e : s2.nalloc = 0 + missing_levels ex_mem 0x1000 ex_va2 := h3.2.1
        rw [ex_missing2] at e
        exact e⟩)))⟩

/-- C10 as stated fails on `perms`: on a legal address with no PS entry on
its path and one missing level, `pmap_walk` with `create` panics when `perms`
is PS (the entry it has just installed is refused as a large page) and when
`perms` has address bit 39 (the installed entry points outside the direct
map). -/
theorem C10_counterexample :
    LegalVa ex_va2 ∧ NoPsOnPath ex_mem 0x1000 ex_va2 ∧
    (pmap_walk ex_phys (fun _ => none) 0x1000 ex_va2 true PTE_PS).isNone = true ∧
    (pmap_walk ex_phys (fun _ => none) 0x1000 ex_va2 true (1 <<< 39)).isNone = true :=
  ⟨by unfold LegalVa; decide, by unfold NoPsOnPath; decide, by decide, by decide⟩

/-! ## `page_insert` (C9) -/

theorem page_insert_fresh (s : Phys) (p : proc_t) (va pg p_pg perms : Nat) (vempty : Bool)
    {f i : Nat} {s1 : Phys} {pages1 : Tracker}
    (hw : pmap_walk s p.pages p.pmap va true perms = some (some (f, i), s1, pages1))
    (hp : s1.mem f i &&& PTE_P = 0) :
    page_insert s p va pg p_pg perms vempty
      = some ({ s1 with mem := s1.mem.write f i (p_pg ||| perms ||| PTE_P) },
          { p with pages := mapSet pages1 p_pg pg,
                   upages := mapSet p.upages p_pg (va &&& PGMASK) }) := by
  unfold page_insert
  simp only [hw, hp, ne_eq, not_true_eq_false, if_false]

theorem page_insert_vempty (s : Phys) (p : proc_t) (va pg p_pg perms : Nat)
    {f i : Nat} {s1 : Phys} {pages1 : Tracker}
    (hw : pmap_walk s p.pages p.pmap va true perms = some (some (f, i), s1, pages1))
    (hp : s1.mem f i &&& PTE_P ≠ 0) :
    page_insert s p va pg p_pg perms true = none := by
  unfold page_insert
  simp only [hw, hp, ne_eq, not_false_eq_true, if_true]

theorem page_insert_untracked (s : Phys) (p : proc_t) (va pg p_pg perms : Nat)
    {f i : Nat} {s1 : Phys} {pages1 : Tracker}
    (hw : pmap_walk s p.pages p.pmap va true perms = some (some (f, i), s1, pages1))
    (hp : s1.mem f i &&& PTE_P ≠ 0)
    (ht : pages1 (s1.mem f i &&& PTE_ADDR) = none ∨ p.upages (s1.mem f i &&& PTE_ADDR) = none) :
    page_insert s p va pg p_pg perms false = none := by
  unfold page_insert
  simp only [hw, hp, ne_eq, not_false_eq_true, if_true, Bool.false_eq_true, if_false]
  cases h1 : pages1 (s1.mem f i &&& PTE_ADDR) with
  | none => rfl
  | some x =>
    cases h2 : p.upages (s1.mem f i &&& PTE_ADDR) with
    | none => rfl
    | some y =>
      rcases ht with c | c
      · rw [h1] at c; cases c
      · rw [h2] at c; cases c

theorem page_insert_replace (s : Phys) (p : proc_t) (va pg p_pg perms : Nat)
    {f i : Nat} {s1 : Phys} {pages1 : Tracker}
    (hw : pmap_walk s p.pages p.pmap va true perms = some (some (f, i), s1, pages1))
    (hp : s1.mem f i &&& PTE_P ≠ 0)
    (h1 : pages1 (s1.mem f i &&& PTE_ADDR) ≠ none)
    (h2 : p.upages (s1.mem f i &&& PTE_ADDR) ≠ none) :
    page_insert s p va pg p_pg perms false
      = some ({ s1 with mem := s1.mem.write f i (p_pg ||| perms ||| PTE_P),
                        inval := s1.inval ++ [va] },
          { p with pages := mapSet (mapDel pages1 (s1.mem f i &&& PTE_ADDR)) p_pg pg,
                   upages := mapSet (mapDel p.upages (s1.mem f i &&& PTE_ADDR)) p_pg
                     (va &&& PGMASK) }) := by
  unfold page_insert
  simp only [hw, hp, ne_eq, not_false_eq_true, if_true, Bool.false_eq_true, if_false]
  cases e1 : pages1 (s1.mem f i &&& PTE_ADDR) with
  | none => exact absurd e1 h1
  | some x =>
    cases e2 : p.upages (s1.mem f i &&& PTE_ADDR) with
    | none => exact absurd e2 h2
    | some y => rfl

/-- Writing the leaf entry does not move the path that leads to it. -/
theorem walk_ro_write_leaf {m : Mem} {pml4 v n1 n2 f : Nat} (e : Nat) (hl : ¬ ((pgbits v).1 ≥ VREC ∧ (pgbits v).1 ≤ VEND))
    (h4 : level_ro m pml4 (pgbits v).1 = some (some n1))
    (h3 : level_ro m n1 (pgbits v).2.1 = some (some n2))
    (h2 : level_ro m n2 (pgbits v).2.2.1 = some (some f))
    (ha : f ≠ pml4 ∧ f ≠ n1 ∧ f ≠ n2) (i : Nat) :
    walk_ro (m.write f i e) pml4 v = some (some (f, (pgbits v).2.2.2)) := by
  have k : ∀ g j, f ≠ g → level_ro (m.write f i e) g j = level_ro m g j := by
    intro g j hg
    unfold level_ro
    rw [Mem.write_other _ _ _ _ _ _ (fun c => hg c.1.symm)]
  unfold walk_ro
  simp only [hl, if_false, k _ _ ha.1, k _ _ ha.2.1, k _ _ ha.2.2, h4, h3, h2]
theorem leaf_entry_of_walk {m : Mem} {pml4 v f i : Nat}
    (h : walk_ro m pml4 v = some (some (f, i))) : leaf_entry m pml4 v = some (m f i) := by
  unfold leaf_entry
  rw [h]

theorem walk_of_leaf_entry {m : Mem} {pml4 v e : Nat} (h : leaf_entry m pml4 v = some e) :
    ∃ f i, walk_ro m pml4 v = some (some (f, i)) ∧ m f i = e := by
  unfold leaf_entry at h
  cases hw : walk_ro m pml4 v with
  | none => rw [hw] at h; cases h
  | some r =>
    cases r with
    | none => rw [hw] at h; cases h
    | some q =>
      obtain ⟨f, i⟩ := q
      rw [hw] at h
      exact ⟨f, i, rfl, by injection h⟩

/-- A walk that reaches a leaf entry has nothing to create. -/
theorem missing_of_walk {m : Mem} {pml4 v f i : Nat}
    (h : walk_ro m pml4 v = some (some (f, i))) : missing_levels m pml4 v = 0 := by
  unfold walk_ro at h
  unfold missing_levels
  by_cases hres : (pgbits v).1 ≥ VREC ∧ (pgbits v).1 ≤ VEND
  · rw [if_pos hres] at h; cases h
  rw [if_neg hres] at h
  cases h4 : level_ro m pml4 (pgbits v).1 with
  | none => rw [h4] at h; cases h
  | some r4 =>
    cases r4 with
    | none => rw [h4] at h; cases h
    | some n1 =>
      rw [h4] at h
      dsimp only at h ⊢
      cases h3 : level_ro m n1 (pgbits v).2.1 with
      | none => rw [h3] at h; cases h
      | some r3 =>
        cases r3 with
        | none => rw [h3] at h; cases h
        | some n2 =>
          rw [h3] at h
          dsimp only at h ⊢
          cases h2 : level_ro m n2 (pgbits v).2.2.1 with
          | none => rw [h2] at h; cases h
          | some r2 =>
            cases r2 with
            | none => rw [h2] at h; cases h
            | some n3 => rfl

/-- After `pmap_walk` with `create`, the entry it returns is present exactly
when the leaf entry of the address was present before. -/
theorem WalkCreated.leaf_before {V : Nat → Nat → Prop} {perms pml4 v : Nat} {s : Phys}
    {tr : Tracker} {f : Nat} {s2 : Phys} {tr2 : Tracker}
    (h : WalkCreated V perms pml4 v s tr f s2 tr2) (hleg : LegalVa v) :
    (∀ e, leaf_entry s.mem pml4 v = some e → s2 = s ∧ tr2 = tr ∧ s.mem f (pgbits v).2.2.2 = e) ∧
    (leaf_entry s.mem pml4 v = none → s2.mem f (pgbits v).2.2.2 = 0) := by
  constructor
  · intro e he
    obtain ⟨f0, i0, hw, hv⟩ := walk_of_leaf_entry he
    obtain ⟨e1, e2, _⟩ := h.same (missing_of_walk hw)
    have ha := h.again hleg
    rw [e1, hw] at ha
    injection ha with ha; injection ha with ha; injection ha with a1 a2
    subst a1; subst a2
    exact ⟨e1, e2, hv⟩
  · intro hn
    by_cases hm : missing_levels s.mem pml4 v = 0
    · obtain ⟨e1, _, _⟩ := h.same hm
      have ha := h.again hleg
      rw [e1] at ha
      rw [leaf_entry_of_walk ha] at hn
      cases hn
    · exact (h.fresh_leaf hm).2 _
/-- C9 (amended): `page_insert` on a legal address, with flag-only `perms`,
on a page table whose tables lie in the direct map (tables of leaf entries
apart from the upper tables, no PS entry on the path) and with fresh allocator
pages for the missing levels. If the leaf entry of `va` is present, the call
faults when `vempty` is true, and faults when the prior frame is not tracked
in both maps; with the prior frame tracked and `vempty` false it returns, the
leaf entry of `va` is then `p_pg | perms | P`, `pages[p_pg] = pg`,
`upages[p_pg] = va & PGMASK`, the prior frame, when it is not `p_pg` itself, is
in neither map, and `va` was invalidated. If the leaf entry is not present (or
there is none yet), the call returns with the same entry and map updates and
invalidates nothing. -/
theorem C9_page_insert (V : Nat → Nat → Prop) (s : Phys) (p : proc_t)
    (va pg p_pg perms : Nat) (hleg : LegalVa va) (hperm : FlagsOnly perms)
    (hroot : V 4 p.pmap) (hshape : Shape s.mem V) (hsep : ∀ g d, V 1 g → ¬ V (d + 2) g)
    (hps : NoPsOnPath s.mem p.pmap va)
    (hgood : GoodHeap s.heap V s.nalloc (s.nalloc + missing_levels s.mem p.pmap va)) :
    (∀ e, leaf_entry s.mem p.pmap va = some e → e &&& PTE_P ≠ 0 →
      page_insert s p va pg p_pg perms true = none ∧
      ((p.pages (e &&& PTE_ADDR) = none ∨ p.upages (e &&& PTE_ADDR) = none) →
        page_insert s p va pg p_pg perms false = none) ∧
      (p.pages (e &&& PTE_ADDR) ≠ none → p.upages (e &&& PTE_ADDR) ≠ none →
        ∃ s3 p2, page_insert s p va pg p_pg perms false = some (s3, p2) ∧
          leaf_entry s3.mem p.pmap va = some (p_pg ||| perms ||| PTE_P) ∧
          p2.pages p_pg = some pg ∧ p2.upages p_pg = some (va &&& PGMASK) ∧
          (e &&& PTE_ADDR ≠ p_pg →
            p2.pages (e &&& PTE_ADDR) = none ∧ p2.upages (e &&& PTE_ADDR) = none) ∧
          s3.inval = s.inval ++ [va])) ∧
    ((∀ e, leaf_entry s.mem p.pmap va = some e → e &&& PTE_P = 0) →
      ∀ vempty, ∃ s3 p2, page_insert s p va pg p_pg perms vempty = some (s3, p2) ∧
        leaf_entry s3.mem p.pmap va = some (p_pg ||| perms ||| PTE_P) ∧
        p2.pages p_pg = some pg ∧ p2.upages p_pg = some (va &&& PGMASK) ∧
        s3.inval = s.inval) := by
  obtain ⟨f, s1, pages1, hrun, hw⟩ :=
    pmap_walk_create_spec V perms p.pmap va s p.pages hleg hperm hroot hshape hps hgood
  obtain ⟨n1, n2, h4, h3, h2, hap⟩ := hw.path
  have hleaf : ∀ (x : Nat), leaf_entry (s1.mem.write f (pgbits va).2.2.2 x) p.pmap va
      = some x := by
    intro x
    rw [leaf_entry_of_walk (walk_ro_write_leaf x hleg.1 h4 h3 h2 (hap hsep) _),
      Mem.write_same]
  obtain ⟨hb1, hb2⟩ := hw.leaf_before hleg
  constructor
  · intro e he hp
    obtain ⟨e1, e2, e3⟩ := hb1 e he
    subst e3
    rw [e1, e2] at hrun
    rw [e1] at hleaf
    refine ⟨page_insert_vempty s p va pg p_pg perms hrun hp,
      page_insert_untracked s p va pg p_pg perms hrun hp, fun t1 t2 => ?_⟩
    refine ⟨_, _, page_insert_replace s p va pg p_pg perms hrun hp t1 t2, hleaf _, ?_, ?_,
      fun hne => ⟨?_, ?_⟩, rfl⟩
    · simp [mapSet]
    · simp [mapSet]
    · simp [mapSet, mapDel, hne]
    · simp [mapSet, mapDel, hne]
  · intro hab vempty
    have hp : s1.mem f (pgbits va).2.2.2 &&& PTE_P = 0 := by
      cases he : leaf_entry s.mem p.pmap va with
      | none => exact zero_absent (hb2 he)
      | some e =>
        obtain ⟨e1, _, e3⟩ := hb1 e he
        rw [e1, e3]
        exact hab e he
    refine ⟨_, _, page_insert_fresh s p va pg p_pg perms vempty hrun hp, hleaf _, ?_, ?_,
      hw.inval_eq⟩
    · simp [mapSet]
    · simp [mapSet]
theorem ex_legal0 : LegalVa ex_va0 := by
  unfold LegalVa
  decide

theorem ex_nops0 : NoPsOnPath ex_mem 0x1000 ex_va0 := by
  unfold NoPsOnPath
  decide

theorem ex_missing0 : missing_levels ex_mem 0x1000 ex_va0 = 0 := by decide

theorem ex_good0 : GoodHeap ex_phys.heap ex_V ex_phys.nalloc
    (ex_phys.nalloc + missing_levels ex_phys.mem ex_parent.pmap ex_va0) := by
  show GoodHeap ex_heap ex_V 0 (0 + missing_levels ex_mem 0x1000 ex_va0)
  rw [ex_missing0]
  exact ex_good 0 (by decide)

theorem C9_witness :
    LegalVa ex_va0 ∧ leaf_entry ex_mem 0x1000 ex_va0 = some 0x5007 ∧
    page_insert ex_phys ex_parent ex_va0 0x6000 0x6000 (PTE_U ||| PTE_W) true = none ∧
    ∃ s3 p2, page_insert ex_phys ex_parent ex_va0 0x6000 0x6000 (PTE_U ||| PTE_W) false
        = some (s3, p2) ∧
      leaf_entry s3.mem 0x1000 ex_va0 = some (0x6000 ||| (PTE_U ||| PTE_W) ||| PTE_P) ∧
      p2.pages 0x5000 = none :=
  ⟨ex_legal0, by decide,
    ((C9_page_insert ex_V ex_phys ex_parent ex_va0 0x6000 0x6000 (PTE_U ||| PTE_W) ex_legal0
      ⟨by decide, by decide⟩ (Or.inl ⟨rfl, rfl⟩) ex_shape ex_sep ex_nops0 ex_good0).1
      0x5007 (by decide) (by decide)).1,
    (((C9_page_insert ex_V ex_phys ex_parent ex_va0 0x6000 0x6000 (PTE_U ||| PTE_W) ex_legal0
      ⟨by decide, by decide⟩ (Or.inl ⟨rfl, rfl⟩) ex_shape ex_sep ex_nops0 ex_good0).1
      0x5007 (by decide) (by decide)).2.2 (by decide) (by decide)).imp
      (fun _ h => h.imp (fun _ h2 => ⟨h2.1, h2.2.1, (h2.2.2.2.2.1 (by decide)).1⟩))⟩

/-- C9 as stated fails when the frame mapped before is `p_pg` itself: the
first user page of `ex_mem` maps frame `0x5000`, tracked in both maps;
inserting frame `0x5000` there again (with `vempty` false) returns with the
prior frame `0x5000` still a key of `pages` and of `upages`. -/
theorem C9_counterexample :
    leaf_entry ex_mem 0x1000 ex_va0 = some 0x5007 ∧ 0x5007 &&& PTE_ADDR = 0x5000 ∧
    (page_insert ex_phys ex_parent ex_va0 0x5000 0x5000 (PTE_U ||| PTE_W) false).map
      (fun r => (r.2.pages 0x5000, r.2.upages 0x5000)) = some (some 0x5000, some ex_va0) := by
  decide

/-! ## `sys_pgfault` (C4) -/

theorem walk_ro_levels {m : Mem} {pml4 v f i : Nat} (h : walk_ro m pml4 v = some (some (f, i))) :
    ¬ ((pgbits v).1 ≥ VREC ∧ (pgbits v).1 ≤ VEND) ∧ i = (pgbits v).2.2.2 ∧
    ∃ n1 n2, level_ro m pml4 (pgbits v).1 = some (some n1) ∧
      level_ro m n1 (pgbits v).2.1 = some (some n2) ∧
      level_ro m n2 (pgbits v).2.2.1 = some (some f) := by
  unfold walk_ro at h
  by_cases hres : (pgbits v).1 ≥ VREC ∧ (pgbits v).1 ≤ VEND
  · rw [if_pos hres] at h; cases h
  rw [if_neg hres] at h
  refine ⟨hres, ?_⟩
  cases h4 : level_ro m pml4 (pgbits v).1 with
  | none => rw [h4] at h; cases h
  | some r4 =>
    cases r4 with
    | none => rw [h4] at h; cases h
    | some n1 =>
      rw [h4] at h
      dsimp only at h
      cases h3 : level_ro m n1 (pgbits v).2.1 with
      | none => rw [h3] at h; cases h
      | some r3 =>
        cases r3 with
        | none => rw [h3] at h; cases h
        | some n2 =>
          rw [h3] at h
          dsimp only at h
          cases h2 : level_ro m n2 (pgbits v).2.2.1 with
          | none => rw [h2] at h; cases h
          | some r2 =>
            cases r2 with
            | none => rw [h2] at h; cases h
            | some n3 =>
              rw [h2] at h
              injection h with h; injection h with h; injection h with a b
              subst a
              exact ⟨b.symm, n1, n2, rfl, h3, h2⟩

/-- With the whole path present, `pmap_walk` with `create` creates nothing. -/
theorem pmap_walk_create_present (s : Phys) (tr : Tracker) (pml4 v perms : Nat) {f i : Nat}
    (hz : v &&& PGMASK ≠ 0) (h : walk_ro s.mem pml4 v = some (some (f, i))) :
    pmap_walk s tr pml4 v true perms = some (some (f, i), s, tr) := by
  obtain ⟨hres, rfl, n1, n2, h4, h3, h2⟩ := walk_ro_levels h
  exact pmap_walk_create_of_levels s tr pml4 v perms ⟨hres, hz⟩
    (walk_level_of_ro _ _ _ _ _ _ _ h4) (walk_level_of_ro _ _ _ _ _ _ _ h3)
    (walk_level_of_ro _ _ _ _ _ _ _ h2)

/-- The table indices of an address are those of its page. -/
theorem pgbits_mask (v : Nat) : pgbits (v &&& PGMASK) = pgbits v := by
  have key : ∀ k, 12 ≤ k → k + 9 ≤ 48 →
      ((v &&& PGMASK) >>> k) &&& 0x1ff = (v >>> k) &&& 0x1ff := by
    intro k h1 h2
    apply Nat.eq_of_testBit_eq
    intro j
    have e : (0x1ff : Nat) = 2 ^ 9 - 1 := by decide
    have hm : PGMASK = PTE_ADDR := rfl
    simp only [Nat.testBit_land, Nat.testBit_shiftRight, e, Nat.testBit_two_pow_sub_one, hm,
      testBit_PTE_ADDR]
    by_cases hj : j < 9
    · have a1 : 12 ≤ k + j := by omega
      have a2 : k + j < 64 := by omega
      simp [a1, a2]
    · simp [hj]
  unfold pgbits
  simp only [shl]
  rw [key 39 (by decide) (by decide), key 30 (by decide) (by decide),
    key 21 (by decide) (by decide), key 12 (by decide) (by decide)]

theorem walk_ro_mask (m : Mem) (pml4 v : Nat) :
    walk_ro m pml4 (v &&& PGMASK) = walk_ro m pml4 v := by
  unfold walk_ro
  rw [pgbits_mask]

/-- The page of an address from page 1 upwards is not page 0. -/
theorem mask_ne_zero {v : Nat} (h1 : 4096 ≤ v) (h2 : v < 2 ^ 64) : v &&& PGMASK ≠ 0 := by
  intro c
  have hbit : ∀ i, 12 ≤ i → v.testBit i = false := by
    intro i hi
    by_cases h64 : i < 64
    · have := congrArg (fun x => Nat.testBit x i) c
      have hm : PGMASK = PTE_ADDR := rfl
      simp only [Nat.testBit_land, hm, testBit_PTE_ADDR, Nat.zero_testBit] at this
      simpa [hi, h64] using this
    · exact testBit_of_lt 64 i h2 (by omega)
  have : v < 2 ^ 12 := Nat.lt_pow_two_of_testBit v hbit
  omega

theorem page_insert_present (s : Phys) (p : proc_t) (va pg p_pg perms : Nat) {f i : Nat}
    (hz : va &&& PGMASK ≠ 0) (h : walk_ro s.mem p.pmap va = some (some (f, i)))
    (hp : s.mem f i &&& PTE_P ≠ 0)
    (h1 : p.pages (s.mem f i &&& PTE_ADDR) ≠ none)
    (h2 : p.upages (s.mem f i &&& PTE_ADDR) ≠ none) :
    page_insert s p va pg p_pg perms false
      = some ({ s with mem := s.mem.write f i (p_pg ||| perms ||| PTE_P),
                       inval := s.inval ++ [va] },
          { p with pages := mapSet (mapDel p.pages (s.mem f i &&& PTE_ADDR)) p_pg pg,
                   upages := mapSet (mapDel p.upages (s.mem f i &&& PTE_ADDR)) p_pg
                     (va &&& PGMASK) }) :=
  page_insert_replace s p va pg p_pg perms
    (pmap_walk_create_present s p.pages p.pmap va perms hz h) hp h1 h2

theorem flags_no_cow (c : Nat) : (c &&& PTE_FLAGS) &&& not64 PTE_COW = c &&& PTE_FLAGS := by
  have hb : c &&& PTE_FLAGS < 32 := lt_of_le_of_lt Nat.and_le_right (by decide)
  have key : ∀ x, x < 32 → x &&& not64 PTE_COW = x := by decide
  exact key _ hb

/-- The entry `sys_pgfault` installs for the new frame `dst`, from the old
entry `old`: W set, COW clear, P set, the flags U, PWT and PCD of the old entry,
and `dst` as the frame. -/
theorem pgfault_entry (dst old : Nat) (hal : dst % 4096 = 0) (hlt : dst < 2 ^ 64) :
    (dst ||| (((old &&& PTE_FLAGS) &&& not64 PTE_COW) ||| PTE_W) ||| PTE_P) &&& PTE_ADDR = dst ∧
    (dst ||| (((old &&& PTE_FLAGS) &&& not64 PTE_COW) ||| PTE_W) ||| PTE_P) &&& PTE_P ≠ 0 ∧
    (dst ||| (((old &&& PTE_FLAGS) &&& not64 PTE_COW) ||| PTE_W) ||| PTE_P) &&& PTE_W ≠ 0 ∧
    (dst ||| (((old &&& PTE_FLAGS) &&& not64 PTE_COW) ||| PTE_W) ||| PTE_P) &&& PTE_COW = 0 ∧
    (dst ||| (((old &&& PTE_FLAGS) &&& not64 PTE_COW) ||| PTE_W) ||| PTE_P) &&& PTE_U
      = old &&& PTE_U ∧
    (dst ||| (((old &&& PTE_FLAGS) &&& not64 PTE_COW) ||| PTE_W) ||| PTE_P) &&& 2 ^ 3
      = old &&& 2 ^ 3 ∧
    (dst ||| (((old &&& PTE_FLAGS) &&& not64 PTE_COW) ||| PTE_W) ||| PTE_P) &&& PTE_PCD
      = old &&& PTE_PCD := by
  have hb : old &&& PTE_FLAGS < 32 := lt_of_le_of_lt Nat.and_le_right (by decide)
  have key : ∀ x, x < 32 → (x ||| PTE_W ||| PTE_P) < 4096 ∧
      (x ||| PTE_W ||| PTE_P) &&& 2 ^ 0 ≠ 0 ∧ (x ||| PTE_W ||| PTE_P) &&& 2 ^ 1 ≠ 0 ∧
      (x ||| PTE_W ||| PTE_P) &&& 2 ^ 9 = 0 ∧ (x ||| PTE_W ||| PTE_P) &&& 2 ^ 2 = x &&& 2 ^ 2 ∧
      (x ||| PTE_W ||| PTE_P) &&& 2 ^ 3 = x &&& 2 ^ 3 ∧
      (x ||| PTE_W ||| PTE_P) &&& 2 ^ 4 = x &&& 2 ^ 4 := by decide
  obtain ⟨k0, k1, k2, k3, k4, k5, k6⟩ := key _ hb
  have e4 : PTE_PCD = 2 ^ 4 := by decide
  rw [flags_no_cow, Nat.lor_assoc dst]
  refine ⟨entry_addr hal hlt k0, ?_, ?_, ?_, ?_, ?_, ?_⟩
  · rw [PTE_P_eq, entry_bit 0 (by decide) hal]; exact k1
  · rw [PTE_W_eq, entry_bit 1 (by decide) hal]; exact k2
  · rw [PTE_COW_eq, entry_bit 9 (by decide) hal]; exact k3
  · rw [PTE_U_eq, entry_bit 2 (by decide) hal, k4]; exact flags_bit old 2 (by decide)
  · rw [entry_bit 3 (by decide) hal, k5]; exact flags_bit old 3 (by decide)
  · rw [e4, entry_bit 4 (by decide) hal, k6]; exact flags_bit old 4 (by decide)
theorem copy_page_other (m : Mem) (dst src g j : Nat) (h : g ≠ dst) :
    copy_page m dst src g j = m g j := by
  unfold copy_page
  rw [if_neg (fun c => h c.1)]

theorem copy_page_same (m : Mem) (dst src j : Nat) (h : j < 512) :
    copy_page m dst src dst j = m src j := by
  unfold copy_page
  rw [if_pos ⟨rfl, h⟩]

/-- The function `sys_pgfault` on the present entry `(f, i)` that the walk of
`fa` reaches in the page table of `proc`, with the source frame `src` inside
the direct map and tracked in both maps, and the allocator's next page `dst`
aligned and not a table on the path: the result in closed form. -/
theorem sys_pgfault_eq (k : Kernel) (proc : proc_t) (f i fa dst src : Nat)
    (hdst : dst = k.phys.heap k.phys.nalloc) (hsrcd : src = k.phys.mem f i &&& PTE_ADDR)
    (hz : fa &&& PGMASK ≠ 0)
    (hp : k.phys.mem f i &&& PTE_P ≠ 0)
    (hsrc : src < 2 ^ 39)
    (ht1 : proc.pages src ≠ none)
    (ht2 : proc.upages src ≠ none)
    (hal : dst % 4096 = 0)
    (hnf : dst ≠ f)
    (hpath : walk_ro (copy_page (k.phys.mem.zero dst) dst src) proc.pmap fa
      = some (some (f, i))) :
    sys_pgfault k proc (f, i) fa = some
      ({ proc with
          pages := mapSet (mapDel (mapSet proc.pages dst dst) src) dst dst
          upages := mapSet (mapDel proc.upages src) dst ((fa &&& PGMASK) &&& PGMASK) },
       { k with
          phys :=
            { mem := (copy_page (k.phys.mem.zero dst) dst src).write f i
                (dst ||| (((k.phys.mem f i &&& PTE_FLAGS) &&& not64 PTE_COW) ||| PTE_W) ||| PTE_P)
              heap := k.phys.heap
              nalloc := k.phys.nalloc + 1
              inval := k.phys.inval ++ [fa &&& PGMASK] }
          runnable := k.runnable ++ [(proc.pid, none)] }) := by
  have hd : dmap src = some src := by
    rw [hsrcd]; rw [hsrcd] at hsrc; exact pe2pg_of_lt hsrc
  have hz1 : (k.phys.mem.zero dst) f i = k.phys.mem f i :=
    Mem.zero_other _ _ _ _ hnf.symm
  have hm2 : copy_page (k.phys.mem.zero dst) dst src f i = k.phys.mem f i := by
    rw [copy_page_other _ _ _ _ _ hnf.symm, hz1]
  have hzz : (fa &&& PGMASK) &&& PGMASK ≠ 0 := by
    have e : (fa &&& PGMASK) &&& PGMASK = fa &&& PGMASK := by
      rw [Nat.land_assoc, Nat.and_self]
    rw [e]; exact hz
  have hins := page_insert_present
    ⟨copy_page (k.phys.mem.zero dst) dst src, k.phys.heap, k.phys.nalloc + 1, k.phys.inval⟩
    { proc with pages := mapSet proc.pages dst dst }
    (fa &&& PGMASK) dst dst
    (((k.phys.mem f i &&& PTE_FLAGS) &&& not64 PTE_COW) ||| PTE_W)
    hzz (by rw [walk_ro_mask]; exact hpath) (by dsimp only; rw [hm2]; exact hp)
    (by
      dsimp only
      rw [hm2, ← hsrcd]
      unfold mapSet
      split
      · exact fun c => by cases c
      · exact ht1)
    (by
      dsimp only
      rw [hm2, ← hsrcd]; exact ht2)
  dsimp only at hins
  rw [hm2, ← hsrcd] at hins
  have hal2 : k.phys.heap k.phys.nalloc % 4096 = 0 := by rw [← hdst]; exact hal
  unfold sys_pgfault
  simp only [pg_new_eq proc.pages hal2, ← hdst, hz1, ← hsrcd, hd, hm2]
  rw [hins]
/-- C4: a process faults at the user address `fa` whose walk reaches the
present entry `(f, i)` of its page table (tables inside the direct map, tables
of leaf entries apart from the upper tables); the source frame of the entry is
inside the direct map, is no table of leaf entries, and is tracked in `pages`
and `upages`; the allocator's next page `dst` is fresh. Then `sys_pgfault`
returns; the walk of `fa` still reaches `(f, i)`, which is the leaf entry of
the page of `fa` and now holds `dst` as its frame with P and W set, COW clear
and the flags U, PWT and PCD of the old entry; the 512 words of `dst` are
those of the source frame; the source frame and every entry other than
`(f, i)` outside `dst` are unchanged; the source frame is in neither map,
`dst` is tracked in both, in `upages` at the page of `fa`; and the page of `fa`
was invalidated. -/
theorem C4_cow_fault_round_trip (k : Kernel) (proc : proc_t) (V : Nat → Nat → Prop)
    (f i fa : Nat) (hroot : V 4 proc.pmap) (hshape : Shape k.phys.mem V)
    (hsep : ∀ g d, V 1 g → ¬ V (d + 2) g) (hfa1 : USERMIN ≤ fa) (hfa2 : fa < 2 ^ 64)
    (hw : walk_ro k.phys.mem proc.pmap fa = some (some (f, i)))
    (hp : k.phys.mem f i &&& PTE_P ≠ 0)
    (hsrc : k.phys.mem f i &&& PTE_ADDR < 2 ^ 39)
    (hdata : ¬ V 1 (k.phys.mem f i &&& PTE_ADDR))
    (ht1 : proc.pages (k.phys.mem f i &&& PTE_ADDR) ≠ none)
    (ht2 : proc.upages (k.phys.mem f i &&& PTE_ADDR) ≠ none)
    (hgood : GoodHeap k.phys.heap V k.phys.nalloc (k.phys.nalloc + 1))
    (hne : k.phys.heap k.phys.nalloc ≠ k.phys.mem f i &&& PTE_ADDR) :
    ∃ proc1 k2, sys_pgfault k proc (f, i) fa = some (proc1, k2) ∧
      proc1.pmap = proc.pmap ∧
      walk_ro k2.phys.mem proc1.pmap fa = some (some (f, i)) ∧
      leaf_entry k2.phys.mem proc1.pmap (fa &&& PGMASK) = some (k2.phys.mem f i) ∧
      k2.phys.mem f i &&& PTE_ADDR = k.phys.heap k.phys.nalloc ∧
      k2.phys.mem f i &&& PTE_P ≠ 0 ∧
      k2.phys.mem f i &&& PTE_W ≠ 0 ∧
      k2.phys.mem f i &&& PTE_COW = 0 ∧
      k2.phys.mem f i &&& PTE_U = k.phys.mem f i &&& PTE_U ∧
      k2.phys.mem f i &&& 2 ^ 3 = k.phys.mem f i &&& 2 ^ 3 ∧
      k2.phys.mem f i &&& PTE_PCD = k.phys.mem f i &&& PTE_PCD ∧
      (∀ j, j < 512 → k2.phys.mem (k.phys.heap k.phys.nalloc) j
        = k.phys.mem (k.phys.mem f i &&& PTE_ADDR) j) ∧
      (∀ j, k2.phys.mem (k.phys.mem f i &&& PTE_ADDR) j
        = k.phys.mem (k.phys.mem f i &&& PTE_ADDR) j) ∧
      (∀ g j, g ≠ k.phys.heap k.phys.nalloc → ¬ (g = f ∧ j = i) →
        k2.phys.mem g j = k.phys.mem g j) ∧
      proc1.pages (k.phys.mem f i &&& PTE_ADDR) = none ∧
      proc1.upages (k.phys.mem f i &&& PTE_ADDR) = none ∧
      proc1.pages (k.phys.heap k.phys.nalloc) = some (k.phys.heap k.phys.nalloc) ∧
      proc1.upages (k.phys.heap k.phys.nalloc) = some (fa &&& PGMASK) ∧
      k2.phys.inval = k.phys.inval ++ [fa &&& PGMASK] := by
  have hV1 : V 1 f := (walk_ro_leaf hshape hroot hw).1
  have hal := hgood.aligned _ (le_refl _) (Nat.lt_succ_self _)
  have hlow := hgood.low _ (le_refl _) (Nat.lt_succ_self _)
  have hfresh : ∀ d g, V d g → k.phys.heap k.phys.nalloc ≠ g :=
    fun d g hg => hgood.ne (le_refl _) (Nat.lt_succ_self _) hg
  have hnf := hfresh 1 f hV1
  have hsf : k.phys.mem f i &&& PTE_ADDR ≠ f := fun c => hdata (by rw [c]; exact hV1)
  have hz : fa &&& PGMASK ≠ 0 :=
    mask_ne_zero (le_trans (by decide : 4096 ≤ USERMIN) hfa1) hfa2
  have hm2 : ∀ g j, g ≠ k.phys.heap k.phys.nalloc →
      copy_page (k.phys.mem.zero (k.phys.heap k.phys.nalloc)) (k.phys.heap k.phys.nalloc)
        (k.phys.mem f i &&& PTE_ADDR) g j = k.phys.mem g j := by
    intro g j hg
    rw [copy_page_other _ _ _ _ _ hg, Mem.zero_other _ _ _ _ hg]
  have hpath : walk_ro (copy_page (k.phys.mem.zero (k.phys.heap k.phys.nalloc))
      (k.phys.heap k.phys.nalloc) (k.phys.mem f i &&& PTE_ADDR)) proc.pmap fa
      = some (some (f, i)) := by
    rw [walk_ro_congr hshape (fun g j d hg => hm2 g j (hfresh _ g hg).symm) hroot fa, hw]
  have heq := sys_pgfault_eq k proc f i fa _ _ rfl rfl hz hp hsrc ht1 ht2 hal hnf hpath
  have hm3 : ∀ g j, g ≠ k.phys.heap k.phys.nalloc → ¬ (g = f ∧ j = i) →
      Mem.write (copy_page (k.phys.mem.zero (k.phys.heap k.phys.nalloc))
        (k.phys.heap k.phys.nalloc) (k.phys.mem f i &&& PTE_ADDR)) f i
        (k.phys.heap k.phys.nalloc
          ||| (((k.phys.mem f i &&& PTE_FLAGS) &&& not64 PTE_COW) ||| PTE_W) ||| PTE_P) g j
      = k.phys.mem g j := by
    intro g j hg hc
    rw [Mem.write_other _ _ _ _ _ _ hc, hm2 g j hg]
  have hwalk : ∀ v, walk_ro (Mem.write (copy_page (k.phys.mem.zero (k.phys.heap k.phys.nalloc))
        (k.phys.heap k.phys.nalloc) (k.phys.mem f i &&& PTE_ADDR)) f i
        (k.phys.heap k.phys.nalloc
          ||| (((k.phys.mem f i &&& PTE_FLAGS) &&& not64 PTE_COW) ||| PTE_W) ||| PTE_P))
      proc.pmap v = walk_ro k.phys.mem proc.pmap v := fun v =>
    walk_ro_congr hshape (fun g j d hg => hm3 g j (hfresh _ g hg).symm
      (fun c => hsep f d hV1 (by rw [← c.1]; exact hg))) hroot v
  obtain ⟨b1, b2, b3, b4, b5, b6, b7⟩ :=
    pgfault_entry (k.phys.heap k.phys.nalloc) (k.phys.mem f i) hal
      (lt_trans hlow (by decide))
  have hmask : (fa &&& PGMASK) &&& PGMASK = fa &&& PGMASK := by
    rw [Nat.land_assoc, Nat.and_self]
  refine ⟨_, _, heq, rfl, ?_, ?_, ?_, ?_, ?_, ?_, ?_, ?_, ?_, ?_, ?_, hm3, ?_, ?_, ?_, ?_, rfl⟩
  · exact (hwalk fa).trans hw
  · exact leaf_entry_of_walk (((hwalk _).trans (walk_ro_mask _ _ _)).trans hw)
  · show Mem.write _ f i _ f i &&& PTE_ADDR = _
    rw [Mem.write_same]; exact b1
  · show Mem.write _ f i _ f i &&& PTE_P ≠ 0
    rw [Mem.write_same]; exact b2
  · show Mem.write _ f i _ f i &&& PTE_W ≠ 0
    rw [Mem.write_same]; exact b3
  · show Mem.write _ f i _ f i &&& PTE_COW = 0
    rw [Mem.write_same]; exact b4
  · show Mem.write _ f i _ f i &&& PTE_U = _
    rw [Mem.write_same]; exact b5
  · show Mem.write _ f i _ f i &&& 2 ^ 3 = _
    rw [Mem.write_same]; exact b6
  · show Mem.write _ f i _ f i &&& PTE_PCD = _
    rw [Mem.write_same]; exact b7
  · intro j hj
    show Mem.write _ f i _ _ j = _
    rw [Mem.write_other _ _ _ _ _ _ (fun c => hnf c.1), copy_page_same _ _ _ _ hj,
      Mem.zero_other _ _ _ _ hne.symm]
  · intro j
    exact hm3 _ j hne.symm (fun c => hsf c.1)
  · show mapSet (mapDel _ _) _ _ _ = none
    simp [mapSet, mapDel, hne.symm]
  · show mapSet (mapDel _ _) _ _ _ = none
    simp [mapSet, mapDel, hne.symm]
  · show mapSet (mapDel _ _) _ _ _ = some _
    simp [mapSet]
  · show mapSet (mapDel _ _) _ _ _ = some _
    simp [mapSet, hmask]
theorem cow_shape : Shape cow_mem ex_V := by
  refine ex_shape.shape_congr (fun f i k hV => ?_)
  apply Mem.write_other
  rintro ⟨rfl, _⟩
  simp only [ex_V] at hV
  omega

theorem C4_witness :
    USERMIN ≤ ex_fa ∧ cow_mem 0x4000 0 &&& PTE_COW ≠ 0 ∧ cow_mem 0x4000 0 &&& PTE_W = 0 ∧
    ∃ proc1 k2, sys_pgfault cow_kernel ex_parent (0x4000, 0) ex_fa = some (proc1, k2) ∧
      k2.phys.mem 0x4000 0 &&& PTE_W ≠ 0 ∧ k2.phys.mem 0x4000 0 &&& PTE_COW = 0 :=
  ⟨by decide, by decide, by decide,
    (C4_cow_fault_round_trip cow_kernel ex_parent ex_V 0x4000 0 ex_fa (Or.inl ⟨rfl, rfl⟩)
      cow_shape ex_sep (by decide) (by decide) (by decide) (by decide) (by decide)
      (by
        have e : cow_kernel.phys.mem 0x4000 0 &&& PTE_ADDR = 0x5000 := by decide
        rw [e]
        simp only [ex_V]
        omega)
      (by decide) (by decide) (ex_good 1 (by decide)) (by decide)).imp
      (fun _ h => h.imp (fun _ h2 => ⟨h2.1, h2.2.2.2.2.2.2.1, h2.2.2.2.2.2.2.2.1⟩))⟩

/-! ## The invariants of a process page table (C5, C6) -/

theorem walk_level_ps (create : Bool) (perms : Nat) (s : Phys) (tr : Tracker) (pg idx : Nat)
    (hp : s.mem pg idx &&& PTE_P ≠ 0) (hps : s.mem pg idx &&& PTE_PS ≠ 0) :
    walk_level create perms s tr pg idx = none := by
  simp only [walk_level, hp, if_false, cpe, hps, ne_eq, not_false_eq_true, if_true]

/-- When `pmap_walk` with `create` returns, the address was legal and no
entry with PS was on its path. -/
theorem pmap_walk_create_some {V : Nat → Nat → Prop} {s : Phys} {tr : Tracker}
    {pml4 v perms : Nat} {r : Option (Nat × Nat) × Phys × Tracker}
    (h : pmap_walk s tr pml4 v true perms = some r) (hroot : V 4 pml4)
    (hshape : Shape s.mem V) : LegalVa v ∧ NoPsOnPath s.mem pml4 v := by
  obtain ⟨b4, b3, b2, b1⟩ := pgbits_lt v
  unfold pmap_walk at h
  by_cases hres : (pgbits v).1 ≥ VREC ∧ (pgbits v).1 ≤ VEND
  · simp only [hres, and_self, if_true] at h; cases h
  by_cases hz : v &&& PGMASK = 0
  · simp only [hres, if_false, hz, and_self, if_true] at h; cases h
  have hz2 : ¬ (v &&& PGMASK = 0 ∧ True) := fun c => hz c.1
  simp only [hres, if_false] at h
  rw [if_neg hz2] at h
  refine ⟨⟨hres, hz⟩, fun a4 => ?_⟩
  by_cases p4 : s.mem pml4 (pgbits v).1 &&& PTE_PS = 0
  swap
  · rw [walk_level_ps true perms s tr pml4 _ a4 p4] at h; cases h
  have l4 := (hshape 2 pml4 _ hroot b4 a4 p4)
  rw [walk_level_present true perms s tr pml4 _ a4 p4 l4.1] at h
  dsimp only at h
  refine ⟨p4, fun a3 => ?_⟩
  by_cases p3 : s.mem (s.mem pml4 (pgbits v).1 &&& PTE_ADDR) (pgbits v).2.1 &&& PTE_PS = 0
  swap
  · rw [walk_level_ps true perms s tr _ _ a3 p3] at h; cases h
  have l3 := (hshape 1 _ _ l4.2 b3 a3 p3)
  rw [walk_level_present true perms s tr _ _ a3 p3 l3.1] at h
  dsimp only at h
  refine ⟨p3, fun a2 => ?_⟩
  by_contra p2
  rw [walk_level_ps true perms s tr _ _ a2 p2] at h
  cases h

/-- The two ways in which `page_insert` returns. -/
theorem page_insert_cases {s : Phys} {p : proc_t} {va pg p_pg perms : Nat} {vempty : Bool}
    {s3 : Phys} {p2 : proc_t} (h : page_insert s p va pg p_pg perms vempty = some (s3, p2)) :
    ∃ f i s1 pages1, pmap_walk s p.pages p.pmap va true perms = some (some (f, i), s1, pages1) ∧
      ((s1.mem f i &&& PTE_P = 0 ∧
        s3 = { s1 with mem := s1.mem.write f i (p_pg ||| perms ||| PTE_P) } ∧
        p2 = { p with pages := mapSet pages1 p_pg pg,
                      upages := mapSet p.upages p_pg (va &&& PGMASK) }) ∨
       (s1.mem f i &&& PTE_P ≠ 0 ∧ vempty = false ∧
        pages1 (s1.mem f i &&& PTE_ADDR) ≠ none ∧ p.upages (s1.mem f i &&& PTE_ADDR) ≠ none ∧
        s3 = { s1 with mem := s1.mem.write f i (p_pg ||| perms ||| PTE_P),
                       inval := s1.inval ++ [va] } ∧
        p2 = { p with pages := mapSet (mapDel pages1 (s1.mem f i &&& PTE_ADDR)) p_pg pg,
                      upages := mapSet (mapDel p.upages (s1.mem f i &&& PTE_ADDR)) p_pg
                        (va &&& PGMASK) })) := by
  cases hw : pmap_walk s p.pages p.pmap va true perms with
  | none => unfold page_insert at h; rw [hw] at h; cases h
  | some r =>
    obtain ⟨ptr, s1, pages1⟩ := r
    cases ptr with
    | none => unfold page_insert at h; rw [hw] at h; cases h
    | some q =>
      obtain ⟨f, i⟩ := q
      refine ⟨f, i, s1, pages1, rfl, ?_⟩
      by_cases hp : s1.mem f i &&& PTE_P = 0
      · rw [page_insert_fresh s p va pg p_pg perms vempty hw hp] at h
        injection h with h; injection h with h1 h2
        exact Or.inl ⟨hp, h1.symm, h2.symm⟩
      · cases vempty with
        | true => rw [page_insert_vempty s p va pg p_pg perms hw hp] at h; cases h
        | false =>
          by_cases t1 : pages1 (s1.mem f i &&& PTE_ADDR) = none
          · rw [page_insert_untracked s p va pg p_pg perms hw hp (Or.inl t1)] at h; cases h
          by_cases t2 : p.upages (s1.mem f i &&& PTE_ADDR) = none
          · rw [page_insert_untracked s p va pg p_pg perms hw hp (Or.inr t2)] at h; cases h
          rw [page_insert_replace s p va pg p_pg perms hw hp t1 t2] at h
          injection h with h; injection h with h1 h2
          exact Or.inr ⟨hp, rfl, t1, t2, h1.symm, h2.symm⟩
theorem GoodHeap.from {heap : Nat → Nat} {V : Nat → Nat → Prop} {lo hi : Nat}
    (h : GoodHeap heap V lo hi) {lo2 : Nat} (hle : lo ≤ lo2) : GoodHeap heap V lo2 hi :=
  { aligned := fun k h1 h2 => h.aligned k (le_trans hle h1) h2
    low := fun k h1 h2 => h.low k (le_trans hle h1) h2
    inj := fun k1 k2 a1 a2 b1 b2 e => h.inj k1 k2 (le_trans hle a1) a2 (le_trans hle b1) b2 e
    fresh := fun k d h1 h2 => h.fresh k d (le_trans hle h1) h2 }

theorem GoodHeap.upto {heap : Nat → Nat} {V : Nat → Nat → Prop} {lo hi : Nat}
    (h : GoodHeap heap V lo hi) {hi2 : Nat} (hle : hi2 ≤ hi) : GoodHeap heap V lo hi2 :=
  { aligned := fun k h1 h2 => h.aligned k h1 (lt_of_lt_of_le h2 hle)
    low := fun k h1 h2 => h.low k h1 (lt_of_lt_of_le h2 hle)
    inj := fun k1 k2 a1 a2 b1 b2 e =>
      h.inj k1 k2 a1 (lt_of_lt_of_le a2 hle) b1 (lt_of_lt_of_le b2 hle) e
    fresh := fun k d h1 h2 => h.fresh k d h1 (lt_of_lt_of_le h2 hle) }

/-- A later page of the allocator is none of the pages handed out before. -/
theorem GoodHeap.not_window {heap : Nat → Nat} {V : Nat → Nat → Prop} {lo hi : Nat}
    (h : GoodHeap heap V lo hi) {n2 k : Nat} (hk : n2 ≤ k) (hk2 : k < hi) :
    ¬ Window heap lo n2 (heap k) := by
  rintro ⟨j, h1, h2, e⟩
  have := h.inj k j (by omega) hk2 h1 (by omega) e
  omega

theorem missing_levels_le (m : Mem) (pml4 v : Nat) : missing_levels m pml4 v ≤ 3 := by
  unfold missing_levels
  split
  · split
    · split
      · exact Nat.zero_le _
      · decide
    · decide
  · decide

/-- The environment after tables were added from the allocator. -/
theorem Env.grow {V V2 : Nat → Nat → Prop} {s : Phys} {pm cap : Nat} (hE : Env V s pm cap)
    {n2 : Nat} {m2 : Mem} {f : Nat}
    (hF : Family V V2 (Window s.heap s.nalloc n2) m2 f) (hn : s.nalloc ≤ n2) (iv : List Nat) :
    Env V2 ⟨m2, s.heap, n2, iv⟩ pm cap :=
  { typed := hF.typed
    root := hF.sub _ _ hE.root
    shape := hF.shape
    fresh :=
      { aligned := fun k h1 h2 => hE.fresh.aligned k (le_trans hn h1) h2
        low := fun k h1 h2 => hE.fresh.low k (le_trans hn h1) h2
        inj := fun k1 k2 a1 a2 b1 b2 e =>
          hE.fresh.inj k1 k2 (le_trans hn a1) a2 (le_trans hn b1) b2 e
        fresh := fun k d h1 h2 c => by
          rcases hF.new d _ c with c | c
          · exact hE.fresh.fresh k d (le_trans hn h1) h2 c
          · exact GoodHeap.not_window hE.fresh h1 h2 c } }

/-- The environment after a write into a table of leaf entries. -/
theorem Env.write_leaf {V : Nat → Nat → Prop} {s : Phys} {pm cap : Nat} (hE : Env V s pm cap)
    {f : Nat} (hf : V 1 f) (i e : Nat) (iv : List Nat) :
    Env V ⟨s.mem.write f i e, s.heap, s.nalloc, iv⟩ pm cap :=
  { typed := hE.typed
    root := hE.root
    shape := hE.shape.shape_congr (fun g j k hg =>
      Mem.write_other _ _ _ _ _ _ (fun c => by
        have := hE.typed _ _ _ hf (by rw [← c.1]; exact hg)
        omega))
    fresh := hE.fresh }

/-- The environment after a change of the memory outside the tables, with
the allocator possibly advanced. -/
theorem Env.frame {V : Nat → Nat → Prop} {s : Phys} {pm cap : Nat} (hE : Env V s pm cap)
    {m2 : Mem} (hm : ∀ d g j, V d g → m2 g j = s.mem g j) {n2 : Nat} (hn : s.nalloc ≤ n2)
    (iv : List Nat) : Env V ⟨m2, s.heap, n2, iv⟩ pm cap :=
  { typed := hE.typed
    root := hE.root
    shape := hE.shape.shape_congr (fun g j _ hg => hm _ g j hg)
    fresh := GoodHeap.from hE.fresh hn }

theorem Env.sep {V : Nat → Nat → Prop} {s : Phys} {pm cap : Nat} (hE : Env V s pm cap) :
    ∀ g d, V 1 g → ¬ V (d + 2) g := fun g d h1 h2 => by
  have := hE.typed _ _ _ h1 h2
  omega

/-- What a returning `page_insert` did, in an environment `Env`: the walk
created the missing tables (`WalkCreated`), the family extends to a typed
family `V2` with the new tables, the environment holds again, the leaf entry
was written, and the maps were updated in one of two ways. -/
theorem page_insert_env {V : Nat → Nat → Prop} {s : Phys} {p : proc_t}
    {va pg p_pg perms cap : Nat} {vempty : Bool} {s3 : Phys} {p2 : proc_t}
    (hE : Env V s p.pmap cap) (hroom : s.nalloc + 3 ≤ cap) (hperm : FlagsOnly perms)
    (h : page_insert s p va pg p_pg perms vempty = some (s3, p2)) :
    ∃ V2 f s1 pages1,
      WalkCreated V perms p.pmap va s p.pages f s1 pages1 ∧ LegalVa va ∧
      Family V V2 (Window s.heap s.nalloc s1.nalloc) s1.mem f ∧
      Env V2 s3 p.pmap cap ∧ s1.nalloc ≤ cap ∧ p2.pmap = p.pmap ∧
      s3.mem = s1.mem.write f (pgbits va).2.2.2 (p_pg ||| perms ||| PTE_P) ∧
      s3.heap = s.heap ∧ s3.nalloc = s1.nalloc ∧
      ((s1.mem f (pgbits va).2.2.2 &&& PTE_P = 0 ∧
        p2.pages = mapSet pages1 p_pg pg ∧
        p2.upages = mapSet p.upages p_pg (va &&& PGMASK) ∧ s3.inval = s.inval) ∨
       (s1.mem f (pgbits va).2.2.2 &&& PTE_P ≠ 0 ∧ vempty = false ∧
        pages1 (s1.mem f (pgbits va).2.2.2 &&& PTE_ADDR) ≠ none ∧
        p.upages (s1.mem f (pgbits va).2.2.2 &&& PTE_ADDR) ≠ none ∧
        p2.pages = mapSet (mapDel pages1 (s1.mem f (pgbits va).2.2.2 &&& PTE_ADDR)) p_pg pg ∧
        p2.upages = mapSet (mapDel p.upages (s1.mem f (pgbits va).2.2.2 &&& PTE_ADDR)) p_pg
          (va &&& PGMASK) ∧
        s3.inval = s.inval ++ [va])) := by
  obtain ⟨f, i, s1, pages1, hw, hc⟩ := page_insert_cases h
  obtain ⟨hleg, hnops⟩ := pmap_walk_create_some hw hE.root hE.shape
  have hml := missing_levels_le s.mem p.pmap va
  obtain ⟨f2, s12, tr2, hrun, hwc⟩ :=
    pmap_walk_create_spec V perms p.pmap va s p.pages hleg hperm hE.root hE.shape hnops
      (hE.fresh.upto (by omega))
  rw [hw] at hrun
  injection hrun with hrun
  injection hrun with e1 e2
  injection e1 with e1
  injection e1 with a1 a2
  injection e2 with a3 a4
  subst a1; subst a2; subst a3; subst a4
  obtain ⟨V2, hF⟩ := hwc.family hE.typed
  have hn : s.nalloc ≤ s1.nalloc := by rw [hwc.nalloc_eq]; exact Nat.le_add_right _ _
  have hcap : s1.nalloc ≤ cap := by rw [hwc.nalloc_eq]; omega
  have hE1 : ∀ iv, Env V2 ⟨s1.mem.write f (pgbits va).2.2.2 (p_pg ||| perms ||| PTE_P),
      s.heap, s1.nalloc, iv⟩ p.pmap cap :=
    fun iv => (hE.grow hF hn iv).write_leaf hF.leaf _ _ iv
  refine ⟨V2, f, s1, pages1, hwc, hleg, hF, ?_⟩
  rcases hc with ⟨hp, h3, h2⟩ | ⟨hp, hv, t1, t2, h3, h2⟩
  · subst h3; subst h2
    refine ⟨?_, hcap, rfl, rfl, hwc.heap_eq, rfl, Or.inl ⟨hp, rfl, rfl, hwc.inval_eq⟩⟩
    have := hE1 s1.inval
    rw [← hwc.heap_eq] at this
    exact this
  · subst h3; subst h2
    refine ⟨?_, hcap, rfl, rfl, hwc.heap_eq, rfl, Or.inr ⟨hp, hv, t1, t2, rfl, rfl, ?_⟩⟩
    · have := hE1 (s1.inval ++ [va])
      rw [← hwc.heap_eq] at this
      exact this
    · show s1.inval ++ [va] = _
      rw [hwc.inval_eq]
theorem CowOk_of_no_cow {e : Nat} (h : e &&& PTE_COW = 0) : CowOk e :=
  fun c => absurd h c

/-- An entry made of a page address and flags without COW has COW clear. -/
theorem entry_no_cow {q fl : Nat} (hq : q % 4096 = 0) (hfl : fl &&& PTE_COW = 0) :
    (q ||| fl ||| PTE_P) &&& PTE_COW = 0 := by
  have hP : PTE_P.testBit 9 = false := by decide
  rw [Nat.lor_assoc, PTE_COW_eq, entry_bit 9 (by decide) hq]
  rw [PTE_COW_eq, Nat.and_two_pow] at hfl
  rw [Nat.and_two_pow, Nat.testBit_lor, hP]
  cases h : fl.testBit 9
  · rfl
  · rw [h] at hfl; exact absurd hfl (by decide)

/-- A walk whose path is present survives the creation of tables elsewhere,
and so does its leaf entry when that is present. -/
theorem walk_grown {perms : Nat} {W : Nat → Prop} {m m2 : Mem} {V : Nat → Nat → Prop}
    {pm v g j : Nat} (hG : Grown perms W m m2) (hsh : Shape m V) (hroot : V 4 pm)
    (hW : ∀ d q, V d q → ¬ W q) (h : walk_ro m pm v = some (some (g, j))) :
    walk_ro m2 pm v = some (some (g, j)) ∧ (m g j &&& PTE_P ≠ 0 → m2 g j = m g j) := by
  obtain ⟨b4, b3, b2, b1⟩ := pgbits_lt v
  obtain ⟨hres, rfl, n1, n2, h4, h3, h2⟩ := walk_ro_levels h
  have hn1 : V 3 n1 := hsh.next hroot b4 h4
  have hn2 : V 2 n2 := hsh.next hn1 b3 h3
  have hg : V 1 g := hsh.next hn2 b2 h2
  have keep : ∀ d q i, V d q → m q i &&& PTE_P ≠ 0 → m2 q i = m q i := by
    intro d q i hq hp
    rcases (hG q i).1 (hW d q hq) with e | ⟨ab, _⟩
    · exact e
    · exact absurd ab hp
  have k4 := level_ro_congr (keep 4 pm _ hroot (level_ro_some h4).1)
  have k3 := level_ro_congr (keep 3 n1 _ hn1 (level_ro_some h3).1)
  have k2 := level_ro_congr (keep 2 n2 _ hn2 (level_ro_some h2).1)
  refine ⟨?_, keep 1 g _ hg⟩
  unfold walk_ro
  simp only [hres, if_false, k4, h4, k3, h3, k2, h2]

theorem mask_aligned (va : Nat) : (va &&& PGMASK) % 4096 = 0 := and_PTE_ADDR_mod va

theorem leaf_entry_mask (m : Mem) (pm v : Nat) :
    leaf_entry m pm (v &&& PGMASK) = leaf_entry m pm v := by
  unfold leaf_entry
  rw [walk_ro_mask]

/-- After a returning `page_insert` of an aligned frame, the tracking maps
agree with the page table again. -/
theorem page_insert_track {V : Nat → Nat → Prop} {s : Phys} {p : proc_t}
    {va pg p_pg perms cap : Nat} {vempty : Bool} {s3 : Phys} {p2 : proc_t}
    (hE : Env V s p.pmap cap) (hroom : s.nalloc + 3 ≤ cap) (hperm : FlagsOnly perms)
    (hal : p_pg % 4096 = 0) (hlt : p_pg < 2 ^ 64) (hT : TrackInv s.mem p)
    (h : page_insert s p va pg p_pg perms vempty = some (s3, p2)) :
    TrackInv s3.mem p2 := by
  obtain ⟨V2, f, s1, pages1, hwc, hleg, hF, hE3, hcap, hpm, hmem, _, _, hmaps⟩ :=
    page_insert_env hE hroom hperm h
  obtain ⟨n1, n2, h4, h3, h2, hap⟩ := hwc.path
  have hfl : perms ||| PTE_P < 4096 :=
    Nat.or_lt_two_pow hperm.1 (by decide : PTE_P < 2 ^ 12)
  have hnew : leaf_entry s3.mem p.pmap (va &&& PGMASK) = some (p_pg ||| perms ||| PTE_P) := by
    rw [leaf_entry_mask, hmem,
      leaf_entry_of_walk (walk_ro_write_leaf _ hleg.1 h4 h3 h2 (hap hE.sep) _), Mem.write_same]
  have hWV : ∀ d q, V d q → ¬ Window s.heap s.nalloc s1.nalloc q := by
    rintro d q hq ⟨k, a, b, rfl⟩
    exact hE.fresh.fresh k d a (lt_of_lt_of_le b hcap) hq
  have hold : ∀ v g j, walk_ro s.mem p.pmap v = some (some (g, j)) →
      s.mem g j &&& PTE_P ≠ 0 → ¬ (g = f ∧ j = (pgbits va).2.2.2) →
      leaf_entry s3.mem p.pmap v = some (s.mem g j) := by
    intro v g j hw hp hne
    obtain ⟨w1, k1⟩ := walk_grown hwc.grown hE.shape hE.root hWV hw
    have w3 : walk_ro s3.mem p.pmap v = some (some (g, j)) := by
      rw [hmem, walk_ro_congr hF.shape (fun q i d hq =>
        Mem.write_other _ _ _ _ _ _ (fun c => by
          have := hF.typed _ _ _ hF.leaf (by rw [← c.1]; exact hq)
          omega)) (hF.sub _ _ hE.root) v]
      exact w1
    rw [leaf_entry_of_walk w3, hmem, Mem.write_other _ _ _ _ _ _ hne, k1 hp]
  have hpages1 : ∀ F, p.pages F ≠ none → pages1 F ≠ none := by
    intro F hF1
    by_cases hw : Window s.heap s.nalloc s1.nalloc F
    · rw [hwc.recorded.1 F hw]; exact fun c => by cases c
    · rw [hwc.recorded.2 F hw]; exact hF1
  intro F va2 hu
  rw [hpm]
  by_cases hFp : F = p_pg
  · subst hFp
    have hva : va2 = va &&& PGMASK := by
      rcases hmaps with ⟨_, _, e2, _⟩ | ⟨_, _, _, _, _, e2, _⟩
      · rw [e2] at hu; simpa [mapSet] using hu.symm
      · rw [e2] at hu; simpa [mapSet] using hu.symm
    subst hva
    refine ⟨?_, mask_aligned va, _, hnew, installed_present _ _, ?_⟩
    · rcases hmaps with ⟨_, e1, _, _⟩ | ⟨_, _, _, _, e1, _, _⟩
      · rw [e1]; simp [mapSet]
      · rw [e1]; simp [mapSet]
    · rw [Nat.lor_assoc]; exact entry_addr hal hlt hfl
  · rcases hmaps with ⟨hab, e1, e2, _⟩ | ⟨hpr, _, _, _, e1, e2, _⟩
    · rw [e2] at hu
      have hu2 : p.upages F = some va2 := by simpa [mapSet, hFp] using hu
      obtain ⟨t1, t2, e, he, hp, ha⟩ := hT F va2 hu2
      obtain ⟨g, j, hw, hv⟩ := walk_of_leaf_entry he
      subst hv
      refine ⟨?_, t2, _, hold va2 g j hw hp ?_, hp, ha⟩
      · rw [e1]; simpa [mapSet, hFp] using hpages1 F t1
      · rintro ⟨rfl, rfl⟩
        have := (walk_grown hwc.grown hE.shape hE.root hWV hw).2 hp
        rw [this] at hab
        exact hp hab
    · rw [e2] at hu
      have hFr : F ≠ s1.mem f (pgbits va).2.2.2 &&& PTE_ADDR := by
        intro c
        rw [c] at hu hFp
        simp [mapSet, mapDel, hFp] at hu
      have hu2 : p.upages F = some va2 := by simpa [mapSet, mapDel, hFp, hFr] using hu
      obtain ⟨t1, t2, e, he, hp, ha⟩ := hT F va2 hu2
      obtain ⟨g, j, hw, hv⟩ := walk_of_leaf_entry he
      subst hv
      refine ⟨?_, t2, _, hold va2 g j hw hp ?_, hp, ha⟩
      · rw [e1]; simpa [mapSet, mapDel, hFp, hFr] using hpages1 F t1
      · rintro ⟨rfl, rfl⟩
        have := (walk_grown hwc.grown hE.shape hE.root hWV hw).2 hp
        rw [this] at hFr
        exact hFr ha.symm

/-- After a returning `page_insert`: the environment holds on a family `V2`
that extends `V`; the flag discipline holds on `V2` when the flags have no COW
and the frame is aligned; and the tracking maps agree with the page table again
when the frame is an aligned 64-bit address. -/
theorem page_insert_inv {V : Nat → Nat → Prop} {s : Phys} {p : proc_t}
    {va pg p_pg perms cap : Nat} {vempty : Bool} {s3 : Phys} {p2 : proc_t}
    (hE : Env V s p.pmap cap) (hroom : s.nalloc + 3 ≤ cap) (hperm : FlagsOnly perms)
    (h : page_insert s p va pg p_pg perms vempty = some (s3, p2)) :
    ∃ V2, Env V2 s3 p2.pmap cap ∧ (∀ d g, V d g → V2 d g) ∧ s3.nalloc ≤ s.nalloc + 3 ∧
      (perms &&& PTE_COW = 0 → p_pg % 4096 = 0 → CowInv V s.mem → CowInv V2 s3.mem) ∧
      (p_pg % 4096 = 0 → p_pg < 2 ^ 64 → TrackInv s.mem p → TrackInv s3.mem p2) := by
  obtain ⟨V2, f, s1, pages1, hwc, _, hF, hE3, hcap, hpm, hmem, _, hn3, _⟩ :=
    page_insert_env hE hroom hperm h
  have hml := missing_levels_le s.mem p.pmap va
  refine ⟨V2, by rw [hpm]; exact hE3, hF.sub, by rw [hn3, hwc.nalloc_eq]; omega,
    fun hnc hal hI g i hg hi => ?_,
    fun hal hlt hT => page_insert_track hE hroom hperm hal hlt hT h⟩
  have hinst : ∀ q, Window s.heap s.nalloc s1.nalloc q → CowOk (q ||| perms ||| PTE_P) := by
    rintro q ⟨k, h1, h2, rfl⟩
    exact CowOk_of_no_cow (entry_no_cow (hE.fresh.aligned k h1 (lt_of_lt_of_le h2 hcap)) hnc)
  rw [hmem]
  by_cases hc : g = f ∧ i = (pgbits va).2.2.2
  · obtain ⟨rfl, rfl⟩ := hc
    rw [Mem.write_same]
    exact CowOk_of_no_cow (entry_no_cow hal hnc)
  · rw [Mem.write_other _ _ _ _ _ _ hc]
    rcases hF.new 1 g hg with hv | hw
    · have hnw : ¬ Window s.heap s.nalloc s1.nalloc g := by
        rintro ⟨k, h1, h2, rfl⟩
        exact hE.fresh.fresh k 1 h1 (lt_of_lt_of_le h2 hcap) hv
      rcases (hwc.grown g i).1 hnw with e | ⟨_, q, hq, e⟩
      · rw [e]; exact hI g i hv hi
      · rw [e]; exact hinst q hq
    · rcases (hwc.grown g i).2 hw with e | ⟨q, hq, e⟩
      · rw [e]; exact CowOk_of_no_cow (by decide)
      · rw [e]; exact hinst q hq

/-! ## The invariants under the other operations -/

theorem leaf_entry_congr {V : Nat → Nat → Prop} {m m2 : Mem} {pm : Nat} (hsh : Shape m V)
    (hroot : V 4 pm) (hm : ∀ d g j, V d g → m2 g j = m g j) (v : Nat) :
    leaf_entry m2 pm v = leaf_entry m pm v := by
  have hw := walk_ro_congr hsh (fun g j d hg => hm _ g j hg) hroot v
  unfold leaf_entry
  rw [hw]
  cases h : walk_ro m pm v with
  | none => rfl
  | some r =>
    cases r with
    | none => rfl
    | some q =>
      obtain ⟨g, j⟩ := q
      dsimp only
      rw [hm 1 g j (walk_ro_leaf hsh hroot h).1]

theorem CowInv.cow_frame {V : Nat → Nat → Prop} {m m2 : Mem} (h : CowInv V m)
    (hm : ∀ d g j, V d g → m2 g j = m g j) : CowInv V m2 :=
  fun g i hg hi => by rw [hm 1 g i hg]; exact h g i hg hi

/-- The tracking invariant after a change of the memory outside the tables
and of `pages` that loses no key. -/
theorem TrackInv.track_frame {V : Nat → Nat → Prop} {m m2 : Mem} {p : proc_t}
    (h : TrackInv m p) (hsh : Shape m V) (hroot : V 4 p.pmap)
    (hm : ∀ d g j, V d g → m2 g j = m g j) {pages2 : Tracker}
    (hp : ∀ F, p.pages F ≠ none → pages2 F ≠ none) :
    TrackInv m2 { p with pages := pages2 } := by
  intro F va hu
  obtain ⟨t1, t2, e, he, hpr, ha⟩ := h F va hu
  exact ⟨hp F t1, t2, e, by
    show leaf_entry m2 p.pmap va = some e
    rw [leaf_entry_congr hsh hroot hm]; exact he, hpr, ha⟩

/-- What a returning `pg_new` did. -/
theorem pg_new_some {s : Phys} {tr : Tracker} {pt p_pt : Nat} {s1 : Phys} {tr1 : Tracker}
    (h : pg_new s tr = some (pt, p_pt, s1, tr1)) :
    s.heap s.nalloc % 4096 = 0 ∧ pt = s.heap s.nalloc ∧ p_pt = s.heap s.nalloc ∧
    s1 = { s with mem := s.mem.zero (s.heap s.nalloc), nalloc := s.nalloc + 1 } ∧
    tr1 = mapSet tr (s.heap s.nalloc) (s.heap s.nalloc) := by
  by_cases hal : s.heap s.nalloc % 4096 = 0
  · rw [pg_new_eq tr hal] at h
    injection h with h
    injection h with a1 h
    injection h with a2 h
    injection h with a3 a4
    exact ⟨hal, a1.symm, a2.symm, a3.symm, a4.symm⟩
  · have hn : s.heap s.nalloc &&& (PGSIZE - 1) ≠ 0 := fun c => hal ((aligned_iff _).mp c)
    simp only [pg_new, hn, ne_eq, not_false_eq_true, if_true] at h
    cases h

/-- The environment and both invariants after `pg_new` on `pages`. -/
theorem pg_new_inv {V : Nat → Nat → Prop} {s : Phys} {p : proc_t} {cap : Nat}
    (hE : Env V s p.pmap cap) (hroom : s.nalloc + 1 ≤ cap) :
    Env V ⟨s.mem.zero (s.heap s.nalloc), s.heap, s.nalloc + 1, s.inval⟩ p.pmap cap ∧
    (CowInv V s.mem → CowInv V (s.mem.zero (s.heap s.nalloc))) ∧
    (TrackInv s.mem p → TrackInv (s.mem.zero (s.heap s.nalloc))
      { p with pages := mapSet p.pages (s.heap s.nalloc) (s.heap s.nalloc) }) := by
  have hm : ∀ d g j, V d g → (s.mem.zero (s.heap s.nalloc)) g j = s.mem g j := by
    intro d g j hg
    exact Mem.zero_other _ _ _ _ (fun c =>
      hE.fresh.fresh s.nalloc d (le_refl _) hroom (by rw [← c]; exact hg))
  refine ⟨hE.frame hm (Nat.le_succ _) _, fun h => h.cow_frame hm,
    fun h => h.track_frame hE.shape hE.root hm (fun F hF => ?_)⟩
  unfold mapSet
  split
  · exact fun c => by cases c
  · exact hF
/-- What a returning `sys_pgfault` did: it took the allocator's next page
`dst`, copied a page `src` into it, and inserted it with flags taken from an
entry `x`, COW removed and W added. -/
theorem sys_pgfault_some {k : Kernel} {proc : proc_t} {pte : Nat × Nat} {fa : Nat}
    {proc1 : proc_t} {k2 : Kernel} (h : sys_pgfault k proc pte fa = some (proc1, k2)) :
    ∃ dst src x s3, dst = k.phys.heap k.phys.nalloc ∧ dst % 4096 = 0 ∧
      page_insert
        ⟨copy_page (k.phys.mem.zero dst) dst src, k.phys.heap, k.phys.nalloc + 1, k.phys.inval⟩
        { proc with pages := mapSet proc.pages dst dst }
        (fa &&& PGMASK) dst dst
        (((x &&& PTE_FLAGS) &&& not64 PTE_COW) ||| PTE_W) false = some (s3, proc1) ∧
      k2.phys = s3 := by
  unfold sys_pgfault at h
  cases hn : pg_new k.phys proc.pages with
  | none => rw [hn] at h; cases h
  | some r =>
    obtain ⟨dst0, p_dst, s1, pages1⟩ := r
    obtain ⟨hal, rfl, rfl, rfl, rfl⟩ := pg_new_some hn
    rw [hn] at h
    dsimp only at h
    generalize hdst : k.phys.heap k.phys.nalloc = dst at h hal
    cases hd : dmap (Mem.zero k.phys.mem dst pte.1 pte.2 &&& PTE_ADDR) with
    | none => rw [hd] at h; cases h
    | some src =>
      rw [hd] at h
      dsimp only at h
      refine ⟨dst, src, copy_page (k.phys.mem.zero dst) dst src pte.1 pte.2, ?_⟩
      cases hi : page_insert
          ⟨copy_page (k.phys.mem.zero dst) dst src, k.phys.heap, k.phys.nalloc + 1,
            k.phys.inval⟩
          { proc with pages := mapSet proc.pages dst dst }
          (fa &&& PGMASK) dst dst
          (((copy_page (k.phys.mem.zero dst) dst src pte.1 pte.2 &&& PTE_FLAGS)
            &&& not64 PTE_COW) ||| PTE_W) false with
      | none => rw [hi] at h; cases h
      | some q =>
        obtain ⟨s3, pr⟩ := q
        rw [hi] at h
        injection h with h
        injection h with h1 h2
        subst h1; subst h2
        exact ⟨s3, rfl, hal, rfl, rfl⟩

theorem pgfault_perms (x : Nat) :
    FlagsOnly (((x &&& PTE_FLAGS) &&& not64 PTE_COW) ||| PTE_W) ∧
    (((x &&& PTE_FLAGS) &&& not64 PTE_COW) ||| PTE_W) &&& PTE_COW = 0 := by
  have hb : x &&& PTE_FLAGS < 32 := lt_of_le_of_lt Nat.and_le_right (by decide)
  have key : ∀ y, y < 32 → (y ||| PTE_W < 4096 ∧ (y ||| PTE_W) &&& PTE_PS = 0) ∧
      (y ||| PTE_W) &&& PTE_COW = 0 := by decide
  rw [flags_no_cow]
  exact key _ hb

/-- A page taken from the allocator, filled in some way and inserted: the
environment holds on a family `V2` that extends `V`, the flag discipline holds
on `V2` when the flags have no COW, and the tracking maps agree with the page
table again. -/
theorem fresh_insert_inv {V : Nat → Nat → Prop} {s : Phys} {p : proc_t} {dst : Nat}
    {m2 : Mem} {va perms cap : Nat} {vempty : Bool} {s3 : Phys} {p2 : proc_t}
    (hE : Env V s p.pmap cap) (hroom : s.nalloc + 4 ≤ cap)
    (hdst : dst = s.heap s.nalloc) (hal : dst % 4096 = 0)
    (hm2 : ∀ g j, g ≠ dst → m2 g j = s.mem g j) (hperm : FlagsOnly perms)
    (hi : page_insert ⟨m2, s.heap, s.nalloc + 1, s.inval⟩
      { p with pages := mapSet p.pages dst dst } va dst dst perms vempty = some (s3, p2)) :
    ∃ V2, Env V2 s3 p2.pmap cap ∧ (∀ d g, V d g → V2 d g) ∧ s3.nalloc ≤ s.nalloc + 4 ∧
      (perms &&& PTE_COW = 0 → CowInv V s.mem → CowInv V2 s3.mem) ∧
      (TrackInv s.mem p → TrackInv s3.mem p2) := by
  have hlt0 : s.nalloc < cap := by omega
  have hne : ∀ d g, V d g → g ≠ dst := fun d g hg c =>
    hE.fresh.fresh s.nalloc d (le_refl _) hlt0 (by rw [← hdst, ← c]; exact hg)
  have hm : ∀ d g j, V d g → m2 g j = s.mem g j := fun d g j hg => hm2 g j (hne d g hg)
  have e2 : Env V ⟨m2, s.heap, s.nalloc + 1, s.inval⟩
      ({ p with pages := mapSet p.pages dst dst } : proc_t).pmap cap :=
    hE.frame hm (Nat.le_succ _) _
  have hlt : dst < 2 ^ 64 := by
    rw [hdst]
    exact lt_trans (hE.fresh.low _ (le_refl _) hlt0) (by decide)
  have hroom2 : s.nalloc + 1 + 3 ≤ cap := by omega
  obtain ⟨V2, h1, h2, hn, h3, h4⟩ := page_insert_inv e2 hroom2 hperm hi
  have hn2 : s3.nalloc ≤ s.nalloc + 4 := by
    have : s3.nalloc ≤ s.nalloc + 1 + 3 := hn
    omega
  refine ⟨V2, h1, h2, hn2, fun hnc hc => h3 hnc hal (hc.cow_frame hm),
    fun ht => h4 hal hlt ?_⟩
  exact ht.track_frame hE.shape hE.root hm (fun F hF => by
    unfold mapSet
    split
    · exact fun c => by cases c
    · exact hF)

/-- The environment and both invariants after a returning `sys_pgfault`. -/
theorem sys_pgfault_inv {V : Nat → Nat → Prop} {k : Kernel} {proc : proc_t} {pte : Nat × Nat}
    {fa cap : Nat} {proc1 : proc_t} {k2 : Kernel} (hE : Env V k.phys proc.pmap cap)
    (hroom : k.phys.nalloc + 4 ≤ cap)
    (h : sys_pgfault k proc pte fa = some (proc1, k2)) :
    ∃ V2, Env V2 k2.phys proc1.pmap cap ∧ (∀ d g, V d g → V2 d g) ∧
      (CowInv V k.phys.mem → CowInv V2 k2.phys.mem) ∧
      (TrackInv k.phys.mem proc → TrackInv k2.phys.mem proc1) := by
  obtain ⟨dst, src, x, s3, hdst, hal, hi, hk⟩ := sys_pgfault_some h
  obtain ⟨hp1, hp2⟩ := pgfault_perms x
  have hm2 : ∀ g j, g ≠ dst → copy_page (k.phys.mem.zero dst) dst src g j = k.phys.mem g j :=
    fun g j hg => by rw [copy_page_other _ _ _ _ _ hg, Mem.zero_other _ _ _ _ hg]
  obtain ⟨V2, h1, h2, _, h3, h4⟩ := fresh_insert_inv hE hroom hdst hal hm2 hp1 hi
  rw [hk]
  exact ⟨V2, h1, h2, h3 hp2, h4⟩

/-- The environment and both invariants after a returning `page_remove`. -/
theorem page_remove_inv {V : Nat → Nat → Prop} {s : Phys} {p : proc_t} {va : Nat}
    {s2 : Phys} {p2 : proc_t} {cap : Nat} (hE : Env V s p.pmap cap)
    (h : page_remove s p va = some (s2, p2)) :
    Env V s2 p2.pmap cap ∧ (CowInv V s.mem → CowInv V s2.mem) ∧
    (TrackInv s.mem p → TrackInv s2.mem p2) := by
  unfold page_remove at h
  rw [pmap_walk_ro] at h
  cases hw : walk_ro s.mem p.pmap va with
  | none => rw [hw] at h; cases h
  | some r =>
    rw [hw] at h
    cases r with
    | none =>
      injection h with h; injection h with h1 h2
      subst h1; subst h2
      exact ⟨hE, fun c => c, fun t => t⟩
    | some q =>
      obtain ⟨f, i⟩ := q
      dsimp only [Option.map_some'] at h
      by_cases hp : s.mem f i &&& PTE_P ≠ 0
      · rw [if_pos hp] at h
        injection h with h; injection h with h1 h2
        subst h1; subst h2
        have hf : V 1 f := (walk_ro_leaf hE.shape hE.root hw).1
        have hup : ∀ g j d, V (d + 2) g → Mem.write s.mem f i 0 g j = s.mem g j :=
          fun g j d hg => Mem.write_other _ _ _ _ _ _ (fun c => hE.sep f d hf (by
            rw [← c.1]; exact hg))
        refine ⟨hE.write_leaf hf i 0 _, fun c g j hg hj => ?_, fun t F va2 hu => ?_⟩
        · show CowOk (Mem.write s.mem f i 0 g j)
          by_cases hc : g = f ∧ j = i
          · obtain ⟨rfl, rfl⟩ := hc
            rw [Mem.write_same]; exact CowOk_of_no_cow (by decide)
          · rw [Mem.write_other _ _ _ _ _ _ hc]; exact c g j hg hj
        · have hFr : F ≠ s.mem f i &&& PTE_ADDR := by
            intro c
            rw [c] at hu
            simp [mapDel] at hu
          have hu2 : p.upages F = some va2 := by simpa [mapDel, hFr] using hu
          obtain ⟨t1, t2, e, he, hpr, ha⟩ := t F va2 hu2
          obtain ⟨g, j, hw2, hv⟩ := walk_of_leaf_entry he
          subst hv
          refine ⟨?_, t2, s.mem g j, ?_, hpr, ha⟩
          · show mapDel p.pages _ F ≠ none
            simpa [mapDel, hFr] using t1
          · show leaf_entry (Mem.write s.mem f i 0) p.pmap va2 = _
            have w3 : walk_ro (Mem.write s.mem f i 0) p.pmap va2 = some (some (g, j)) := by
              rw [walk_ro_congr hE.shape hup hE.root va2]; exact hw2
            rw [leaf_entry_of_walk w3, Mem.write_other]
            rintro ⟨rfl, rfl⟩
            exact hFr ha.symm
      · rw [if_neg hp] at h
        injection h with h; injection h with h1 h2
        subst h1; subst h2
        exact ⟨hE, fun c => c, fun t => t⟩

/-- The environment and both invariants after a returning `pmap_walk` with
`create` that records the new tables in `pages`. -/
theorem walk_create_inv {V : Nat → Nat → Prop} {s : Phys} {p : proc_t} {va perms : Nat}
    {r : Option (Nat × Nat)} {s2 : Phys} {pages2 : Tracker} {cap : Nat}
    (hE : Env V s p.pmap cap) (hroom : s.nalloc + 3 ≤ cap) (hperm : FlagsOnly perms)
    (h : pmap_walk s p.pages p.pmap va true perms = some (r, s2, pages2)) :
    ∃ V2, Env V2 s2 p.pmap cap ∧ (∀ d g, V d g → V2 d g) ∧
      (perms &&& PTE_COW = 0 → CowInv V s.mem → CowInv V2 s2.mem) ∧
      (TrackInv s.mem p → TrackInv s2.mem { p with pages := pages2 }) := by
  obtain ⟨hleg, hnops⟩ := pmap_walk_create_some h hE.root hE.shape
  have hml := missing_levels_le s.mem p.pmap va
  obtain ⟨f, s1, tr1, hrun, hwc⟩ :=
    pmap_walk_create_spec V perms p.pmap va s p.pages hleg hperm hE.root hE.shape hnops
      (hE.fresh.upto (by omega))
  rw [h] at hrun
  injection hrun with hrun
  injection hrun with _ e2
  injection e2 with a3 a4
  subst a3; subst a4
  obtain ⟨V2, hF⟩ := hwc.family hE.typed
  have hn : s.nalloc ≤ s2.nalloc := by rw [hwc.nalloc_eq]; exact Nat.le_add_right _ _
  have hcap : s2.nalloc ≤ cap := by rw [hwc.nalloc_eq]; omega
  have hWV : ∀ d q, V d q → ¬ Window s.heap s.nalloc s2.nalloc q := by
    rintro d q hq ⟨k, a, b, rfl⟩
    exact hE.fresh.fresh k d a (lt_of_lt_of_le b hcap) hq
  have hE2 : Env V2 s2 p.pmap cap := by
    have := hE.grow hF hn s2.inval
    rw [← hwc.heap_eq] at this
    exact this
  refine ⟨V2, hE2, hF.sub, fun hnc hc g i hg hi => ?_, fun t F va2 hu => ?_⟩
  · have hinst : ∀ q, Window s.heap s.nalloc s2.nalloc q → CowOk (q ||| perms ||| PTE_P) := by
      rintro q ⟨k, h1, h2, rfl⟩
      exact CowOk_of_no_cow (entry_no_cow (hE.fresh.aligned k h1 (lt_of_lt_of_le h2 hcap)) hnc)
    rcases hF.new 1 g hg with hv | hw
    · rcases (hwc.grown g i).1 (hWV 1 g hv) with e | ⟨_, q, hq, e⟩
      · rw [e]; exact hc g i hv hi
      · rw [e]; exact hinst q hq
    · rcases (hwc.grown g i).2 hw with e | ⟨q, hq, e⟩
      · rw [e]; exact CowOk_of_no_cow (by decide)
      · rw [e]; exact hinst q hq
  · obtain ⟨t1, t2, e, he, hpr, ha⟩ := t F va2 hu
    obtain ⟨g, j, hw2, hv⟩ := walk_of_leaf_entry he
    subst hv
    obtain ⟨w1, k1⟩ := walk_grown hwc.grown hE.shape hE.root hWV hw2
    refine ⟨?_, t2, s.mem g j, ?_, hpr, ha⟩
    · show pages2 F ≠ none
      by_cases hw : Window s.heap s.nalloc s2.nalloc F
      · rw [hwc.recorded.1 F hw]; exact fun c => by cases c
      · rw [hwc.recorded.2 F hw]; exact t1
    · show leaf_entry s2.mem p.pmap va2 = _
      rw [leaf_entry_of_walk w1, k1 hpr]

/-! ## The invariants under `sys_fork` -/

theorem cow_entry_ok {e : Nat} (h : CowOk e) : CowOk (cow_entry e) := by
  by_cases hU : e &&& PTE_U = 0
  · rw [cow_entry_kernel hU]; exact h
  · by_cases hW : e &&& PTE_W ≠ 0
    · intro _
      refine ⟨?_, ?_⟩
      · rw [cow_entry_writable hU hW]; exact cow_clears_W _
      · rw [cow_entry_U]; exact hU
    · rw [cow_entry_readonly hU (not_not.mp hW)]; exact h

/-- The environment of the parent and both invariants, for parent and child,
after `sys_fork`, which returns when the parent tracks its present user pages
in both maps. -/
theorem sys_fork_inv (k : Kernel) (parent : proc_t) (ptf : Tf) (V : Nat → Nat → Prop)
    (cap : Nat) (hE : Env V k.phys parent.pmap cap)
    (hroom : k.phys.nalloc + 1 + tables_below k.phys.mem 4 parent.pmap ≤ cap)
    (htrack : ∀ f i, V 1 f → i < 512 → k.phys.mem f i &&& PTE_P ≠ 0 →
      k.phys.mem f i &&& PTE_U ≠ 0 →
      parent.pages (k.phys.mem f i &&& PTE_ADDR) ≠ none ∧
        parent.upages (k.phys.mem f i &&& PTE_ADDR) ≠ none) :
    ∃ child k2, sys_fork k parent ptf = some (child.pid, child, k2) ∧
      Env V k2.phys parent.pmap cap ∧
      (CowInv V k.phys.mem → CowInv V k2.phys.mem ∧
        ∀ v e, leaf_entry k2.phys.mem child.pmap v = some e → CowOk e) ∧
      (TrackInv k.phys.mem parent →
        TrackInv k2.phys.mem parent ∧ TrackInv k2.phys.mem child) := by
  obtain ⟨child, k2, r, hrun, _, hpm, _, _, hc⟩ :=
    sys_fork_spec k parent ptf V hE.root hE.shape hE.sep htrack (hE.fresh.upto hroom)
  have hn2 : k2.phys.nalloc = k.phys.nalloc + 1 + tables_below k.phys.mem 4 parent.pmap :=
    hc.nalloc_eq
  have hheap : k2.phys.heap = k.phys.heap := hc.heap_eq
  have hWout : ∀ p d, Window k.phys.heap k.phys.nalloc k2.phys.nalloc p → ¬ V d p := by
    intro p d ⟨j, h1, h2, h3⟩
    rw [h3]
    exact hE.fresh.fresh j d h1 (by omega)
  have hframe : Frame cow_entry V (Window k.phys.heap k.phys.nalloc k2.phys.nalloc)
      (fun _ _ => False) k.phys.mem k2.phys.mem := hc.frame
  have hin : ∀ f i d, V (d + 2) f → k2.phys.mem f i = k.phys.mem f i :=
    hframe.frame_inner (Or.inr hE.sep) (fun f d w => hWout f d w) (fun _ _ _ h => h.elim)
  have hsh2 : Shape k2.phys.mem V := hE.shape.shape_congr hin
  have hleafcell : ∀ f i, V 1 f →
      k2.phys.mem f i = k.phys.mem f i ∨ k2.phys.mem f i = cow_entry (k.phys.mem f i) := by
    intro f i hf
    rcases hframe f i with e | w | d | ⟨_, _, _, e⟩
    · exact Or.inl e
    · exact absurd hf (hWout f 1 w)
    · exact d.elim
    · exact Or.inr e
  have hcopy : IsCopy cow_entry (Window k.phys.heap (k.phys.nalloc + 1) k2.phys.nalloc)
      k2.phys.mem 4 parent.pmap child.pmap := hc.copy
  have hE2 : Env V k2.phys parent.pmap cap :=
    { typed := hE.typed
      root := hE.root
      shape := hsh2
      fresh := by
        rw [hheap]
        exact GoodHeap.from hE.fresh (by omega) }
  refine ⟨child, k2, hrun, hE2, fun hcow => ?_, fun ht => ?_⟩
  · have hpar : CowInv V k2.phys.mem := by
      intro g i hg hi
      rcases hleafcell g i hg with e | e
      · rw [e]; exact hcow g i hg hi
      · rw [e]; exact cow_entry_ok (hcow g i hg hi)
    refine ⟨hpar, fun v e he => ?_⟩
    obtain ⟨f2, i, hw, hv⟩ := walk_of_leaf_entry he
    obtain ⟨w1, w2, w3⟩ := walk_copy hsh2 hE.root hcopy v
    cases hs : walk_ro k2.phys.mem parent.pmap v with
    | none => rw [w1 hs] at hw; cases hw
    | some o =>
      cases o with
      | none => rw [w2 hs] at hw; cases hw
      | some q =>
        obtain ⟨f, j⟩ := q
        obtain ⟨f3, e3, _, hV1, hj, z1, z2⟩ := w3 f j hs
        rw [e3] at hw
        injection hw with hw; injection hw with hw; injection hw with a1 a2
        rw [← hv, ← a1, ← a2]
        by_cases hp : k2.phys.mem f j &&& PTE_P = 0
        · rw [z1 hp]; exact CowOk_of_no_cow (by decide)
        · rw [(z2 hp).1]; exact hpar f j hV1 hj
  · have hparent : ∀ F va, parent.upages F = some va →
        ∃ f i, walk_ro k2.phys.mem parent.pmap va = some (some (f, i)) ∧ V 1 f ∧
          k2.phys.mem f i &&& PTE_P ≠ 0 ∧ k2.phys.mem f i &&& PTE_ADDR = F := by
      intro F va hu
      obtain ⟨_, _, e, he, hpr, ha⟩ := ht F va hu
      obtain ⟨f, i, hw, hv⟩ := walk_of_leaf_entry he
      subst hv
      have hf := (walk_ro_leaf hE.shape hE.root hw).1
      refine ⟨f, i, by rw [walk_ro_congr hE.shape hin hE.root va]; exact hw, hf, ?_, ?_⟩
      · rcases hleafcell f i hf with e | e
        · rw [e]; exact hpr
        · rw [e, cow_entry_P]; exact hpr
      · rcases hleafcell f i hf with e | e
        · rw [e]; exact ha
        · rw [e, cow_entry_addr]; exact ha
    constructor
    · intro F va hu
      obtain ⟨t1, t2, _⟩ := ht F va hu
      obtain ⟨f, i, hw, _, hpr, ha⟩ := hparent F va hu
      exact ⟨t1, t2, _, leaf_entry_of_walk hw, hpr, ha⟩
    · intro F va hu
      have hJ := hc.inv
      have hu1 : parent.upages F = some va := hJ.2 F va hu
      obtain ⟨_, t2, _⟩ := ht F va hu1
      obtain ⟨f, i, hw, _, hpr, ha⟩ := hparent F va hu1
      obtain ⟨_, _, w3⟩ := walk_copy hsh2 hE.root hcopy va
      obtain ⟨f3, e3, _, _, _, _, z2⟩ := w3 f i hw
      refine ⟨hJ.1 F (by show child.upages F ≠ none; rw [hu]; exact fun c => by cases c), t2, _,
        leaf_entry_of_walk e3,
        ?_, ?_⟩
      · rw [(z2 hpr).1]; exact hpr
      · rw [(z2 hpr).1]; exact ha

/-! ## The invariants under `elf_segload` -/

theorem memmove_page_other (m : Mem) (pg : Nat) (sdata : List Nat) (off len g j : Nat)
    (h : g ≠ pg) : memmove_page m pg sdata off len g j = m g j := by
  unfold memmove_page
  rw [if_neg (fun c => h c.1)]

/-- What a returning iteration of `elf_segload` did: it took the allocator's
next page `dst`, changed the memory inside that page only, and inserted it. -/
theorem elf_segload_page_some {s : Phys} {p : proc_t} {hdr : elf_phdr} {perms : Nat} {i : Int}
    {s3 : Phys} {p2 : proc_t} (h : elf_segload_page s p hdr perms i = some (s3, p2)) :
    ∃ dst m2, dst = s.heap s.nalloc ∧ dst % 4096 = 0 ∧
      (∀ g j, g ≠ dst → m2 g j = s.mem g j) ∧
      page_insert ⟨m2, s.heap, s.nalloc + 1, s.inval⟩
        { p with pages := mapSet p.pages dst dst }
        (bits64 (wrap64 (hdr.vaddr + i))) dst dst perms true = some (s3, p2) := by
  unfold elf_segload_page at h
  cases hn : pg_new s p.pages with
  | none => rw [hn] at h; cases h
  | some r =>
    obtain ⟨dst0, p_dst, s1, pages1⟩ := r
    obtain ⟨hal, rfl, rfl, rfl, rfl⟩ := pg_new_some hn
    rw [hn] at h
    dsimp only at h
    generalize hdst : s.heap s.nalloc = dst at h hal
    by_cases hlen : i < hdr.sdata.length
    · rw [if_pos hlen] at h
      by_cases hbad : (if 4096 > wrap64 (hdr.filesz - i) then wrap64 (hdr.filesz - i) else 4096) < 0
          ∨ i + (if 4096 > wrap64 (hdr.filesz - i) then wrap64 (hdr.filesz - i) else 4096)
            > hdr.sdata.length
      · rw [if_pos hbad] at h; cases h
      · rw [if_neg hbad] at h
        dsimp only at h
        exact ⟨dst, _, rfl, hal, fun g j hg => by
          rw [memmove_page_other _ _ _ _ _ _ _ hg, Mem.zero_other _ _ _ _ hg], h⟩
    · rw [if_neg hlen] at h
      dsimp only at h
      exact ⟨dst, _, rfl, hal, fun g j hg => Mem.zero_other _ _ _ _ hg, h⟩

/-- The environment and both invariants after a returning iteration of
`elf_segload`, which takes at most four pages from the allocator. -/
theorem elf_segload_page_inv {V : Nat → Nat → Prop} {s : Phys} {p : proc_t} {hdr : elf_phdr}
    {perms : Nat} {i : Int} {s3 : Phys} {p2 : proc_t} {cap : Nat} (hE : Env V s p.pmap cap)
    (hroom : s.nalloc + 4 ≤ cap) (hperm : FlagsOnly perms) (hnc : perms &&& PTE_COW = 0)
    (h : elf_segload_page s p hdr perms i = some (s3, p2)) :
    ∃ V2, Env V2 s3 p2.pmap cap ∧ (∀ d g, V d g → V2 d g) ∧ s3.nalloc ≤ s.nalloc + 4 ∧
      (CowInv V s.mem → CowInv V2 s3.mem) ∧ (TrackInv s.mem p → TrackInv s3.mem p2) := by
  obtain ⟨dst, m2, hdst, hal, hm2, hi⟩ := elf_segload_page_some h
  obtain ⟨V2, h1, h2, hn, h3, h4⟩ := fresh_insert_inv hE hroom hdst hal hm2 hperm hi
  exact ⟨V2, h1, h2, hn, h3 hnc, h4⟩

theorem elf_segload_loop_inv (hdr : elf_phdr) (perms : Nat) (hperm : FlagsOnly perms)
    (hnc : perms &&& PTE_COW = 0) (cap : Nat) :
    ∀ (n : Nat) (i : Int) (V : Nat → Nat → Prop) (s : Phys) (p : proc_t) (s3 : Phys)
      (p2 : proc_t), Env V s p.pmap cap → s.nalloc + 4 * n ≤ cap →
      elf_segload_loop hdr perms n i s p = some (s3, p2) →
      ∃ V2, Env V2 s3 p2.pmap cap ∧ (∀ d g, V d g → V2 d g) ∧
        (CowInv V s.mem → CowInv V2 s3.mem) ∧ (TrackInv s.mem p → TrackInv s3.mem p2) := by
  intro n
  induction n with
  | zero =>
    intro i V s p s3 p2 hE _ h
    simp only [elf_segload_loop, Option.some.injEq, Prod.mk.injEq] at h
    obtain ⟨rfl, rfl⟩ := h
    exact ⟨V, hE, fun _ _ hg => hg, fun c => c, fun t => t⟩
  | succ n ih =>
    intro i V s p s3 p2 hE hroom h
    unfold elf_segload_loop at h
    cases hp : elf_segload_page s p hdr perms i with
    | none => rw [hp] at h; cases h
    | some r =>
      obtain ⟨s1, p1⟩ := r
      rw [hp] at h
      dsimp only at h
      obtain ⟨V1, e1, sub1, hn1, c1, t1⟩ :=
        elf_segload_page_inv hE (by omega) hperm hnc hp
      obtain ⟨V2, e2, sub2, c2, t2⟩ := ih (i + 4096) V1 s1 p1 s3 p2 e1 (by omega) h
      exact ⟨V2, e2, fun d g hg => sub2 d g (sub1 d g hg), fun c => c2 (c1 c),
        fun t => t2 (t1 t)⟩

/-- The environment and both invariants after a returning `elf_segload`,
with room in the allocator for four pages for each page of the segment. -/
theorem elf_segload_inv {V : Nat → Nat → Prop} {s : Phys} {p : proc_t} {hdr : elf_phdr}
    {s3 : Phys} {p2 : proc_t} {cap : Nat} (hE : Env V s p.pmap cap)
    (hroom : s.nalloc + 4 * elf_segload_pages hdr ≤ cap)
    (h : elf_segload s p hdr = some (s3, p2)) :
    ∃ V2, Env V2 s3 p2.pmap cap ∧ (∀ d g, V d g → V2 d g) ∧
      (CowInv V s.mem → CowInv V2 s3.mem) ∧ (TrackInv s.mem p → TrackInv s3.mem p2) := by
  unfold elf_segload at h
  dsimp only at h
  split at h
  · cases h
  · have hperm : FlagsOnly (if Int.land hdr.flags 2 ≠ 0 then PTE_U ||| PTE_W else PTE_U) ∧
        (if Int.land hdr.flags 2 ≠ 0 then PTE_U ||| PTE_W else PTE_U) &&& PTE_COW = 0 := by
      split
      · exact ⟨⟨by decide, by decide⟩, by decide⟩
      · exact ⟨⟨by decide, by decide⟩, by decide⟩
    exact elf_segload_loop_inv hdr _ hperm.1 hperm.2 cap _ _ V s p s3 p2 hE hroom h

/-! ## The two invariants as claims (C5, C6) -/

/-- The copy that `copy_pmap` makes without callback: it returns, and every
leaf entry of the copy is zero or a present leaf entry of the source for the
same address. -/
theorem copy_nil_leaf (s : Phys) (tr : Tracker) (pm : Nat) (V : Nat → Nat → Prop)
    (cap : Nat) (hE : Env V s pm cap)
    (hroom : s.nalloc + 1 + tables_below s.mem 4 pm ≤ cap) :
    ∃ s2 tr2,
      copy_pmap (none : Option (Ptemod Unit)) pm (s, tr, ())
        = some (s.heap s.nalloc, s.heap s.nalloc, false, s2, tr2, ()) ∧
      ∀ v e, leaf_entry s2.mem (s.heap s.nalloc) v = some e →
        e = 0 ∨ leaf_entry s.mem pm v = some e := by
  have hyp := copyHyp_nil s.heap V tr s.nalloc
  have hpre : PmapPre V (fun _ => True)
      (fun n (st : Tracker × Unit) => s.nalloc ≤ n ∧
        (∀ k, s.nalloc ≤ k → k < n → st.1 (s.heap k) = some (s.heap k)) ∧
        (∀ p, ¬ Window s.heap s.nalloc n p → st.1 p = tr p)) pm (s, tr, ()) :=
    { root_in := hE.root
      shape := hE.shape
      leaf := fun _ _ _ _ _ => trivial
      good := hE.fresh.upto hroom
      inv := ⟨le_refl _, fun k h1 h2 => absurd h2 (by show ¬ k < s.nalloc; omega),
        fun _ _ => rfl⟩ }
  obtain ⟨r, ⟨s2, tr2, u⟩, hrun, hc⟩ := copy_pmap_spec hyp rfl hpre
  have hr : r = false := hc.noinval (fun _ => rfl)
  subst hr
  have hframe : ∀ f i, ¬ Window s.heap s.nalloc s2.nalloc f → s2.mem f i = s.mem f i := by
    intro f i hw
    rcases hc.frame f i with e | w | d | ⟨_, _, _, e⟩
    · exact e
    · exact absurd w hw
    · exact absurd d id
    · exact e
  have hin : ∀ d f i, V d f → s2.mem f i = s.mem f i := by
    intro d f i hV
    apply hframe
    rintro ⟨j, h1, h2, rfl⟩
    have h3 : j < s.nalloc + 1 + tables_below s.mem 4 pm := by
      rw [← hc.nalloc_eq]; exact h2
    exact hE.fresh.fresh j d h1 (by omega) hV
  have hsh2 : Shape s2.mem V := hE.shape.shape_congr (fun f i k hV => hin _ f i hV)
  have hcopy : IsCopy id (Window s.heap (s.nalloc + 1) s2.nalloc) s2.mem 4 pm
      (s.heap s.nalloc) := hc.copy
  refine ⟨s2, tr2, hrun, fun v e he => ?_⟩
  obtain ⟨f2, i, hw, hv⟩ := walk_of_leaf_entry he
  obtain ⟨w1, w2, w3⟩ := walk_copy hsh2 hE.root hcopy v
  cases hs : walk_ro s2.mem pm v with
  | none => rw [w1 hs] at hw; cases hw
  | some o =>
    cases o with
    | none => rw [w2 hs] at hw; cases hw
    | some q =>
      obtain ⟨f, j⟩ := q
      obtain ⟨f3, e3, _, hV1, hj, z1, z2⟩ := w3 f j hs
      rw [e3] at hw
      injection hw with hw; injection hw with hw; injection hw with a1 a2
      rw [← hv, ← a1, ← a2]
      by_cases hp : s2.mem f j &&& PTE_P = 0
      · exact Or.inl (z1 hp)
      · refine Or.inr ?_
        have hs0 : walk_ro s.mem pm v = some (some (f, j)) := by
          rw [← walk_ro_congr hE.shape (fun g i k hg => hin _ g i hg) hE.root v]; exact hs
        rw [leaf_entry_of_walk hs0, (z2 hp).1, hin 1 f j hV1]

/-- The flag discipline on the tables of leaf entries, read through the
walk. -/
theorem CowInv.cow_leaf {V : Nat → Nat → Prop} {m : Mem} {pm : Nat} (h : CowInv V m)
    (hsh : Shape m V) (hroot : V 4 pm) :
    ∀ v e, leaf_entry m pm v = some e → CowOk e := by
  intro v e he
  obtain ⟨f, i, hw, hv⟩ := walk_of_leaf_entry he
  obtain ⟨hf, hi⟩ := walk_ro_leaf hsh hroot hw
  rw [← hv]
  exact h f i hf hi

/-- The two entries `mk_cow` returns are the rewrite `cow_entry` of the
entry it was given. -/
theorem mk_cow_eq {ppages : Tracker} {pupages : Nat → Option Nat} {e : Nat}
    {st : Tracker × (Nat → Option Nat)} {r : (Nat × Nat) × (Tracker × (Nat → Option Nat))}
    (h : mk_cow ppages pupages e st = some r) : r.1.1 = cow_entry e ∧ r.1.2 = cow_entry e := by
  unfold mk_cow at h
  by_cases hU : e &&& PTE_U = 0
  · rw [if_pos hU] at h
    injection h with h
    rw [← h, cow_entry_kernel hU]
    exact ⟨rfl, rfl⟩
  · rw [if_neg hU] at h
    have hc : (if e &&& PTE_W ≠ 0 then (e ||| PTE_COW) &&& not64 PTE_W else e)
        = cow_entry e := by
      simp only [cow_entry, hU, if_false]
    dsimp only at h
    rw [hc] at h
    cases h1 : ppages (cow_entry e &&& PTE_ADDR) with
    | none => rw [h1] at h; cases h
    | some pg =>
      rw [h1] at h
      dsimp only at h
      cases h2 : pupages (cow_entry e &&& PTE_ADDR) with
      | none => rw [h2] at h; cases h
      | some upg =>
        rw [h2] at h
        injection h with h
        rw [← h]
        exact ⟨rfl, rfl⟩
/-- One step at a time, the flag discipline of copy-on-write (an entry with
COW set has W clear and U set) is an invariant of the tables of leaf entries of a process
page table. For a process whose page table is a typed tree of tables `V`
inside the direct map, with fresh allocator pages up to `cap`, and whose leaf
tables keep the discipline: every leaf entry a walk returns keeps it; the
entries `mk_cow` returns are `cow_entry` of the entry it is given, which keeps
the discipline; the entry `sys_pgfault` computes has COW clear; and the
discipline holds again, on the tables of the page table after the call, after a
returning `page_insert` with flags without COW (as the loader passes),
`elf_segload`, `sys_fork` (for the parent, and for every leaf entry of the
child), `sys_pgfault`, and for every leaf entry of the copy `copy_pmap` makes
without callback (as exec makes a new page table). -/
theorem cow_flag_step (V : Nat → Nat → Prop) (k : Kernel) (proc : proc_t) (cap : Nat)
    (hE : Env V k.phys proc.pmap cap) (hcow : CowInv V k.phys.mem) :
    (∀ v e, leaf_entry k.phys.mem proc.pmap v = some e → CowOk e) ∧
    (∀ ppages pupages e st r, mk_cow ppages pupages e st = some r →
      r.1.1 = cow_entry e ∧ r.1.2 = cow_entry e) ∧
    (∀ e, CowOk e → CowOk (cow_entry e)) ∧
    (∀ x dst, dst % 4096 = 0 →
      (dst ||| (((x &&& PTE_FLAGS) &&& not64 PTE_COW) ||| PTE_W) ||| PTE_P) &&& PTE_COW = 0) ∧
    (∀ va pg p_pg perms vempty s3 p2, k.phys.nalloc + 3 ≤ cap → FlagsOnly perms →
      perms &&& PTE_COW = 0 → p_pg % 4096 = 0 →
      page_insert k.phys proc va pg p_pg perms vempty = some (s3, p2) →
      ∃ V2, Env V2 s3 p2.pmap cap ∧ CowInv V2 s3.mem) ∧
    (∀ hdr s3 p2, k.phys.nalloc + 4 * elf_segload_pages hdr ≤ cap →
      elf_segload k.phys proc hdr = some (s3, p2) →
      ∃ V2, Env V2 s3 p2.pmap cap ∧ CowInv V2 s3.mem) ∧
    (∀ ptf, k.phys.nalloc + 1 + tables_below k.phys.mem 4 proc.pmap ≤ cap →
      (∀ f i, V 1 f → i < 512 → k.phys.mem f i &&& PTE_P ≠ 0 →
        k.phys.mem f i &&& PTE_U ≠ 0 →
        proc.pages (k.phys.mem f i &&& PTE_ADDR) ≠ none ∧
          proc.upages (k.phys.mem f i &&& PTE_ADDR) ≠ none) →
      ∃ child k2, sys_fork k proc ptf = some (child.pid, child, k2) ∧
        Env V k2.phys proc.pmap cap ∧ CowInv V k2.phys.mem ∧
        ∀ v e, leaf_entry k2.phys.mem child.pmap v = some e → CowOk e) ∧
    (∀ pte fa proc1 k2, k.phys.nalloc + 4 ≤ cap →
      sys_pgfault k proc pte fa = some (proc1, k2) →
      ∃ V2, Env V2 k2.phys proc1.pmap cap ∧ CowInv V2 k2.phys.mem) ∧
    (∀ tr, k.phys.nalloc + 1 + tables_below k.phys.mem 4 proc.pmap ≤ cap →
      ∃ s2 tr2, copy_pmap (none : Option (Ptemod Unit)) proc.pmap (k.phys, tr, ())
          = some (k.phys.heap k.phys.nalloc, k.phys.heap k.phys.nalloc, false, s2, tr2, ()) ∧
        ∀ v e, leaf_entry s2.mem (k.phys.heap k.phys.nalloc) v = some e → CowOk e) := by
  have hleaf := hcow.cow_leaf hE.shape hE.root
  refine ⟨hleaf, fun _ _ _ _ _ h => mk_cow_eq h, fun _ h => cow_entry_ok h, ?_, ?_, ?_, ?_, ?_,
    ?_⟩
  · intro x dst hal
    exact entry_no_cow hal (pgfault_perms x).2
  · intro va pg p_pg perms vempty s3 p2 hroom hperm hnc hal h
    obtain ⟨V2, h1, _, _, h3, _⟩ := page_insert_inv hE hroom hperm h
    exact ⟨V2, h1, h3 hnc hal hcow⟩
  · intro hdr s3 p2 hroom h
    obtain ⟨V2, h1, _, h3, _⟩ := elf_segload_inv hE hroom h
    exact ⟨V2, h1, h3 hcow⟩
  · intro ptf hroom htrack
    obtain ⟨child, k2, hrun, h1, h2, _⟩ := sys_fork_inv k proc ptf V cap hE hroom htrack
    exact ⟨child, k2, hrun, h1, (h2 hcow).1, (h2 hcow).2⟩
  · intro pte fa proc1 k2 hroom h
    obtain ⟨V2, h1, _, h3, _⟩ := sys_pgfault_inv hE hroom h
    exact ⟨V2, h1, h3 hcow⟩
  · intro tr hroom
    obtain ⟨s2, tr2, hrun, hl⟩ := copy_nil_leaf k.phys tr proc.pmap V cap hE hroom
    refine ⟨s2, tr2, hrun, fun v e he => ?_⟩
    rcases hl v e he with h0 | h0
    · rw [h0]; exact CowOk_of_no_cow (by decide)
    · exact hleaf v e h0

theorem ex_typed : Typed ex_V := by
  intro d1 d2 g h1 h2
  simp only [ex_V] at h1 h2
  omega

theorem cow_env : Env ex_V cow_kernel.phys ex_parent.pmap 1000 :=
  { typed := ex_typed
    root := Or.inl ⟨rfl, rfl⟩
    shape := cow_shape
    fresh := ex_good 1000 (le_refl _) }

theorem cow_inv : CowInv ex_V cow_kernel.phys.mem := by
  intro g i hg _
  have hg2 : g = 0x4000 := by
    simp only [ex_V] at hg
    omega
  subst hg2
  by_cases h0 : i = 0
  · subst h0
    unfold CowOk
    decide
  · have e : cow_kernel.phys.mem 0x4000 i = ex_mem 0x4000 i :=
      Mem.write_other _ _ _ _ _ _ (fun c => h0 c.2)
    rw [e]
    by_cases h1 : i = 1
    · subst h1
      exact CowOk_of_no_cow (by decide)
    · have e2 : ex_mem 0x4000 i = 0 := by simp [ex_mem, h0, h1]
      rw [e2]
      exact CowOk_of_no_cow (by decide)

theorem cow_track : ∀ f i, ex_V 1 f → i < 512 → cow_kernel.phys.mem f i &&& PTE_P ≠ 0 →
    cow_kernel.phys.mem f i &&& PTE_U ≠ 0 →
    ex_parent.pages (cow_kernel.phys.mem f i &&& PTE_ADDR) ≠ none ∧
      ex_parent.upages (cow_kernel.phys.mem f i &&& PTE_ADDR) ≠ none := by
  intro f i hV _ hp _
  have hf : f = 0x4000 := by
    simp only [ex_V] at hV
    omega
  subst hf
  by_cases h0 : i = 0
  · subst h0
    exact ⟨by decide, by decide⟩
  · have e : cow_kernel.phys.mem 0x4000 i = ex_mem 0x4000 i :=
      Mem.write_other _ _ _ _ _ _ (fun c => h0 c.2)
    rw [e] at hp
    exact absurd (ex_mem_leaf i hp) h0

/-- An instance of `cow_flag_step`: the parent `ex_parent` with a COW entry,
and its fork. -/
theorem cow_flag_step_example :
    cow_mem 0x4000 0 &&& PTE_COW ≠ 0 ∧
    leaf_entry cow_mem 0x1000 ex_va0 = some 0x5205 ∧ CowOk 0x5205 ∧
    ∃ child k2, sys_fork cow_kernel ex_parent (fun _ => 0) = some (child.pid, child, k2) ∧
      ∀ v e, leaf_entry k2.phys.mem child.pmap v = some e → CowOk e :=
  ⟨by decide, by decide,
    (cow_flag_step ex_V cow_kernel ex_parent 1000 cow_env cow_inv).1 ex_va0 0x5205
      (by decide),
    ((cow_flag_step ex_V cow_kernel ex_parent 1000 cow_env cow_inv).2.2.2.2.2.2.1
      (fun _ => 0) (by decide!) cow_track).imp
      (fun _ h => h.imp (fun _ h2 => ⟨h2.1, h2.2.2.2⟩))⟩
/-- C6 (amended): the tracking maps of a process agree with its page table
after every operation, in this sense: a frame that is a key of `upages` is a
key of `pages`, and `upages` holds for it a page-aligned address whose leaf
entry is present and maps the frame. It holds for the process `proc_new`
returns; and for a process whose page table is a typed tree of tables `V`
inside the direct map, with fresh allocator pages up to `cap`, and for which it
holds, it holds again after a returning `page_insert` of an aligned frame with
flag-only `perms`, `page_remove`, `pmap_walk` with `create` on `pages`,
`elf_segload`, `sys_fork` (for the parent and for the child) and
`sys_pgfault`. -/
theorem C6_tracking_maps (V : Nat → Nat → Prop) (k : Kernel) (proc : proc_t) (cap : Nat)
    (hE : Env V k.phys proc.pmap cap) (hT : TrackInv k.phys.mem proc) :
    (∀ name m, TrackInv m (proc_new k name).1) ∧
    (∀ va pg p_pg perms vempty s3 p2, k.phys.nalloc + 3 ≤ cap → FlagsOnly perms →
      p_pg % 4096 = 0 → p_pg < 2 ^ 64 →
      page_insert k.phys proc va pg p_pg perms vempty = some (s3, p2) →
      TrackInv s3.mem p2 ∧ ∃ V2, Env V2 s3 p2.pmap cap) ∧
    (∀ va s2 p2, page_remove k.phys proc va = some (s2, p2) →
      TrackInv s2.mem p2 ∧ Env V s2 p2.pmap cap) ∧
    (∀ va perms r s2 pages2, k.phys.nalloc + 3 ≤ cap → FlagsOnly perms →
      pmap_walk k.phys proc.pages proc.pmap va true perms = some (r, s2, pages2) →
      TrackInv s2.mem { proc with pages := pages2 } ∧ ∃ V2, Env V2 s2 proc.pmap cap) ∧
    (∀ hdr s3 p2, k.phys.nalloc + 4 * elf_segload_pages hdr ≤ cap →
      elf_segload k.phys proc hdr = some (s3, p2) →
      TrackInv s3.mem p2 ∧ ∃ V2, Env V2 s3 p2.pmap cap) ∧
    (∀ ptf, k.phys.nalloc + 1 + tables_below k.phys.mem 4 proc.pmap ≤ cap →
      (∀ f i, V 1 f → i < 512 → k.phys.mem f i &&& PTE_P ≠ 0 →
        k.phys.mem f i &&& PTE_U ≠ 0 →
        proc.pages (k.phys.mem f i &&& PTE_ADDR) ≠ none ∧
          proc.upages (k.phys.mem f i &&& PTE_ADDR) ≠ none) →
      ∃ child k2, sys_fork k proc ptf = some (child.pid, child, k2) ∧
        TrackInv k2.phys.mem proc ∧ Env V k2.phys proc.pmap cap ∧
        TrackInv k2.phys.mem child) ∧
    (∀ pte fa proc1 k2, k.phys.nalloc + 4 ≤ cap →
      sys_pgfault k proc pte fa = some (proc1, k2) →
      TrackInv k2.phys.mem proc1 ∧ ∃ V2, Env V2 k2.phys proc1.pmap cap) := by
  refine ⟨fun name m F va hu => ?_, ?_, ?_, ?_, ?_, ?_, ?_⟩
  · have hu2 : (none : Option Nat) = some va := hu
    cases hu2
  · intro va pg p_pg perms vempty s3 p2 hroom hperm hal hlt h
    obtain ⟨V2, h1, _, _, _, h4⟩ := page_insert_inv hE hroom hperm h
    exact ⟨h4 hal hlt hT, V2, h1⟩
  · intro va s2 p2 h
    obtain ⟨h1, _, h3⟩ := page_remove_inv hE h
    exact ⟨h3 hT, h1⟩
  · intro va perms r s2 pages2 hroom hperm h
    obtain ⟨V2, h1, _, _, h4⟩ := walk_create_inv hE hroom hperm h
    exact ⟨h4 hT, V2, h1⟩
  · intro hdr s3 p2 hroom h
    obtain ⟨V2, h1, _, _, h4⟩ := elf_segload_inv hE hroom h
    exact ⟨h4 hT, V2, h1⟩
  · intro ptf hroom htrack
    obtain ⟨child, k2, hrun, h1, _, h3⟩ := sys_fork_inv k proc ptf V cap hE hroom htrack
    exact ⟨child, k2, hrun, (h3 hT).1, h1, (h3 hT).2⟩
  · intro pte fa proc1 k2 hroom h
    obtain ⟨V2, h1, _, _, h4⟩ := sys_pgfault_inv hE hroom h
    exact ⟨h4 hT, V2, h1⟩

theorem ex_env : Env ex_V ex_kernel.phys ex_parent.pmap 1000 :=
  { typed := ex_typed
    root := Or.inl ⟨rfl, rfl⟩
    shape := ex_shape
    fresh := ex_good 1000 (le_refl _) }

theorem ex_trackinv : TrackInv ex_kernel.phys.mem ex_parent := by
  intro F va hu
  have hF : F = 0x5000 := by
    by_contra c
    simp [ex_parent, c] at hu
  subst hF
  have hva : va = ex_va0 := by
    simp [ex_parent] at hu
    exact hu.symm
  subst hva
  exact ⟨by decide, by decide, 0x5007, by decide, by decide, by decide⟩

theorem C6_witness :
    (page_insert ex_kernel.phys ex_parent ex_va2 0x6000 0x6000 (PTE_U ||| PTE_W) true).isSome
      = true ∧
    ∀ s3 p2, page_insert ex_kernel.phys ex_parent ex_va2 0x6000 0x6000 (PTE_U ||| PTE_W) true
        = some (s3, p2) →
      ∀ F va, p2.upages F = some va → p2.pages F ≠ none :=
  ⟨by decide, fun s3 p2 h F va hu =>
    (((C6_tracking_maps ex_V ex_kernel ex_parent 1000 ex_env ex_trackinv).2.1
      ex_va2 0x6000 0x6000 (PTE_U ||| PTE_W) true s3 p2 (by decide) ⟨by decide, by decide⟩
      (by decide) (by decide) h).1 F va hu).1⟩

/-- C6 as stated fails in the direction from `pages` to `upages`: the
process `ex_parent` has the same keys in both maps; inserting a frame at an
address whose table of leaf entries is missing makes `pmap_walk` record the
table it creates (frame `0x100000`) in `pages`, and nothing puts it into
`upages`. -/
theorem C6_counterexample :
    (∀ F, (ex_parent.pages F).isSome = (ex_parent.upages F).isSome) ∧
    (page_insert ex_kernel.phys ex_parent ex_va2 0x6000 0x6000 (PTE_U ||| PTE_W) true).map
      (fun r => ((r.2.pages 0x100000).isSome, (r.2.upages 0x100000).isSome))
      = some (true, false) := by
  refine ⟨fun F => ?_, by decide⟩
  by_cases h : F = 0x5000
  · subst h; rfl
  · simp [ex_parent, h]

/-! ## Lookups: `pmap_walk` without `create` (C11, C12) -/

theorem walk_ro_nil_iff {V : Nat → Nat → Prop} {m : Mem} {pml4 v : Nat}
    (hres : ¬ ReservedVa v) (hroot : V 4 pml4) (hshape : Shape m V) :
    walk_ro m pml4 v = some none ↔ AbsentOnPath m pml4 v := by
  obtain ⟨b4, b3, b2, _⟩ := pgbits_lt v
  unfold ReservedVa at hres
  unfold walk_ro AbsentOnPath
  simp only [hres, if_false]
  by_cases h4 : m pml4 (pgbits v).1 &&& PTE_P = 0
  · simp [level_ro_absent h4, h4]
  · by_cases p4 : m pml4 (pgbits v).1 &&& PTE_PS = 0
    · obtain ⟨l4, V3⟩ := hshape 2 pml4 _ hroot b4 h4 p4
      simp only [level_ro_next h4 p4 l4]
      by_cases h3 : m (m pml4 (pgbits v).1 &&& PTE_ADDR) (pgbits v).2.1 &&& PTE_P = 0
      · simp [level_ro_absent h3, h3, h4, p4]
      · by_cases p3 : m (m pml4 (pgbits v).1 &&& PTE_ADDR) (pgbits v).2.1 &&& PTE_PS = 0
        · obtain ⟨l3, V2⟩ := hshape 1 _ _ V3 b3 h3 p3
          simp only [level_ro_next h3 p3 l3]
          by_cases h2 : m (m (m pml4 (pgbits v).1 &&& PTE_ADDR) (pgbits v).2.1 &&& PTE_ADDR)
              (pgbits v).2.2.1 &&& PTE_P = 0
          · simp [level_ro_absent h2, h2, h3, h4, p3, p4]
          · by_cases p2 : m (m (m pml4 (pgbits v).1 &&& PTE_ADDR) (pgbits v).2.1 &&& PTE_ADDR)
                (pgbits v).2.2.1 &&& PTE_PS = 0
            · obtain ⟨l2, _⟩ := hshape 0 _ _ V2 b2 h2 p2
              simp [level_ro_next h2 p2 l2, h2, h3, h4]
            · simp [level_ro_ps h2 p2, h2, h3, h4]
        · simp [level_ro_ps h3 p3, h3, h4, p3]
    · simp [level_ro_ps h4 p4, h4, p4]

theorem walk_ro_reaches {V : Nat → Nat → Prop} {m : Mem} {pml4 v : Nat}
    (hres : ¬ ReservedVa v) (hroot : V 4 pml4) (hshape : Shape m V)
    (habs : ¬ AbsentOnPath m pml4 v) (hps : NoPsOnPath m pml4 v) :
    ∃ f, walk_ro m pml4 v = some (some (f, (pgbits v).2.2.2)) := by
  obtain ⟨b4, b3, b2, _⟩ := pgbits_lt v
  unfold ReservedVa at hres
  unfold AbsentOnPath at habs
  unfold NoPsOnPath at hps
  unfold walk_ro
  simp only [hres, if_false]
  have h4 : m pml4 (pgbits v).1 &&& PTE_P ≠ 0 := fun h => habs (Or.inl h)
  obtain ⟨p4, hps3⟩ := hps h4
  obtain ⟨l4, V3⟩ := hshape 2 pml4 _ hroot b4 h4 p4
  have h3 : m (m pml4 (pgbits v).1 &&& PTE_ADDR) (pgbits v).2.1 &&& PTE_P ≠ 0 :=
    fun h => habs (Or.inr ⟨h4, p4, Or.inl h⟩)
  obtain ⟨p3, hps2⟩ := hps3 h3
  obtain ⟨l3, V2⟩ := hshape 1 _ _ V3 b3 h3 p3
  have h2 : m (m (m pml4 (pgbits v).1 &&& PTE_ADDR) (pgbits v).2.1 &&& PTE_ADDR)
      (pgbits v).2.2.1 &&& PTE_P ≠ 0 :=
    fun h => habs (Or.inr ⟨h4, p4, Or.inr ⟨h3, p3, h⟩⟩)
  have p2 := hps2 h2
  obtain ⟨l2, _⟩ := hshape 0 _ _ V2 b2 h2 p2
  simp only [level_ro_next h4 p4 l4, level_ro_next h3 p3 l3, level_ro_next h2 p2 l2]
  exact ⟨_, rfl⟩

/-- C11 (amended): for an address `v` whose top-level index is outside the
reserved slots, on a page table whose tables `V` lie inside the direct map,
`pmap_walk` with `create = false` returns nil exactly when one of the three
intermediate entries on the path of `v` is not present; whatever it returns, the
state (memory, allocator, invalidation log) and the tracker are the ones it was
given; and when no intermediate entry is absent and none has PS set it returns
the pointer to the level-1 entry of `v`. -/
theorem C11_pmap_walk_no_create (V : Nat → Nat → Prop) (s : Phys) (tr : Tracker)
    (pml4 v perms : Nat) (hres : ¬ ReservedVa v) (hroot : V 4 pml4)
    (hshape : Shape s.mem V) :
    (pmap_walk s tr pml4 v false perms = some (none, s, tr) ↔ AbsentOnPath s.mem pml4 v) ∧
    (∀ r s2 tr2, pmap_walk s tr pml4 v false perms = some (r, s2, tr2) → s2 = s ∧ tr2 = tr) ∧
    (¬ AbsentOnPath s.mem pml4 v → NoPsOnPath s.mem pml4 v →
      ∃ f, pmap_walk s tr pml4 v false perms = some (some (f, (pgbits v).2.2.2), s, tr)) := by
  rw [pmap_walk_ro]
  refine ⟨?_, ?_, ?_⟩
  · rw [← walk_ro_nil_iff hres hroot hshape]
    cases walk_ro s.mem pml4 v with
    | none => simp
    | some r => cases r <;> simp
  · intro r s2 tr2 h
    cases hw : walk_ro s.mem pml4 v with
    | none => rw [hw] at h; cases h
    | some r0 =>
      rw [hw] at h
      simp only [Option.map_some', Option.some.injEq, Prod.mk.injEq] at h
      exact ⟨h.2.1.symm, h.2.2.symm⟩
  · intro habs hps
    obtain ⟨f, hf⟩ := walk_ro_reaches hres hroot hshape habs hps
    exact ⟨f, by rw [hf]; rfl⟩

theorem C11_witness :
    ¬ ReservedVa ex_va2 ∧ AbsentOnPath ex_mem 0x1000 ex_va2 ∧
    pmap_walk ex_phys (fun _ => none) 0x1000 ex_va2 false 0
      = some (none, ex_phys, fun _ => none) :=
  ⟨by unfold ReservedVa; decide, by unfold AbsentOnPath; decide,
    (C11_pmap_walk_no_create ex_V ex_phys (fun _ => none) 0x1000 ex_va2 0
      (by unfold ReservedVa; decide) (Or.inl ⟨rfl, rfl⟩) ex_shape).1.mpr
      (by unfold AbsentOnPath; decide)⟩

/-- C11 as stated fails: for an address in a reserved slot whose PML4 entry
is not present, the walk without `create` does not return nil, it panics. -/
theorem C11_counterexample :
    AbsentOnPath ex_mem 0x1000 (mkpg 0x43 0 0 0) ∧
    (pmap_walk ex_phys (fun _ => none) 0x1000 (mkpg 0x43 0 0 0) false 0).isNone = true :=
  ⟨by unfold AbsentOnPath; decide, by decide⟩

theorem walk_level_far (create : Bool) (perms : Nat) (s : Phys) (tr : Tracker) (pg idx : Nat)
    (hp : s.mem pg idx &&& PTE_P ≠ 0) (hps : s.mem pg idx &&& PTE_PS = 0)
    (hge : 2 ^ 39 ≤ s.mem pg idx &&& PTE_ADDR) :
    walk_level create perms s tr pg idx = none := by
  simp only [walk_level, hp, if_false, cpe, hps, ne_eq, not_true_eq_false, pe2pg_of_ge hge]

theorem pmap_walk_reserved (s : Phys) (tr : Tracker) (pml4 v perms : Nat) (create : Bool)
    (h : ReservedVa v) : pmap_walk s tr pml4 v create perms = none := by
  unfold ReservedVa at h
  unfold pmap_walk
  simp only [h, and_self, if_true]

theorem zero_page_mask {v : Nat} (h : v < 4096) : v &&& PGMASK = 0 := by
  apply Nat.eq_of_testBit_eq
  intro i
  have : PGMASK = PTE_ADDR := rfl
  rw [this, Nat.testBit_land, testBit_PTE_ADDR, Nat.zero_testBit]
  by_cases hi : 12 ≤ i
  · rw [testBit_of_lt 12 i h hi]; rfl
  · simp [hi]

theorem user_va_mask {v : Nat} (h : (pgbits v).1 = VUSER) : v &&& PGMASK ≠ 0 := by
  intro h0
  have hb : ((pgbits v).1).testBit 0 = true := by rw [h]; decide
  have hv : v.testBit 39 = true := by
    have e : (pgbits v).1 = (v >>> 39) &&& 0x1ff := rfl
    rw [e, Nat.testBit_land, Nat.testBit_shiftRight] at hb
    simpa using hb
  have hm : (v &&& PGMASK).testBit 39 = true := by
    have : PGMASK = PTE_ADDR := rfl
    rw [this, Nat.testBit_land, testBit_PTE_ADDR, hv]; decide
  rw [h0, Nat.zero_testBit] at hm
  cases hm

theorem pmap_walk_ps (s : Phys) (tr : Tracker) (pml4 v perms : Nat) (create : Bool)
    (h : PsOnPath s.mem pml4 v) : pmap_walk s tr pml4 v create perms = none := by
  obtain ⟨h4, h⟩ := h
  unfold pmap_walk
  by_cases hres : (pgbits v).1 ≥ VREC ∧ (pgbits v).1 ≤ VEND
  · simp only [hres, and_self, if_true]
  simp only [hres, if_false]
  by_cases hz : v &&& PGMASK = 0 ∧ create = true
  · simp only [hz, and_self, if_true]
  simp only [hz, if_false]
  by_cases p4 : s.mem pml4 (pgbits v).1 &&& PTE_PS = 0
  · by_cases l4 : s.mem pml4 (pgbits v).1 &&& PTE_ADDR < 2 ^ 39
    · simp only [walk_level_present create perms s tr pml4 _ h4 p4 l4]
      rcases h with h | ⟨h3, h⟩
      · exact absurd p4 h
      by_cases p3 : s.mem (s.mem pml4 (pgbits v).1 &&& PTE_ADDR) (pgbits v).2.1 &&& PTE_PS = 0
      · by_cases l3 : s.mem (s.mem pml4 (pgbits v).1 &&& PTE_ADDR) (pgbits v).2.1 &&& PTE_ADDR
            < 2 ^ 39
        · simp only [walk_level_present create perms s tr _ _ h3 p3 l3]
          rcases h with h | ⟨h2, p2⟩
          · exact absurd p3 h
          simp only [walk_level_ps create perms s tr _ _ h2 p2]
        · simp only [walk_level_far create perms s tr _ _ h3 p3 (by omega)]
      · simp only [walk_level_ps create perms s tr _ _ h3 p3]
    · simp only [walk_level_far create perms s tr _ _ h4 p4 (by omega)]
  · simp only [walk_level_ps create perms s tr _ _ h4 p4]

/-- C12: `pmap_walk` panics, whatever the memory holds and whatever `create`
is, for every address whose top-level index lies in the reserved slots `VREC`
to `VEND`; with `create = true` it panics for every address inside page 0; it
panics when a present intermediate entry on the path has PS set; and for an
address with the top-level index `VUSER` neither of the first two checks fires:
the index is outside the reserved slots and the address is not in page 0, so
that a walk without `create` whose top-level entry is absent returns nil. -/
theorem C12_pmap_walk_faults (s : Phys) (tr : Tracker) (pml4 v perms : Nat) (create : Bool) :
    (ReservedVa v → pmap_walk s tr pml4 v create perms = none) ∧
    (v < 4096 → v &&& PGMASK = 0 ∧ pmap_walk s tr pml4 v true perms = none) ∧
    (PsOnPath s.mem pml4 v → pmap_walk s tr pml4 v create perms = none) ∧
    ((pgbits v).1 = VUSER → ¬ ReservedVa v ∧ v &&& PGMASK ≠ 0 ∧
      (s.mem pml4 VUSER &&& PTE_P = 0 →
        pmap_walk s tr pml4 v false perms = some (none, s, tr))) := by
  refine ⟨pmap_walk_reserved s tr pml4 v perms create, ?_, pmap_walk_ps s tr pml4 v perms create,
    ?_⟩
  · intro h
    have hz := zero_page_mask h
    refine ⟨hz, ?_⟩
    unfold pmap_walk
    by_cases hres : (pgbits v).1 ≥ VREC ∧ (pgbits v).1 ≤ VEND
    · simp only [hres, and_self, if_true]
    · simp only [hres, if_false, hz, and_self, if_true]
  · intro hu
    have hres : ¬ ReservedVa v := by
      unfold ReservedVa; rw [hu]; decide
    refine ⟨hres, user_va_mask hu, ?_⟩
    intro hp
    rw [pmap_walk_ro]
    unfold ReservedVa at hres
    unfold walk_ro
    rw [← hu] at hp
    simp only [hres, if_false, level_ro_absent hp]
    rfl

theorem C12_witness :
    ReservedVa (mkpg 0x42 0 0 0) ∧ ReservedVa (mkpg 0x50 0 0 0) ∧
    pmap_walk kern_phys (fun _ => none) 0x1000 (mkpg 0x42 0 0 0) false 0 = none ∧
    pmap_walk kern_phys (fun _ => none) 0x1000 (mkpg 0x50 0 0 0) true 0 = none ∧
    pmap_walk ex_phys (fun _ => none) 0x1000 0xfff true 0 = none ∧
    PsOnPath (ex_mem.write 0x2000 0 0x3087) 0x1000 ex_va0 ∧
    pmap_walk { ex_phys with mem := ex_mem.write 0x2000 0 0x3087 } (fun _ => none) 0x1000
      ex_va0 false 0 = none ∧
    ¬ ReservedVa ex_va0 :=
  ⟨by unfold ReservedVa; decide, by unfold ReservedVa; decide,
    (C12_pmap_walk_faults kern_phys (fun _ => none) 0x1000 (mkpg 0x42 0 0 0) 0 false).1
      (by unfold ReservedVa; decide),
    (C12_pmap_walk_faults kern_phys (fun _ => none) 0x1000 (mkpg 0x50 0 0 0) 0 true).1
      (by unfold ReservedVa; decide),
    ((C12_pmap_walk_faults ex_phys (fun _ => none) 0x1000 0xfff 0 true).2.1 (by decide)).2,
    by unfold PsOnPath; decide,
    (C12_pmap_walk_faults { ex_phys with mem := ex_mem.write 0x2000 0 0x3087 } (fun _ => none)
      0x1000 ex_va0 0 false).2.2.1 (by unfold PsOnPath; decide),
    ((C12_pmap_walk_faults ex_phys (fun _ => none) 0x1000 ex_va0 0 false).2.2.2
      (by decide)).1⟩

/-! ## `page_remove` (C13) -/

/-- C13: `page_remove(va)`. When the walk without `create` reaches the leaf
entry `(f, i)` of `va` and that entry is present, `page_remove` returns; the
entry is 0 afterwards and the frame it named is a key of neither `pages` nor
`upages`; no other entry of memory and no other key of the two maps changes, the
allocator is untouched and `va` is invalidated. When the walk returns nil, or
reaches an entry that is not present, `page_remove` returns with the state and
the process as they were. -/
theorem C13_page_remove (s : Phys) (p : proc_t) (va : Nat) :
    (∀ f i s1 tr1, pmap_walk s (fun _ => none) p.pmap va false 0 = some (some (f, i), s1, tr1) →
      s.mem f i &&& PTE_P ≠ 0 →
      ∃ s2 p2, page_remove s p va = some (s2, p2) ∧
        s2.mem f i = 0 ∧
        p2.pages (s.mem f i &&& PTE_ADDR) = none ∧
        p2.upages (s.mem f i &&& PTE_ADDR) = none ∧
        (∀ g j, ¬ (g = f ∧ j = i) → s2.mem g j = s.mem g j) ∧
        (∀ F, F ≠ s.mem f i &&& PTE_ADDR →
          p2.pages F = p.pages F ∧ p2.upages F = p.upages F) ∧
        s2.heap = s.heap ∧ s2.nalloc = s.nalloc ∧ s2.inval = s.inval ++ [va] ∧
        p2.pmap = p.pmap ∧ p2.pid = p.pid ∧ p2.fds = p.fds ∧ p2.dead = p.dead) ∧
    (∀ s1 tr1, pmap_walk s (fun _ => none) p.pmap va false 0 = some (none, s1, tr1) →
      page_remove s p va = some (s, p)) ∧
    (∀ f i s1 tr1, pmap_walk s (fun _ => none) p.pmap va false 0 = some (some (f, i), s1, tr1) →
      s.mem f i &&& PTE_P = 0 → page_remove s p va = some (s, p)) := by
  refine ⟨?_, ?_, ?_⟩
  · intro f i s1 tr1 hw hp
    refine ⟨{ s with mem := s.mem.write f i 0, inval := s.inval ++ [va] },
      { p with pages := mapDel p.pages (s.mem f i &&& PTE_ADDR),
               upages := mapDel p.upages (s.mem f i &&& PTE_ADDR) }, ?_, ?_⟩
    · unfold page_remove
      rw [hw]
      simp only [hp, ne_eq, not_false_eq_true, if_true]
    refine ⟨by simp [Mem.write], by simp [mapDel], by simp [mapDel], ?_, ?_, rfl, rfl, rfl,
      rfl, rfl, rfl, rfl⟩
    · intro g j hne
      simp [Mem.write, hne]
    · intro F hF
      simp [mapDel, hF]
  · intro s1 tr1 hw
    unfold page_remove
    rw [hw]
  · intro f i s1 tr1 hw hp
    unfold page_remove
    rw [hw]
    simp only [hp, ne_eq, not_true_eq_false, if_false]

theorem ex_walk0 (tr : Tracker) :
    pmap_walk ex_phys tr 0x1000 ex_va0 false 0 = some (some (0x4000, 0), ex_phys, tr) := by
  have h : walk_ro ex_mem 0x1000 ex_va0 = some (some (0x4000, 0)) := by decide
  rw [pmap_walk_ro, show ex_phys.mem = ex_mem from rfl, h]; rfl

theorem ex_walk1 (tr : Tracker) :
    pmap_walk ex_phys tr 0x1000 ex_va1 false 0 = some (some (0x4000, 1), ex_phys, tr) := by
  have h : walk_ro ex_mem 0x1000 ex_va1 = some (some (0x4000, 1)) := by decide
  rw [pmap_walk_ro, show ex_phys.mem = ex_mem from rfl, h]; rfl

theorem ex_walk2 (tr : Tracker) :
    pmap_walk ex_phys tr 0x1000 ex_va2 false 0 = some (none, ex_phys, tr) := by
  have h : walk_ro ex_mem 0x1000 ex_va2 = some none := by decide
  rw [pmap_walk_ro, show ex_phys.mem = ex_mem from rfl, h]; rfl

theorem C13_witness :
    ex_mem 0x4000 0 &&& PTE_P ≠ 0 ∧
    (∃ s2 p2, page_remove ex_phys ex_parent ex_va0 = some (s2, p2) ∧ s2.mem 0x4000 0 = 0 ∧
      p2.pages 0x5000 = none ∧ p2.upages 0x5000 = none) ∧
    page_remove ex_phys ex_parent ex_va2 = some (ex_phys, ex_parent) ∧
    ex_mem 0x4000 1 &&& PTE_P = 0 ∧
    page_remove ex_phys ex_parent ex_va1 = some (ex_phys, ex_parent) :=
  ⟨by decide,
    ((C13_page_remove ex_phys ex_parent ex_va0).1 0x4000 0 ex_phys (fun _ => none)
      (ex_walk0 _) (by decide)).imp
      (fun _ h => h.imp (fun _ h2 => ⟨h2.1, h2.2.1, h2.2.2.1, h2.2.2.2.1⟩)),
    (C13_page_remove ex_phys ex_parent ex_va2).2.1 ex_phys (fun _ => none) (ex_walk2 _),
    by decide,
    (C13_page_remove ex_phys ex_parent ex_va1).2.2 0x4000 1 ex_phys (fun _ => none)
      (ex_walk1 _) (by decide)⟩

/-! ## The page-fault handler and the buffers of `read` and `write` (C14, C15, C16) -/

/-- What `trap_pgfault` does for a process in the table, by what the walk
for the fault address returns: without an entry, or with an entry whose COW bit
is clear, it is `proc_kill`; with the COW bit set it panics below `USERMIN` and
is `sys_pgfault` otherwise. -/
theorem trap_pgfault_cases (k : Kernel) (ts : trapstore_t) (proc : proc_t)
    (hp : k.allprocs ts.pid = some proc) :
    (∀ s1 tr1, pmap_walk k.phys (fun _ => none) proc.pmap (bits64 ts.faultaddr) false 0
        = some (none, s1, tr1) →
      trap_pgfault k ts = (proc_kill k ts.pid).map fun r => r.2) ∧
    (∀ f i s1 tr1, pmap_walk k.phys (fun _ => none) proc.pmap (bits64 ts.faultaddr) false 0
        = some (some (f, i), s1, tr1) →
      (k.phys.mem f i &&& PTE_COW = 0 →
        trap_pgfault k ts = (proc_kill k ts.pid).map fun r => r.2) ∧
      (k.phys.mem f i &&& PTE_COW ≠ 0 → ts.faultaddr < (USERMIN : Int) →
        trap_pgfault k ts = none) ∧
      (k.phys.mem f i &&& PTE_COW ≠ 0 → ¬ ts.faultaddr < (USERMIN : Int) →
        trap_pgfault k ts = (sys_pgfault k proc (f, i) (bits64 ts.faultaddr)).map
          fun r => proc_put r.2 ts.pid r.1)) := by
  refine ⟨?_, ?_⟩
  · intro s1 tr1 hw
    unfold trap_pgfault proc_get
    simp only [hp]
    rw [hw]
  · intro f i s1 tr1 hw
    refine ⟨?_, ?_, ?_⟩
    · intro hc
      unfold trap_pgfault proc_get
      simp only [hp]
      rw [hw]
      simp only [hc, ne_eq, not_true_eq_false, if_false]
    · intro hc hlt
      unfold trap_pgfault proc_get
      simp only [hp]
      rw [hw]
      simp only [hc, ne_eq, not_false_eq_true, if_true, hlt]
    · intro hc hlt
      unfold trap_pgfault proc_get
      simp only [hp]
      rw [hw]
      simp only [hc, ne_eq, not_false_eq_true, if_true, hlt, if_false]

/-- What `proc_kill` does to a process in the table: it is marked dead and
removed, the runtime is told, and nothing else changes. -/
theorem proc_kill_spec (k : Kernel) (pid : Int) (p : proc_t) (hp : k.allprocs pid = some p) :
    ∃ k2, proc_kill k pid = some ({ p with dead := true }, k2) ∧
      k2.allprocs pid = none ∧ (∀ n, n ≠ pid → k2.allprocs n = k.allprocs n) ∧
      k2.prockill = k.prockill ++ [pid] ∧ k2.phys = k.phys ∧ k2.runnable = k.runnable ∧
      k2.procadd = k.procadd ∧ k2.pid_cur = k.pid_cur ∧ k2.fdtab = k.fdtab := by
  refine ⟨{ k with allprocs := fun n => if n = pid then none else k.allprocs n,
                     prockill := k.prockill ++ [pid] }, by simp only [proc_kill, hp], by simp, ?_,
    rfl, rfl, rfl, rfl, rfl, rfl⟩
  intro n hn
  simp [hn]

/-- C14, the defect: a page fault of process 1 at an address in a reserved
top-level slot, which its page table does not map, does not kill the process:
the walk panics, and with it the kernel. -/
theorem C14_pgfault_at_reserved_address_panics :
    ex_kernel.allprocs 1 = some ex_parent ∧
    ReservedVa (bits64 ex_reserved) ∧
    AbsentOnPath ex_mem ex_parent.pmap (bits64 ex_reserved) ∧
    (trap_pgfault ex_kernel
      { trapno := PGFAULT, pid := 1, faultaddr := ex_reserved, tf := fun _ => 0 }).isNone
      = true := by
  refine ⟨rfl, by unfold ReservedVa; decide, by unfold AbsentOnPath; decide, ?_⟩
  have h : pmap_walk ex_kernel.phys (fun _ => none) ex_parent.pmap (bits64 ex_reserved) false 0
      = none := pmap_walk_reserved _ _ _ _ _ _ (by unfold ReservedVa; decide)
  unfold trap_pgfault proc_get
  simp only [show ex_kernel.allprocs 1 = some ex_parent from rfl]
  rw [h]
  rfl

theorem scatter_loop_prefix (s : Phys) (pmap : Nat) (bufp sz : Int) (n : Nat) :
    ∀ (c : Int) (acc l : List Slice), scatter_loop s pmap bufp sz n c acc = some l →
      ∃ t, l = acc ++ t := by
  induction n with
  | zero =>
    intro c acc l h
    simp only [scatter_loop, Option.some.injEq] at h
    exact ⟨[], by rw [← h, List.append_nil]⟩
  | succ n ih =>
    intro c acc l h
    unfold scatter_loop at h
    by_cases hc : c < sz
    · simp only [hc, if_true] at h
      cases hv : vtop s pmap (wrap64 (bufp + c)) with
      | none => rw [hv] at h; cases h
      | some p =>
        rw [hv] at h
        dsimp only at h
        cases hd : dmap8 p with
        | none => rw [hd] at h; cases h
        | some dst =>
          rw [hd] at h
          dsimp only at h
          obtain ⟨t, ht⟩ := ih _ _ _ h
          exact ⟨_ :: t, by rw [ht, List.append_assoc]; rfl⟩
    · simp only [hc, if_false, Option.some.injEq] at h
      exact ⟨[], by rw [← h, List.append_nil]⟩

/-- Every list of slices that `sys_read` and `sys_write` build begins with the
nil slice that `make([][]uint8, 1)` put there. -/
theorem scatter_head (s : Phys) (pmap : Nat) (bufp sz : Int) (l : List Slice)
    (h : scatter s pmap bufp sz = some l) : ∃ t, l = Slice.nil :: t := by
  obtain ⟨t, ht⟩ := scatter_loop_prefix s pmap bufp sz _ _ _ _ h
  exact ⟨t, ht⟩

/-- C15, the defect: for a one-byte buffer at an address in a reserved
top-level slot, which the page table of the process does not map, `sys_read`
and `sys_write` do not return `-EFAULT`: the walk of `is_mapped` panics, and
with it the kernel. -/
theorem C15_buffer_in_reserved_slot_panics :
    leaf_entry ex_kernel_u.phys.mem ex_user.pmap (bits64 ex_reserved) = none ∧
    is_mapped ex_kernel_u.phys ex_user.pmap ex_reserved 1 = none ∧
    (sys_read ex_fs ex_kernel_u () ex_user 0 ex_reserved 1).isNone = true ∧
    (sys_write ex_fs ex_kernel_u () ex_user 1 ex_reserved 1).isNone = true := by
  have h : is_mapped ex_kernel_u.phys ex_user.pmap ex_reserved 1 = none := by decide
  refine ⟨by decide, h, ?_, ?_⟩
  · unfold sys_read
    rw [h]; rfl
  · unfold sys_write
    rw [h]; rfl

/-- C16, the defect: for a two-byte buffer inside one mapped page the list
that `sys_write` hands to `fs_write` (and `sys_read` to `fs_read`) holds two
slices, not one: the nil slice that `make([][]uint8, 1)` starts the list with,
and then the slice of the buffer. -/
theorem C16_scatter_list_has_leading_nil_slice :
    is_mapped ex_kernel_u.phys ex_user.pmap ex_buf 2 = some true ∧
    scatter ex_kernel_u.phys ex_user.pmap ex_buf 2 = some [Slice.nil, ⟨0x5010, 2⟩] ∧
    (∀ (σ : Type) (fs : FsOps σ) (w : σ),
      sys_write fs ex_kernel_u w ex_user 3 ex_buf 2 =
        if (fs.fs_write [Slice.nil, ⟨0x5010, 2⟩] 7 0 false ex_mem w).1.2 ≠ 0 then
          some ((fs.fs_write [Slice.nil, ⟨0x5010, 2⟩] 7 0 false ex_mem w).1.2, ex_kernel_u,
            (fs.fs_write [Slice.nil, ⟨0x5010, 2⟩] 7 0 false ex_mem w).2)
        else
          some ((fs.fs_write [Slice.nil, ⟨0x5010, 2⟩] 7 0 false ex_mem w).1.1,
            fd_advance ex_kernel_u 3 (fs.fs_write [Slice.nil, ⟨0x5010, 2⟩] 7 0 false ex_mem w).1.1,
            (fs.fs_write [Slice.nil, ⟨0x5010, 2⟩] 7 0 false ex_mem w).2)) ∧
    (∀ (σ : Type) (fs : FsOps σ) (w : σ),
      sys_read fs ex_kernel_u w ex_user 3 ex_buf 2 =
        if (fs.fs_read [Slice.nil, ⟨0x5010, 2⟩] 7 0 ex_mem w).1.2 ≠ 0 then
          some ((fs.fs_read [Slice.nil, ⟨0x5010, 2⟩] 7 0 ex_mem w).1.2,
            { ex_kernel_u with phys := { ex_kernel_u.phys with
                mem := (fs.fs_read [Slice.nil, ⟨0x5010, 2⟩] 7 0 ex_mem w).2.1 } },
            (fs.fs_read [Slice.nil, ⟨0x5010, 2⟩] 7 0 ex_mem w).2.2)
        else
          some ((fs.fs_read [Slice.nil, ⟨0x5010, 2⟩] 7 0 ex_mem w).1.1,
            fd_advance { ex_kernel_u with phys := { ex_kernel_u.phys with
                mem := (fs.fs_read [Slice.nil, ⟨0x5010, 2⟩] 7 0 ex_mem w).2.1 } } 3
              (fs.fs_read [Slice.nil, ⟨0x5010, 2⟩] 7 0 ex_mem w).1.1,
            (fs.fs_read [Slice.nil, ⟨0x5010, 2⟩] 7 0 ex_mem w).2.2)) := by
  have h1 : is_mapped ex_kernel_u.phys ex_user.pmap ex_buf 2 = some true := by decide
  have h2 : scatter ex_kernel_u.phys ex_user.pmap ex_buf 2 = some [Slice.nil, ⟨0x5010, 2⟩] := by
    decide
  refine ⟨h1, h2, ?_, ?_⟩
  · intro σ fs w
    unfold sys_write
    rw [h1, h2]
    rfl
  · intro σ fs w
    unfold sys_read
    rw [h1, h2]
    rfl

/-! ## The syscall dispatcher (C17, C18, C19, C20) -/

theorem sys_read_runnable {σ : Type} (fs : FsOps σ) (k : Kernel) (w : σ) (p : proc_t)
    (fdn bufp sz r : Int) (k1 : Kernel) (w1 : σ)
    (h : sys_read fs k w p fdn bufp sz = some (r, k1, w1)) :
    k1.runnable = k.runnable ∧ k1.allprocs = k.allprocs ∧ k1.prockill = k.prockill := by
  unfold sys_read at h
  dsimp only at h
  repeat' split at h
  all_goals first
    | (simp only [Option.some.injEq, Prod.mk.injEq] at h
       obtain ⟨_, rfl, _⟩ := h
       exact ⟨rfl, rfl, rfl⟩)
    | cases h

theorem sys_write_runnable {σ : Type} (fs : FsOps σ) (k : Kernel) (w : σ) (p : proc_t)
    (fdn bufp sz r : Int) (k1 : Kernel) (w1 : σ)
    (h : sys_write fs k w p fdn bufp sz = some (r, k1, w1)) :
    k1.runnable = k.runnable ∧ k1.allprocs = k.allprocs ∧ k1.prockill = k.prockill := by
  unfold sys_write at h
  dsimp only at h
  repeat' split at h
  all_goals first
    | (simp only [Option.some.injEq, Prod.mk.injEq] at h
       obtain ⟨_, rfl, _⟩ := h
       exact ⟨rfl, rfl, rfl⟩)
    | cases h

theorem fd_new_frame (k : Kernel) (p : proc_t) (fdn : Int) (fd : Nat) (p1 : proc_t)
    (k1 : Kernel) (h : fd_new k p = some (fdn, fd, p1, k1)) :
    k1.runnable = k.runnable ∧ k1.allprocs = k.allprocs ∧ k1.prockill = k.prockill ∧
      p1.dead = p.dead ∧ p1.pid = p.pid := by
  unfold fd_new at h
  dsimp only at h
  split at h
  · cases h
  · simp only [Option.some.injEq, Prod.mk.injEq] at h
    obtain ⟨_, _, rfl, rfl⟩ := h
    exact ⟨rfl, rfl, rfl, rfl, rfl⟩

theorem sys_open_runnable {σ : Type} (fs : FsOps σ) (k : Kernel) (w : σ) (p : proc_t)
    (pathn flags mode r : Int) (p1 : proc_t) (k1 : Kernel) (w1 : σ)
    (h : sys_open fs k w p pathn flags mode = some (r, p1, k1, w1)) :
    k1.runnable = k.runnable ∧ k1.allprocs = k.allprocs ∧ k1.prockill = k.prockill ∧
      p1.dead = p.dead ∧ p1.pid = p.pid := by
  unfold sys_open at h
  dsimp only at h
  repeat' split at h
  all_goals first
    | (simp only [Option.some.injEq, Prod.mk.injEq] at h
       obtain ⟨_, rfl, rfl, _⟩ := h
       exact ⟨rfl, rfl, rfl, rfl, rfl⟩)
    | (simp only [Option.some.injEq, Prod.mk.injEq] at h
       obtain ⟨_, rfl, rfl, _⟩ := h
       have hf := fd_new_frame _ _ _ _ _ _ ‹fd_new k p = some _›
       exact hf)
    | cases h

theorem sys_fork_runnable (k : Kernel) (p : proc_t) (tf : Tf) (r : Int) (c : proc_t)
    (k1 : Kernel) (h : sys_fork k p tf = some (r, c, k1)) :
    k1.runnable = k.runnable ∧ k1.prockill = k.prockill ∧
    r = wrap64 (k.pid_cur + 1) ∧ c.pid = r ∧
    k1.procadd = k.procadd ++ [(fun i => if i = TF_RAX then 0 else tf i, r, c.p_pmap)] ∧
    k1.allprocs r = some c ∧ (∀ n, n ≠ r → k1.allprocs n = k.allprocs n) ∧
    k1.pid_cur = r := by
  unfold sys_fork at h
  simp only [proc_new] at h
  split at h
  · cases h
  · simp only [Option.some.injEq, Prod.mk.injEq] at h
    obtain ⟨rfl, rfl, rfl⟩ := h
    refine ⟨rfl, rfl, rfl, rfl, rfl, by simp [sched_add], ?_, rfl⟩
    intro n hn
    simp [sched_add, hn]

theorem syscall_inv {σ : Type} (fs : FsOps σ) (k : Kernel) (w : σ) (pid : Int) (tf tf1 : Tf)
    (p1 : proc_t) (k2 : Kernel) (w2 : σ)
    (h : syscall fs k w pid tf = some (tf1, p1, k2, w2)) :
    ∃ p ret k1, k.allprocs pid = some p ∧
      syscall_switch fs k w pid p tf = some (ret, p1, k1, w2) ∧
      tf1 = (fun i => if i = TF_RAX then ret else tf i) ∧
      (p1.dead = false → k2 = { k1 with runnable := k1.runnable ++ [(pid, some tf1)] }) ∧
      (p1.dead = true → k2 = k1) := by
  unfold syscall proc_get at h
  cases hp : k.allprocs pid with
  | none => rw [hp] at h; cases h
  | some p =>
    rw [hp] at h
    dsimp only at h
    cases hs : syscall_switch fs k w pid p tf with
    | none => rw [hs] at h; cases h
    | some r =>
      obtain ⟨ret, q, k1, w1⟩ := r
      rw [hs] at h
      dsimp only at h
      cases hd : q.dead with
      | false =>
        simp only [hd, Bool.not_false, if_true, Option.some.injEq, Prod.mk.injEq] at h
        obtain ⟨rfl, rfl, rfl, rfl⟩ := h
        exact ⟨p, ret, k1, rfl, hs, rfl, fun _ => rfl, fun hc => (by rw [hd] at hc; cases hc)⟩
      | true =>
        simp only [hd, Bool.not_true, Bool.false_eq_true, if_false, Option.some.injEq,
          Prod.mk.injEq] at h
        obtain ⟨rfl, rfl, rfl, rfl⟩ := h
        exact ⟨p, ret, k1, rfl, hs, rfl, fun hc => (by rw [hd] at hc; cases hc), fun _ => rfl⟩

theorem switch_read {σ : Type} (fs : FsOps σ) (k : Kernel) (w : σ) (pid : Int) (p : proc_t)
    (tf : Tf) (h : tf TF_RAX = SYS_READ) :
    syscall_switch fs k w pid p tf
      = (sys_read fs k w p (tf TF_RDI) (tf TF_RSI) (tf TF_RDX)).map
          fun r => (r.1, p, r.2.1, r.2.2) := by
  unfold syscall_switch
  dsimp only
  rw [if_pos h]

theorem switch_write {σ : Type} (fs : FsOps σ) (k : Kernel) (w : σ) (pid : Int) (p : proc_t)
    (tf : Tf) (h : tf TF_RAX = SYS_WRITE) :
    syscall_switch fs k w pid p tf
      = (sys_write fs k w p (tf TF_RDI) (tf TF_RSI) (tf TF_RDX)).map
          fun r => (r.1, p, r.2.1, r.2.2) := by
  unfold syscall_switch
  dsimp only
  rw [if_neg (by rw [h]; decide), if_pos h]

theorem switch_open {σ : Type} (fs : FsOps σ) (k : Kernel) (w : σ) (pid : Int) (p : proc_t)
    (tf : Tf) (h : tf TF_RAX = SYS_OPEN) :
    syscall_switch fs k w pid p tf
      = (sys_open fs k w p (tf TF_RDI) (tf TF_RSI) (tf TF_RDX)).map
          fun r => (r.1, r.2.1, proc_put r.2.2.1 pid r.2.1, r.2.2.2) := by
  unfold syscall_switch
  dsimp only
  rw [if_neg (by rw [h]; decide), if_neg (by rw [h]; decide), if_pos h]

theorem switch_getpid {σ : Type} (fs : FsOps σ) (k : Kernel) (w : σ) (pid : Int) (p : proc_t)
    (tf : Tf) (h : tf TF_RAX = SYS_GETPID) :
    syscall_switch fs k w pid p tf = some (sys_getpid p, p, k, w) := by
  unfold syscall_switch
  dsimp only
  rw [if_neg (by rw [h]; decide), if_neg (by rw [h]; decide), if_neg (by rw [h]; decide),
    if_pos h]

theorem switch_fork {σ : Type} (fs : FsOps σ) (k : Kernel) (w : σ) (pid : Int) (p : proc_t)
    (tf : Tf) (h : tf TF_RAX = SYS_FORK) :
    syscall_switch fs k w pid p tf = (sys_fork k p tf).map fun r => (r.1, p, r.2.2, w) := by
  unfold syscall_switch
  dsimp only
  rw [if_neg (by rw [h]; decide), if_neg (by rw [h]; decide), if_neg (by rw [h]; decide),
    if_neg (by rw [h]; decide), if_pos h]

theorem switch_exit {σ : Type} (fs : FsOps σ) (k : Kernel) (w : σ) (pid : Int) (p : proc_t)
    (tf : Tf) (h : tf TF_RAX = SYS_EXIT) :
    syscall_switch fs k w pid p tf
      = (sys_exit k p (tf TF_RDI)).map
          fun r => (-ENOSYS, if p.pid = pid then r.1 else p, r.2, w) := by
  unfold syscall_switch
  dsimp only
  rw [if_neg (by rw [h]; decide), if_neg (by rw [h]; decide), if_neg (by rw [h]; decide),
    if_neg (by rw [h]; decide), if_neg (by rw [h]; decide), if_pos h]

theorem switch_mkdir {σ : Type} (fs : FsOps σ) (k : Kernel) (w : σ) (pid : Int) (p : proc_t)
    (tf : Tf) (h : tf TF_RAX = SYS_MKDIR) :
    syscall_switch fs k w pid p tf
      = (sys_mkdir fs k w p (tf TF_RDI) (tf TF_RSI)).map fun r => (r.1, p, k, r.2) := by
  unfold syscall_switch
  dsimp only
  rw [if_neg (by rw [h]; decide), if_neg (by rw [h]; decide), if_neg (by rw [h]; decide),
    if_neg (by rw [h]; decide), if_neg (by rw [h]; decide), if_neg (by rw [h]; decide),
    if_pos h]

theorem switch_link {σ : Type} (fs : FsOps σ) (k : Kernel) (w : σ) (pid : Int) (p : proc_t)
    (tf : Tf) (h : tf TF_RAX = SYS_LINK) :
    syscall_switch fs k w pid p tf
      = (sys_link fs k w p (tf TF_RDI) (tf TF_RSI)).map fun r => (r.1, p, k, r.2) := by
  unfold syscall_switch
  dsimp only
  rw [if_neg (by rw [h]; decide), if_neg (by rw [h]; decide), if_neg (by rw [h]; decide),
    if_neg (by rw [h]; decide), if_neg (by rw [h]; decide), if_neg (by rw [h]; decide),
    if_neg (by rw [h]; decide), if_pos h]

theorem switch_unlink {σ : Type} (fs : FsOps σ) (k : Kernel) (w : σ) (pid : Int) (p : proc_t)
    (tf : Tf) (h : tf TF_RAX = SYS_UNLINK) :
    syscall_switch fs k w pid p tf
      = (sys_unlink fs k w p (tf TF_RDI)).map fun r => (r.1, p, k, r.2) := by
  unfold syscall_switch
  dsimp only
  rw [if_neg (by rw [h]; decide), if_neg (by rw [h]; decide), if_neg (by rw [h]; decide),
    if_neg (by rw [h]; decide), if_neg (by rw [h]; decide), if_neg (by rw [h]; decide),
    if_neg (by rw [h]; decide), if_neg (by rw [h]; decide), if_pos h]

theorem switch_default {σ : Type} (fs : FsOps σ) (k : Kernel) (w : σ) (pid : Int) (p : proc_t)
    (tf : Tf) (h : tf TF_RAX ∉ ([0, 1, 2, 39, 57, 60, 83, 86, 87] : List Int)) :
    syscall_switch fs k w pid p tf = some (-ENOSYS, p, k, w) := by
  simp only [List.mem_cons, List.mem_singleton, not_or, List.not_mem_nil, or_false] at h
  obtain ⟨h0, h1, h2, h3, h4, h5, h6, h7, h8⟩ := h
  have h0 : ¬ tf TF_RAX = SYS_READ := h0
  have h1 : ¬ tf TF_RAX = SYS_WRITE := h1
  have h2 : ¬ tf TF_RAX = SYS_OPEN := h2
  have h3 : ¬ tf TF_RAX = SYS_GETPID := h3
  have h4 : ¬ tf TF_RAX = SYS_FORK := h4
  have h5 : ¬ tf TF_RAX = SYS_EXIT := h5
  have h6 : ¬ tf TF_RAX = SYS_MKDIR := h6
  have h7 : ¬ tf TF_RAX = SYS_LINK := h7
  have h8 : ¬ tf TF_RAX = SYS_UNLINK := h8
  unfold syscall_switch
  dsimp only
  rw [if_neg h0, if_neg h1, if_neg h2, if_neg h3, if_neg h4, if_neg h5, if_neg h6, if_neg h7,
    if_neg h8]

theorem wrap64_id {x : Int} (h1 : -2 ^ 63 ≤ x) (h2 : x < 2 ^ 63) : wrap64 x = x := by
  unfold wrap64
  norm_num at h1 h2 ⊢
  omega

theorem switch_default9 {σ : Type} (fs : FsOps σ) (k : Kernel) (w : σ) (pid : Int) (p : proc_t)
    (tf : Tf) (h0 : tf TF_RAX ≠ SYS_READ) (h1 : tf TF_RAX ≠ SYS_WRITE)
    (h2 : tf TF_RAX ≠ SYS_OPEN) (h3 : tf TF_RAX ≠ SYS_GETPID) (h4 : tf TF_RAX ≠ SYS_FORK)
    (h5 : tf TF_RAX ≠ SYS_EXIT) (h6 : tf TF_RAX ≠ SYS_MKDIR) (h7 : tf TF_RAX ≠ SYS_LINK)
    (h8 : tf TF_RAX ≠ SYS_UNLINK) :
    syscall_switch fs k w pid p tf = some (-ENOSYS, p, k, w) := by
  unfold syscall_switch
  dsimp only
  rw [if_neg h0, if_neg h1, if_neg h2, if_neg h3, if_neg h4, if_neg h5, if_neg h6, if_neg h7,
    if_neg h8]

/-- No handler other than `sys_exit` marks the caller dead, marks a process
runnable or kills one. -/
theorem switch_frame {σ : Type} (fs : FsOps σ) (k : Kernel) (w : σ) (pid : Int) (p : proc_t)
    (tf : Tf) (ret : Int) (p1 : proc_t) (k1 : Kernel) (w1 : σ)
    (hne : tf TF_RAX ≠ SYS_EXIT)
    (h : syscall_switch fs k w pid p tf = some (ret, p1, k1, w1)) :
    p1.dead = p.dead ∧ k1.runnable = k.runnable ∧ k1.prockill = k.prockill := by
  by_cases h0 : tf TF_RAX = SYS_READ
  · rw [switch_read fs k w pid p tf h0, Option.map_eq_some'] at h
    obtain ⟨⟨r, k0, w0⟩, ha, hb⟩ := h
    simp only [Prod.mk.injEq] at hb
    obtain ⟨_, rfl, rfl, _⟩ := hb
    have := sys_read_runnable fs k w p _ _ _ _ _ _ ha
    exact ⟨rfl, this.1, this.2.2⟩
  by_cases h1 : tf TF_RAX = SYS_WRITE
  · rw [switch_write fs k w pid p tf h1, Option.map_eq_some'] at h
    obtain ⟨⟨r, k0, w0⟩, ha, hb⟩ := h
    simp only [Prod.mk.injEq] at hb
    obtain ⟨_, rfl, rfl, _⟩ := hb
    have := sys_write_runnable fs k w p _ _ _ _ _ _ ha
    exact ⟨rfl, this.1, this.2.2⟩
  by_cases h2 : tf TF_RAX = SYS_OPEN
  · rw [switch_open fs k w pid p tf h2, Option.map_eq_some'] at h
    obtain ⟨⟨r, q, k0, w0⟩, ha, hb⟩ := h
    simp only [Prod.mk.injEq] at hb
    obtain ⟨_, rfl, rfl, _⟩ := hb
    have := sys_open_runnable fs k w p _ _ _ _ _ _ _ ha
    exact ⟨this.2.2.2.1, this.1, this.2.2.1⟩
  by_cases h3 : tf TF_RAX = SYS_GETPID
  · rw [switch_getpid fs k w pid p tf h3] at h
    simp only [Option.some.injEq, Prod.mk.injEq] at h
    obtain ⟨_, rfl, rfl, _⟩ := h
    exact ⟨rfl, rfl, rfl⟩
  by_cases h4 : tf TF_RAX = SYS_FORK
  · rw [switch_fork fs k w pid p tf h4, Option.map_eq_some'] at h
    obtain ⟨⟨r, c, k0⟩, ha, hb⟩ := h
    simp only [Prod.mk.injEq] at hb
    obtain ⟨_, rfl, rfl, _⟩ := hb
    have := sys_fork_runnable k p tf _ _ _ ha
    exact ⟨rfl, this.1, this.2.1⟩
  by_cases h6 : tf TF_RAX = SYS_MKDIR
  · rw [switch_mkdir fs k w pid p tf h6, Option.map_eq_some'] at h
    obtain ⟨⟨r, w0⟩, _, hb⟩ := h
    simp only [Prod.mk.injEq] at hb
    obtain ⟨_, rfl, rfl, _⟩ := hb
    exact ⟨rfl, rfl, rfl⟩
  by_cases h7 : tf TF_RAX = SYS_LINK
  · rw [switch_link fs k w pid p tf h7, Option.map_eq_some'] at h
    obtain ⟨⟨r, w0⟩, _, hb⟩ := h
    simp only [Prod.mk.injEq] at hb
    obtain ⟨_, rfl, rfl, _⟩ := hb
    exact ⟨rfl, rfl, rfl⟩
  by_cases h8 : tf TF_RAX = SYS_UNLINK
  · rw [switch_unlink fs k w pid p tf h8, Option.map_eq_some'] at h
    obtain ⟨⟨r, w0⟩, _, hb⟩ := h
    simp only [Prod.mk.injEq] at hb
    obtain ⟨_, rfl, rfl, _⟩ := hb
    exact ⟨rfl, rfl, rfl⟩
  rw [switch_default9 fs k w pid p tf h0 h1 h2 h3 h4 hne h6 h7 h8] at h
  simp only [Option.some.injEq, Prod.mk.injEq] at h
  obtain ⟨_, rfl, rfl, _⟩ := h
  exact ⟨rfl, rfl, rfl⟩

/-- C17: when `syscall(pid, tf)` returns, every slot of the trap frame other
than RAX holds what it held before the call, and RAX holds the value the
selected handler returned: that of `sys_read`, `sys_write`, `sys_open`,
`sys_getpid`, `sys_fork`, `sys_mkdir`, `sys_link` or `sys_unlink`, called on the
process under `pid` with the arguments from RDI, RSI, RDX. (For `exit`, which
the claim leaves out, and for the numbers without a handler, RAX holds
`-ENOSYS`.) -/
theorem C17_syscall_return_discipline {σ : Type} (fs : FsOps σ) (k : Kernel) (w : σ)
    (pid : Int) (tf tf1 : Tf) (p1 : proc_t) (k2 : Kernel) (w2 : σ)
    (h : syscall fs k w pid tf = some (tf1, p1, k2, w2)) :
    (∀ i, i ≠ TF_RAX → tf1 i = tf i) ∧
    ∃ p, k.allprocs pid = some p ∧
      (tf TF_RAX = SYS_READ → ∃ k1,
        sys_read fs k w p (tf TF_RDI) (tf TF_RSI) (tf TF_RDX) = some (tf1 TF_RAX, k1, w2)) ∧
      (tf TF_RAX = SYS_WRITE → ∃ k1,
        sys_write fs k w p (tf TF_RDI) (tf TF_RSI) (tf TF_RDX) = some (tf1 TF_RAX, k1, w2)) ∧
      (tf TF_RAX = SYS_OPEN → ∃ k1,
        sys_open fs k w p (tf TF_RDI) (tf TF_RSI) (tf TF_RDX) = some (tf1 TF_RAX, p1, k1, w2)) ∧
      (tf TF_RAX = SYS_GETPID → tf1 TF_RAX = sys_getpid p) ∧
      (tf TF_RAX = SYS_FORK → ∃ child k1, sys_fork k p tf = some (tf1 TF_RAX, child, k1)) ∧
      (tf TF_RAX = SYS_MKDIR →
        sys_mkdir fs k w p (tf TF_RDI) (tf TF_RSI) = some (tf1 TF_RAX, w2)) ∧
      (tf TF_RAX = SYS_LINK →
        sys_link fs k w p (tf TF_RDI) (tf TF_RSI) = some (tf1 TF_RAX, w2)) ∧
      (tf TF_RAX = SYS_UNLINK → sys_unlink fs k w p (tf TF_RDI) = some (tf1 TF_RAX, w2)) ∧
      (tf TF_RAX = SYS_EXIT → tf1 TF_RAX = -ENOSYS) := by
  obtain ⟨p, ret, k1, hp, hs, rfl, _, _⟩ := syscall_inv fs k w pid tf tf1 p1 k2 w2 h
  refine ⟨fun i hi => by simp only [hi, if_false], p, hp, ?_, ?_, ?_, ?_, ?_, ?_, ?_, ?_, ?_⟩
  · intro ht
    rw [switch_read fs k w pid p tf ht, Option.map_eq_some'] at hs
    obtain ⟨⟨r, k0, w0⟩, ha, hb⟩ := hs
    simp only [Prod.mk.injEq] at hb
    obtain ⟨rfl, _, rfl, rfl⟩ := hb
    exact ⟨_, by simpa using ha⟩
  · intro ht
    rw [switch_write fs k w pid p tf ht, Option.map_eq_some'] at hs
    obtain ⟨⟨r, k0, w0⟩, ha, hb⟩ := hs
    simp only [Prod.mk.injEq] at hb
    obtain ⟨rfl, _, rfl, rfl⟩ := hb
    exact ⟨_, by simpa using ha⟩
  · intro ht
    rw [switch_open fs k w pid p tf ht, Option.map_eq_some'] at hs
    obtain ⟨⟨r, q, k0, w0⟩, ha, hb⟩ := hs
    simp only [Prod.mk.injEq] at hb
    obtain ⟨rfl, rfl, _, rfl⟩ := hb
    exact ⟨_, by simpa using ha⟩
  · intro ht
    rw [switch_getpid fs k w pid p tf ht] at hs
    simp only [Option.some.injEq, Prod.mk.injEq] at hs
    simp [hs.1]
  · intro ht
    rw [switch_fork fs k w pid p tf ht, Option.map_eq_some'] at hs
    obtain ⟨⟨r, c, k0⟩, ha, hb⟩ := hs
    simp only [Prod.mk.injEq] at hb
    obtain ⟨rfl, _, _, _⟩ := hb
    exact ⟨c, k0, by simpa using ha⟩
  · intro ht
    rw [switch_mkdir fs k w pid p tf ht, Option.map_eq_some'] at hs
    obtain ⟨⟨r, w0⟩, ha, hb⟩ := hs
    simp only [Prod.mk.injEq] at hb
    obtain ⟨rfl, _, _, rfl⟩ := hb
    simpa using ha
  · intro ht
    rw [switch_link fs k w pid p tf ht, Option.map_eq_some'] at hs
    obtain ⟨⟨r, w0⟩, ha, hb⟩ := hs
    simp only [Prod.mk.injEq] at hb
    obtain ⟨rfl, _, _, rfl⟩ := hb
    simpa using ha
  · intro ht
    rw [switch_unlink fs k w pid p tf ht, Option.map_eq_some'] at hs
    obtain ⟨⟨r, w0⟩, ha, hb⟩ := hs
    simp only [Prod.mk.injEq] at hb
    obtain ⟨rfl, _, _, rfl⟩ := hb
    simpa using ha
  · intro ht
    rw [switch_exit fs k w pid p tf ht, Option.map_eq_some'] at hs
    obtain ⟨_, _, hb⟩ := hs
    simp only [Prod.mk.injEq] at hb
    simp [hb.1]

theorem syscall_of_switch {σ : Type} (fs : FsOps σ) (k : Kernel) (w : σ) (pid : Int) (tf : Tf)
    (p : proc_t) (ret : Int) (p1 : proc_t) (k1 : Kernel) (w1 : σ)
    (hp : k.allprocs pid = some p)
    (hs : syscall_switch fs k w pid p tf = some (ret, p1, k1, w1)) :
    (p1.dead = false → syscall fs k w pid tf
      = some (fun i => if i = TF_RAX then ret else tf i, p1,
          { k1 with runnable := k1.runnable
              ++ [(pid, some (fun i => if i = TF_RAX then ret else tf i))] }, w1)) ∧
    (p1.dead = true → syscall fs k w pid tf
      = some (fun i => if i = TF_RAX then ret else tf i, p1, k1, w1)) := by
  unfold syscall proc_get
  rw [hp]
  dsimp only
  rw [hs]
  dsimp only
  constructor
  · intro hd
    simp only [hd, Bool.not_false, if_true]
  · intro hd
    simp only [hd, Bool.not_true, Bool.false_eq_true, if_false]

theorem C17_witness :
    syscall ex_fs ex_kernel_u () 1 (ex_tf 39 5 6 7)
      = some (fun i => if i = TF_RAX then 1 else ex_tf 39 5 6 7 i, ex_user,
          { ex_kernel_u with runnable := ex_kernel_u.runnable
              ++ [(1, some (fun i => if i = TF_RAX then 1 else ex_tf 39 5 6 7 i))] }, ()) ∧
    (∀ i, i ≠ TF_RAX →
      (fun i => if i = TF_RAX then (1 : Int) else ex_tf 39 5 6 7 i) i = ex_tf 39 5 6 7 i) :=
  have h : syscall ex_fs ex_kernel_u () 1 (ex_tf 39 5 6 7)
      = some (fun i => if i = TF_RAX then 1 else ex_tf 39 5 6 7 i, ex_user,
          { ex_kernel_u with runnable := ex_kernel_u.runnable
              ++ [(1, some (fun i => if i = TF_RAX then 1 else ex_tf 39 5 6 7 i))] }, ()) :=
    (syscall_of_switch ex_fs ex_kernel_u () 1 (ex_tf 39 5 6 7) ex_user 1 ex_user ex_kernel_u ()
      rfl (switch_getpid ex_fs ex_kernel_u () 1 ex_user _ rfl)).1 rfl
  ⟨h, (C17_syscall_return_discipline ex_fs ex_kernel_u () 1 (ex_tf 39 5 6 7) _ _ _ _ h).1⟩

/-- C18: for a process `pid` of the table that is not dead and a trap frame
whose RAX is none of the handled numbers 0, 1, 2, 39, 57, 60, 83, 86, 87,
`syscall` returns; RAX holds `-ENOSYS`, which is -38, and every other slot is
unchanged; the record of the process, the kernel state and the filesystem are
the ones before the call, except that the process has been marked runnable,
once, with the new trap frame. -/
theorem C18_unhandled_syscall {σ : Type} (fs : FsOps σ) (k : Kernel) (w : σ) (pid : Int)
    (tf : Tf) (p : proc_t) (hp : k.allprocs pid = some p) (hlive : p.dead = false)
    (hun : tf TF_RAX ∉ ([0, 1, 2, 39, 57, 60, 83, 86, 87] : List Int)) :
    syscall_switch fs k w pid p tf = some (-38, p, k, w) ∧
    syscall fs k w pid tf
      = some (fun i => if i = TF_RAX then -38 else tf i, p,
          { k with runnable := k.runnable
              ++ [(pid, some (fun i => if i = TF_RAX then -38 else tf i))] }, w) := by
  have hs : syscall_switch fs k w pid p tf = some (-38, p, k, w) :=
    switch_default fs k w pid p tf hun
  exact ⟨hs, (syscall_of_switch fs k w pid tf p (-38) p k w hp hs).1 hlive⟩

theorem C18_witness :
    ex_kernel_u.allprocs 1 = some ex_user ∧
    syscall ex_fs ex_kernel_u () 1 (ex_tf 3 5 6 7)
      = some (fun i => if i = TF_RAX then -38 else ex_tf 3 5 6 7 i, ex_user,
          { ex_kernel_u with runnable := ex_kernel_u.runnable
              ++ [(1, some (fun i => if i = TF_RAX then -38 else ex_tf 3 5 6 7 i))] }, ()) :=
  ⟨rfl, (C18_unhandled_syscall ex_fs ex_kernel_u () 1 (ex_tf 3 5 6 7) ex_user rfl rfl
    (by decide)).2⟩

/-- C19: the finalizer of `syscall`, for a process `p` that the table holds
under its own pid and that is not dead. Whenever `syscall` returns, it has
marked the process runnable with the new trap frame after the handler exactly
when the dead flag of the process is clear, and has left the runtime's list as
the handler left it when the flag is set. For `exit` (when `syscall` is entered
for it at all) it returns with the process marked dead, removed from the table
by `proc_kill`, handed to `runtime.Prockill`, and not marked runnable. For
every other number, when it returns the process is not dead, no process was
killed, and the process has been marked runnable exactly once. -/
theorem C19_syscall_finalizer {σ : Type} (fs : FsOps σ) (k : Kernel) (w : σ) (pid : Int)
    (tf : Tf) (p : proc_t) (hp : k.allprocs pid = some p) (hkey : p.pid = pid)
    (hlive : p.dead = false) :
    (∀ tf1 p1 k2 w2, syscall fs k w pid tf = some (tf1, p1, k2, w2) →
      ∃ ret k1, syscall_switch fs k w pid p tf = some (ret, p1, k1, w2) ∧
        (p1.dead = false ↔ k2.runnable = k1.runnable ++ [(pid, some tf1)]) ∧
        (p1.dead = true ↔ k2.runnable = k1.runnable)) ∧
    (tf TF_RAX = SYS_EXIT →
      ∃ tf1 k2, syscall fs k w pid tf = some (tf1, { p with dead := true }, k2, w) ∧
        k2.allprocs pid = none ∧ (∀ n, n ≠ pid → k2.allprocs n = k.allprocs n) ∧
        k2.prockill = k.prockill ++ [pid] ∧ k2.runnable = k.runnable) ∧
    (tf TF_RAX ≠ SYS_EXIT →
      ∀ tf1 p1 k2 w2, syscall fs k w pid tf = some (tf1, p1, k2, w2) →
        p1.dead = false ∧ k2.prockill = k.prockill ∧
        k2.runnable = k.runnable ++ [(pid, some tf1)]) := by
  refine ⟨?_, ?_, ?_⟩
  · intro tf1 p1 k2 w2 h
    obtain ⟨q, ret, k1, hq, hs, _, hf, ht⟩ := syscall_inv fs k w pid tf tf1 p1 k2 w2 h
    rw [hp] at hq
    cases hq
    refine ⟨ret, k1, hs, ?_, ?_⟩
    · constructor
      · intro hd
        rw [hf hd]
      · intro hr
        cases hd : p1.dead with
        | false => rfl
        | true =>
          rw [ht hd] at hr
          have := congrArg List.length hr
          simp at this
    · constructor
      · intro hd
        rw [ht hd]
      · intro hr
        cases hd : p1.dead with
        | true => rfl
        | false =>
          rw [hf hd] at hr
          have := congrArg List.length hr
          simp at this
  · intro hx
    subst hkey
    obtain ⟨k1, hk, h1, h2, h3, _, h4, _⟩ := proc_kill_spec k p.pid p hp
    have hs : syscall_switch fs k w p.pid p tf
        = some (-ENOSYS, { p with dead := true }, k1, w) := by
      rw [switch_exit fs k w p.pid p tf hx]
      unfold sys_exit
      rw [hk]
      simp only [Option.map_some', if_true]
    exact ⟨_, k1, (syscall_of_switch fs k w p.pid tf p _ _ k1 w hp hs).2 rfl, h1, h2, h3, h4⟩
  · intro hne tf1 p1 k2 w2 h
    obtain ⟨q, ret, k1, hq, hs, _, hf, _⟩ := syscall_inv fs k w pid tf tf1 p1 k2 w2 h
    rw [hp] at hq
    cases hq
    obtain ⟨hd, hr, hk⟩ := switch_frame fs k w pid p tf ret p1 k1 w2 hne hs
    rw [hlive] at hd
    refine ⟨hd, ?_, ?_⟩
    · rw [hf hd]; exact hk
    · rw [hf hd]
      show k1.runnable ++ _ = _
      rw [hr]

theorem C19_witness :
    ex_kernel_u.allprocs 1 = some ex_user ∧
    (∃ tf1 k2, syscall ex_fs ex_kernel_u () 1 (ex_tf 60 0 0 0)
        = some (tf1, { ex_user with dead := true }, k2, ()) ∧
      k2.allprocs 1 = none ∧ k2.prockill = [1] ∧ k2.runnable = []) :=
  ⟨rfl, ((C19_syscall_finalizer ex_fs ex_kernel_u () 1 (ex_tf 60 0 0 0) ex_user rfl rfl rfl).2.1
    rfl).imp (fun _ h => h.imp (fun _ h2 => ⟨h2.1, h2.2.1, h2.2.2.2.1, h2.2.2.2.2⟩))⟩

/-- C20: `sys_fork` on a parent whose page table is made of tables `V`
inside the direct map (tables of leaf entries apart from the upper tables),
whose user pages it tracks, with a fresh allocator and a pid counter that is not
negative and below the largest `int`: it returns; the child is handed to
`runtime.Procadd` with a trap frame equal to the parent's in every slot except
RAX, which is 0; the value returned, which `syscall` writes into the parent's
RAX without changing another slot, is the pid of the child, `pid_cur + 1`; it
differs from every pid up to `pid_cur`, which are the pids allocated before, and
so from the parent's. -/
theorem C20_fork_pid_and_trap_frames {σ : Type} (fs : FsOps σ) (w : σ) (k : Kernel) (pid : Int)
    (parent : proc_t) (tf : Tf) (V : Nat → Nat → Prop)
    (hp : k.allprocs pid = some parent) (hlive : parent.dead = false)
    (hcall : tf TF_RAX = SYS_FORK)
    (hroot : V 4 parent.pmap) (hshape : Shape k.phys.mem V)
    (hsep : ∀ f d, V 1 f → ¬ V (d + 2) f)
    (htrack : ∀ f i, V 1 f → i < 512 → k.phys.mem f i &&& PTE_P ≠ 0 →
      k.phys.mem f i &&& PTE_U ≠ 0 →
      parent.pages (k.phys.mem f i &&& PTE_ADDR) ≠ none ∧
        parent.upages (k.phys.mem f i &&& PTE_ADDR) ≠ none)
    (hgood : GoodHeap k.phys.heap V k.phys.nalloc
      (k.phys.nalloc + 1 + tables_below k.phys.mem 4 parent.pmap))
    (hlo : 0 ≤ k.pid_cur) (hcur : k.pid_cur < 2 ^ 63 - 1) (hpar : parent.pid ≤ k.pid_cur) :
    ∃ child k1 tf1 k2, sys_fork k parent tf = some (k.pid_cur + 1, child, k1) ∧
      child.pid = k.pid_cur + 1 ∧
      k1.procadd = k.procadd
        ++ [(fun i => if i = TF_RAX then 0 else tf i, k.pid_cur + 1, child.p_pmap)] ∧
      k1.allprocs (k.pid_cur + 1) = some child ∧
      syscall fs k w pid tf = some (tf1, parent, k2, w) ∧
      tf1 TF_RAX = k.pid_cur + 1 ∧ (∀ i, i ≠ TF_RAX → tf1 i = tf i) ∧
      (∀ n, n ≤ k.pid_cur → child.pid ≠ n) ∧ child.pid ≠ parent.pid := by
  obtain ⟨child, k1, _, hf, hpid, _⟩ := sys_fork_spec k parent tf V hroot hshape hsep htrack hgood
  have hw : wrap64 (k.pid_cur + 1) = k.pid_cur + 1 := wrap64_id (by omega) (by omega)
  rw [hw] at hpid
  rw [hpid] at hf
  obtain ⟨_, _, _, _, hadd, hall, _, _⟩ := sys_fork_runnable k parent tf _ _ _ hf
  have hs : syscall_switch fs k w pid parent tf = some (k.pid_cur + 1, parent, k1, w) := by
    rw [switch_fork fs k w pid parent tf hcall, hf]
    rfl
  refine ⟨child, k1, _, _, hf, hpid, hadd, hall,
    (syscall_of_switch fs k w pid tf parent _ _ k1 w hp hs).1 hlive, by simp,
    fun i hi => by simp only [hi, if_false], ?_, ?_⟩
  · intro n hn
    rw [hpid]; omega
  · rw [hpid]; omega

theorem C20_witness :
    ex_kernel.allprocs 1 = some ex_parent ∧
    ∃ child k1 tf1 k2, sys_fork ex_kernel ex_parent (ex_tf 57 0 0 0) = some (2, child, k1) ∧
      k1.procadd = [(fun i => if i = TF_RAX then 0 else ex_tf 57 0 0 0 i, 2, child.p_pmap)] ∧
      syscall ex_fs ex_kernel () 1 (ex_tf 57 0 0 0) = some (tf1, ex_parent, k2, ()) ∧
      tf1 TF_RAX = 2 :=
  ⟨rfl, (C20_fork_pid_and_trap_frames ex_fs () ex_kernel 1 ex_parent (ex_tf 57 0 0 0) ex_V rfl rfl
    rfl (Or.inl ⟨rfl, rfl⟩) ex_shape ex_sep ex_track ex_good_fork (by decide) (by decide)
    (by decide)).imp (fun _ h => h.imp (fun _ h2 => h2.imp (fun _ h3 => h3.imp
      (fun _ h4 => ⟨h4.1, h4.2.2.1, h4.2.2.2.2.1, h4.2.2.2.2.2.1⟩))))⟩

/-! ## What `sys_read` and `sys_write` return for a buffer whose walks do not panic -/

theorem is_mapped_loop_all (s : Phys) (pmap : Nat) (n : Nat) :
    ∀ p : Int, (∀ j, j < n → walk_ro s.mem pmap (bits64 (p + 4096 * j)) ≠ none) →
      is_mapped_loop s pmap n p
        = some ((List.range n).all fun j => page_mapped s.mem pmap (bits64 (p + 4096 * j))) := by
  induction n with
  | zero => intro p _; rfl
  | succ n ih =>
    intro p hw
    have h0 := hw 0 (Nat.succ_pos n)
    simp only [Nat.cast_zero, mul_zero, add_zero] at h0
    have hrest : ∀ j, j < n → walk_ro s.mem pmap (bits64 (p + 4096 + 4096 * j)) ≠ none := by
      intro j hj
      have := hw (j + 1) (Nat.succ_lt_succ hj)
      have e : p + 4096 * ((j + 1 : Nat) : Int) = p + 4096 + 4096 * (j : Int) := by
        push_cast; ring
      rwa [e] at this
    have hall : (List.range (n + 1)).all
        (fun j => page_mapped s.mem pmap (bits64 (p + 4096 * j)))
        = (page_mapped s.mem pmap (bits64 p) &&
            (List.range n).all fun j => page_mapped s.mem pmap (bits64 (p + 4096 + 4096 * j))) := by
      rw [List.range_succ_eq_map, List.all_cons, List.all_map]
      simp only [Nat.cast_zero, mul_zero, add_zero]
      congr 1
      have e : ∀ j : Nat, p + 4096 * ((j + 1 : Nat) : Int) = p + 4096 + 4096 * (j : Int) := by
        intro j; push_cast; ring
      simp only [Function.comp_def, Nat.succ_eq_add_one, e]
    rw [hall]
    unfold is_mapped_loop
    rw [pmap_walk_ro]
    cases hwr : walk_ro s.mem pmap (bits64 p) with
    | none => exact absurd hwr h0
    | some r =>
      cases r with
      | none =>
        have hpm : page_mapped s.mem pmap (bits64 p) = false := by
          unfold page_mapped leaf_entry; rw [hwr]
        rw [hpm]; rfl
      | some fi =>
        obtain ⟨f, i⟩ := fi
        have hpm : page_mapped s.mem pmap (bits64 p) = decide (s.mem f i &&& PTE_P ≠ 0) := by
          unfold page_mapped leaf_entry; rw [hwr]
        rw [hpm]
        show (if s.mem f i &&& PTE_P = 0 then some false
          else is_mapped_loop s pmap n (p + 4096)) = _
        by_cases hp : s.mem f i &&& PTE_P = 0
        · rw [if_pos hp]
          simp [hp]
        · rw [if_neg hp, ih (p + 4096) hrest]
          simp [hp]

/-- What `sys_read` and `sys_write` return for a buffer of `sz` bytes, `sz`
not 0, when none of the walks of `is_mapped` panics: `-EFAULT` when one of the
pages of the buffer has no present leaf entry, whether or not the descriptor is
known, and `-EBADF` when every page has one and the descriptor is not in the
table; the kernel and the filesystem are then as before the call. -/
theorem sys_rw_errors {σ : Type} (fs : FsOps σ) (k : Kernel) (w : σ) (proc : proc_t)
    (fdn bufp sz : Int) (hsz : sz ≠ 0)
    (hw : ∀ j, j < (buffer_pages bufp sz).1 →
      walk_ro k.phys.mem proc.pmap (bits64 ((buffer_pages bufp sz).2 + 4096 * j)) ≠ none) :
    ((∃ j, j < (buffer_pages bufp sz).1 ∧
        page_mapped k.phys.mem proc.pmap (bits64 ((buffer_pages bufp sz).2 + 4096 * j)) = false) →
      sys_read fs k w proc fdn bufp sz = some (-EFAULT, k, w) ∧
      sys_write fs k w proc fdn bufp sz = some (-EFAULT, k, w)) ∧
    ((∀ j, j < (buffer_pages bufp sz).1 →
        page_mapped k.phys.mem proc.pmap (bits64 ((buffer_pages bufp sz).2 + 4096 * j)) = true) →
      proc.fds fdn = none →
      sys_read fs k w proc fdn bufp sz = some (-EBADF, k, w) ∧
      sys_write fs k w proc fdn bufp sz = some (-EBADF, k, w)) := by
  have hm := is_mapped_loop_all k.phys proc.pmap (buffer_pages bufp sz).1
    (buffer_pages bufp sz).2 hw
  have hm2 : is_mapped k.phys proc.pmap bufp sz
      = some ((List.range (buffer_pages bufp sz).1).all fun j =>
          page_mapped k.phys.mem proc.pmap (bits64 ((buffer_pages bufp sz).2 + 4096 * j))) := hm
  constructor
  · intro ⟨j, hj, hf⟩
    have hall : ((List.range (buffer_pages bufp sz).1).all fun j =>
        page_mapped k.phys.mem proc.pmap (bits64 ((buffer_pages bufp sz).2 + 4096 * j)))
        = false := by
      rw [List.all_eq_false]
      exact ⟨j, List.mem_range.mpr hj, by rw [hf]; decide⟩
    rw [hall] at hm2
    constructor
    · unfold sys_read
      rw [if_neg hsz, hm2]
    · unfold sys_write
      rw [if_neg hsz, hm2]
  · intro ha hfd
    have hall : ((List.range (buffer_pages bufp sz).1).all fun j =>
        page_mapped k.phys.mem proc.pmap (bits64 ((buffer_pages bufp sz).2 + 4096 * j)))
        = true := by
      rw [List.all_eq_true]
      intro j hj
      exact ha j (List.mem_range.mp hj)
    rw [hall] at hm2
    constructor
    · unfold sys_read
      rw [if_neg hsz, hm2]
      simp only [hfd]
    · unfold sys_write
      rw [if_neg hsz, hm2]
      simp only [hfd]

/-! ## The list of slices of a mapped buffer -/

theorem and_PGOFFSET (x : Nat) : x &&& PGOFFSET = x % 4096 := by
  have : PGOFFSET = 2 ^ 12 - 1 := by decide
  rw [this, Nat.and_pow_two_sub_one_eq_mod]

theorem bits64_nonneg {x : Int} (h0 : 0 ≤ x) (h1 : x < 2 ^ 63) : ((bits64 x : Nat) : Int) = x := by
  unfold bits64
  rw [Int.toNat_of_nonneg (Int.emod_nonneg _ (by norm_num))]
  norm_num at h1 ⊢
  omega

theorem dmap8_frame {a o : Nat} (ha : a % 4096 = 0) (hlt : a < 2 ^ 39) (ho : o < 4096) :
    dmap8 (a + o) = some ⟨a + o, 4096 - o⟩ := by
  have h39 : (1 : Nat) <<< 39 = 2 ^ 39 := by decide
  have hsz : PGSIZE = 4096 := by decide
  have hnot : ¬ (a + o ≥ 1 <<< 39) := by
    rw [h39]
    have : (2 : Nat) ^ 39 = 4096 * 134217728 := by norm_num
    omega
  have hmod : (a + o) % 4096 = o := by omega
  unfold dmap8 dmap
  simp only [hnot, if_false, rounddown, hsz, and_PGOFFSET, hmod]
  have : a + o - o + o = a + o := by omega
  rw [this]

theorem vtop_eq {s : Phys} {pmap : Nat} {va : Int} {e : Nat}
    (h : leaf_entry s.mem pmap (bits64 va) = some e) :
    vtop s pmap va = some (user_phys s.mem pmap va) := by
  obtain ⟨f, i, hw, he⟩ := walk_of_leaf_entry h
  unfold vtop user_phys
  rw [pmap_walk_ro, hw, h]
  simp only [Option.map_some', Option.getD_some, he]
theorem buf_cut_nonneg {bufp sz : Int} (hs : 0 < sz) (j : Nat) : 0 ≤ buf_cut bufp sz j := by
  unfold buf_cut
  split_ifs <;> omega

theorem buf_cut_le {bufp sz : Int} (hs : 0 < sz) (j : Nat) : buf_cut bufp sz j ≤ sz := by
  unfold buf_cut
  split_ifs <;> omega

theorem buf_cut_lt {bufp sz : Int} (hs : 0 < sz) {j : Nat} (hj : j < buf_npages bufp sz) :
    buf_cut bufp sz j < sz := by
  unfold buf_npages at hj
  unfold buf_cut
  split_ifs <;> omega

theorem buf_cut_end {bufp sz : Int} (hs : 0 < sz) {j : Nat} (hj : buf_npages bufp sz ≤ j) :
    buf_cut bufp sz j = sz := by
  unfold buf_npages at hj
  unfold buf_cut
  split_ifs <;> omega

theorem buf_cut_succ {bufp sz : Int} (j : Nat) (hj : buf_cut bufp sz j < sz) :
    buf_cut bufp sz (j + 1)
      = if buf_cut bufp sz j + (4096 - (bufp + buf_cut bufp sz j) % 4096) < sz then
          buf_cut bufp sz j + (4096 - (bufp + buf_cut bufp sz j) % 4096)
        else sz := by
  unfold buf_cut at hj ⊢
  push_cast
  split_ifs at hj ⊢ <;> omega

theorem buf_npages_le {bufp sz : Int} (hs : 0 < sz) : buf_npages bufp sz ≤ sz.toNat := by
  unfold buf_npages
  omega

/-- One turn of the loop of `sys_read` and `sys_write` at the first byte of
the `j`-th page of the buffer: it appends the slice of that page and moves on to
the next page. -/
theorem scatter_step (s : Phys) (pmap : Nat) (bufp sz : Int) (hb : 0 ≤ bufp) (hs : 0 < sz)
    (hno : bufp + sz < 2 ^ 63) (j fuel : Nat) (acc : List Slice) (e : Nat)
    (hj : j < buf_npages bufp sz)
    (he : leaf_entry s.mem pmap (bits64 (bufp + buf_cut bufp sz j)) = some e)
    (hlt : e &&& PTE_ADDR < 2 ^ 39) :
    scatter_loop s pmap bufp sz (fuel + 1) (buf_cut bufp sz j) acc
      = scatter_loop s pmap bufp sz fuel (buf_cut bufp sz (j + 1))
          (acc ++ [buf_slice s.mem pmap bufp sz j]) := by
  have hc0 := @buf_cut_nonneg bufp sz hs j
  have hc1 := buf_cut_lt hs hj
  have hsucc := buf_cut_succ j hc1
  have hc2 := @buf_cut_le bufp sz hs (j + 1)
  generalize hcd : buf_cut bufp sz j = c at *
  generalize hcn : buf_cut bufp sz (j + 1) = c2 at *
  have hva : wrap64 (bufp + c) = bufp + c := wrap64_id (by omega) (by omega)
  have hB := bits64_nonneg (x := bufp + c) (by omega) (by omega)
  have hup : user_phys s.mem pmap (bufp + c)
      = (e &&& PTE_ADDR) + (bits64 (bufp + c) % 4096) := by
    unfold user_phys
    rw [he, Option.getD_some, and_PGOFFSET]
  have ho : bits64 (bufp + c) % 4096 < 4096 := Nat.mod_lt _ (by norm_num)
  have hd := dmap8_frame (and_PTE_ADDR_mod e) hlt ho
  have hsl : buf_slice s.mem pmap bufp sz j
      = ⟨(e &&& PTE_ADDR) + (bits64 (bufp + c) % 4096), (c2 - c).toNat⟩ := by
    unfold buf_slice
    rw [hcd, hcn, hup]
  have hleft : wrap64 (sz - c) = sz - c := wrap64_id (by omega) (by omega)
  conv => lhs; unfold scatter_loop
  rw [if_pos hc1, hva, vtop_eq he, hup]
  dsimp only
  rw [hd]
  dsimp only
  rw [hleft, hsl]
  by_cases hcmp : ((4096 - bits64 (bufp + c) % 4096 : Nat) : Int) > sz - c
  · rw [if_pos hcmp]
    dsimp only
    have e1 : (sz - c).toNat = (c2 - c).toNat := by
      rw [hsucc]; split_ifs <;> omega
    have e2 : wrap64 (c + ((sz - c).toNat : Nat)) = c2 := by
      rw [wrap64_id (by omega) (by omega), hsucc]; split_ifs <;> omega
    rw [e2, e1]
  · rw [if_neg hcmp]
    dsimp only
    have e1 : 4096 - bits64 (bufp + c) % 4096 = (c2 - c).toNat := by
      rw [hsucc]; split_ifs <;> omega
    have e2 : wrap64 (c + ((4096 - bits64 (bufp + c) % 4096 : Nat) : Int)) = c2 := by
      rw [wrap64_id (by omega) (by omega), hsucc]; split_ifs <;> omega
    rw [e2, e1]

theorem scatter_loop_spec (s : Phys) (pmap : Nat) (bufp sz : Int) (hb : 0 ≤ bufp) (hs : 0 < sz)
    (hno : bufp + sz < 2 ^ 63)
    (hmap : ∀ j, j < buf_npages bufp sz →
      ∃ e, leaf_entry s.mem pmap (bits64 (bufp + buf_cut bufp sz j)) = some e ∧
        e &&& PTE_ADDR < 2 ^ 39) (fuel : Nat) :
    ∀ (j : Nat) (acc : List Slice), j ≤ buf_npages bufp sz → buf_npages bufp sz - j ≤ fuel →
      scatter_loop s pmap bufp sz fuel (buf_cut bufp sz j) acc
        = some (acc ++ (List.range (buf_npages bufp sz - j)).map
            fun t => buf_slice s.mem pmap bufp sz (j + t)) := by
  induction fuel with
  | zero =>
    intro j acc hj hf
    have : buf_npages bufp sz - j = 0 := by omega
    rw [this]
    simp [scatter_loop]
  | succ fuel ih =>
    intro j acc hj hf
    by_cases hjn : j = buf_npages bufp sz
    · have h0 : buf_npages bufp sz - j = 0 := by omega
      have hend : ¬ buf_cut bufp sz j < sz := by
        rw [buf_cut_end hs (by omega)]; omega
      rw [h0]
      unfold scatter_loop
      rw [if_neg hend]
      simp
    · have hlt : j < buf_npages bufp sz := by omega
      obtain ⟨e, he, hel⟩ := hmap j hlt
      rw [scatter_step s pmap bufp sz hb hs hno j fuel acc e hlt he hel,
        ih (j + 1) _ (by omega) (by omega)]
      have hk : buf_npages bufp sz - j = (buf_npages bufp sz - (j + 1)) + 1 := by omega
      rw [hk, List.range_succ_eq_map, List.map_cons, List.map_map, List.append_assoc]
      simp only [List.singleton_append, Nat.add_zero, Function.comp_def, Nat.succ_eq_add_one]
      have hfun : (fun t => buf_slice s.mem pmap bufp sz (j + 1 + t))
          = fun x => buf_slice s.mem pmap bufp sz (j + (x + 1)) := by
        funext t
        congr 1
        omega
      rw [hfun]

/-- The list that `sys_read` and `sys_write` build for a buffer of `sz`
bytes at `bufp`, `sz` positive and `bufp + sz` without overflow, whose pages
have leaf entries with frames inside the direct map: the nil slice of
`make([][]uint8, 1)`, and then one slice for each page that the buffer
overlaps. -/
theorem scatter_spec (s : Phys) (pmap : Nat) (bufp sz : Int) (hb : 0 ≤ bufp) (hs : 0 < sz)
    (hno : bufp + sz < 2 ^ 63)
    (hmap : ∀ j, j < buf_npages bufp sz →
      ∃ e, leaf_entry s.mem pmap (bits64 (bufp + buf_cut bufp sz j)) = some e ∧
        e &&& PTE_ADDR < 2 ^ 39) :
    scatter s pmap bufp sz
      = some (Slice.nil :: (List.range (buf_npages bufp sz)).map
          fun j => buf_slice s.mem pmap bufp sz j) := by
  have h := scatter_loop_spec s pmap bufp sz hb hs hno hmap sz.toNat 0 [Slice.nil]
    (Nat.zero_le _) (by have := @buf_npages_le bufp sz hs; omega)
  have h0 : buf_cut bufp sz 0 = 0 := rfl
  rw [h0] at h
  unfold scatter
  rw [h]
  simp
theorem and_PGMASK_eq {v : Nat} (h : v < 2 ^ 64) : v &&& PGMASK = v - v % 4096 := by
  have e : v - v % 4096 = (v >>> 12) <<< 12 := by
    rw [Nat.shiftLeft_eq, Nat.shiftRight_eq_div_pow]
    norm_num
    omega
  rw [e]
  apply Nat.eq_of_testBit_eq
  intro i
  have : PGMASK = PTE_ADDR := rfl
  rw [this, Nat.testBit_land, testBit_PTE_ADDR, Nat.testBit_shiftLeft, Nat.testBit_shiftRight]
  by_cases h12 : 12 ≤ i
  · by_cases h64 : i < 64
    · have e2 : 12 + (i - 12) = i := by omega
      simp [h12, h64, e2]
    · have : v.testBit i = false := testBit_of_lt 64 i h (by omega)
      have e2 : 12 + (i - 12) = i := by omega
      simp [h12, h64, e2, this]
  · simp [h12]

theorem bits64_lt (x : Int) : bits64 x < 2 ^ 64 := by
  unfold bits64
  have h1 : 0 ≤ x % 2 ^ 64 := Int.emod_nonneg _ (by norm_num)
  have h2 : x % 2 ^ 64 < 2 ^ 64 := Int.emod_lt_of_pos _ (by norm_num)
  have : ((x % 2 ^ 64).toNat : Int) < ((2 ^ 64 : Nat) : Int) := by
    rw [Int.toNat_of_nonneg h1]; exact_mod_cast h2
  exact_mod_cast this

/-- Inside a page the physical address moves with the virtual address. -/
theorem user_phys_add (m : Mem) (pmap : Nat) {x : Int} {t : Nat} (h0 : 0 ≤ x)
    (h1 : x + t < 2 ^ 63) (hpage : x % 4096 + t < 4096) :
    user_phys m pmap (x + t) = user_phys m pmap x + t := by
  have hx := bits64_nonneg h0 (by omega)
  have hxt := bits64_nonneg (x := x + t) (by omega) h1
  have hmask : bits64 (x + t) &&& PGMASK = bits64 x &&& PGMASK := by
    rw [and_PGMASK_eq (bits64_lt _), and_PGMASK_eq (bits64_lt _)]
    omega
  have hleaf : leaf_entry m pmap (bits64 (x + t)) = leaf_entry m pmap (bits64 x) := by
    rw [← leaf_entry_mask m pmap (bits64 (x + t)), hmask, leaf_entry_mask]
  unfold user_phys
  rw [hleaf, and_PGOFFSET, and_PGOFFSET]
  omega

theorem buf_cut_mono (bufp sz : Int) (hs : 0 < sz) (j : Nat) :
    buf_cut bufp sz j ≤ buf_cut bufp sz (j + 1) := by
  unfold buf_cut
  push_cast
  split_ifs <;> omega

theorem buf_slice_len_sum (m : Mem) (pmap : Nat) (bufp sz : Int) (hs : 0 < sz) (k : Nat) :
    ((List.range k).map fun j => (buf_slice m pmap bufp sz j).len).sum
      = (buf_cut bufp sz k).toNat := by
  induction k with
  | zero => rfl
  | succ k ih =>
    rw [List.range_succ, List.map_append, List.sum_append, ih]
    simp only [List.map_cons, List.map_nil, List.sum_cons, List.sum_nil, Nat.add_zero, buf_slice]
    have h1 := buf_cut_mono bufp sz hs k
    have h2 := @buf_cut_nonneg bufp sz hs k
    omega

theorem buf_slice_addrs (m : Mem) (pmap : Nat) (bufp sz : Int) (hb : 0 ≤ bufp) (hs : 0 < sz)
    (hno : bufp + sz < 2 ^ 63) (k : Nat) :
    ((List.range k).map fun j => buf_slice m pmap bufp sz j).flatMap Slice.addrs
      = (List.range (buf_cut bufp sz k).toNat).map fun (i : Nat) => user_phys m pmap (bufp + (i : Int)) := by
  induction k with
  | zero => rfl
  | succ k ih =>
    have h1 := buf_cut_mono bufp sz hs k
    have h2 := @buf_cut_nonneg bufp sz hs k
    have h3 := @buf_cut_le bufp sz hs (k + 1)
    rw [List.range_succ, List.map_append, List.flatMap_append, ih]
    have hsplit : (buf_cut bufp sz (k + 1)).toNat
        = (buf_cut bufp sz k).toNat + (buf_cut bufp sz (k + 1) - buf_cut bufp sz k).toNat := by
      omega
    rw [hsplit, List.range_add, List.map_append]
    congr 1
    simp only [List.map_cons, List.map_nil, List.flatMap_cons, List.flatMap_nil, List.append_nil,
      Slice.addrs, buf_slice, List.map_map]
    apply List.map_congr_left
    intro t ht
    rw [List.mem_range] at ht
    simp only [Function.comp]
    have hoff : (bufp + buf_cut bufp sz k) % 4096 + t < 4096 := by
      by_cases hlt : buf_cut bufp sz k < sz
      · have := buf_cut_succ k hlt
        rw [this] at ht
        split_ifs at ht <;> omega
      · omega
    have := user_phys_add m pmap (x := bufp + buf_cut bufp sz k) (t := t) (by omega) (by omega) hoff
    rw [← this]
    congr 1
    push_cast
    omega

/-- What the slices after the nil slice are, for a buffer of `sz` bytes at
`bufp`, `sz` positive, without overflow: there is one for each page the buffer
overlaps, a single one when the buffer lies within one page; each holds at least
one byte and ends inside the page of its first byte; the lengths add up to
`sz`; and the bytes of the slices, in order, are the bytes of the buffer at
their physical addresses, in order. -/
theorem buf_slices_spec (m : Mem) (pmap : Nat) (bufp sz : Int) (hb : 0 ≤ bufp) (hs : 0 < sz)
    (hno : bufp + sz < 2 ^ 63) :
    (bufp % 4096 + sz ≤ 4096 → buf_npages bufp sz = 1) ∧
    (∀ j, j < buf_npages bufp sz →
      1 ≤ (buf_slice m pmap bufp sz j).len ∧
      (buf_slice m pmap bufp sz j).ptr % 4096 + (buf_slice m pmap bufp sz j).len ≤ 4096) ∧
    ((List.range (buf_npages bufp sz)).map fun j => (buf_slice m pmap bufp sz j).len).sum
      = sz.toNat ∧
    ((List.range (buf_npages bufp sz)).map fun j => buf_slice m pmap bufp sz j).flatMap Slice.addrs
      = (List.range sz.toNat).map fun (i : Nat) => user_phys m pmap (bufp + (i : Int)) := by
  refine ⟨?_, ?_, ?_, ?_⟩
  · intro h
    unfold buf_npages
    omega
  · intro j hj
    have hlt := buf_cut_lt hs hj
    have hsucc := buf_cut_succ j hlt
    have h2 := @buf_cut_nonneg bufp sz hs j
    have hB := bits64_nonneg (x := bufp + buf_cut bufp sz j) (by omega) (by omega)
    have hal := and_PTE_ADDR_mod
      ((leaf_entry m pmap (bits64 (bufp + buf_cut bufp sz j))).getD 0)
    simp only [buf_slice, user_phys, and_PGOFFSET]
    constructor
    · rw [hsucc]; split_ifs <;> omega
    · rw [hsucc]; split_ifs <;> omega
  · rw [buf_slice_len_sum m pmap bufp sz hs, buf_cut_end hs (le_refl _)]
  · rw [buf_slice_addrs m pmap bufp sz hb hs hno, buf_cut_end hs (le_refl _)]

theorem dmap8_len {p : Nat} {dst : Slice} (h : dmap8 p = some dst) :
    1 ≤ dst.len ∧ dst.len ≤ 4096 := by
  unfold dmap8 at h
  cases hd : dmap p with
  | none => rw [hd] at h; cases h
  | some pg =>
    rw [hd] at h
    simp only [Option.some.injEq] at h
    rw [← h]
    have hsz : PGSIZE = 4096 := by decide
    have := and_PGOFFSET p
    have hlt : p % 4096 < 4096 := Nat.mod_lt _ (by norm_num)
    simp only [hsz, this]
    omega

/-- The loop of `sys_read` and `sys_write` never runs out of turns: with at
least `sz - c` turns left at the offset `c`, one turn more changes nothing. -/
theorem scatter_loop_fuel (s : Phys) (pmap : Nat) (bufp sz : Int) (hsz : sz < 2 ^ 63) (n : Nat) :
    ∀ (c : Int) (acc : List Slice), 0 ≤ c → (sz - c).toNat ≤ n →
      scatter_loop s pmap bufp sz (n + 1) c acc = scatter_loop s pmap bufp sz n c acc := by
  induction n with
  | zero =>
    intro c acc h0 hn
    have hc : ¬ c < sz := by omega
    simp only [scatter_loop, hc, if_false]
  | succ n ih =>
    intro c acc h0 hn
    conv => lhs; unfold scatter_loop
    conv => rhs; unfold scatter_loop
    by_cases hc : c < sz
    · simp only [hc, if_true]
      cases hv : vtop s pmap (wrap64 (bufp + c)) with
      | none => rfl
      | some p =>
        dsimp only
        cases hd : dmap8 p with
        | none => rfl
        | some dst =>
          dsimp only
          obtain ⟨l1, l2⟩ := dmap8_len hd
          have hleft : wrap64 (sz - c) = sz - c := wrap64_id (by omega) (by omega)
          rw [hleft]
          by_cases hcmp : ((dst.len : Nat) : Int) > sz - c
          · simp only [hcmp, if_true]
            have hw : wrap64 (c + ((sz - c).toNat : Nat)) = sz := by
              rw [wrap64_id (by omega) (by omega)]; omega
            rw [hw]
            exact ih sz _ (by omega) (by omega)
          · simp only [hcmp, if_false]
            have hw : wrap64 (c + ((dst.len : Nat) : Int)) = c + dst.len :=
              wrap64_id (by omega) (by omega)
            rw [hw]
            exact ih _ _ (by omega) (by omega)
    · simp only [hc, if_false]

/-! ## The process table (C28, C29) and `read`/`write` of nothing (C27) -/

/-- C27: for every descriptor number and every buffer pointer, `sys_read` and
`sys_write` with `sz = 0` return 0 with the kernel state (memory, descriptor
records with their offsets, console) and the filesystem state exactly as they
were, whatever the page table maps, whatever the descriptor table holds and
whatever the filesystem functions are: neither the buffer nor the descriptor is
looked at, and no filesystem function is applied. -/
theorem C27_zero_size_read_write {σ : Type} (fs : FsOps σ) (k : Kernel) (w : σ) (proc : proc_t)
    (fdn bufp : Int) :
    sys_read fs k w proc fdn bufp 0 = some (0, k, w) ∧
    sys_write fs k w proc fdn bufp 0 = some (0, k, w) := by
  constructor
  · unfold sys_read
    rw [if_pos rfl]
  · unfold sys_write
    rw [if_pos rfl]

/-- C29: `proc_new(name)` returns a record under the next pid, which the
table then holds under that pid; its `pages` and `upages` are empty; its
descriptor table holds exactly 0, 1, 2, bound to the three sentinel records,
which are three different records and hold the one sentinel file at boot;
`nextfd` is 3, `cwd` is `/`, `dead` is false; every other key of the table, the
descriptor records and the rest of the kernel state are unchanged. -/
theorem C29_proc_new (k : Kernel) (name : String) :
    (proc_new k name).1.pid = wrap64 (k.pid_cur + 1) ∧
    (proc_new k name).1.name = name ∧
    (proc_new k name).2.allprocs (proc_new k name).1.pid = some (proc_new k name).1 ∧
    (∀ F, (proc_new k name).1.pages F = none) ∧
    (∀ F, (proc_new k name).1.upages F = none) ∧
    (proc_new k name).1.fds 0 = some fd_stdin ∧
    (proc_new k name).1.fds 1 = some fd_stdout ∧
    (proc_new k name).1.fds 2 = some fd_stderr ∧
    (∀ n, n ≠ 0 → n ≠ 1 → n ≠ 2 → (proc_new k name).1.fds n = none) ∧
    (fd_stdin ≠ fd_stdout ∧ fd_stdin ≠ fd_stderr ∧ fd_stdout ≠ fd_stderr) ∧
    (∀ s, ((kernel_boot s).fdtab fd_stdin).file = some dummyfile ∧
      ((kernel_boot s).fdtab fd_stdout).file = some dummyfile ∧
      ((kernel_boot s).fdtab fd_stderr).file = some dummyfile) ∧
    (proc_new k name).1.nextfd = 3 ∧
    (proc_new k name).1.cwd = "/" ∧
    (proc_new k name).1.dead = false ∧
    (∀ n, n ≠ (proc_new k name).1.pid → (proc_new k name).2.allprocs n = k.allprocs n) ∧
    (proc_new k name).2.pid_cur = (proc_new k name).1.pid ∧
    (proc_new k name).2.fdtab = k.fdtab ∧ (proc_new k name).2.phys = k.phys ∧
    (proc_new k name).2.procadd = k.procadd ∧ (proc_new k name).2.runnable = k.runnable ∧
    (proc_new k name).2.prockill = k.prockill := by
  refine ⟨rfl, rfl, by simp [proc_new], fun _ => rfl, fun _ => rfl, rfl, rfl, rfl, ?_,
    ⟨by decide, by decide, by decide⟩, fun _ => ⟨rfl, rfl, rfl⟩, rfl, rfl, rfl, ?_, rfl, rfl, rfl,
    rfl, rfl, rfl⟩
  · intro n h0 h1 h2
    simp [proc_new, h0, h1, h2]
  · intro n hn
    have hn2 : n ≠ wrap64 (k.pid_cur + 1) := hn
    simp [proc_new, hn2]

theorem C29_witness :
    (proc_new ex_kernel "sh").1.pid = 2 ∧
    (proc_new ex_kernel "sh").1.fds 3 = none ∧
    (proc_new ex_kernel "sh").2.allprocs 1 = ex_kernel.allprocs 1 :=
  ⟨by decide,
    (C29_proc_new ex_kernel "sh").2.2.2.2.2.2.2.2.1 3 (by decide) (by decide) (by decide),
    (C29_proc_new ex_kernel "sh").2.2.2.2.2.2.2.2.2.2.2.2.2.2.1 1 (by decide)⟩

theorem proc_new_other (k : Kernel) (name : String) (n : Int)
    (hn : n ≠ (proc_new k name).1.pid) : (proc_new k name).2.allprocs n = k.allprocs n := by
  have hn2 : n ≠ wrap64 (k.pid_cur + 1) := hn
  simp [proc_new, hn2]

theorem proc_new_inv (k : Kernel) (name : String) (hI : PidInv k)
    (hroom : k.pid_cur < 2 ^ 63 - 1) :
    (proc_new k name).1.pid = k.pid_cur + 1 ∧ (proc_new k name).2.pid_cur = k.pid_cur + 1 ∧
      PidInv (proc_new k name).2 := by
  have hw : wrap64 (k.pid_cur + 1) = k.pid_cur + 1 :=
    wrap64_id (by have := hI.1; omega) (by omega)
  have h1 : (proc_new k name).1.pid = k.pid_cur + 1 := hw
  have h2 : (proc_new k name).2.pid_cur = k.pid_cur + 1 := hw
  refine ⟨h1, h2, ?_, ?_⟩
  · rw [h2]; have := hI.1; omega
  · intro n hn
    rw [h2]
    by_cases hc : n = k.pid_cur + 1
    · have := hI.1; omega
    · have hc2 : n ≠ wrap64 (k.pid_cur + 1) := by rw [hw]; exact hc
      have e : (proc_new k name).2.allprocs n = k.allprocs n := by
        simp [proc_new, hc2]
      rw [e] at hn
      have := hI.2 n hn
      omega

theorem proc_kill_inv (k : Kernel) (pid : Int) (r : proc_t) (k1 : Kernel) (hI : PidInv k)
    (h : proc_kill k pid = some (r, k1)) :
    r.dead = true ∧ proc_get k1 pid = none ∧ k1.pid_cur = k.pid_cur ∧ PidInv k1 ∧
      1 ≤ pid ∧ pid ≤ k.pid_cur := by
  unfold proc_kill at h
  cases hp : k.allprocs pid with
  | none => rw [hp] at h; cases h
  | some p =>
    rw [hp] at h
    simp only [Option.some.injEq, Prod.mk.injEq] at h
    obtain ⟨rfl, rfl⟩ := h
    have hpid := hI.2 pid (by rw [hp]; exact fun c => by cases c)
    refine ⟨rfl, by simp [proc_get], rfl, ⟨hI.1, ?_⟩, hpid.1, hpid.2⟩
    intro n hn
    by_cases hc : n = pid
    · rw [hc]; exact hpid
    · have e : (if n = pid then none else k.allprocs n) = k.allprocs n := by simp [hc]
      exact hI.2 n (by
        intro c
        apply hn
        show (if n = pid then none else k.allprocs n) = none
        rw [e, c])

/-- The pids that a sequence of calls returns count up from `pid_cur + 1`. -/
theorem proc_run_pids (ops : List ProcOp) :
    ∀ (k k2 : Kernel) (pids : List Int), PidInv k → k.pid_cur + ops.length < 2 ^ 63 - 1 →
      proc_run k ops = some (k2, pids) →
      pids = (List.range pids.length).map (fun (i : Nat) => k.pid_cur + 1 + (i : Int)) ∧
        k2.pid_cur = k.pid_cur + pids.length ∧ PidInv k2 := by
  induction ops with
  | nil =>
    intro k k2 pids hI _ h
    simp only [proc_run, Option.some.injEq, Prod.mk.injEq] at h
    obtain ⟨rfl, rfl⟩ := h
    exact ⟨rfl, by simp, hI⟩
  | cons op ops ih =>
    intro k k2 pids hI hlen h
    simp only [List.length_cons, Nat.cast_add, Nat.cast_one] at hlen
    cases op with
    | new name =>
      obtain ⟨h1, h2, h3⟩ := proc_new_inv k name hI (by omega)
      unfold proc_run at h
      cases hr : proc_run (proc_new k name).2 ops with
      | none => rw [hr] at h; cases h
      | some r =>
        obtain ⟨k3, rest⟩ := r
        rw [hr] at h
        simp only [Option.some.injEq, Prod.mk.injEq] at h
        obtain ⟨rfl, rfl⟩ := h
        obtain ⟨e1, e2, e3⟩ := ih _ _ _ h3 (by rw [h2]; omega) hr
        refine ⟨?_, ?_, e3⟩
        · rw [List.length_cons, List.range_succ_eq_map, List.map_cons, List.map_map, h1]
          congr 1
          · simp
          · conv => lhs; rw [e1]
            apply List.map_congr_left
            intro i _
            simp only [Function.comp, h2, Nat.succ_eq_add_one]
            push_cast
            ring
        · rw [e2, h2, List.length_cons]
          push_cast
          ring
    | kill pid =>
      unfold proc_run at h
      cases hk : proc_kill k pid with
      | none => rw [hk] at h; cases h
      | some r =>
        obtain ⟨q, k1⟩ := r
        rw [hk] at h
        obtain ⟨_, _, hc, hI1, _, _⟩ := proc_kill_inv k pid q k1 hI hk
        have := ih k1 k2 pids hI1 (by rw [hc]; omega) h
        rw [hc] at this
        exact this

theorem proc_run_gone (ops : List ProcOp) :
    ∀ (k k2 : Kernel) (pids : List Int) (n : Int), PidInv k →
      k.pid_cur + ops.length < 2 ^ 63 - 1 → proc_run k ops = some (k2, pids) →
      n ≤ k.pid_cur → k.allprocs n = none → k2.allprocs n = none := by
  induction ops with
  | nil =>
    intro k k2 pids n _ _ h _ hn
    simp only [proc_run, Option.some.injEq, Prod.mk.injEq] at h
    rw [← h.1]; exact hn
  | cons op ops ih =>
    intro k k2 pids n hI hlen h hle hn
    simp only [List.length_cons, Nat.cast_add, Nat.cast_one] at hlen
    cases op with
    | new name =>
      obtain ⟨h1, h2, h3⟩ := proc_new_inv k name hI (by omega)
      unfold proc_run at h
      cases hr : proc_run (proc_new k name).2 ops with
      | none => rw [hr] at h; cases h
      | some r =>
        obtain ⟨k3, rest⟩ := r
        rw [hr] at h
        simp only [Option.some.injEq, Prod.mk.injEq] at h
        obtain ⟨rfl, _⟩ := h
        refine ih _ _ _ n h3 (by rw [h2]; omega) hr (by rw [h2]; omega) ?_
        have hne : n ≠ (proc_new k name).1.pid := by rw [h1]; omega
        rw [(proc_new_other k name n hne)]
        exact hn
    | kill pid =>
      unfold proc_run at h
      cases hk : proc_kill k pid with
      | none => rw [hk] at h; cases h
      | some r =>
        obtain ⟨q, k1⟩ := r
        rw [hk] at h
        obtain ⟨_, _, hc, hI1, _, _⟩ := proc_kill_inv k pid q k1 hI hk
        refine ih k1 k2 pids n hI1 (by rw [hc]; omega) h (by rw [hc]; exact hle) ?_
        unfold proc_kill at hk
        cases hp : k.allprocs pid with
        | none => rw [hp] at hk; cases hk
        | some p =>
          rw [hp] at hk
          simp only [Option.some.injEq, Prod.mk.injEq] at hk
          rw [← hk.2]
          show (if n = pid then none else k.allprocs n) = none
          split_ifs
          · rfl
          · exact hn

theorem kernel_boot_inv (s : Phys) : PidInv (kernel_boot s) :=
  ⟨le_refl _, fun _ hn => absurd rfl hn⟩

/-- C28: over any sequence of calls of `proc_new` and `proc_kill` from boot
(shorter than the largest `int`, so that the counter does not wrap), the pids
that `proc_new` returns are 1, 2, 3, ... in this order, each one greater than
the one before; so none is returned twice and 0 is never returned; the table
holds no record under key 0; and a `proc_kill(pid)` that follows marks the
record dead and leaves the table without the key `pid`, so that `proc_get(pid)`
panics, also after any further calls, none of which returns `pid` again. -/
theorem C28_pids_strictly_increasing (s : Phys) (ops : List ProcOp) (k2 : Kernel)
    (pids : List Int) (hlen : (ops.length : Int) + 1 < 2 ^ 63 - 1)
    (h : proc_run (kernel_boot s) ops = some (k2, pids)) :
    pids = (List.range pids.length).map (fun (i : Nat) => (i : Int) + 1) ∧
    pids.Nodup ∧ 0 ∉ pids ∧ k2.allprocs 0 = none ∧
    (∀ pid r k3, proc_kill k2 pid = some (r, k3) →
      r.dead = true ∧ proc_get k3 pid = none ∧
      ∀ ops2 k4 pids2, (ops.length : Int) + 1 + ops2.length < 2 ^ 63 - 1 →
        proc_run k3 ops2 = some (k4, pids2) → pid ∉ pids2 ∧ proc_get k4 pid = none) := by
  have hb := kernel_boot_inv s
  have h0 : (kernel_boot s).pid_cur = 0 := rfl
  obtain ⟨e1, e2, e3⟩ := proc_run_pids ops (kernel_boot s) k2 pids hb (by rw [h0]; omega) h
  rw [h0] at e1 e2
  have hform : pids = (List.range pids.length).map (fun (i : Nat) => (i : Int) + 1) := by
    conv => lhs; rw [e1]
    apply List.map_congr_left
    intro i _
    ring
  have hlenle : pids.length ≤ ops.length := by
    have : ∀ (ops : List ProcOp) (k k2 : Kernel) (pids : List Int),
        proc_run k ops = some (k2, pids) → pids.length ≤ ops.length := by
      intro ops
      induction ops with
      | nil =>
        intro k k2 pids h
        simp only [proc_run, Option.some.injEq, Prod.mk.injEq] at h
        rw [← h.2]; exact le_refl _
      | cons op ops ih =>
        intro k k2 pids h
        cases op with
        | new name =>
          unfold proc_run at h
          cases hr : proc_run (proc_new k name).2 ops with
          | none => rw [hr] at h; cases h
          | some r =>
            obtain ⟨k3, rest⟩ := r
            rw [hr] at h
            simp only [Option.some.injEq, Prod.mk.injEq] at h
            rw [← h.2]
            have := ih _ _ _ hr
            simp only [List.length_cons]
            omega
        | kill pid =>
          unfold proc_run at h
          cases hk : proc_kill k pid with
          | none => rw [hk] at h; cases h
          | some r =>
            rw [hk] at h
            have := ih _ _ _ h
            simp only [List.length_cons]
            omega
    exact this ops _ _ _ h
  refine ⟨hform, ?_, ?_, ?_, ?_⟩
  · rw [hform]
    exact (List.nodup_range _).map (fun a b hab => by
      have : (a : Int) = b := by linarith
      exact_mod_cast this)
  · rw [hform]
    intro hc
    rw [List.mem_map] at hc
    obtain ⟨i, _, hi⟩ := hc
    omega
  · by_contra hc
    have := e3.2 0 hc
    omega
  · intro pid r k3 hk
    obtain ⟨hd, hg, hc, hI3, hp1, hp2⟩ := proc_kill_inv k2 pid r k3 e3 hk
    refine ⟨hd, hg, ?_⟩
    intro ops2 k4 pids2 hl2 hr2
    have hcur : k3.pid_cur + ops2.length < 2 ^ 63 - 1 := by
      rw [hc, e2]
      have : ((pids.length : Nat) : Int) ≤ ops.length := by exact_mod_cast hlenle
      omega
    obtain ⟨f1, _, _⟩ := proc_run_pids ops2 k3 k4 pids2 hI3 hcur hr2
    constructor
    · rw [f1]
      intro hc2
      rw [List.mem_map] at hc2
      obtain ⟨i, _, hi⟩ := hc2
      rw [hc] at hi
      omega
    · exact proc_run_gone ops2 k3 k4 pids2 pid hI3 hcur hr2 (by rw [hc]; exact hp2) hg

theorem C28_witness :
    ∃ k2, proc_run (kernel_boot ex_phys) [ProcOp.new "a", ProcOp.kill 1, ProcOp.new "b"]
        = some (k2, [1, 2]) ∧
      ([1, 2] : List Int).Nodup ∧ k2.allprocs 0 = none :=
  ⟨_, rfl,
    (C28_pids_strictly_increasing ex_phys [ProcOp.new "a", ProcOp.kill 1, ProcOp.new "b"] _
      [1, 2] (by decide) rfl).2.1,
    (C28_pids_strictly_increasing ex_phys [ProcOp.new "a", ProcOp.kill 1, ProcOp.new "b"] _
      [1, 2] (by decide) rfl).2.2.2.1⟩

theorem tsnext_emod {head : Int} (h : 0 ≤ head) : tsnext head = (head + 1) % 64 := by
  unfold tsnext maxtstore
  rw [Int.tmod_eq_emod (by omega) (by decide)]

theorem halted_stays (handlers : Int → Bool) (sched : List Action) :
    ∀ s : RingSys, s.stub.pc = StubPc.halted →
      (sched.foldl (RingSys.step handlers) s).stub.pc = StubPc.halted ∧
      (sched.foldl (RingSys.step handlers) s).cpu.tshead = s.cpu.tshead ∧
      (sched.foldl (RingSys.step handlers) s).cpu.trapstore = s.cpu.trapstore ∧
      (sched.foldl (RingSys.step handlers) s).enq = s.enq := by
  induction sched with
  | nil => intro s h; exact ⟨h, rfl, rfl, rfl⟩
  | cons a sched ih =>
    intro s h
    rw [List.foldl_cons]
    have key : (RingSys.step handlers s a).stub.pc = StubPc.halted ∧
        (RingSys.step handlers s a).cpu.tshead = s.cpu.tshead ∧
        (RingSys.step handlers s a).cpu.trapstore = s.cpu.trapstore ∧
        (RingSys.step handlers s a).enq = s.enq := by
      cases a with
      | interrupt tf pid cr2 =>
        have e : RingSys.step handlers s (Action.interrupt tf pid cr2) = s := by
          show stub_enter s tf pid cr2 = s
          unfold stub_enter
          rw [h]
        rw [e]
        exact ⟨h, rfl, rfl, rfl⟩
      | stub =>
        have e : RingSys.step handlers s Action.stub = s := by
          show stub_step s = s
          simp only [stub_step, h]
        rw [e]
        exact ⟨h, rfl, rfl, rfl⟩
      | trap =>
        show (trap_step handlers s).stub.pc = StubPc.halted ∧
          (trap_step handlers s).cpu.tshead = s.cpu.tshead ∧
          (trap_step handlers s).cpu.trapstore = s.cpu.trapstore ∧
          (trap_step handlers s).enq = s.enq
        unfold trap_step
        dsimp only
        split
        case h_3 =>
          split <;> exact ⟨h, rfl, rfl, rfl⟩
        all_goals exact ⟨h, rfl, rfl, rfl⟩
    obtain ⟨k1, k2, k3, k4⟩ := key
    obtain ⟨i1, i2, i3, i4⟩ := ih _ k1
    exact ⟨i1, i2.trans k2, i3.trans k3, i4.trans k4⟩

/-- C30: `trapstub` ends in one of its `for {}` loops, with the array `cpus`
(every ring's head, tail and records) as it was, (a) when `pid` is 0 and the
trap number is below `IRQ_BASE`, and (b) when the ring of the interrupting CPU
is full, `(head + 1) mod 64 = tail`. In the statement-by-statement model the stub
entered from the interrupted code halts in the same two cases without a write
to the ring, and a halted stub stays halted over every further interleaving: it
never returns, and the head and the records of the ring stay as they were. -/
theorem C30_trapstub_halts_without_enqueue :
    (∀ (cpus : Int → cpu_t) (lapid : Int) (tf : Tf) (pid cr2 : Int),
      pid = 0 → tf TF_TRAP < IRQ_BASE →
      trapstub cpus lapid tf pid cr2 = (StubEnd.halted, cpus)) ∧
    (∀ (cpus : Int → cpu_t) (lapid : Int) (tf : Tf) (pid cr2 : Int),
      0 ≤ lapid → lapid < maxcpus → 0 ≤ (cpus lapid).num → (cpus lapid).num < maxcpus →
      0 ≤ (cpus (cpus lapid).num).tshead →
      ((cpus (cpus lapid).num).tshead + 1) % 64 = (cpus (cpus lapid).num).tstail →
      trapstub cpus lapid tf pid cr2 = (StubEnd.halted, cpus)) ∧
    (∀ (s : RingSys) (tf : Tf) (pid cr2 : Int),
      s.stub.pc = StubPc.idle → pid = 0 → tf TF_TRAP < IRQ_BASE →
      (stub_enter s tf pid cr2).stub.pc = StubPc.halted ∧
      (stub_enter s tf pid cr2).cpu = s.cpu ∧ (stub_enter s tf pid cr2).enq = s.enq) ∧
    (∀ (s : RingSys) (tf : Tf) (pid cr2 : Int),
      s.stub.pc = StubPc.idle → ¬ (pid = 0 ∧ tf TF_TRAP < IRQ_BASE) →
      0 ≤ s.cpu.tshead → (s.cpu.tshead + 1) % 64 = s.cpu.tstail →
      (stub_step (stub_enter s tf pid cr2)).stub.pc = StubPc.halted ∧
      (stub_step (stub_enter s tf pid cr2)).cpu = s.cpu ∧
      (stub_step (stub_enter s tf pid cr2)).enq = s.enq) ∧
    (∀ (handlers : Int → Bool) (sched : List Action) (s : RingSys),
      s.stub.pc = StubPc.halted →
      (sched.foldl (RingSys.step handlers) s).stub.pc = StubPc.halted ∧
      (sched.foldl (RingSys.step handlers) s).cpu.tshead = s.cpu.tshead ∧
      (sched.foldl (RingSys.step handlers) s).cpu.trapstore = s.cpu.trapstore ∧
      (sched.foldl (RingSys.step handlers) s).enq = s.enq) := by
  refine ⟨?_, ?_, ?_, ?_, ?_⟩
  · intro cpus lapid tf pid cr2 hp ht
    unfold trapstub
    simp only [hp, ht, and_self, if_true]
  · intro cpus lapid tf pid cr2 h1 h2 h3 h4 h5 h6
    unfold trapstub
    by_cases hk : pid = 0 ∧ tf TF_TRAP < IRQ_BASE
    · simp only [hk, and_self, if_true]
    · have hn : tsnext (cpus (cpus lapid).num).tshead = (cpus (cpus lapid).num).tstail := by
        rw [tsnext_emod h5]; exact h6
      simp only [hk, if_false, h1, h2, h3, h4, and_self, not_true_eq_false, hn, if_true]
  · intro s tf pid cr2 hpc hp ht
    unfold stub_enter
    rw [hpc]
    simp only [hp, ht, and_self, if_true]
  · intro s tf pid cr2 hpc hk h5 h6
    have he : stub_enter s tf pid cr2 =
        { s with stub := ⟨StubPc.rdtail, tf, pid, cr2, s.cpu.tshead, s.stub.tail⟩ } := by
      unfold stub_enter
      rw [hpc]
      simp only [hk, if_false]
    rw [he]
    have hn : tsnext s.cpu.tshead = s.cpu.tstail := by rw [tsnext_emod h5]; exact h6
    simp only [stub_step, hn, if_true, and_self]
  · intro handlers sched s h
    exact halted_stays handlers sched s h

theorem C30_witness :
    trapstub (fun _ => ⟨0, fun _ => trapstore_t.zero, 63, 0⟩) 0 (fun _ => SYSCALL) 1 0
      = (StubEnd.halted, fun _ => ⟨0, fun _ => trapstore_t.zero, 63, 0⟩) :=
  C30_trapstub_halts_without_enqueue.2.1 (fun _ => ⟨0, fun _ => trapstore_t.zero, 63, 0⟩) 0
    (fun _ => SYSCALL) 1 0 (by decide) (by decide) (by decide) (by decide) (by decide) (by decide)

theorem land_zero_right (y : Int) : Int.land y 0 = 0 := by
  cases y with
  | ofNat n => show ((n &&& 0 : Nat) : Int) = 0; simp
  | negSucc n => show ((Nat.ldiff 0 n : Nat) : Int) = 0; simp [Nat.ldiff]

/-- The mask `O_RDONLY | O_WRONLY | O_RDWR` keeps the low two bits of the
flags, also of negative flags. -/
theorem land_three (x : Int) : Int.land x 3 = x % 4 := by
  have h3 : (3 : Int) = Int.bit true (Int.bit true 0) := by decide
  conv => lhs; rw [← Int.bit_decomp x, h3, Int.land_bit, ← Int.bit_decomp (Int.div2 x), Int.land_bit]
  rw [land_zero_right]
  have e1 := Int.bodd_add_div2 x
  have e2 := Int.bodd_add_div2 (Int.div2 x)
  simp only [Int.bit_val, Bool.and_true]
  cases hb : Int.bodd x <;> cases hc : Int.bodd (Int.div2 x) <;> simp [hb, hc] at e1 e2 ⊢ <;> omega

theorem open_mask : Int.lor (Int.lor O_RDONLY O_WRONLY) O_RDWR = 3 := by decide

theorem open_check (flags : Int) :
    (Int.land flags (Int.lor (Int.lor O_RDONLY O_WRONLY) O_RDWR) ≠ O_RDONLY ∧
      Int.land flags (Int.lor (Int.lor O_RDONLY O_WRONLY) O_RDWR) ≠ O_WRONLY ∧
      Int.land flags (Int.lor (Int.lor O_RDONLY O_WRONLY) O_RDWR) ≠ O_RDWR) ↔ flags % 4 = 3 := by
  rw [open_mask, land_three]
  unfold O_RDONLY O_WRONLY O_RDWR
  omega

theorem sys_open_bad_flags {σ : Type} (fs : FsOps σ) (k : Kernel) (w : σ) (proc : proc_t)
    (pathn flags mode : Int) (path : List Nat)
    (hs : is_mapped_str k.phys proc.pmap pathn fs.NAME_MAX = some (path, true, false))
    (hf : flags % 4 = 3) :
    sys_open fs k w proc pathn flags mode = some (-EINVAL, proc, k, w) := by
  unfold sys_open
  rw [hs]
  simp only [Bool.not_true, Bool.false_eq_true, if_false]
  rw [if_pos ((open_check flags).2 hf)]

theorem sys_open_good_flags {σ : Type} (fs : FsOps σ) (k : Kernel) (w : σ) (proc : proc_t)
    (pathn flags mode : Int) (path : List Nat)
    (hs : is_mapped_str k.phys proc.pmap pathn fs.NAME_MAX = some (path, true, false))
    (hf : flags % 4 ≠ 3) :
    sys_open fs k w proc pathn flags mode =
      if (fs.path_sanitize proc.cwd path).2 then some (-ENOENT, proc, k, w)
      else if (fs.fs_open (fs.path_sanitize proc.cwd path).1 flags mode w).1.2 ≠ 0 then
        some ((fs.fs_open (fs.path_sanitize proc.cwd path).1 flags mode w).1.2, proc, k,
          (fs.fs_open (fs.path_sanitize proc.cwd path).1 flags mode w).2)
      else
        match fd_new k proc with
        | none => none
        | some (fdn, fd, proc1, k1) =>
          some (fdn, proc1,
            { k1 with fdtab := fun n => if n = fd then
                ⟨(fs.fs_open (fs.path_sanitize proc.cwd path).1 flags mode w).1.1, 0,
                  if Int.land flags O_APPEND ≠ 0 then Int.lor (flags % 4) O_APPEND else flags % 4⟩
                else k1.fdtab n },
            (fs.fs_open (fs.path_sanitize proc.cwd path).1 flags mode w).2) := by
  unfold sys_open
  rw [hs]
  simp only [Bool.not_true, Bool.false_eq_true, if_false]
  rw [if_neg (fun h => hf ((open_check flags).1 h))]
  simp only [open_mask, land_three]

/-- C23: for a path that is mapped and not too long, the mask of `sys_open`
keeps the low two bits of the flags; when these are 3, so that the flags do
not select exactly one of `O_RDONLY` (0), `O_WRONLY` (1), `O_RDWR` (2),
`sys_open` returns `-EINVAL` with the process, the descriptors and the
filesystem as they were, whatever `path_sanitize` and `fs_open` are; this is
the only case in which it returns `-EINVAL` whatever they are; and when the low
two bits are 0, 1 or 2 the check passes: the path is sanitized (`-ENOENT` when
it is bad) and `fs_open` is called with the flags (its error is returned). -/
theorem C23_open_flags_einval {σ : Type} (fs : FsOps σ) (k : Kernel) (w : σ) (proc : proc_t)
    (pathn flags mode : Int) (path : List Nat)
    (hs : is_mapped_str k.phys proc.pmap pathn fs.NAME_MAX = some (path, true, false)) :
    Int.land flags (Int.lor (Int.lor O_RDONLY O_WRONLY) O_RDWR) = flags % 4 ∧
    (flags % 4 = 3 → sys_open fs k w proc pathn flags mode = some (-EINVAL, proc, k, w)) ∧
    (flags % 4 = 3 ↔ ∀ fs2 : FsOps σ, fs2.NAME_MAX = fs.NAME_MAX →
      sys_open fs2 k w proc pathn flags mode = some (-EINVAL, proc, k, w)) ∧
    (flags % 4 = O_RDONLY ∨ flags % 4 = O_WRONLY ∨ flags % 4 = O_RDWR →
      ((fs.path_sanitize proc.cwd path).2 = true →
        sys_open fs k w proc pathn flags mode = some (-ENOENT, proc, k, w)) ∧
      ((fs.path_sanitize proc.cwd path).2 = false →
        (fs.fs_open (fs.path_sanitize proc.cwd path).1 flags mode w).1.2 ≠ 0 →
        sys_open fs k w proc pathn flags mode =
          some ((fs.fs_open (fs.path_sanitize proc.cwd path).1 flags mode w).1.2, proc, k,
            (fs.fs_open (fs.path_sanitize proc.cwd path).1 flags mode w).2))) := by
  refine ⟨by rw [open_mask, land_three], sys_open_bad_flags fs k w proc pathn flags mode path hs,
    ⟨?_, ?_⟩, ?_⟩
  · intro hf fs2 hn
    exact sys_open_bad_flags fs2 k w proc pathn flags mode path (by rw [hn]; exact hs) hf
  · intro hall
    by_contra hf
    have h2 := hall { fs with path_sanitize := fun _ _ => ([], true) } rfl
    rw [sys_open_good_flags { fs with path_sanitize := fun _ _ => ([], true) } k w proc pathn
      flags mode path hs hf] at h2
    simp only [if_true, Option.some.injEq, Prod.mk.injEq] at h2
    exact absurd h2.1 (by decide)
  · intro hm
    have hf : flags % 4 ≠ 3 := by
      unfold O_RDONLY O_WRONLY O_RDWR at hm
      omega
    refine ⟨?_, ?_⟩
    · intro hb
      rw [sys_open_good_flags fs k w proc pathn flags mode path hs hf, if_pos hb]
    · intro hb he
      rw [sys_open_good_flags fs k w proc pathn flags mode path hs hf, hb]
      simp only [Bool.false_eq_true, if_false]
      rw [if_pos he]

theorem ex_abc_str : is_mapped_str ex_kernel2.phys ex_user.pmap ex_abc ex_fs.NAME_MAX
    = some ([0x61, 0x62, 0x63], true, false) := by decide

theorem C23_witness :
    sys_open ex_fs ex_kernel2 () ex_user ex_abc 0x403 0 = some (-EINVAL, ex_user, ex_kernel2, ()) :=
  (C23_open_flags_einval ex_fs ex_kernel2 () ex_user ex_abc 0x403 0 _ ex_abc_str).2.1 (by decide)

theorem lor_append {m : Int} (h : m = 0 ∨ m = 1 ∨ m = 2) : Int.lor m O_APPEND = m + O_APPEND := by
  rcases h with h | h | h <;> subst h <;> decide

theorem fd_new_spec (k : Kernel) (p : proc_t) (hI : FdInv p) :
    p.fds p.nextfd = none ∧
    fd_new k p = some (p.nextfd, k.nfd,
      { p with nextfd := p.nextfd + 1,
               fds := fun n => if n = p.nextfd then some k.nfd else p.fds n },
      { k with nfd := k.nfd + 1,
               fdtab := fun r => if r = k.nfd then ⟨none, 0, 0⟩ else k.fdtab r }) := by
  obtain ⟨h1, h2, h3⟩ := hI
  have hn : p.fds p.nextfd = none := by
    by_contra hc
    exact absurd (h1 _ hc) (lt_irrefl _)
  refine ⟨hn, ?_⟩
  unfold fd_new
  simp only [hn]
  rw [wrap64_id (by omega) (by omega)]

theorem proc_new_fds (k : Kernel) (name : String) :
    FdInv (proc_new k name).1 ∧ (proc_new k name).1.nextfd = 3 := by
  refine ⟨⟨?_, (by decide : (0 : Int) ≤ 3), (by decide : (3 : Int) < 2 ^ 63 - 1)⟩, rfl⟩
  intro n hn
  show n < 3
  have hn2 : (if n = 0 then some fd_stdin else if n = 1 then some fd_stdout
      else if n = 2 then some fd_stderr else none) ≠ none := hn
  split_ifs at hn2 <;> first | omega | exact absurd rfl hn2

/-- C24: in a process whose descriptors are all below `nextfd`, a `sys_open`
that passes its checks and whose `fs_open` succeeds returns the `nextfd` of
before the call, which was not in the descriptor table; `nextfd` is one more
after it, the other descriptors are as they were, and the new record holds
the handle of `fs_open`, offset 0 and as `perms` the access mode `flags & 3`,
plus `O_APPEND` iff `flags & O_APPEND` is not 0; the descriptors are again all
below `nextfd`. In every other case `sys_open` returns `-EFAULT`,
`-ENAMETOOLONG`, `-EINVAL`, `-ENOENT` or the non-zero error of `fs_open`, with
the process (its descriptor table and `nextfd`) and the descriptor records as
they were. The record that `proc_new` makes has its descriptors below its
`nextfd`, which is 3: the first open in a fresh process returns 3. -/
theorem C24_open_returns_next_fd {σ : Type} (fs : FsOps σ) (k : Kernel) (w : σ) (proc : proc_t)
    (pathn flags mode : Int) (path : List Nat) (ok toolong : Bool) (hI : FdInv proc)
    (hs : is_mapped_str k.phys proc.pmap pathn fs.NAME_MAX = some (path, ok, toolong)) :
    (ok = true → toolong = false → flags % 4 ≠ 3 →
      (fs.path_sanitize proc.cwd path).2 = false →
      (fs.fs_open (fs.path_sanitize proc.cwd path).1 flags mode w).1.2 = 0 →
      ∃ proc1 k1,
        sys_open fs k w proc pathn flags mode = some (proc.nextfd, proc1, k1,
          (fs.fs_open (fs.path_sanitize proc.cwd path).1 flags mode w).2) ∧
        proc.fds proc.nextfd = none ∧
        proc1.nextfd = proc.nextfd + 1 ∧
        proc1.fds proc.nextfd = some k.nfd ∧
        (∀ n, n ≠ proc.nextfd → proc1.fds n = proc.fds n) ∧
        k1.fdtab k.nfd = ⟨(fs.fs_open (fs.path_sanitize proc.cwd path).1 flags mode w).1.1, 0,
          flags % 4 + if Int.land flags O_APPEND ≠ 0 then O_APPEND else 0⟩ ∧
        (∀ r, r ≠ k.nfd → k1.fdtab r = k.fdtab r) ∧
        k1.nfd = k.nfd + 1 ∧
        (∀ n, proc1.fds n ≠ none → n < proc1.nextfd) ∧
        (proc.nextfd + 1 < 2 ^ 63 - 1 → FdInv proc1)) ∧
    (¬ (ok = true ∧ toolong = false ∧ flags % 4 ≠ 3 ∧
        (fs.path_sanitize proc.cwd path).2 = false ∧
        (fs.fs_open (fs.path_sanitize proc.cwd path).1 flags mode w).1.2 = 0) →
      ∃ e w1, sys_open fs k w proc pathn flags mode = some (e, proc, k, w1) ∧
        (e = -EFAULT ∨ e = -ENAMETOOLONG ∨ e = -EINVAL ∨ e = -ENOENT ∨
          (e = (fs.fs_open (fs.path_sanitize proc.cwd path).1 flags mode w).1.2 ∧ e ≠ 0))) ∧
    (∀ (k0 : Kernel) (name : String),
      FdInv (proc_new k0 name).1 ∧ (proc_new k0 name).1.nextfd = 3) := by
  refine ⟨?_, ?_, proc_new_fds⟩
  · intro hok htl hf hb he
    subst hok htl
    obtain ⟨hn, hfd⟩ := fd_new_spec k proc hI
    have hm : flags % 4 = 0 ∨ flags % 4 = 1 ∨ flags % 4 = 2 := by omega
    rw [sys_open_good_flags fs k w proc pathn flags mode path hs hf, hb]
    simp only [Bool.false_eq_true, if_false, he, ne_eq, not_true_eq_false, hfd]
    refine ⟨_, _, rfl, hn, rfl, ?_, ?_, ?_, ?_, rfl, ?_, ?_⟩
    · simp only [if_true]
    · intro n hne
      simp only [hne, if_false]
    · simp only [if_true]
      by_cases ha : Int.land flags O_APPEND = 0
      · simp only [ha, not_true_eq_false, if_false, add_zero]
      · simp only [ha, not_false_eq_true, if_true, lor_append hm]
    · intro r hne
      simp only [hne, if_false]
    · intro n hne
      show n < proc.nextfd + 1
      by_cases hc : n = proc.nextfd
      · omega
      · simp only [hc, if_false] at hne
        have := hI.1 n hne
        omega
    · intro hroom
      refine ⟨?_, ?_, ?_⟩
      · intro n hne
        show n < proc.nextfd + 1
        by_cases hc : n = proc.nextfd
        · omega
        · simp only [hc, if_false] at hne
          have := hI.1 n hne
          omega
      · show 0 ≤ proc.nextfd + 1
        have := hI.2.1
        omega
      · exact hroom
  · intro hnot
    cases ok with
    | false =>
      refine ⟨-EFAULT, w, ?_, Or.inl rfl⟩
      unfold sys_open
      rw [hs]
      simp only [Bool.not_false, if_true]
    | true =>
      cases toolong with
      | true =>
        refine ⟨-ENAMETOOLONG, w, ?_, Or.inr (Or.inl rfl)⟩
        unfold sys_open
        rw [hs]
        simp only [Bool.not_true, Bool.false_eq_true, if_false, if_true]
      | false =>
        by_cases hf : flags % 4 = 3
        · exact ⟨-EINVAL, w, sys_open_bad_flags fs k w proc pathn flags mode path hs hf,
            Or.inr (Or.inr (Or.inl rfl))⟩
        · rw [sys_open_good_flags fs k w proc pathn flags mode path hs hf]
          cases hb : (fs.path_sanitize proc.cwd path).2 with
          | true =>
            exact ⟨-ENOENT, w, by simp only [if_true], Or.inr (Or.inr (Or.inr (Or.inl rfl)))⟩
          | false =>
            have he : (fs.fs_open (fs.path_sanitize proc.cwd path).1 flags mode w).1.2 ≠ 0 := by
              intro hc
              exact hnot ⟨rfl, rfl, hf, hb, hc⟩
            refine ⟨(fs.fs_open (fs.path_sanitize proc.cwd path).1 flags mode w).1.2,
              (fs.fs_open (fs.path_sanitize proc.cwd path).1 flags mode w).2, ?_,
              Or.inr (Or.inr (Or.inr (Or.inr ⟨rfl, he⟩)))⟩
            simp only [Bool.false_eq_true, if_false]
            rw [if_pos he]

theorem ex_user_fds : FdInv ex_user := by
  refine ⟨?_, (by decide : (0 : Int) ≤ 4), (by decide : (4 : Int) < 2 ^ 63 - 1)⟩
  intro n hn
  show n < 4
  have hn2 : (if n = 0 then some fd_stdin else if n = 1 then some fd_stdout
      else if n = 2 then some fd_stderr else if n = 3 then some 3 else none) ≠ none := hn
  split_ifs at hn2 <;> first | omega | exact absurd rfl hn2

theorem C24_witness :
    ∃ proc1 k1, sys_open ex_fs ex_kernel2 () ex_user ex_abc 0x401 0 = some (4, proc1, k1, ()) ∧
      proc1.nextfd = 5 ∧ k1.fdtab 4 = ⟨some ⟨7⟩, 0, 0x401⟩ :=
  match (C24_open_returns_next_fd ex_fs ex_kernel2 () ex_user ex_abc 0x401 0 _ _ _
      ex_user_fds ex_abc_str).1 rfl rfl (by decide) rfl rfl with
  | ⟨p1, k1, h1, _, h3, _, _, h6, _⟩ => ⟨p1, k1, h1, h3, h6⟩

/-- When the page of `va` is mapped and the bytes from `va` to the end of that
page hold a NUL, `is_mapped_str` returns the bytes before the NUL as a valid
string whatever `lenmax` is: the length is compared with `lenmax` only after
the whole rest of the page has been searched for the NUL. -/
theorem is_mapped_str_first_page (s : Phys) (pmap : Nat) (va lenmax : Int) (fr idx : Nat)
    (s1 : Phys) (r : Nat → Option Nat) (str : Slice)
    (hw : pmap_walk s (fun _ => none) pmap (bits64 (wrap64 (va + 0))) false 0
      = some (some (fr, idx), s1, r))
    (hp : s.mem fr idx &&& PTE_P ≠ 0)
    (hd : dmap8 ((s.mem fr idx &&& PTE_ADDR) + (bits64 va &&& PGOFFSET)) = some str)
    (hz : ((str.bytes s.mem).takeWhile (fun c => c ≠ 0)).length < (str.bytes s.mem).length) :
    is_mapped_str s pmap va lenmax
      = some ((str.bytes s.mem).takeWhile (fun c => c ≠ 0), true, false) := by
  unfold is_mapped_str is_mapped_str_loop
  simp only [hw, hp, if_false, hd, hz, if_true, List.nil_append]

theorem ex_abc_any (lenmax : Int) :
    is_mapped_str ex_phys2 0x1000 ex_abc lenmax = some ([0x61, 0x62, 0x63], true, false) := by
  have hw : pmap_walk ex_phys2 (fun _ => none) 0x1000 (bits64 (wrap64 (ex_abc + 0))) false 0
      = some (some (0x4000, 2), ex_phys2, fun _ => none) := by
    have h : walk_ro ex_mem2 0x1000 (bits64 (wrap64 (ex_abc + 0))) = some (some (0x4000, 2)) := by
      decide
    rw [pmap_walk_ro, show ex_phys2.mem = ex_mem2 from rfl, h]
    rfl
  have hd : dmap8 ((ex_phys2.mem 0x4000 2 &&& PTE_ADDR) + (bits64 ex_abc &&& PGOFFSET))
      = some ⟨0x7ffc, 4⟩ := by decide
  have h := is_mapped_str_first_page ex_phys2 0x1000 ex_abc lenmax 0x4000 2 _ _ _ hw
    (by decide) hd (by decide)
  rw [h]
  decide

/-- C25: the string "abc" of length 3 and its NUL lie in one page at `ex_abc`;
with `lenmax` 2 the first two bytes hold no NUL, and `is_mapped_str` still
returns "abc" as a valid string that is not too long; it does so for every
`lenmax`, and `sys_open` of that path opens it as descriptor 4 whatever
`NAME_MAX` is, where `-ENAMETOOLONG` is due for a `NAME_MAX` up to 3. -/
theorem C25_long_string_in_one_page_accepted :
    (List.range 4).map (fun (i : Nat) =>
      phys_byte ex_mem2 (user_phys ex_mem2 0x1000 (ex_abc + (i : Int)))) = [0x61, 0x62, 0x63, 0] ∧
    is_mapped_str ex_phys2 0x1000 ex_abc 2 = some ([0x61, 0x62, 0x63], true, false) ∧
    (∀ lenmax : Int, is_mapped_str ex_phys2 0x1000 ex_abc lenmax
      = some ([0x61, 0x62, 0x63], true, false)) ∧
    (∀ nm : Int, ∃ p1 k1,
      sys_open { ex_fs with NAME_MAX := nm } ex_kernel2 () ex_user ex_abc 0 0
        = some (4, p1, k1, ())) := by
  refine ⟨by decide, by decide, ex_abc_any, ?_⟩
  intro nm
  have hs : is_mapped_str ex_kernel2.phys ex_user.pmap ex_abc
      ({ ex_fs with NAME_MAX := nm } : FsOps Unit).NAME_MAX
      = some ([0x61, 0x62, 0x63], true, false) := ex_abc_any nm
  rw [sys_open_good_flags { ex_fs with NAME_MAX := nm } ex_kernel2 () ex_user ex_abc 0 0 _ hs
    (by decide)]
  rw [(fd_new_spec ex_kernel2 ex_user ex_user_fds).2]
  exact ⟨_, _, rfl⟩

/-- C26: the user memory at `ex_hello`, two bytes before the end of a page,
holds "hello" and a NUL, all of it mapped (the next page is in another frame),
and `is_mapped_str` with `lenmax` 16 returns "he": on the second page it reads
at the offset of `va` in its page, where the frame holds a NUL. -/
theorem C26_string_across_pages_truncated :
    (List.range 6).map (fun (i : Nat) =>
      phys_byte ex_mem2 (user_phys ex_mem2 0x1000 (ex_hello + (i : Int))))
        = [0x68, 0x65, 0x6c, 0x6c, 0x6f, 0] ∧
    is_mapped ex_phys2 0x1000 ex_hello 6 = some true ∧
    is_mapped_str ex_phys2 0x1000 ex_hello 16 = some ([0x68, 0x65], true, false) := by
  refine ⟨by decide, by decide, by decide⟩

theorem syscall_states_of_switch {σ : Type} (fs : FsOps σ) (k : Kernel) (w : σ) (pid : Int)
    (tf : Tf) (p : proc_t) (ret : Int) (p1 : proc_t) (k1 : Kernel) (w1 : σ)
    (hp : k.allprocs pid = some p)
    (hs : syscall_switch fs k w pid p tf = some (ret, p1, k1, w1)) (hd : p1.dead = false) :
    syscall_states fs k w pid tf
      = some [(tf, k), (tf, k1), (fun i => if i = TF_RAX then ret else tf i, k1),
          (fun i => if i = TF_RAX then ret else tf i,
            { k1 with runnable := k1.runnable
                ++ [(pid, some (fun i => if i = TF_RAX then ret else tf i))] })] := by
  unfold syscall_states proc_get
  rw [hp]
  dsimp only
  rw [hs]
  simp only [hd, Bool.not_false, if_true]

/-- The four points of `syscall` for a fork: `sys_fork` has handed the child
to `runtime.Procadd` at the second point, where the parent's frame is still
the one of the call. -/
theorem fork_states {σ : Type} (fs : FsOps σ) (w : σ) (k : Kernel) (pid : Int)
    (parent : proc_t) (tf : Tf) (V : Nat → Nat → Prop)
    (hp : k.allprocs pid = some parent) (hlive : parent.dead = false)
    (hcall : tf TF_RAX = SYS_FORK)
    (hroot : V 4 parent.pmap) (hshape : Shape k.phys.mem V)
    (hsep : ∀ f d, V 1 f → ¬ V (d + 2) f)
    (htrack : ∀ f i, V 1 f → i < 512 → k.phys.mem f i &&& PTE_P ≠ 0 →
      k.phys.mem f i &&& PTE_U ≠ 0 →
      parent.pages (k.phys.mem f i &&& PTE_ADDR) ≠ none ∧
        parent.upages (k.phys.mem f i &&& PTE_ADDR) ≠ none)
    (hgood : GoodHeap k.phys.heap V k.phys.nalloc
      (k.phys.nalloc + 1 + tables_below k.phys.mem 4 parent.pmap))
    (hlo : 0 ≤ k.pid_cur) (hcur : k.pid_cur < 2 ^ 63 - 1) :
    ∃ (child : proc_t) (k1 : Kernel),
      syscall_states fs k w pid tf
        = some [(tf, k), (tf, k1), (fun i => if i = TF_RAX then k.pid_cur + 1 else tf i, k1),
            (fun i => if i = TF_RAX then k.pid_cur + 1 else tf i,
              { k1 with runnable := k1.runnable
                  ++ [(pid, some (fun i => if i = TF_RAX then k.pid_cur + 1 else tf i))] })] ∧
      syscall fs k w pid tf
        = some (fun i => if i = TF_RAX then k.pid_cur + 1 else tf i, parent,
            { k1 with runnable := k1.runnable
                ++ [(pid, some (fun i => if i = TF_RAX then k.pid_cur + 1 else tf i))] }, w) ∧
      child.pid = k.pid_cur + 1 ∧
      k1.procadd = k.procadd
        ++ [(fun i => if i = TF_RAX then 0 else tf i, k.pid_cur + 1, child.p_pmap)] ∧
      k1.runnable = k.runnable := by
  obtain ⟨child, k1, _, hf, hpid, _⟩ := sys_fork_spec k parent tf V hroot hshape hsep htrack hgood
  have hw : wrap64 (k.pid_cur + 1) = k.pid_cur + 1 := wrap64_id (by omega) (by omega)
  rw [hw] at hpid
  rw [hpid] at hf
  obtain ⟨hrun, _, _, _, hadd, _, _, _⟩ := sys_fork_runnable k parent tf _ _ _ hf
  have hs : syscall_switch fs k w pid parent tf = some (k.pid_cur + 1, parent, k1, w) := by
    rw [switch_fork fs k w pid parent tf hcall, hf]
    rfl
  exact ⟨child, k1, syscall_states_of_switch fs k w pid tf parent _ _ k1 w hp hs hlive,
    (syscall_of_switch fs k w pid tf parent _ _ k1 w hp hs).1 hlive, hpid, hadd, hrun⟩

/-- C21: fork ordering, for a parent as `sys_fork_spec` takes it. Of the four points of
`syscall(pid, tf)` for `SYS_FORK` (entry, after the `switch`, after
`tf[TF_RAX] = ret`, return), the child is in the list of `runtime.Procadd` from
the second on, where the parent's frame is still the frame of the call with
`SYS_FORK` in RAX; the frame holds the pid of the child in RAX from the third
on, no other slot changed; and the parent is handed to `runtime.Procrunnable`
with that frame at the fourth only. So the event that makes the child
schedulable precedes the write `tf[RAX] = child pid`, which precedes the event
that makes the parent runnable. -/
theorem C21_fork_ordering {σ : Type} (fs : FsOps σ) (w : σ) (k : Kernel) (pid : Int)
    (parent : proc_t) (tf : Tf) (V : Nat → Nat → Prop)
    (hp : k.allprocs pid = some parent) (hlive : parent.dead = false)
    (hcall : tf TF_RAX = SYS_FORK)
    (hroot : V 4 parent.pmap) (hshape : Shape k.phys.mem V)
    (hsep : ∀ f d, V 1 f → ¬ V (d + 2) f)
    (htrack : ∀ f i, V 1 f → i < 512 → k.phys.mem f i &&& PTE_P ≠ 0 →
      k.phys.mem f i &&& PTE_U ≠ 0 →
      parent.pages (k.phys.mem f i &&& PTE_ADDR) ≠ none ∧
        parent.upages (k.phys.mem f i &&& PTE_ADDR) ≠ none)
    (hgood : GoodHeap k.phys.heap V k.phys.nalloc
      (k.phys.nalloc + 1 + tables_below k.phys.mem 4 parent.pmap))
    (hlo : 0 ≤ k.pid_cur) (hcur : k.pid_cur < 2 ^ 63 - 1) :
    ∃ (child : proc_t) (k1 : Kernel) (tf1 : Tf) (k2 : Kernel),
      syscall_states fs k w pid tf = some [(tf, k), (tf, k1), (tf1, k1), (tf1, k2)] ∧
      syscall fs k w pid tf = some (tf1, parent, k2, w) ∧
      child.pid = k.pid_cur + 1 ∧
      k1.procadd = k.procadd
        ++ [(fun i => if i = TF_RAX then 0 else tf i, child.pid, child.p_pmap)] ∧
      tf TF_RAX = SYS_FORK ∧
      tf1 TF_RAX = child.pid ∧ (∀ i, i ≠ TF_RAX → tf1 i = tf i) ∧
      k1.runnable = k.runnable ∧
      k2.runnable = k.runnable ++ [(pid, some tf1)] ∧
      k2.procadd = k1.procadd := by
  obtain ⟨child, k1, h1, h2, h3, h4, h5⟩ :=
    fork_states fs w k pid parent tf V hp hlive hcall hroot hshape hsep htrack hgood hlo hcur
  refine ⟨child, k1, _, _, h1, h2, h3, by rw [h3]; exact h4, hcall, ?_, ?_, h5, ?_, rfl⟩
  · rw [h3]
    simp only [if_true]
  · intro i hi
    simp only [hi, if_false]
  · show k1.runnable ++ _ = _
    rw [h5]

theorem C21_witness :
    ∃ (child : proc_t) (k1 : Kernel) (tf1 : Tf) (k2 : Kernel),
      syscall_states ex_fs ex_kernel () 1 (ex_tf 57 0 0 0)
        = some [(ex_tf 57 0 0 0, ex_kernel), (ex_tf 57 0 0 0, k1), (tf1, k1), (tf1, k2)] ∧
      child.pid = 2 ∧
      k1.procadd = [(fun i => if i = TF_RAX then 0 else ex_tf 57 0 0 0 i, child.pid, child.p_pmap)] ∧
      tf1 TF_RAX = child.pid ∧
      k2.runnable = [(1, some tf1)] :=
  (C21_fork_ordering ex_fs () ex_kernel 1 ex_parent (ex_tf 57 0 0 0) ex_V rfl rfl
    rfl (Or.inl ⟨rfl, rfl⟩) ex_shape ex_sep ex_track ex_good_fork (by decide) (by decide)).imp
    (fun _ h => h.imp (fun _ h2 => h2.imp (fun _ h3 => h3.imp
      (fun _ h4 => ⟨h4.1, h4.2.2.1, h4.2.2.2.1, h4.2.2.2.2.2.1, h4.2.2.2.2.2.2.2.2.1⟩))))

/-- C21, counterexample: in the fork of process 1 of `ex_kernel`, after the
`switch` of `syscall` the child, pid 2, is in the list of `runtime.Procadd`
(which was empty on entry) while RAX of the parent's frame holds 57, the number
of the call, and not yet the pid of the child. -/
theorem C21_counterexample :
    ex_kernel.procadd = [] ∧
    ∃ k1 rest, syscall_states ex_fs ex_kernel () 1 (ex_tf 57 0 0 0)
        = some ((ex_tf 57 0 0 0, ex_kernel) :: (ex_tf 57 0 0 0, k1) :: rest) ∧
      k1.procadd.map (fun e => e.2.1) = [2] ∧
      ex_tf 57 0 0 0 TF_RAX = 57 := by
  obtain ⟨child, k1, h1, _, _, h4, _⟩ :=
    fork_states ex_fs () ex_kernel 1 ex_parent (ex_tf 57 0 0 0) ex_V rfl rfl
      rfl (Or.inl ⟨rfl, rfl⟩) ex_shape ex_sep ex_track ex_good_fork (by decide) (by decide)
  refine ⟨rfl, k1, _, h1, ?_, rfl⟩
  rw [h4]
  rfl

theorem slice_bytes_addrs (m : Mem) (sl : Slice) : sl.bytes m = sl.addrs.map (phys_byte m) := by
  unfold Slice.bytes Slice.addrs
  rw [List.map_map]
  rfl

theorem console_fold (m : Mem) (srcs : List Slice) :
    ∀ (acc : List (Int × Int)) (c : Int), 0 ≤ c →
      c + ((srcs.map fun sl => sl.len).sum : Nat) < 2 ^ 63 →
      srcs.foldl
        (fun (st : List (Int × Int) × Int) sl =>
          (st.1 ++ (sl.bytes m).map (fun c => (int8 c, 0x17)), wrap64 (st.2 + sl.len)))
        (acc, c)
      = (acc ++ ((srcs.flatMap Slice.addrs).map fun a => (int8 (phys_byte m a), 0x17)),
          c + ((srcs.map fun sl => sl.len).sum : Nat)) := by
  induction srcs with
  | nil => intro acc c _ _; simp
  | cons sl srcs ih =>
    intro acc c hc hlt
    simp only [List.map_cons, List.sum_cons, Nat.cast_add] at hlt
    rw [List.foldl_cons]
    dsimp only
    rw [wrap64_id (by omega) (by omega), ih _ _ (by omega) (by omega)]
    simp only [List.flatMap_cons, List.map_append, List.append_assoc, List.map_cons, List.sum_cons,
      Nat.cast_add, slice_bytes_addrs, List.map_map]
    refine Prod.ext ?_ ?_
    · rfl
    · show c + (sl.len : Int) + _ = c + ((sl.len : Int) + _)
      ring

/-- What `sys_write` does for a descriptor of the console: the bytes of the
buffer go to `runtime.Putcha` in order, the count is `sz`, and
`fd.offset += ret` runs on the sentinel record. -/
theorem sys_write_console {σ : Type} (fs : FsOps σ) (k : Kernel) (w : σ) (proc : proc_t)
    (fdn bufp sz : Int) (fd : Nat) (file : file_t)
    (hb : 0 ≤ bufp) (hs : 0 < sz) (hno : bufp + sz < 2 ^ 63)
    (hm : is_mapped k.phys proc.pmap bufp sz = some true)
    (hmap : ∀ j, j < buf_npages bufp sz →
      ∃ e, leaf_entry k.phys.mem proc.pmap (bits64 (bufp + buf_cut bufp sz j)) = some e ∧
        e &&& PTE_ADDR < 2 ^ 39)
    (hfd : proc.fds fdn = some fd) (hcons : fd = fd_stdout ∨ fd = fd_stderr)
    (hfile : (k.fdtab fd).file = some file) :
    sys_write fs k w proc fdn bufp sz
      = some (sz,
          fd_advance
            { k with console := k.console ++ (List.range sz.toNat).map fun (i : Nat) =>
                (int8 (phys_byte k.phys.mem (user_phys k.phys.mem proc.pmap (bufp + (i : Int)))),
                  0x17) }
            fd sz, w) := by
  have hsc := scatter_spec k.phys proc.pmap bufp sz hb hs hno hmap
  obtain ⟨_, _, hsum, haddr⟩ := buf_slices_spec k.phys.mem proc.pmap bufp sz hb hs hno
  have hcw : console_write k (Slice.nil :: (List.range (buf_npages bufp sz)).map
        fun j => buf_slice k.phys.mem proc.pmap bufp sz j)
      = ((sz, 0), { k with console := k.console ++ (List.range sz.toNat).map fun (i : Nat) =>
          (int8 (phys_byte k.phys.mem (user_phys k.phys.mem proc.pmap (bufp + (i : Int)))),
            0x17) }) := by
    unfold console_write
    have hlen : ((Slice.nil :: (List.range (buf_npages bufp sz)).map
        fun j => buf_slice k.phys.mem proc.pmap bufp sz j).map fun sl => sl.len).sum
        = sz.toNat := by
      rw [List.map_cons, List.sum_cons, List.map_map]
      show 0 + _ = _
      rw [Nat.zero_add]
      exact hsum
    have hfl : (Slice.nil :: (List.range (buf_npages bufp sz)).map
        fun j => buf_slice k.phys.mem proc.pmap bufp sz j).flatMap Slice.addrs
        = (List.range sz.toNat).map
            fun (i : Nat) => user_phys k.phys.mem proc.pmap (bufp + (i : Int)) := by
      rw [List.flatMap_cons]
      show [] ++ _ = _
      rw [List.nil_append]
      exact haddr
    rw [console_fold k.phys.mem _ k.console 0 (le_refl _) (by rw [hlen]; omega), hlen, hfl,
      List.map_map]
    have hz : (0 : Int) + ((sz.toNat : Nat) : Int) = sz := by omega
    simp only [hz]
    rfl
  unfold sys_write
  rw [if_neg (by omega), hm]
  dsimp only
  rw [hfd]
  dsimp only
  rw [hsc]
  dsimp only
  rw [hfile]
  dsimp only
  rw [if_pos hcons, hcw]
  simp only [ne_eq, not_true_eq_false, if_false]

/-- C22: a `sys_write` of `sz` bytes from a mapped buffer inside the direct
map to the descriptor record of stdout or of stderr returns `sz`, whatever the
filesystem is and with the filesystem as it was (`fs_write` is not called); the
console has received exactly the `sz` bytes of the buffer, in the order of
their addresses (also across a page boundary), each with the attribute `0x17`;
and the offset of the descriptor record is `sz` more than before, the rest of
the descriptor records, the processes and the memory being as they were. -/
theorem C22_console_write {σ : Type} (fs : FsOps σ) (k : Kernel) (w : σ) (proc : proc_t)
    (fdn bufp sz : Int) (fd : Nat) (file : file_t)
    (hb : 0 ≤ bufp) (hs : 0 < sz) (hno : bufp + sz < 2 ^ 63)
    (hm : is_mapped k.phys proc.pmap bufp sz = some true)
    (hmap : ∀ j, j < buf_npages bufp sz →
      ∃ e, leaf_entry k.phys.mem proc.pmap (bits64 (bufp + buf_cut bufp sz j)) = some e ∧
        e &&& PTE_ADDR < 2 ^ 39)
    (hfd : proc.fds fdn = some fd) (hcons : fd = fd_stdout ∨ fd = fd_stderr)
    (hfile : (k.fdtab fd).file = some file) :
    ∃ k2 : Kernel,
      sys_write fs k w proc fdn bufp sz = some (sz, k2, w) ∧
      (∀ fs2 : FsOps σ, sys_write fs2 k w proc fdn bufp sz = some (sz, k2, w)) ∧
      k2.console = k.console ++ (List.range sz.toNat).map (fun (i : Nat) =>
        (int8 (phys_byte k.phys.mem (user_phys k.phys.mem proc.pmap (bufp + (i : Int)))), 0x17)) ∧
      (k2.fdtab fd).offset = wrap64 ((k.fdtab fd).offset + sz) ∧
      (k2.fdtab fd).file = (k.fdtab fd).file ∧ (k2.fdtab fd).perms = (k.fdtab fd).perms ∧
      (∀ r, r ≠ fd → k2.fdtab r = k.fdtab r) ∧
      k2.phys = k.phys ∧ k2.allprocs = k.allprocs := by
  refine ⟨_, sys_write_console fs k w proc fdn bufp sz fd file hb hs hno hm hmap hfd hcons hfile,
    fun fs2 =>
      sys_write_console fs2 k w proc fdn bufp sz fd file hb hs hno hm hmap hfd hcons hfile,
    rfl, ?_, ?_, ?_, ?_, rfl, rfl⟩
  · simp only [fd_advance, if_true]
  · simp only [fd_advance, if_true]
  · simp only [fd_advance, if_true]
  · intro r hr
    simp only [fd_advance, hr, if_false]

theorem ex_hello_map : ∀ j, j < buf_npages ex_hello 5 →
    ∃ e, leaf_entry ex_kernel2.phys.mem ex_user.pmap (bits64 (ex_hello + buf_cut ex_hello 5 j))
        = some e ∧ e &&& PTE_ADDR < 2 ^ 39 := by
  intro j hj
  have h2 : buf_npages ex_hello 5 = 2 := by decide
  rw [h2] at hj
  interval_cases j
  · exact ⟨0x5007, by decide, by decide⟩
  · exact ⟨0x6007, by decide, by decide⟩

theorem ex_hello_bytes :
    (List.range (5 : Int).toNat).map (fun (i : Nat) =>
      (int8 (phys_byte ex_kernel2.phys.mem
        (user_phys ex_kernel2.phys.mem ex_user.pmap (ex_hello + (i : Int)))), (0x17 : Int)))
      = [(0x68, 0x17), (0x65, 0x17), (0x6c, 0x17), (0x6c, 0x17), (0x6f, 0x17)] := by
  decide

theorem C22_witness :
    ∃ k2 : Kernel,
      sys_write ex_fs ex_kernel2 () ex_user 1 ex_hello 5 = some (5, k2, ()) ∧
      k2.console = [(0x68, 0x17), (0x65, 0x17), (0x6c, 0x17), (0x6c, 0x17), (0x6f, 0x17)] :=
  match C22_console_write ex_fs ex_kernel2 () ex_user 1 ex_hello 5 fd_stdout dummyfile
      (by decide) (by decide) (by decide) (by decide) ex_hello_map rfl (Or.inl rfl) rfl with
  | ⟨k2, h1, _, h3, _⟩ => ⟨k2, h1, h3.trans ex_hello_bytes⟩

/-- C22, counterexample: the write of the five bytes of "hello" to descriptor 1
of `ex_user`, the record `fd_stdout`, returns 5 and leaves the offset of
`fd_stdout` at 5, which was 0. -/
theorem C22_counterexample :
    (ex_kernel2.fdtab fd_stdout).offset = 0 ∧
    ∃ k2 : Kernel, sys_write ex_fs ex_kernel2 () ex_user 1 ex_hello 5 = some (5, k2, ()) ∧
      (k2.fdtab fd_stdout).offset = 5 :=
  ⟨rfl, _,
    sys_write_console ex_fs ex_kernel2 () ex_user 1 ex_hello 5 fd_stdout dummyfile
      (by decide) (by decide) (by decide) (by decide) ex_hello_map rfl (Or.inl rfl) rfl,
    by decide⟩

/-- What `trapstub` leaves in `cpus` when it enqueues: the record at `head` of
the ring of the interrupting CPU, and its `tshead` advanced. -/
theorem trapstub_enqueue (cpus : Int → cpu_t) (lapid : Int) (tf : Tf) (pid cr2 : Int)
    (hfatal : ¬ (pid = 0 ∧ tf TF_TRAP < IRQ_BASE))
    (h1 : 0 ≤ lapid) (h2 : lapid < maxcpus)
    (h3 : 0 ≤ (cpus lapid).num) (h4 : (cpus lapid).num < maxcpus)
    (h5 : 0 ≤ (cpus (cpus lapid).num).tshead) (h6 : (cpus (cpus lapid).num).tshead < maxtstore)
    (hfull : tsnext (cpus (cpus lapid).num).tshead ≠ (cpus (cpus lapid).num).tstail) :
    trapstub cpus lapid tf pid cr2
      = (if tf TF_TRAP = SYSCALL ∨ tf TF_TRAP = PGFAULT then StubEnd.yielded
          else if tf TF_TRAP = INT_DISK ∨ tf TF_TRAP = INT_KBD then StubEnd.continued
          else StubEnd.halted,
         fun j => if j = (cpus lapid).num then
           { cpus (cpus lapid).num with
             trapstore := setSlot (cpus (cpus lapid).num).trapstore
               (cpus (cpus lapid).num).tshead
               { trapno := tf TF_TRAP, pid := pid, tf := tf,
                 faultaddr := if tf TF_TRAP = PGFAULT then cr2
                   else ((cpus (cpus lapid).num).trapstore
                     (cpus (cpus lapid).num).tshead).faultaddr },
             tshead := tsnext (cpus (cpus lapid).num).tshead }
           else cpus j) := by
  unfold trapstub
  simp only [hfatal, if_false, h1, h2, h3, h4, h5, h6, and_self, not_true_eq_false, hfull]
  split_ifs <;> rfl

/-- C31: for a trap that is not fatal at entry (`pid` not 0 or the trap number
at least `IRQ_BASE`), on a CPU whose `lap_id` and number index `cpus` and whose
ring is not full, `trapstub` writes the record at `head` of that ring, with the
trap number, the pid, the trap frame and, for `PGFAULT`, CR2 as the fault
address (for another trap the fault address of the slot stays); no other slot
and no other ring changes; `head` becomes `(head + 1) mod 64`, `tail` and
`num` stay; and the call ends in `runtime.Procyield` iff the trap is
`SYSCALL` (64) or `PGFAULT` (14), in `runtime.Proccontinue` iff it is
`INT_DISK` (46) or `INT_KBD` (33), and in `for {}` for every other number. -/
theorem C31_trapstub_enqueues_one_record (cpus : Int → cpu_t) (lapid : Int) (tf : Tf)
    (pid cr2 : Int)
    (hfatal : pid ≠ 0 ∨ tf TF_TRAP ≥ 32)
    (h1 : 0 ≤ lapid) (h2 : lapid < maxcpus)
    (h3 : 0 ≤ (cpus lapid).num) (h4 : (cpus lapid).num < maxcpus)
    (h5 : 0 ≤ (cpus (cpus lapid).num).tshead) (h6 : (cpus (cpus lapid).num).tshead < 64)
    (hfull : ((cpus (cpus lapid).num).tshead + 1) % 64 ≠ (cpus (cpus lapid).num).tstail) :
    (((trapstub cpus lapid tf pid cr2).2 (cpus lapid).num).trapstore
        (cpus (cpus lapid).num).tshead).trapno = tf TF_TRAP ∧
    (((trapstub cpus lapid tf pid cr2).2 (cpus lapid).num).trapstore
        (cpus (cpus lapid).num).tshead).pid = pid ∧
    (∀ i, (((trapstub cpus lapid tf pid cr2).2 (cpus lapid).num).trapstore
        (cpus (cpus lapid).num).tshead).tf i = tf i) ∧
    (((trapstub cpus lapid tf pid cr2).2 (cpus lapid).num).trapstore
        (cpus (cpus lapid).num).tshead).faultaddr
      = (if tf TF_TRAP = 14 then cr2
         else ((cpus (cpus lapid).num).trapstore (cpus (cpus lapid).num).tshead).faultaddr) ∧
    (∀ j, j ≠ (cpus (cpus lapid).num).tshead →
      ((trapstub cpus lapid tf pid cr2).2 (cpus lapid).num).trapstore j
        = (cpus (cpus lapid).num).trapstore j) ∧
    ((trapstub cpus lapid tf pid cr2).2 (cpus lapid).num).tshead
      = ((cpus (cpus lapid).num).tshead + 1) % 64 ∧
    ((trapstub cpus lapid tf pid cr2).2 (cpus lapid).num).tstail
      = (cpus (cpus lapid).num).tstail ∧
    ((trapstub cpus lapid tf pid cr2).2 (cpus lapid).num).num = (cpus (cpus lapid).num).num ∧
    (∀ c, c ≠ (cpus lapid).num → (trapstub cpus lapid tf pid cr2).2 c = cpus c) ∧
    ((trapstub cpus lapid tf pid cr2).1 = StubEnd.yielded ↔ tf TF_TRAP = 64 ∨ tf TF_TRAP = 14) ∧
    ((trapstub cpus lapid tf pid cr2).1 = StubEnd.continued ↔
      tf TF_TRAP = 46 ∨ tf TF_TRAP = 33) ∧
    ((trapstub cpus lapid tf pid cr2).1 = StubEnd.halted ↔
      tf TF_TRAP ≠ 64 ∧ tf TF_TRAP ≠ 14 ∧ tf TF_TRAP ≠ 46 ∧ tf TF_TRAP ≠ 33) := by
  have hf : ¬ (pid = 0 ∧ tf TF_TRAP < IRQ_BASE) := by
    unfold IRQ_BASE
    omega
  have hn : tsnext (cpus (cpus lapid).num).tshead ≠ (cpus (cpus lapid).num).tstail := by
    rw [tsnext_emod h5]; exact hfull
  rw [trapstub_enqueue cpus lapid tf pid cr2 hf h1 h2 h3 h4 h5 h6 hn]
  have e1 : SYSCALL = 64 := rfl
  have e2 : PGFAULT = 14 := rfl
  have e3 : INT_DISK = 46 := rfl
  have e4 : INT_KBD = 33 := rfl
  refine ⟨?_, ?_, ?_, ?_, ?_, ?_, ?_, ?_, ?_, ?_, ?_, ?_⟩
  · simp [setSlot]
  · simp [setSlot]
  · intro i
    simp [setSlot]
  · simp [setSlot, e2]
  · intro j hj
    simp [setSlot, hj]
  · simp [tsnext_emod h5]
  · simp
  · simp
  · intro c hc
    simp [hc]
  · rw [e1, e2, e3, e4]
    split_ifs <;> simp_all
  · rw [e1, e2, e3, e4]
    split_ifs <;> simp_all <;> omega
  · rw [e1, e2, e3, e4]
    split_ifs <;> simp_all <;> omega

theorem C31_witness :
    (((trapstub (fun _ => cpu_t.zero) 0 (fun i => if i = TF_TRAP then 14 else 7) 1 0x2000).2 0).trapstore
        0).faultaddr = 0x2000 ∧
    ((trapstub (fun _ => cpu_t.zero) 0 (fun i => if i = TF_TRAP then 14 else 7) 1 0x2000).2 0).tshead
      = 1 :=
  ⟨(C31_trapstub_enqueues_one_record (fun _ => cpu_t.zero) 0
      (fun i => if i = TF_TRAP then 14 else 7) 1 0x2000 (Or.inl (by decide)) (by decide)
      (by decide) (by decide) (by decide) (by decide) (by decide) (by decide)).2.2.2.1,
   (C31_trapstub_enqueues_one_record (fun _ => cpu_t.zero) 0
      (fun i => if i = TF_TRAP then 14 else 7) 1 0x2000 (Or.inl (by decide)) (by decide)
      (by decide) (by decide) (by decide) (by decide) (by decide)
      (by decide)).2.2.2.2.2.1⟩

theorem trap_visit_spec (handlers : Int → Bool) (cpus : Int → cpu_t) (cpu : Int)
    (h1 : 0 ≤ cpu) (h2 : cpu < 32) (h3 : 0 ≤ (cpus cpu).tstail) (h4 : (cpus cpu).tstail < 64) :
    trap_visit handlers cpus cpu
      = if (cpus cpu).tstail = (cpus cpu).tshead then Except.ok (cpus, none)
        else if handlers ((cpus cpu).trapstore (cpus cpu).tstail).trapno then
          Except.ok (fun j => if j = cpu then
              { cpus cpu with tstail := ((cpus cpu).tstail + 1) % 64 } else cpus j,
            some ((cpus cpu).trapstore (cpus cpu).tstail))
        else Except.error (TrapPanic.nohandler
          ((cpus cpu).trapstore (cpus cpu).tstail).trapno
          ((cpus cpu).trapstore (cpus cpu).tstail).pid) := by
  have hm : maxcpus = 32 := rfl
  have ht : maxtstore = 64 := rfl
  unfold trap_visit
  simp only [hm, ht, h1, h2, h3, h4, and_self, not_true_eq_false, if_false, tsnext_emod h3]

/-- The loop of `trap` from the CPU `c` on, when every record it takes has a
handler: the rings from `c` on are those of `cpus0`. -/
theorem trap_sweep_loop_ok (handlers : Int → Bool) (cpus0 : Int → cpu_t) :
    ∀ (n c : Nat) (cpus : Int → cpu_t) (acc : List (Int × trapstore_t)),
      c + n ≤ 32 →
      (∀ j : Nat, c ≤ j → cpus (j : Int) = cpus0 (j : Int)) →
      (∀ j : Nat, c ≤ j → j < c + n →
        0 ≤ (cpus0 (j : Int)).tstail ∧ (cpus0 (j : Int)).tstail < 64) →
      (∀ j : Nat, c ≤ j → j < c + n → (cpus0 (j : Int)).tstail ≠ (cpus0 (j : Int)).tshead →
        handlers ((cpus0 (j : Int)).trapstore (cpus0 (j : Int)).tstail).trapno = true) →
      trap_sweep_loop handlers n (c : Int) cpus acc
        = Except.ok
          (fun i => if (c : Int) ≤ i ∧ i < (c : Int) + (n : Int)
              ∧ (cpus0 i).tstail ≠ (cpus0 i).tshead then
              { cpus0 i with tstail := ((cpus0 i).tstail + 1) % 64 } else cpus i,
           acc ++ (List.range' c n).filterMap fun (j : Nat) =>
             if (cpus0 (j : Int)).tstail ≠ (cpus0 (j : Int)).tshead then
               some ((j : Int), (cpus0 (j : Int)).trapstore (cpus0 (j : Int)).tstail)
             else none) := by
  intro n
  induction n with
  | zero =>
    intro c cpus acc _ _ _ _
    simp only [trap_sweep_loop, List.range'_zero, List.filterMap_nil, List.append_nil]
    congr 2
    funext i
    rw [if_neg]
    intro h
    have := h.1
    have := h.2.1
    omega
  | succ n ih =>
    intro c cpus acc hle hsame htail hreg
    have hc := hsame c (le_refl _)
    have ht := htail c (le_refl _) (by omega)
    unfold trap_sweep_loop
    rw [trap_visit_spec handlers cpus c (by omega) (by omega) (by rw [hc]; exact ht.1)
      (by rw [hc]; exact ht.2), hc]
    have hcast : ((c : Int) + 1) = ((c + 1 : Nat) : Int) := by push_cast; ring
    by_cases he : (cpus0 (c : Int)).tstail = (cpus0 (c : Int)).tshead
    · rw [if_pos he]
      dsimp only
      rw [hcast, ih (c + 1) cpus acc (by omega) (fun j hj => hsame j (by omega))
        (fun j hj hj2 => htail j (by omega) (by omega))
        (fun j hj hj2 => hreg j (by omega) (by omega))]
      rw [List.range'_succ, List.filterMap_cons]
      simp only [he, ne_eq, not_true_eq_false, if_false]
      congr 2
      funext i
      by_cases hi : i = (c : Int)
      · subst hi
        have h1 : ¬ ((c + 1 : Nat) : Int) ≤ (c : Int) := by omega
        simp only [h1, false_and, if_false, he, ne_eq, not_true_eq_false, and_false]
      · have e : ((((c + 1 : Nat) : Int) ≤ i ∧ i < ((c + 1 : Nat) : Int) + (n : Int)
            ∧ ¬ (cpus0 i).tstail = (cpus0 i).tshead))
            ↔ ((c : Int) ≤ i ∧ i < (c : Int) + ((n + 1 : Nat) : Int)
            ∧ ¬ (cpus0 i).tstail = (cpus0 i).tshead) := by
          push_cast
          constructor
          · rintro ⟨a, b, d⟩; exact ⟨by omega, by omega, d⟩
          · rintro ⟨a, b, d⟩; exact ⟨by omega, by omega, d⟩
        simp only [e]
    · rw [if_neg he, hreg c (le_refl _) (by omega) he]
      simp only [if_true]
      rw [hcast, ih (c + 1) _ _ (by omega)
        (fun j hj => by
          have hne : (j : Int) ≠ (c : Int) := by omega
          simp only [hne, if_false]
          exact hsame j (by omega))
        (fun j hj hj2 => htail j (by omega) (by omega))
        (fun j hj hj2 => hreg j (by omega) (by omega))]
      rw [List.range'_succ, List.filterMap_cons]
      simp only [he, ne_eq, not_false_eq_true, if_true, List.append_assoc, List.singleton_append]
      congr 2
      funext i
      by_cases hi : i = (c : Int)
      · subst hi
        have h1 : ¬ ((c + 1 : Nat) : Int) ≤ (c : Int) := by omega
        have h2 : (c : Int) < (c : Int) + ((n + 1 : Nat) : Int) := by omega
        simp only [h1, false_and, if_false, le_refl, h2, true_and, he, ne_eq, not_false_eq_true,
          if_true]
      · have e : ((((c + 1 : Nat) : Int) ≤ i ∧ i < ((c + 1 : Nat) : Int) + (n : Int)
            ∧ ¬ (cpus0 i).tstail = (cpus0 i).tshead))
            ↔ ((c : Int) ≤ i ∧ i < (c : Int) + ((n + 1 : Nat) : Int)
            ∧ ¬ (cpus0 i).tstail = (cpus0 i).tshead) := by
          push_cast
          constructor
          · rintro ⟨a, b, d⟩; exact ⟨by omega, by omega, d⟩
          · rintro ⟨a, b, d⟩; exact ⟨by omega, by omega, d⟩
        simp only [e, hi, if_false]

/-- The loop of `trap` when the first record without a handler is the one of
the CPU `c + k`. -/
theorem trap_sweep_loop_panic (handlers : Int → Bool) (cpus0 : Int → cpu_t) :
    ∀ (k c n : Nat) (cpus : Int → cpu_t) (acc : List (Int × trapstore_t)),
      k < n → c + n ≤ 32 →
      (∀ j : Nat, c ≤ j → cpus (j : Int) = cpus0 (j : Int)) →
      (∀ j : Nat, c ≤ j → j < c + n →
        0 ≤ (cpus0 (j : Int)).tstail ∧ (cpus0 (j : Int)).tstail < 64) →
      (∀ j : Nat, c ≤ j → j < c + k → (cpus0 (j : Int)).tstail ≠ (cpus0 (j : Int)).tshead →
        handlers ((cpus0 (j : Int)).trapstore (cpus0 (j : Int)).tstail).trapno = true) →
      (cpus0 ((c + k : Nat) : Int)).tstail ≠ (cpus0 ((c + k : Nat) : Int)).tshead →
      handlers ((cpus0 ((c + k : Nat) : Int)).trapstore
        (cpus0 ((c + k : Nat) : Int)).tstail).trapno = false →
      trap_sweep_loop handlers n (c : Int) cpus acc
        = Except.error (TrapPanic.nohandler
            ((cpus0 ((c + k : Nat) : Int)).trapstore (cpus0 ((c + k : Nat) : Int)).tstail).trapno
            ((cpus0 ((c + k : Nat) : Int)).trapstore (cpus0 ((c + k : Nat) : Int)).tstail).pid) := by
  intro k
  induction k with
  | zero =>
    intro c n cpus acc hk hle hsame htail _ hne hno
    obtain ⟨m, rfl⟩ : ∃ m, n = m + 1 := ⟨n - 1, by omega⟩
    have hc := hsame c (le_refl _)
    have ht := htail c (le_refl _) (by omega)
    simp only [Nat.add_zero] at hne hno ⊢
    unfold trap_sweep_loop
    rw [trap_visit_spec handlers cpus c (by omega) (by omega) (by rw [hc]; exact ht.1)
      (by rw [hc]; exact ht.2), hc, if_neg hne, hno]
    rfl
  | succ k ih =>
    intro c n cpus acc hk hle hsame htail hreg hne hno
    obtain ⟨m, rfl⟩ : ∃ m, n = m + 1 := ⟨n - 1, by omega⟩
    have hc := hsame c (le_refl _)
    have ht := htail c (le_refl _) (by omega)
    have hcast : ((c : Int) + 1) = ((c + 1 : Nat) : Int) := by push_cast; ring
    have hck : c + (k + 1) = c + 1 + k := by omega
    rw [hck] at hne hno ⊢
    unfold trap_sweep_loop
    rw [trap_visit_spec handlers cpus c (by omega) (by omega) (by rw [hc]; exact ht.1)
      (by rw [hc]; exact ht.2), hc]
    by_cases he : (cpus0 (c : Int)).tstail = (cpus0 (c : Int)).tshead
    · rw [if_pos he]
      dsimp only
      rw [hcast]
      exact ih (c + 1) m cpus acc (by omega) (by omega) (fun j hj => hsame j (by omega))
        (fun j hj hj2 => htail j (by omega) (by omega))
        (fun j hj hj2 => hreg j (by omega) (by omega)) hne hno
    · rw [if_neg he, hreg c (le_refl _) (by omega) he]
      simp only [if_true]
      rw [hcast]
      exact ih (c + 1) m _ _ (by omega) (by omega)
        (fun j hj => by
          have hne : (j : Int) ≠ (c : Int) := by omega
          simp only [hne, if_false]
          exact hsame j (by omega))
        (fun j hj hj2 => htail j (by omega) (by omega))
        (fun j hj hj2 => hreg j (by omega) (by omega)) hne hno

theorem sweep_records_eq (cpus : Int → cpu_t) (numcpus : Int) :
    sweep_records cpus numcpus
      = (List.range' 0 numcpus.toNat).filterMap fun (j : Nat) =>
          if (cpus (j : Int)).tstail ≠ (cpus (j : Int)).tshead then
            some ((j : Int), (cpus (j : Int)).trapstore (cpus (j : Int)).tstail)
          else none := by
  unfold sweep_records
  rw [List.range_eq_range']

/-- C32: one sweep of `trap` over the CPUs `0 .. numcpus - 1` (at most 32,
each `tail` inside its ring). When every record at the `tail` of a ring that
is not empty has a handler, the sweep returns; the handler tasks it started
are, in the order of the CPUs, one for each ring that is not empty, each with
the copy of the record at `tail`; in such a ring `tail` is one further modulo
64 while `head` and the records stay, and the empty rings and the rings of the
other CPUs are untouched. When the record at the `tail` of the ring of a CPU
has no handler (and the records of the CPUs before it have one), the sweep
panics with `no handler for trap`. The handlers that `main` registers are
those of `GPFAULT`, `PGFAULT`, `SYSCALL`, `INT_DISK` and `INT_KBD`. -/
theorem C32_dispatcher_sweep (handlers : Int → Bool) (numcpus : Int) (cpus : Int → cpu_t)
    (hn0 : 0 ≤ numcpus) (hn : numcpus ≤ maxcpus)
    (htail : ∀ c, 0 ≤ c → c < numcpus → 0 ≤ (cpus c).tstail ∧ (cpus c).tstail < 64) :
    ((∀ c, 0 ≤ c → c < numcpus → (cpus c).tstail ≠ (cpus c).tshead →
        handlers ((cpus c).trapstore (cpus c).tstail).trapno = true) →
      trap_sweep handlers numcpus cpus
        = Except.ok (swept cpus numcpus, sweep_records cpus numcpus)) ∧
    (∀ c, 0 ≤ c → c < numcpus → (cpus c).tstail ≠ (cpus c).tshead →
      handlers ((cpus c).trapstore (cpus c).tstail).trapno = false →
      (∀ j, 0 ≤ j → j < c → (cpus j).tstail ≠ (cpus j).tshead →
        handlers ((cpus j).trapstore (cpus j).tstail).trapno = true) →
      trap_sweep handlers numcpus cpus
        = Except.error (TrapPanic.nohandler ((cpus c).trapstore (cpus c).tstail).trapno
            ((cpus c).trapstore (cpus c).tstail).pid)) ∧
    (∀ c, 0 ≤ c → c < numcpus → (cpus c).tstail ≠ (cpus c).tshead →
      (swept cpus numcpus c).tstail = ((cpus c).tstail + 1) % 64 ∧
      (swept cpus numcpus c).tshead = (cpus c).tshead ∧
      (swept cpus numcpus c).trapstore = (cpus c).trapstore ∧
      (swept cpus numcpus c).num = (cpus c).num) ∧
    (∀ c, ¬ (0 ≤ c ∧ c < numcpus ∧ (cpus c).tstail ≠ (cpus c).tshead) →
      swept cpus numcpus c = cpus c) ∧
    (∀ t, main_handlers t = true ↔ t = 13 ∨ t = 14 ∨ t = 64 ∨ t = 46 ∨ t = 33) := by
  have hm : maxcpus = 32 := rfl
  rw [hm] at hn
  have hcast : ((numcpus.toNat : Nat) : Int) = numcpus := Int.toNat_of_nonneg hn0
  refine ⟨?_, ?_, ?_, ?_, ?_⟩
  · intro hreg
    unfold trap_sweep
    have h := trap_sweep_loop_ok handlers cpus numcpus.toNat 0 cpus [] (by omega)
      (fun _ _ => rfl)
      (fun j _ hj => htail j (by omega) (by omega))
      (fun j _ hj hne => hreg j (by omega) (by omega) hne)
    simp only [Nat.cast_zero] at h
    rw [h, sweep_records_eq, List.nil_append]
    congr 2
    funext i
    unfold swept
    simp only [zero_add, hcast]
  · intro c hc0 hc1 hne hno hbefore
    unfold trap_sweep
    have hcc : ((0 + c.toNat : Nat) : Int) = c := by
      rw [Nat.zero_add]; exact Int.toNat_of_nonneg hc0
    have h := trap_sweep_loop_panic handlers cpus c.toNat 0 numcpus.toNat cpus [] (by omega)
      (by omega) (fun _ _ => rfl)
      (fun j _ hj => htail j (by omega) (by omega))
      (fun j _ hj hne2 => hbefore j (by omega) (by omega) hne2)
      (by rw [hcc]; exact hne) (by rw [hcc]; exact hno)
    rw [hcc] at h
    simp only [Nat.cast_zero] at h
    exact h
  · intro c hc0 hc1 hne
    unfold swept
    rw [if_pos ⟨hc0, hc1, hne⟩]
    exact ⟨rfl, rfl, rfl, rfl⟩
  · intro c hc
    unfold swept
    rw [if_neg hc]
  · intro t
    unfold main_handlers GPFAULT PGFAULT SYSCALL INT_DISK INT_KBD IRQ_BASE IRQ_DISK IRQ_KBD
    simp only [decide_eq_true_eq]
    omega

theorem C32_witness :
    trap_sweep main_handlers 1 ex_cpus = Except.ok (swept ex_cpus 1, sweep_records ex_cpus 1) ∧
    trap_sweep (fun _ => false) 1 ex_cpus = Except.error (TrapPanic.nohandler 64 1) :=
  ⟨(C32_dispatcher_sweep main_handlers 1 ex_cpus (by decide) (by decide)
      (fun c h0 h1 => by
        have e : c = 0 := by omega
        subst e
        decide)).1
      (fun c h0 h1 _ => by
        have e : c = 0 := by omega
        subst e
        decide),
    (C32_dispatcher_sweep (fun _ => false) 1 ex_cpus (by decide) (by decide)
      (fun c h0 h1 => by
        have e : c = 0 := by omega
        subst e
        decide)).2.1 0 (by decide) (by decide) (by decide) rfl
      (fun j h0 h1 => by omega)⟩

theorem kbd_irq_inv (km : Int → Option Nat) (s : KbdState) (st sc : Int) (h : KbdInv s) :
    KbdInv (kbd_irq km s st sc) := by
  unfold kbd_irq
  split_ifs
  · exact h
  · unfold KbdInv
    simp only [decide_eq_true_eq, ne_eq, List.length_eq_zero]

theorem kbd_irqs_inv (km : Int → Option Nat) (irqs : List (Int × Int)) :
    ∀ s : KbdState, KbdInv s → KbdInv (irqs.foldl (fun t e => kbd_irq km t e.1 e.2) s) := by
  induction irqs with
  | nil => intro s h; exact h
  | cons e irqs ih =>
    intro s h
    rw [List.foldl_cons]
    exact ih _ (kbd_irq_inv km s e.1 e.2 h)

theorem take_min_length (l : List Nat) (a : Nat) : l.take (min a l.length) = l.take a := by
  by_cases h : a ≤ l.length
  · rw [min_eq_left h]
  · rw [min_eq_right (by omega), List.take_of_length_le (le_refl _),
      List.take_of_length_le (by omega)]

theorem kbd_req_spec (s : KbdState) (l : Int) (h : KbdInv s) :
    (s.data = [] → kbd_req s l = KbdReq.blocked) ∧
    (s.data ≠ [] → l < 0 → kbd_req s l = KbdReq.fault) ∧
    (s.data ≠ [] → 0 ≤ l →
      kbd_req s l = KbdReq.reply (s.data.take (min l.toNat s.data.length)) ⟨[], false⟩) := by
  unfold KbdInv at h
  refine ⟨?_, ?_, ?_⟩
  · intro he
    have hr : s.reqc = false := by
      cases hq : s.reqc with
      | false => rfl
      | true => exact absurd he (h.1 hq)
    unfold kbd_req
    simp only [hr, Bool.not_false, if_true]
  · intro hne hl
    have hr : s.reqc = true := h.2 hne
    unfold kbd_req
    simp only [hr, Bool.not_true, Bool.false_eq_true, if_false]
    have h1 : ¬ l > (s.data.length : Int) := by omega
    rw [if_neg h1, if_pos hl]
  · intro hne hl
    have hr : s.reqc = true := h.2 hne
    unfold kbd_req
    simp only [hr, Bool.not_true, Bool.false_eq_true, if_false]
    by_cases h1 : l > (s.data.length : Int)
    · rw [if_pos h1, if_neg (by omega)]
      have e : min l.toNat s.data.length = s.data.length := by omega
      rw [e, Int.toNat_ofNat]
    · rw [if_neg h1, if_neg (by omega)]
      have e : min l.toNat s.data.length = l.toNat := by omega
      rw [e]

/-- C34: the keyboard daemon as a step machine on its accumulator, at the head
of its loop (where `reqc` is not nil exactly when the accumulator is not
empty, which holds on entry and after every turn). A request is received only
when the accumulator is not empty; a request for `l >= 0` bytes with `n >= 1`
bytes accumulated is answered with the first `min(l, n)` accumulated bytes, in
the order of arrival, and leaves the accumulator empty. So `kbd_get(cnt)`
panics for a negative `cnt`; for `cnt >= 0` it never faults, it blocks exactly
while the accumulator is empty, and what it returns has at most `cnt` bytes
and, when `cnt >= 1`, at least one. -/
theorem C34_kbd_read_contract (km : Int → Option Nat) (s : KbdState) (hI : KbdInv s) :
    (∀ l, kbd_req s l = KbdReq.blocked ↔ s.data = []) ∧
    (∀ l, s.data ≠ [] → 0 ≤ l →
      kbd_req s l = KbdReq.reply (s.data.take (min l.toNat s.data.length)) ⟨[], false⟩) ∧
    KbdInv kbd_boot ∧
    (∀ st sc, KbdInv (kbd_irq km s st sc)) ∧
    (∀ l bytes s1, kbd_req s l = KbdReq.reply bytes s1 → KbdInv s1 ∧ s1.data = []) ∧
    (∀ irqs cnt, cnt < 0 → kbd_get km s irqs cnt = KbdReq.fault) ∧
    (∀ irqs cnt, 0 ≤ cnt → kbd_get km s irqs cnt ≠ KbdReq.fault ∧
      (kbd_get km s irqs cnt = KbdReq.blocked ↔
        (irqs.foldl (fun t e => kbd_irq km t e.1 e.2) s).data = [])) ∧
    (∀ irqs cnt bytes s1, kbd_get km s irqs cnt = KbdReq.reply bytes s1 →
      bytes = (irqs.foldl (fun t e => kbd_irq km t e.1 e.2) s).data.take cnt.toNat ∧
      (bytes.length : Int) ≤ cnt ∧ (1 ≤ cnt → 1 ≤ bytes.length) ∧ s1.data = []) := by
  have key : ∀ (t : KbdState), KbdInv t → ∀ l bytes s1, kbd_req t l = KbdReq.reply bytes s1 →
      0 ≤ l ∧ t.data ≠ [] ∧ bytes = t.data.take (min l.toNat t.data.length) ∧ s1 = ⟨[], false⟩ := by
    intro t ht l bytes s1 h
    obtain ⟨h1, h2, h3⟩ := kbd_req_spec t l ht
    by_cases he : t.data = []
    · rw [h1 he] at h; cases h
    · by_cases hl : l < 0
      · rw [h2 he hl] at h; cases h
      · rw [h3 he (by omega)] at h
        simp only [KbdReq.reply.injEq] at h
        exact ⟨by omega, he, h.1.symm, h.2.symm⟩
  refine ⟨?_, ?_, ?_, ?_, ?_, ?_, ?_, ?_⟩
  · intro l
    obtain ⟨h1, h2, h3⟩ := kbd_req_spec s l hI
    constructor
    · intro hb
      by_contra he
      by_cases hl : l < 0
      · rw [h2 he hl] at hb; cases hb
      · rw [h3 he (by omega)] at hb; cases hb
    · exact h1
  · intro l hne hl
    exact (kbd_req_spec s l hI).2.2 hne hl
  · unfold KbdInv kbd_boot
    simp
  · intro st sc
    exact kbd_irq_inv km s st sc hI
  · intro l bytes s1 h
    obtain ⟨_, _, _, rfl⟩ := key s hI l bytes s1 h
    refine ⟨?_, rfl⟩
    unfold KbdInv
    simp
  · intro irqs cnt hc
    unfold kbd_get
    rw [if_pos hc]
  · intro irqs cnt hc
    have hT := kbd_irqs_inv km irqs s hI
    obtain ⟨h1, h2, h3⟩ := kbd_req_spec (irqs.foldl (fun t e => kbd_irq km t e.1 e.2) s) cnt hT
    unfold kbd_get
    rw [if_neg (by omega)]
    by_cases he : (irqs.foldl (fun t e => kbd_irq km t e.1 e.2) s).data = []
    · rw [h1 he]
      exact ⟨by simp, by simp [he]⟩
    · rw [h3 he hc]
      exact ⟨by simp, by simp [he]⟩
  · intro irqs cnt bytes s1 h
    have hT := kbd_irqs_inv km irqs s hI
    unfold kbd_get at h
    by_cases hc : cnt < 0
    · rw [if_pos hc] at h; cases h
    · rw [if_neg hc] at h
      obtain ⟨hl, hne, hb, rfl⟩ := key _ hT cnt bytes s1 h
      have hlen : 1 ≤ (irqs.foldl (fun t e => kbd_irq km t e.1 e.2) s).data.length := by
        exact List.length_pos.mpr hne
      refine ⟨?_, ?_, ?_, rfl⟩
      · rw [hb]
        exact take_min_length _ _
      · rw [hb, List.length_take]
        omega
      · intro h1
        rw [hb, List.length_take]
        omega

theorem C34_witness :
    kbd_get kbd_km kbd_boot [(1, 0x1e), (1, 0x1f), (0, 0x20), (1, 0x9e)] 1
      = KbdReq.reply ['a'.toNat] ⟨[], false⟩ ∧
    (['a'.toNat].length : Int) ≤ 1 :=
  ⟨by decide,
   ((C34_kbd_read_contract kbd_km kbd_boot (by unfold KbdInv kbd_boot; simp)).2.2.2.2.2.2.2
      [(1, 0x1e), (1, 0x1f), (0, 0x20), (1, 0x9e)] 1 ['a'.toNat] ⟨[], false⟩ (by decide)).2.1⟩

/-- C35: an interrupt that finds the input-buffer-full bit of the status port
clear leaves the accumulator as it was; one that finds it set appends the
byte that the map `km` holds for the scancode, and nothing when the scancode
is no key of the map; `kbd_init` makes every index of its table a key, so
`0x1e` appends `a` and a scancode beyond the table (such as the release
`0x9e`) appends nothing, but a scancode whose table entry is `NO` (such as
`0x2a`, left shift) appends the byte 0. -/
theorem C35_scancode_without_character_appends_nul :
    (∀ km s st sc, Int.land st 1 = 0 → kbd_irq km s st sc = s) ∧
    (∀ km s st sc c, Int.land st 1 ≠ 0 → km sc = some c →
      (kbd_irq km s st sc).data = s.data ++ [c]) ∧
    (∀ km s st sc, Int.land st 1 ≠ 0 → km sc = none → (kbd_irq km s st sc).data = s.data) ∧
    (∀ sc, kbd_km sc ≠ none ↔ 0 ≤ sc ∧ sc < 88) ∧
    kbd_km 0x1e = some 'a'.toNat ∧
    kbd_irq kbd_km ⟨[], false⟩ 1 0x1e = ⟨['a'.toNat], true⟩ ∧
    kbd_irq kbd_km ⟨[], false⟩ 1 0x9e = ⟨[], false⟩ ∧
    kbd_tm[0x2a]? = some NO ∧
    kbd_irq kbd_km ⟨[], false⟩ 1 0x2a = ⟨[0], true⟩ ∧
    kbd_irq kbd_km ⟨['a'.toNat], true⟩ 1 0x1d = ⟨['a'.toNat, 0], true⟩ := by
  refine ⟨?_, ?_, ?_, ?_, by decide, by decide, by decide, by decide, by decide, by decide⟩
  · intro km s st sc h
    unfold kbd_irq kready
    simp only [h, if_true, Bool.not_false]
  · intro km s st sc c h hk
    unfold kbd_irq kready
    simp only [h, if_false, Bool.not_true, Bool.false_eq_true, hk]
  · intro km s st sc h hk
    unfold kbd_irq kready
    simp only [h, if_false, Bool.not_true, Bool.false_eq_true, hk]
  · intro sc
    unfold kbd_km
    have hl : kbd_tm.length = 88 := by decide
    constructor
    · intro h
      by_cases h0 : 0 ≤ sc
      · rw [if_pos h0] at h
        refine ⟨h0, ?_⟩
        by_contra hc
        apply h
        rw [List.getElem?_eq_none_iff]
        omega
      · rw [if_neg h0] at h
        exact absurd rfl h
    · intro ⟨h0, h1⟩
      rw [if_pos h0]
      intro hc
      rw [List.getElem?_eq_none_iff] at hc
      omega

/-- C36: `ap_entry` halts for a `lap_id` below 0 or above 32, and for one from
0 to 31 it writes `myid` into `cpus[lap_id].num` and nothing else; for the
`lap_id` 32, which its test `lid > maxcpus` lets through, it indexes `cpus`
at 32, outside the array of 32 entries. -/
theorem C36_ap_entry_indexes_cpus_at_32 :
    (∀ cpus myid, ap_entry cpus 32 myid = (ApEnd.outofrange, cpus)) ∧
    (∀ cpus lid myid, lid < 0 ∨ 32 < lid → ap_entry cpus lid myid = (ApEnd.halted, cpus)) ∧
    (∀ cpus lid myid, 0 ≤ lid → lid < 32 →
      (ap_entry cpus lid myid).1 = ApEnd.yielded ∧
      ((ap_entry cpus lid myid).2 lid).num = myid ∧
      ((ap_entry cpus lid myid).2 lid).trapstore = (cpus lid).trapstore ∧
      ((ap_entry cpus lid myid).2 lid).tshead = (cpus lid).tshead ∧
      ((ap_entry cpus lid myid).2 lid).tstail = (cpus lid).tstail ∧
      ∀ c, c ≠ lid → (ap_entry cpus lid myid).2 c = cpus c) := by
  have hm : maxcpus = 32 := rfl
  refine ⟨?_, ?_, ?_⟩
  · intro cpus myid
    unfold ap_entry
    simp only [hm]
    rw [if_neg (by omega), if_pos (by omega)]
  · intro cpus lid myid h
    unfold ap_entry
    simp only [hm]
    rw [if_pos (by omega)]
  · intro cpus lid myid h0 h1
    unfold ap_entry
    simp only [hm]
    rw [if_neg (by omega), if_neg (by omega)]
    refine ⟨rfl, ?_, ?_, ?_, ?_, ?_⟩
    · simp
    · simp
    · simp
    · simp
    · intro c hc
      simp [hc]

theorem writen_byte (v i : Nat) : ((v >>> (i * 8)) &&& 0xff) % 256 = v / 2 ^ (8 * i) % 256 := by
  have h : (0xff : Nat) = 2 ^ 8 - 1 := by decide
  rw [h, Nat.and_pow_two_sub_one_eq_mod, Nat.shiftRight_eq_div_pow, Nat.mul_comm i 8]
  norm_num

theorem getD_set_eq (a : List Nat) (p j b : Nat) (hp : p < a.length) :
    (a.set p b).getD j 0 = if j = p then b else a.getD j 0 := by
  rw [List.getD_eq_getElem?_getD, List.getD_eq_getElem?_getD, List.getElem?_set]
  by_cases h : p = j
  · subst h
    simp [hp]
  · have h2 : ¬ j = p := fun e => h e.symm
    simp [h, h2]

/-- The loop of `writen` inside the slice: it stores the bytes of `v` from the
lowest on and touches no other byte. -/
theorem writen_loop_spec (o v : Nat) :
    ∀ (k i : Nat) (a : List Nat), o + i + k ≤ a.length →
      ∃ a2, writen_loop (o : Int) v k i a = some a2 ∧ a2.length = a.length ∧
        ∀ j, a2.getD j 0
          = if o + i ≤ j ∧ j < o + i + k then v / 2 ^ (8 * (j - o)) % 256 else a.getD j 0 := by
  intro k
  induction k with
  | zero =>
    intro i a _
    refine ⟨a, rfl, rfl, fun j => ?_⟩
    rw [if_neg (by omega)]
  | succ k ih =>
    intro i a h
    unfold writen_loop
    have hc : 0 ≤ (o : Int) + (i : Int) ∧ (o : Int) + (i : Int) < (a.length : Int) := by omega
    rw [if_pos hc]
    have ht : ((o : Int) + (i : Int)).toNat = o + i := by omega
    rw [ht, writen_byte]
    obtain ⟨a2, h1, h2, h3⟩ := ih (i + 1) (a.set (o + i) (v / 2 ^ (8 * i) % 256))
      (by rw [List.length_set]; omega)
    refine ⟨a2, h1, by rw [h2, List.length_set], fun j => ?_⟩
    rw [h3, getD_set_eq _ _ _ _ (by omega)]
    by_cases hj : j = o + i
    · subst hj
      rw [if_neg (by omega), if_pos rfl, if_pos (by omega)]
      congr 3
      omega
    · rw [if_neg hj]
      by_cases hr : o + (i + 1) ≤ j ∧ j < o + (i + 1) + k
      · rw [if_pos hr, if_pos (by omega)]
      · rw [if_neg hr, if_neg (by omega)]

/-- The loop of `readn` over a field that holds the bytes of `v`, lowest
first: it rebuilds `v` modulo `2 ^ (8 * n)`. -/
theorem readn_loop_spec (a : List Nat) (o v : Nat) :
    ∀ (k i ret : Nat), o + i + k ≤ a.length → i + k ≤ 8 → ret = v % 2 ^ (8 * i) →
      (∀ j, i ≤ j → j < i + k → a.getD (o + j) 0 = v / 2 ^ (8 * j) % 256) →
      readn_loop a (o : Int) k i ret = some (v % 2 ^ (8 * (i + k))) := by
  intro k
  induction k with
  | zero =>
    intro i ret _ _ hr _
    rw [hr]
    rfl
  | succ k ih =>
    intro i ret h h8 hr hb
    unfold readn_loop
    have hc : 0 ≤ (o : Int) + (i : Int) ∧ (o : Int) + (i : Int) < (a.length : Int) := by omega
    rw [if_pos hc]
    have ht : ((o : Int) + (i : Int)).toNat = o + i := by omega
    rw [ht, hb i (le_refl _) (by omega)]
    have hlt : v / 2 ^ (8 * i) % 256 < 256 := Nat.mod_lt _ (by norm_num)
    have hpow : 2 ^ (8 * (i + 1)) = 2 ^ (8 * i) * 256 := by
      rw [Nat.mul_add, pow_add]
      norm_num
    have hle : 2 ^ (8 * (i + 1)) ≤ 2 ^ 64 := Nat.pow_le_pow_right (by norm_num) (by omega)
    have hpos : 0 < 2 ^ (8 * i) := by positivity
    have hsh : (v / 2 ^ (8 * i) % 256) <<< (i * 8) = 2 ^ (8 * i) * (v / 2 ^ (8 * i) % 256) := by
      rw [Nat.shiftLeft_eq, Nat.mul_comm i 8, Nat.mul_comm]
    have hsm : 2 ^ (8 * i) * (v / 2 ^ (8 * i) % 256) < 2 ^ 64 := by
      calc 2 ^ (8 * i) * (v / 2 ^ (8 * i) % 256) < 2 ^ (8 * i) * 256 :=
            Nat.mul_lt_mul_of_pos_left hlt hpos
        _ = 2 ^ (8 * (i + 1)) := hpow.symm
        _ ≤ 2 ^ 64 := hle
    have hret : ret < 2 ^ (8 * i) := by rw [hr]; exact Nat.mod_lt _ hpos
    have hnew : ret ||| (v / 2 ^ (8 * i) % 256) <<< (i * 8) % 2 ^ 64 = v % 2 ^ (8 * (i + 1)) := by
      rw [hsh, Nat.mod_eq_of_lt hsm, Nat.or_comm, ← Nat.mul_add_lt_is_or hret, hpow, Nat.mod_mul,
        hr, Nat.add_comm]
    rw [hnew]
    have := ih (i + 1) (v % 2 ^ (8 * (i + 1))) (by omega) (by omega) rfl
      (fun j hj1 hj2 => hb j (by omega) (by omega))
    rw [this]
    congr 3
    omega

theorem readn_total (a : List Nat) (o : Nat) :
    ∀ (k i ret : Nat), o + i + k ≤ a.length → ∃ r, readn_loop a (o : Int) k i ret = some r := by
  intro k
  induction k with
  | zero => intro i ret _; exact ⟨ret, rfl⟩
  | succ k ih =>
    intro i ret h
    unfold readn_loop
    have hc : 0 ≤ (o : Int) + (i : Int) ∧ (o : Int) + (i : Int) < (a.length : Int) := by omega
    rw [if_pos hc]
    exact ih _ _ (by omega)

theorem codec_value (val : Int) (m : Nat) (hm : m ≤ 8) (h1 : -2 ^ 63 ≤ val) (h2 : val < 2 ^ 63) :
    wrap64 ((bits64 val % 2 ^ (8 * m) : Nat) : Int)
      = if m = 8 then val else val % 2 ^ (8 * m) := by
  unfold wrap64 bits64
  interval_cases m <;> norm_num <;> omega

/-- C37: `readn` and `writen` on a field inside the slice (`0 <= off`,
`0 <= n <= 8`, `off + n <= len(a)`): `writen` returns, leaves the length and
every byte outside `[off, off + n)` as they were, and stores bits `8i .. 8i+7`
of `val` in byte `i` of the field; `readn` on the result returns `val` modulo
`2 ^ (8 * n)`, and `val` itself when `n = 8`; and `readn` returns on every such
field of every slice (it reads only). -/
theorem C37_readn_writen_codec (a : List Nat) (n off val : Int)
    (hn0 : 0 ≤ n) (hn8 : n ≤ 8) (ho : 0 ≤ off) (hlen : off + n ≤ a.length)
    (h1 : -2 ^ 63 ≤ val) (h2 : val < 2 ^ 63) :
    ∃ a2, writen a n off val = some a2 ∧ a2.length = a.length ∧
      (∀ i : Nat, (i : Int) < n →
        a2.getD (off.toNat + i) 0 = bits64 val / 2 ^ (8 * i) % 256) ∧
      (∀ j : Nat, (j : Int) < off ∨ off + n ≤ (j : Int) → a2.getD j 0 = a.getD j 0) ∧
      readn a2 n off = some (if n = 8 then val else val % 2 ^ (8 * n.toNat)) ∧
      ∃ r, readn a n off = some r := by
  obtain ⟨o, rfl⟩ : ∃ o : Nat, off = (o : Int) := ⟨off.toNat, by omega⟩
  obtain ⟨m, rfl⟩ : ∃ m : Nat, n = (m : Int) := ⟨n.toNat, by omega⟩
  have hm : m ≤ 8 := by omega
  obtain ⟨a2, w1, w2, w3⟩ := writen_loop_spec o (bits64 val) m 0 a (by omega)
  refine ⟨a2, ?_, w2, ?_, ?_, ?_, ?_⟩
  · unfold writen
    rw [Int.toNat_ofNat]
    exact w1
  · intro i hi
    rw [Int.toNat_ofNat, w3, if_pos (by omega)]
    congr 3
    omega
  · intro j hj
    rw [w3, if_neg (by omega)]
  · unfold readn
    rw [Int.toNat_ofNat]
    have hr := readn_loop_spec a2 o (bits64 val) m 0 0 (by omega) (by omega)
      (by simp [Nat.mod_one])
      (fun j _ hj => by
        rw [w3, if_pos (by omega)]
        congr 3
        omega)
    rw [hr, Nat.zero_add, Option.map_some', codec_value val m hm h1 h2]
    by_cases h8 : m = 8
    · subst h8
      simp
    · have : ¬ (m : Int) = 8 := by omega
      rw [if_neg h8, if_neg this]
  · obtain ⟨r, hr⟩ := readn_total a o m 0 0 (by omega)
    unfold readn
    rw [Int.toNat_ofNat, hr]
    exact ⟨_, rfl⟩

theorem C37_witness :
    ∃ a2, writen [0, 0, 0, 0] 2 1 0x123456 = some a2 ∧ readn a2 2 1 = some 0x3456 :=
  match C37_readn_writen_codec [0, 0, 0, 0] 2 1 0x123456 (by decide) (by decide) (by decide)
      (by decide) (by decide) (by decide) with
  | ⟨a2, h1, _, _, _, h5, _⟩ => ⟨a2, h1, h5.trans (by decide)⟩

/-- C37, counterexample: with `n = 1` and `off = -1` the bound
`off + n <= len(a)` holds for the slice of one byte, and both `writen` and
`readn` fault on the index -1. -/
theorem C37_counterexample :
    (0 : Int) ≤ 1 ∧ (1 : Int) ≤ 8 ∧ (-1 : Int) + 1 ≤ (([0] : List Nat).length : Int) ∧
    writen [0] 1 (-1) 0 = none ∧ readn [0] 1 (-1) = none := by
  decide

theorem sorted_getD_le (l : List Nat) (hs : l.Sorted (fun a b => a ≤ b)) (i j : Nat)
    (hij : i ≤ j) (hj : j < l.length) : l.getD i 0 ≤ l.getD j 0 := by
  have hi : i < l.length := by omega
  rw [List.getD_eq_getElem _ _ hi, List.getD_eq_getElem _ _ hj]
  by_cases he : i = j
  · subst he; exact le_refl _
  · exact (List.pairwise_iff_getElem.mp hs) i j hi hj (by omega)

/-- The size that `symbols` gives a symbol at the address `v`, under the
contracts of `sort.Sort` and `sort.Search`. -/
theorem symbol_size (sortf : List Nat → List Nat) (search : Nat → (Nat → Bool) → Nat)
    (hsort : ∀ l, (sortf l).Perm l ∧ (sortf l).Sorted (fun a b => a ≤ b))
    (hsearch : ∀ n (p : Nat → Bool), (∀ i j, i ≤ j → j < n → p i = true → p j = true) →
      search n p ≤ n ∧ (∀ i, i < search n p → p i = false) ∧
      (search n p < n → p (search n p) = true))
    (values : List Nat) (hv : ∀ a ∈ values, a < 2 ^ 64) (v : Nat) (hvv : v < 2 ^ 64) :
    (∃ m, m ∈ values ∧ v < m ∧ (∀ a ∈ values, v < a → m ≤ a) ∧
      (if search (sortf values).length (fun x => decide ((sortf values).getD x 0 > v))
          < (sortf values).length then
        wrap64 ((((sortf values).getD
          (search (sortf values).length (fun x => decide ((sortf values).getD x 0 > v))) 0
            + 2 ^ 64 - v) % 2 ^ 64 : Nat) : Int)
        else 0)
      = (if m - v < 2 ^ 63 then ((m - v : Nat) : Int) else ((m - v : Nat) : Int) - 2 ^ 64)) ∨
    ((∀ a ∈ values, a ≤ v) ∧
      (if search (sortf values).length (fun x => decide ((sortf values).getD x 0 > v))
          < (sortf values).length then
        wrap64 ((((sortf values).getD
          (search (sortf values).length (fun x => decide ((sortf values).getD x 0 > v))) 0
            + 2 ^ 64 - v) % 2 ^ 64 : Nat) : Int)
        else 0) = 0) := by
  obtain ⟨hperm, hsorted⟩ := hsort values
  generalize hA : sortf values = addrs at hperm hsorted
  have hmono : ∀ i j, i ≤ j → j < addrs.length →
      (fun x => decide (addrs.getD x 0 > v)) i = true →
      (fun x => decide (addrs.getD x 0 > v)) j = true := by
    intro i j hij hj hp
    simp only [decide_eq_true_eq] at hp ⊢
    have := sorted_getD_le addrs hsorted i j hij hj
    omega
  obtain ⟨s1, s2, s3⟩ := hsearch addrs.length _ hmono
  generalize hI : search addrs.length (fun x => decide (addrs.getD x 0 > v)) = i at s1 s2 s3
  by_cases hlt : i < addrs.length
  · left
    have hp := s3 hlt
    simp only [decide_eq_true_eq] at hp
    have hmem : addrs.getD i 0 ∈ values := by
      rw [List.getD_eq_getElem _ _ hlt]
      exact hperm.mem_iff.mp (List.getElem_mem _)
    have hm64 := hv _ hmem
    refine ⟨addrs.getD i 0, hmem, hp, ?_, ?_⟩
    · intro a ha hva
      obtain ⟨x, hx, rfl⟩ := List.mem_iff_getElem.mp (hperm.mem_iff.mpr ha)
      by_cases hxi : x < i
      · have := s2 x hxi
        simp only [decide_eq_false_iff_not] at this
        rw [List.getD_eq_getElem _ _ hx] at this
        omega
      · have := sorted_getD_le addrs hsorted i x (by omega) hx
        rw [List.getD_eq_getElem _ _ hx] at this
        exact this
    · rw [if_pos hlt]
      generalize addrs.getD i 0 = m at hp hm64
      have e : (m + 2 ^ 64 - v) % 2 ^ 64 = m - v := by
        have : m + 2 ^ 64 - v = (m - v) + 2 ^ 64 := by omega
        rw [this, Nat.add_mod_right, Nat.mod_eq_of_lt (by omega)]
      rw [e]
      generalize hd : m - v = d
      have hd64 : d < 2 ^ 64 := by omega
      unfold wrap64
      split_ifs with hc
      · norm_num at hc hd64 ⊢
        omega
      · norm_num at hc hd64 ⊢
        omega
  · right
    refine ⟨?_, by rw [if_neg hlt]⟩
    intro a ha
    obtain ⟨x, hx, rfl⟩ := List.mem_iff_getElem.mp (hperm.mem_iff.mpr ha)
    have := s2 x (by omega)
    simp only [decide_eq_false_iff_not] at this
    rw [List.getD_eq_getElem _ _ hx] at this
    omega

/-- C38: under the contracts of `sort.Sort` (a sorted permutation) and
`sort.Search` (the first index at which a monotone predicate holds, `n` when
there is none), for a file whose symbol values are `uint64`: `symbols` returns
the error when `Symtab` is nil and a list otherwise; the list has one `Sym` for
each entry of the table, in the order of the table, with `Name` and `Addr` of
the entry; its `Size` is the difference `d` between the smallest symbol address
greater than its own and its own, as the `int64` of the same bit pattern (`d`
when `d < 2 ^ 63`, else `d - 2 ^ 64`), or 0 when no symbol has a greater
address; and two symbols with one address have one `Size`. -/
theorem C38_macho_symbols (sortf : List Nat → List Nat) (search : Nat → (Nat → Bool) → Nat)
    (f : macho_File)
    (hsort : ∀ l, (sortf l).Perm l ∧ (sortf l).Sorted (fun a b => a ≤ b))
    (hsearch : ∀ n (p : Nat → Bool), (∀ i j, i ≤ j → j < n → p i = true → p j = true) →
      search n p ≤ n ∧ (∀ i, i < search n p → p i = false) ∧
      (search n p < n → p (search n p) = true))
    (hval : ∀ syms, f.Symtab = some syms → ∀ s ∈ syms, s.Value < 2 ^ 64) :
    (f.Symtab = none →
      machoFile_symbols sortf search f = Except.error "missing symbol table") ∧
    (∀ syms, f.Symtab = some syms →
      ∃ out : List Sym, machoFile_symbols sortf search f = Except.ok out ∧
        out.length = syms.length ∧
        (∀ (i : Nat) (s : macho_Symbol), syms[i]? = some s → ∃ sym : Sym, out[i]? = some sym ∧
          sym.Name = s.Name ∧ sym.Addr = s.Value ∧
          ((∃ m, m ∈ syms.map (fun t => t.Value) ∧ s.Value < m ∧
              (∀ a ∈ syms.map (fun t => t.Value), s.Value < a → m ≤ a) ∧
              sym.Size = (if m - s.Value < 2 ^ 63 then ((m - s.Value : Nat) : Int)
                else ((m - s.Value : Nat) : Int) - 2 ^ 64)) ∨
            ((∀ a ∈ syms.map (fun t => t.Value), a ≤ s.Value) ∧ sym.Size = 0))) ∧
        (∀ x ∈ out, ∀ y ∈ out, x.Addr = y.Addr → x.Size = y.Size)) := by
  constructor
  · intro h
    unfold machoFile_symbols
    rw [h]
  · intro syms h
    have hv := hval syms h
    have hvals : ∀ a ∈ syms.map (fun t => t.Value), a < 2 ^ 64 := by
      intro a ha
      obtain ⟨s, hs, rfl⟩ := List.mem_map.mp ha
      exact hv s hs
    unfold machoFile_symbols
    rw [h]
    refine ⟨_, rfl, by rw [List.length_map], ?_, ?_⟩
    · intro i s hs
      have hmem : s ∈ syms := by
        rw [List.mem_iff_getElem?]
        exact ⟨i, hs⟩
      refine ⟨_, by rw [List.getElem?_map, hs]; rfl, rfl, rfl, ?_⟩
      exact symbol_size sortf search hsort hsearch _ hvals s.Value (hv s hmem)
    · intro x hx y hy hxy
      obtain ⟨s, _, rfl⟩ := List.mem_map.mp hx
      obtain ⟨t, _, rfl⟩ := List.mem_map.mp hy
      have e : s.Value = t.Value := hxy
      simp only [e]

theorem lin_search_spec (p : Nat → Bool) :
    ∀ (k i : Nat), i ≤ lin_search p k i ∧ lin_search p k i ≤ i + k ∧
      (∀ x, i ≤ x → x < lin_search p k i → p x = false) ∧
      (lin_search p k i < i + k → p (lin_search p k i) = true) := by
  intro k
  induction k with
  | zero =>
    intro i
    refine ⟨le_refl _, le_refl _, fun x h1 h2 => ?_, fun h => ?_⟩
    · simp only [lin_search] at h2; omega
    · simp only [lin_search] at h; omega
  | succ k ih =>
    intro i
    unfold lin_search
    by_cases hp : p i = true
    · rw [if_pos hp]
      exact ⟨le_refl _, by omega, fun x h1 h2 => by omega, fun _ => hp⟩
    · rw [if_neg hp]
      obtain ⟨h1, h2, h3, h4⟩ := ih (i + 1)
      refine ⟨by omega, by omega, fun x hx1 hx2 => ?_, fun h => h4 (by omega)⟩
      by_cases hx : x = i
      · subst hx
        simpa using hp
      · exact h3 x (by omega) hx2

theorem ex_sort_ok (l : List Nat) :
    (ex_sort l).Perm l ∧ (ex_sort l).Sorted (fun a b => a ≤ b) :=
  ⟨List.perm_insertionSort _ l, List.sorted_insertionSort _ l⟩

theorem ex_search_ok (n : Nat) (p : Nat → Bool)
    (_ : ∀ i j, i ≤ j → j < n → p i = true → p j = true) :
    ex_search n p ≤ n ∧ (∀ i, i < ex_search n p → p i = false) ∧
      (ex_search n p < n → p (ex_search n p) = true) := by
  obtain ⟨_, h2, h3, h4⟩ := lin_search_spec p n 0
  unfold ex_search
  exact ⟨by omega, fun i hi => h3 i (Nat.zero_le _) hi, fun h => h4 (by omega)⟩

theorem ex_macho2_symbols :
    machoFile_symbols ex_sort ex_search ex_macho2
      = Except.ok [⟨"f", 0x2000, 0x40, 'T'⟩, ⟨"g", 0x1000, 0x1000, 'T'⟩,
          ⟨"h", 0x2000, 0x40, 'T'⟩, ⟨"u", 0x2040, 0, 'U'⟩] := by
  rfl

theorem C38_witness :
    ∃ out : List Sym, machoFile_symbols ex_sort ex_search ex_macho2 = Except.ok out ∧
      out.length = 4 ∧
      ∀ x ∈ out, ∀ y ∈ out, x.Addr = y.Addr → x.Size = y.Size :=
  match (C38_macho_symbols ex_sort ex_search ex_macho2 ex_sort_ok ex_search_ok
      (fun syms h s hs => by
        have e : syms = [⟨"f", 1, 0x2000⟩, ⟨"g", 1, 0x1000⟩, ⟨"h", 1, 0x2000⟩, ⟨"u", 0, 0x2040⟩] :=
          (Option.some.inj h).symm
        subst e
        simp only [List.mem_cons, List.mem_singleton, List.not_mem_nil, or_false] at hs
        rcases hs with rfl | rfl | rfl | rfl <;> decide)).2 _ rfl with
  | ⟨out, h1, h2, _, h4⟩ => ⟨out, h1, h2, h4⟩

/-- C38, counterexample: in a table with symbols at the addresses 0 and
`2 ^ 63`, the smallest address above 0 is `2 ^ 63`, and the `Size` of the
symbol at 0 is `-2 ^ 63`, not `2 ^ 63`. -/
theorem C38_counterexample :
    machoFile_symbols ex_sort ex_search ex_macho
      = Except.ok [⟨"a", 0, -9223372036854775808, 'U'⟩, ⟨"b", 9223372036854775808, 0, 'U'⟩] := by
  rfl

/-- C33: `elf_segload` of the three bytes "abc" at a `vaddr` that lies `0x10`
bytes into an unmapped user page returns; the page is mapped to the fresh
frame `0x100000` with `U` and `P`; the bytes at `vaddr`, `vaddr + 1`,
`vaddr + 2` are 0 and the file bytes are at the start of the page, `0x10`
bytes below `vaddr`. With `vaddr` at the start of the page the file bytes are
at `vaddr`, followed by 0. -/
theorem C33_unaligned_segment_loaded_at_page_start :
    ex_hdr.vaddr % 4096 = 0x10 ∧ ex_hdr.sdata = [0x61, 0x62, 0x63] ∧
    leaf_entry ex_phys.mem 0x1000 0x2c8000002000 = some 0 ∧
    (elf_segload ex_phys ex_parent ex_hdr).map (fun r =>
      (leaf_entry r.1.mem 0x1000 0x2c8000002000, r.1.nalloc)) = some (some 0x100005, 1) ∧
    (elf_segload ex_phys ex_parent ex_hdr).map (fun r =>
      (List.range 3).map fun (i : Nat) =>
        phys_byte r.1.mem (user_phys r.1.mem 0x1000 (ex_hdr.vaddr + (i : Int))))
      = some [0, 0, 0] ∧
    (elf_segload ex_phys ex_parent ex_hdr).map (fun r =>
      (List.range 3).map fun (i : Nat) =>
        phys_byte r.1.mem (user_phys r.1.mem 0x1000 (ex_hdr.vaddr - 0x10 + (i : Int))))
      = some [0x61, 0x62, 0x63] ∧
    (elf_segload ex_phys ex_parent ex_hdr_aligned).map (fun r =>
      (List.range 4).map fun (i : Nat) =>
        phys_byte r.1.mem (user_phys r.1.mem 0x1000 (ex_hdr_aligned.vaddr + (i : Int))))
      = some [0x61, 0x62, 0x63, 0] := by
  refine ⟨by decide, rfl, by decide, ?_, ?_, ?_, ?_⟩
  · set_option maxRecDepth 100000 in decide
  · set_option maxRecDepth 100000 in decide
  · set_option maxRecDepth 100000 in decide
  · set_option maxRecDepth 100000 in decide

/-! ## The tables of a page table and their placement -/

theorem cut_mono {cut : Nat → Nat} {n : Nat} (h : ∀ i, i < n → cut i ≤ cut (i + 1)) :
    ∀ a b, a ≤ b → b ≤ n → cut a ≤ cut b := by
  intro a b hab
  induction hab with
  | refl => intro _; exact le_refl _
  | step hle ih =>
    intro hb
    exact le_trans (ih (by omega)) (h _ (by omega))

/-- `Placed` looks at the table and at the pages of its range only. -/
theorem Placed.placed_congr {heap : Nat → Nat} {m1 m2 : Mem} :
    ∀ (d t lo up : Nat), (∀ i, i < 512 → m2 t i = m1 t i) →
      (∀ k i, lo ≤ k → k < up → i < 512 → m2 (heap k) i = m1 (heap k) i) →
      Placed heap m1 d t lo up → Placed heap m2 d t lo up
  | 0, _, _, _, _, _, _ => trivial
  | 1, _, _, _, _, _, _ => trivial
  | d + 2, t, lo, up, ht, hw, h => by
    obtain ⟨cut, h0, h512, hc⟩ := h
    have hm := cut_mono (fun i hi => (hc i hi).1)
    refine ⟨cut, h0, h512, fun i hi => ⟨(hc i hi).1, ?_⟩⟩
    rw [ht i hi]
    intro hp hps
    obtain ⟨h1, h2, h3⟩ := (hc i hi).2 hp hps
    have hlo : lo ≤ cut i := by rw [← h0]; exact hm 0 i (Nat.zero_le _) (le_of_lt hi)
    have hhi : cut (i + 1) ≤ up := by rw [← h512]; exact hm (i + 1) 512 hi (le_refl _)
    refine ⟨h1, h2, Placed.placed_congr (d + 1) _ _ _ ?_ ?_ h3⟩
    · intro j hj
      exact hw (cut i) j hlo (by omega) hj
    · intro k j hk1 hk2 hj
      exact hw k j (by omega) (by omega) hj

/-- A table under a placed table is the table itself or one of the pages of
its range. -/
theorem Placed.sub_window {heap : Nat → Nat} {m : Mem} :
    ∀ (d t lo up e g : Nat), Placed heap m d t lo up → Subtable m d t e g →
      (e = d ∧ g = t) ∨ (e < d ∧ ∃ k, lo ≤ k ∧ k < up ∧ g = heap k)
  | 0, _, _, _, _, _, _, h => h.elim
  | 1, _, _, _, _, _, _, h => Or.inl h
  | d + 2, t, lo, up, e, g, hP, h => by
    rcases h with h | ⟨i, hi, hp, hps, hs⟩
    · exact Or.inl h
    · obtain ⟨cut, h0, h512, hc⟩ := hP
      have hm := cut_mono (fun i hi => (hc i hi).1)
      obtain ⟨h1, h2, h3⟩ := (hc i hi).2 hp hps
      have hlo : lo ≤ cut i := by rw [← h0]; exact hm 0 i (Nat.zero_le _) (le_of_lt hi)
      have hhi : cut (i + 1) ≤ up := by rw [← h512]; exact hm (i + 1) 512 hi (le_refl _)
      rw [h2] at hs
      rcases Placed.sub_window (d + 1) _ _ _ e g h3 hs with ⟨a, b⟩ | ⟨a, k, k1, k2, b⟩
      · exact Or.inr ⟨by omega, cut i, hlo, by omega, b⟩
      · exact Or.inr ⟨by omega, k, by omega, by omega, b⟩

/-- The tables under a placed table have one depth each, when the pages of
its range are pairwise distinct and none of them is the table. -/
theorem Placed.sub_typed {heap : Nat → Nat} {m : Mem} :
    ∀ (d t lo up e1 e2 g : Nat), Placed heap m d t lo up →
      (∀ k1 k2, lo ≤ k1 → k1 < up → lo ≤ k2 → k2 < up → heap k1 = heap k2 → k1 = k2) →
      (∀ k, lo ≤ k → k < up → heap k ≠ t) →
      Subtable m d t e1 g → Subtable m d t e2 g → e1 = e2
  | 0, _, _, _, _, _, _, _, _, _, h, _ => h.elim
  | 1, _, _, _, _, _, _, _, _, _, h1, h2 => by rw [h1.1, h2.1]
  | d + 2, t, lo, up, e1, e2, g, hP, hinj, hne, a1, a2 => by
    have hP0 := hP
    obtain ⟨cut, h0, h512, hc⟩ := hP
    have hm := cut_mono (fun i hi => (hc i hi).1)
    have hout : ∀ e, Subtable m (d + 2) t e g → g = t → e = d + 2 := by
      intro e a hg
      rcases Placed.sub_window (d + 2) t lo up e g hP0 a with ⟨b, _⟩ | ⟨_, k, k1, k2, b⟩
      · exact b
      · exact absurd (b.symm.trans hg) (hne k k1 k2)
    rcases a1 with a1 | ⟨i1, hi1, hp1, hps1, s1⟩
    · rw [a1.1]; exact (hout e2 a2 a1.2).symm
    rcases a2 with a2 | ⟨i2, hi2, hp2, hps2, s2⟩
    · rw [a2.1]; exact hout e1 (Or.inr ⟨i1, hi1, hp1, hps1, s1⟩) a2.2
    obtain ⟨c1, c2, c3⟩ := (hc i1 hi1).2 hp1 hps1
    obtain ⟨d1, d2, d3⟩ := (hc i2 hi2).2 hp2 hps2
    have hlo1 : lo ≤ cut i1 := by rw [← h0]; exact hm 0 i1 (Nat.zero_le _) (le_of_lt hi1)
    have hhi1 : cut (i1 + 1) ≤ up := by rw [← h512]; exact hm (i1 + 1) 512 hi1 (le_refl _)
    have hlo2 : lo ≤ cut i2 := by rw [← h0]; exact hm 0 i2 (Nat.zero_le _) (le_of_lt hi2)
    have hhi2 : cut (i2 + 1) ≤ up := by rw [← h512]; exact hm (i2 + 1) 512 hi2 (le_refl _)
    rw [c2] at s1
    rw [d2] at s2
    -- the page number of `g` in each of the two ranges
    have w1 : ∃ k, cut i1 ≤ k ∧ k < cut (i1 + 1) ∧ g = heap k := by
      rcases Placed.sub_window (d + 1) _ _ _ e1 g c3 s1 with ⟨_, b⟩ | ⟨_, k, k1, k2, b⟩
      · exact ⟨cut i1, le_refl _, c1, b⟩
      · exact ⟨k, by omega, k2, b⟩
    have w2 : ∃ k, cut i2 ≤ k ∧ k < cut (i2 + 1) ∧ g = heap k := by
      rcases Placed.sub_window (d + 1) _ _ _ e2 g d3 s2 with ⟨_, b⟩ | ⟨_, k, k1, k2, b⟩
      · exact ⟨cut i2, le_refl _, d1, b⟩
      · exact ⟨k, by omega, k2, b⟩
    obtain ⟨k1, x1, x2, x3⟩ := w1
    obtain ⟨k2, y1, y2, y3⟩ := w2
    have hk : k1 = k2 := hinj k1 k2 (by omega) (by omega) (by omega) (by omega) (by rw [← x3, ← y3])
    have hi12 : i1 = i2 := by
      by_contra hne12
      rcases Nat.lt_or_gt_of_ne hne12 with hlt | hgt
      · have := hm (i1 + 1) i2 hlt (le_of_lt hi2)
        omega
      · have := hm (i2 + 1) i1 hgt (le_of_lt hi1)
        omega
    subst hi12
    exact Placed.sub_typed (d + 1) _ _ _ e1 e2 g c3
      (fun a b a1 a2 b1 b2 => hinj a b (by omega) (by omega) (by omega) (by omega))
      (fun k a b => fun c => by
        have := hinj k (cut i1) (by omega) (by omega) hlo1 (by omega) c
        omega) s1 s2

theorem Subtable.sub_self (m : Mem) (d t : Nat) (hd : 1 ≤ d) : Subtable m d t d t := by
  match d with
  | 0 => omega
  | 1 => exact ⟨rfl, rfl⟩
  | d + 2 => exact Or.inl ⟨rfl, rfl⟩

/-- The tables under a table are closed under following a present entry
without PS. -/
theorem Subtable.sub_next {m : Mem} :
    ∀ (d t e f i : Nat), Subtable m d t (e + 2) f → i < 512 → m f i &&& PTE_P ≠ 0 →
      m f i &&& PTE_PS = 0 → Subtable m d t (e + 1) (m f i &&& PTE_ADDR)
  | 0, _, _, _, _, h, _, _, _ => h.elim
  | 1, _, _, _, _, h, _, _, _ => by have := h.1; omega
  | d + 2, t, e, f, i, h, hi, hp, hps => by
    rcases h with ⟨h1, h2⟩ | ⟨j, hj, hpj, hpsj, hs⟩
    · have hd : e = d := by omega
      subst hd; subst h2
      exact Or.inr ⟨i, hi, hp, hps, Subtable.sub_self m _ _ (by omega)⟩
    · exact Or.inr ⟨j, hj, hpj, hpsj, Subtable.sub_next (d + 1) _ e f i hs hi hp hps⟩

/-- A table under a table has a depth from 1 up to the depth of that one. -/
theorem Subtable.sub_depth {m : Mem} :
    ∀ (d t e g : Nat), Subtable m d t e g → 1 ≤ e ∧ e ≤ d
  | 0, _, _, _, h => h.elim
  | 1, _, _, _, h => by have := h.1; omega
  | d + 2, t, e, g, h => by
    rcases h with h | ⟨i, _, _, _, hs⟩
    · have := h.1; omega
    · have := Subtable.sub_depth (d + 1) _ e g hs
      omega

/-- The tables under a table lie in every closed family that holds the
table. -/
theorem Subtable.sub_family {m : Mem} {V : Nat → Nat → Prop} (hsh : Shape m V) :
    ∀ (d t e g : Nat), V d t → Subtable m d t e g → V e g
  | 0, _, _, _, _, h => h.elim
  | 1, _, _, _, hV, h => by rw [h.1, h.2]; exact hV
  | d + 2, t, e, g, hV, h => by
    rcases h with h | ⟨i, hi, hp, hps, hs⟩
    · rw [h.1, h.2]; exact hV
    · exact Subtable.sub_family hsh (d + 1) _ e g (hsh d t i hV hi hp hps).2 hs

/-- `Subtable` looks at the tables above the leaf level only. -/
theorem Subtable.sub_congr {m m2 : Mem} {V : Nat → Nat → Prop} (hsh : Shape m V)
    (hin : ∀ f i k, V (k + 2) f → m2 f i = m f i) :
    ∀ (d t e g : Nat), V d t → (Subtable m2 d t e g ↔ Subtable m d t e g)
  | 0, _, _, _, _ => Iff.rfl
  | 1, _, _, _, _ => Iff.rfl
  | d + 2, t, e, g, hV => by
    show (_ ∨ _) ↔ (_ ∨ _)
    apply or_congr_right
    constructor
    · rintro ⟨i, hi, hp, hps, hs⟩
      rw [hin t i d hV] at hp hps hs
      exact ⟨i, hi, hp, hps,
        (Subtable.sub_congr hsh hin (d + 1) _ e g (hsh d t i hV hi hp hps).2).mp hs⟩
    · rintro ⟨i, hi, hp, hps, hs⟩
      refine ⟨i, hi, by rw [hin t i d hV]; exact hp, by rw [hin t i d hV]; exact hps, ?_⟩
      rw [hin t i d hV]
      exact (Subtable.sub_congr hsh hin (d + 1) _ e g (hsh d t i hV hi hp hps).2).mpr hs

/-! ## Where `copy_pmap1` puts the tables of the copy -/

section CopyPlaced

variable {α : Type} {ptemod : Option (Ptemod α)} {c : Nat → Nat} {V : Nat → Nat → Prop}
  {E : Nat → Prop} {J : Nat → Tracker × α → Prop}

theorem copy_cut_succ (m : Mem) (d src lo i : Nat) :
    copy_cut m d src lo (i + 1) = copy_cut m d src lo i + entry_cost m d src i := by
  unfold copy_cut
  rw [cost_sum_succ]
  omega

theorem copy_cut_mono (m : Mem) (d src lo : Nat) {a b : Nat} (h : a ≤ b) :
    copy_cut m d src lo a ≤ copy_cut m d src lo b :=
  Nat.add_le_add_left (cost_sum_mono m d src h) lo

/-- What the recursive call of `copy_pmap1` for the entry `n` starts from:
the precondition holds one level down for the allocator's next page, and the
pages it may take are within those of the caller. -/
theorem copy_rec_pre {heap : Nat → Nat} (hyp : CopyHyp ptemod c V E J heap)
    {d dst src n : Nat} {st : CopySt α} (hheap : st.1.heap = heap)
    (hpre : CopyPre V E J (d + 2) dst src st) (hn : n < 512)
    {r : Bool} {s1 : Phys} {tr1 : Tracker} {a1 : α}
    (hpost : CopyPost c V J (d + 2) dst src n st r (s1, tr1, a1))
    (hp : s1.mem src n &&& PTE_P ≠ 0) (hps : s1.mem src n &&& PTE_PS = 0) :
    CopyPre V E J (d + 1) (s1.heap s1.nalloc) (s1.mem src n &&& PTE_ADDR)
      ({ s1 with
          mem := (s1.mem.zero (s1.heap s1.nalloc)).write dst n
            (s1.heap s1.nalloc ||| (s1.mem src n &&& PTE_FLAGS))
          nalloc := s1.nalloc + 1 },
        mapSet tr1 (s1.heap s1.nalloc) (s1.heap s1.nalloc), a1) ∧
      s1.heap s1.nalloc % 4096 = 0 ∧ s1.heap s1.nalloc < 2 ^ 39 ∧
      s1.mem src n &&& PTE_ADDR < 2 ^ 39 ∧ s1.heap s1.nalloc ≠ dst ∧
      entry_cost st.1.mem (d + 2) src n ≠ 0 := by
  have hle := le_of_lt hn
  have hheap1 : s1.heap = st.1.heap := hpost.heap_eq
  have e : s1.mem src n = st.1.mem src n := hpost.post_inner hyp hpre hle src n d hpre.src_in
  have hsh1 : Shape s1.mem V := hpost.shape hyp hpre hle
  obtain ⟨hlt, hVa⟩ := hsh1 d src n hpre.src_in hn hp hps
  have hcost : entry_cost st.1.mem (d + 2) src n
      = 1 + tables_below st.1.mem (d + 1) (s1.mem src n &&& PTE_ADDR) := by
    rw [entry_cost_inner, ← e, if_pos ⟨hp, hps⟩]
  have hn1 : s1.nalloc = st.1.nalloc
      + ((List.range n).map (entry_cost st.1.mem (d + 2) src)).sum := hpost.nalloc_eq
  have hn3 : s1.nalloc + 1 + tables_below st.1.mem (d + 1) (s1.mem src n &&& PTE_ADDR)
      ≤ st.1.nalloc + tables_below st.1.mem (d + 2) src := by
    have h1 := cost_sum_succ st.1.mem (d + 2) src n
    have h2 := cost_sum_mono st.1.mem (d + 2) src (show n + 1 ≤ 512 by omega)
    rw [hcost] at h1
    rw [tables_below_eq_sum st.1.mem (d + 2)]
    omega
  have hlo : st.1.nalloc ≤ s1.nalloc := by omega
  have hal : s1.heap s1.nalloc % 4096 = 0 := by
    rw [hheap1]; exact hpre.good.aligned _ hlo (by omega)
  have hplt : s1.heap s1.nalloc < 2 ^ 39 := by
    rw [hheap1]; exact hpre.good.low _ hlo (by omega)
  have hpout : ∀ k, ¬ V k (s1.heap s1.nalloc) := by
    intro k; rw [hheap1]; exact hpre.good.fresh _ k hlo (by omega)
  have hpd : s1.heap s1.nalloc ≠ dst := by
    rw [hheap1]; exact hpre.dst_fresh _ hlo (by omega)
  have hm2 : ∀ f i k, V k f →
      ((s1.mem.zero (s1.heap s1.nalloc)).write dst n
        (s1.heap s1.nalloc ||| (s1.mem src n &&& PTE_FLAGS))) f i = s1.mem f i := by
    intro f i k hV
    rw [Mem.write_other _ _ _ _ _ _ (fun h => hpre.dst_out k (by rw [← h.1]; exact hV)),
      Mem.zero_other _ _ _ _ (fun h => hpout k (by rw [← h]; exact hV))]
  have hin2 : ∀ f i k, V (k + 2) f →
      ((s1.mem.zero (s1.heap s1.nalloc)).write dst n
        (s1.heap s1.nalloc ||| (s1.mem src n &&& PTE_FLAGS))) f i = st.1.mem f i := by
    intro f i k hV
    rw [hm2 f i _ hV]; exact hpost.post_inner hyp hpre hle f i k hV
  have htb := tables_below_congr hpre.shape hin2 (d + 1) _ hVa
  refine ⟨?_, hal, hplt, hlt, hpd, by rw [hcost]; omega⟩
  exact
    { depth := by omega
      src_in := hVa
      shape := hpre.shape.shape_congr hin2
      leaf := fun f i hV hi hpr => by
        have := hm2 f i 1 hV
        simp only at hpr ⊢
        rw [this] at hpr ⊢
        exact hpost.leafE hyp hpre hle f i hV hi hpr
      dst_zero := fun i _ => by
        show Mem.write _ dst n _ _ i = 0
        rw [Mem.write_other _ _ _ _ _ _ (fun h => hpd h.1), Mem.zero_same]
      dst_out := hpout
      good := by
        show GoodHeap s1.heap V (s1.nalloc + 1) (s1.nalloc + 1 + tables_below _ (d + 1) _)
        rw [htb, hheap1]
        exact
        { aligned := fun k h1 h2 => hpre.good.aligned k (by omega) (by omega)
          low := fun k h1 h2 => hpre.good.low k (by omega) (by omega)
          inj := fun k1 k2 h1 h2 h3 h4 =>
            hpre.good.inj k1 k2 (by omega) (by omega) (by omega) (by omega)
          fresh := fun k j h1 h2 => hpre.good.fresh k j (by omega) (by omega) }
      dst_fresh := fun k h1 h2 heq => by
        have h1b : s1.nalloc + 1 ≤ k := h1
        have h2b : k < s1.nalloc + 1 + tables_below _ (d + 1) _ := h2
        rw [htb] at h2b
        have heq2 : st.1.heap k = st.1.heap s1.nalloc := by rw [← hheap1]; exact heq
        have := hpre.good.inj k s1.nalloc (by omega) (by omega) hlo (by omega) heq2
        omega
      inv := by
        show J (s1.nalloc + 1) (mapSet tr1 (s1.heap s1.nalloc) (s1.heap s1.nalloc), a1)
        rw [hheap1, hheap]
        exact hyp.alloc s1.nalloc tr1 a1 hpost.inv }

/-- The placement of the entries done so far survives a step of the loop that
leaves their cells in `dst` and the pages taken so far as they are. -/
theorem placed_keep {heap : Nat → Nat} {m1 m2 : Mem} {d dst n lo top : Nat} {cut : Nat → Nat}
    (hmono : ∀ a b, a ≤ b → b ≤ n → cut a ≤ cut b) (h0 : cut 0 = lo) (hn : cut n ≤ top)
    (hdst : ∀ i, i < n → m2 dst i = m1 dst i)
    (hkeep : ∀ k j, lo ≤ k → k < top → m2 (heap k) j = m1 (heap k) j)
    (h : ∀ i, i < n → m1 dst i &&& PTE_P ≠ 0 → m1 dst i &&& PTE_PS = 0 →
      cut i < cut (i + 1) ∧ m1 dst i &&& PTE_ADDR = heap (cut i) ∧
      Placed heap m1 (d + 1) (heap (cut i)) (cut i + 1) (cut (i + 1))) :
    ∀ i, i < n → m2 dst i &&& PTE_P ≠ 0 → m2 dst i &&& PTE_PS = 0 →
      cut i < cut (i + 1) ∧ m2 dst i &&& PTE_ADDR = heap (cut i) ∧
      Placed heap m2 (d + 1) (heap (cut i)) (cut i + 1) (cut (i + 1)) := by
  intro i hi
  rw [hdst i hi]
  intro hp hps
  obtain ⟨h1, h2, h3⟩ := h i hi hp hps
  have hlo : lo ≤ cut i := by rw [← h0]; exact hmono 0 i (Nat.zero_le _) (le_of_lt hi)
  have hup : cut (i + 1) ≤ top := le_trans (hmono (i + 1) n hi (le_refl _)) hn
  refine ⟨h1, h2, Placed.placed_congr (d + 1) _ _ _ ?_ ?_ h3⟩
  · intro j _
    exact hkeep (cut i) j hlo (by omega)
  · intro k j k1 k2 _
    exact hkeep k j (by omega) (by omega)

/-- The loop of `copy_pmap1` over the first `n` entries of a table above the
leaf level: besides `CopyPost`, the table of each entry done is placed. -/
theorem copy_loop_placed {heap : Nat → Nat} (hyp : CopyHyp ptemod c V E J heap)
    {d dst src : Nat} {st : CopySt α} (hheap : st.1.heap = heap)
    (hpre : CopyPre V E J (d + 2) dst src st)
    (recurse : Nat → Nat → CopySt α → Option (Bool × CopySt α))
    (hrec : ∀ dst2 src2 st2, st2.1.heap = heap → CopyPre V E J (d + 1) dst2 src2 st2 →
      ∃ r3 st3, recurse dst2 src2 st2 = some (r3, st3) ∧
        CopyPost c V J (d + 1) dst2 src2 512 st2 r3 st3 ∧
        Placed heap st3.1.mem (d + 1) dst2 st2.1.nalloc st3.1.nalloc) :
    ∀ n, n ≤ 512 → ∃ r st1,
      (List.range n).foldlM (copy_entry ptemod recurse (d + 2) dst src) (false, st)
        = some (r, st1) ∧ CopyPost c V J (d + 2) dst src n st r st1 ∧
      ∀ i, i < n → st1.1.mem dst i &&& PTE_P ≠ 0 → st1.1.mem dst i &&& PTE_PS = 0 →
        copy_cut st.1.mem (d + 2) src st.1.nalloc i
          < copy_cut st.1.mem (d + 2) src st.1.nalloc (i + 1) ∧
        st1.1.mem dst i &&& PTE_ADDR
          = heap (copy_cut st.1.mem (d + 2) src st.1.nalloc i) ∧
        Placed heap st1.1.mem (d + 1) (heap (copy_cut st.1.mem (d + 2) src st.1.nalloc i))
          (copy_cut st.1.mem (d + 2) src st.1.nalloc i + 1)
          (copy_cut st.1.mem (d + 2) src st.1.nalloc (i + 1)) := by
  intro n
  induction n with
  | zero =>
    intro _
    refine ⟨false, st, rfl, ?_, fun i hi => absurd hi (Nat.not_lt_zero i)⟩
    exact
    { heap_eq := rfl, inval_eq := rfl, nalloc_eq := rfl
      frame := Frame.frame_refl _ _ _ _ _
      copy := fun i hi => absurd hi (Nat.not_lt_zero i)
      inv := hpre.inv
      noinval := fun _ => rfl }
  | succ n ih =>
    intro hn
    have hn5 : n < 512 := by omega
    obtain ⟨r, st1, hrun, hpost, hpl⟩ := ih (by omega)
    obtain ⟨r2, st2, hrun2, hpost2⟩ :=
      copy_entry_spec hyp hheap hpre hn5 hpost recurse
        (fun a b s h1 h2 => (hrec a b s h1 h2).imp (fun _ h => h.imp (fun _ h3 => ⟨h3.1, h3.2.1⟩)))
    refine ⟨r2, st2, ?_, hpost2, ?_⟩
    · rw [List.range_succ, List.foldlM_append, hrun]
      simp only [List.foldlM, Option.bind_eq_bind, Option.some_bind, hrun2]
      rfl
    obtain ⟨s1, tr1, a1⟩ := st1
    have hle := le_of_lt hn5
    have hheap1 : s1.heap = st.1.heap := hpost.heap_eq
    have hcn : copy_cut st.1.mem (d + 2) src st.1.nalloc n = s1.nalloc := hpost.nalloc_eq.symm
    have hcn2 : copy_cut st.1.mem (d + 2) src st.1.nalloc (n + 1) = st2.1.nalloc :=
      hpost2.nalloc_eq.symm
    have htop : s1.nalloc ≤ st.1.nalloc + tables_below st.1.mem (d + 2) src :=
      hpost.nalloc_le hle
    have hmono : ∀ a b, a ≤ b → b ≤ n → copy_cut st.1.mem (d + 2) src st.1.nalloc a
        ≤ copy_cut st.1.mem (d + 2) src st.1.nalloc b :=
      fun a b hab _ => copy_cut_mono _ _ _ _ hab
    have h00 : copy_cut st.1.mem (d + 2) src st.1.nalloc 0 = st.1.nalloc := rfl
    -- the pages taken so far are not `dst`, no table of `V`, and none of the later pages
    have hold : ∀ k, st.1.nalloc ≤ k → k < s1.nalloc →
        heap k ≠ dst ∧ (∀ e, ¬ V e (heap k)) ∧
        ∀ k2, s1.nalloc ≤ k2 → k2 < st.1.nalloc + tables_below st.1.mem (d + 2) src →
          heap k ≠ heap k2 := by
      intro k k1 k2
      rw [← hheap]
      refine ⟨hpre.dst_fresh k k1 (by omega), fun e => hpre.good.fresh k e k1 (by omega), ?_⟩
      intro k3 k4 k5 c
      have := hpre.good.inj k k3 k1 (by omega) (by omega) k5 c
      omega
    by_cases hp : s1.mem src n &&& PTE_P = 0
    · have e2 := @copy_entry_absent _ ptemod recurse (d + 2) dst src n r s1 tr1 a1 hp
      rw [e2] at hrun2
      injection hrun2 with hrun2
      injection hrun2 with _ hst
      subst hst
      intro i hi
      by_cases hin : i = n
      · subst hin
        intro hpr
        exact absurd (zero_absent (hpost.dst_rest hpre hle i (le_refl _) hn5)) hpr
      · exact hpl i (by omega)
    by_cases hps : s1.mem src n &&& PTE_PS = 0
    swap
    · have e2 := @copy_entry_ps _ ptemod recurse (d + 2) dst src n r s1 tr1 a1 hp
        (by omega) hps
      rw [e2] at hrun2
      injection hrun2 with hrun2
      injection hrun2 with _ hst
      subst hst
      intro i hi
      by_cases hin : i = n
      · subst hin
        intro _ hq
        have hw : (s1.mem.write dst i (s1.mem src i)) dst i = s1.mem src i :=
          Mem.write_same _ _ _ _
        exact absurd (by rw [← hw]; exact hq) hps
      · refine placed_keep hmono h00 (le_of_eq hcn) ?_ ?_ hpl i (by omega)
        · intro j hj
          exact Mem.write_other _ _ _ _ _ _ (fun c => by omega)
        · intro k j k1 k2
          exact Mem.write_other _ _ _ _ _ _ (fun c => (hold k k1 k2).1 c.1)
    · obtain ⟨hpre2, hal, hplt, hlt, hpd, hcost⟩ :=
        copy_rec_pre hyp hheap hpre hn5 hpost hp hps
      obtain ⟨r3, st3, hrun3, hpost3, hpl3⟩ := hrec _ _ _ (hheap1.trans hheap) hpre2
      have e2 := @copy_entry_rec _ ptemod recurse (d + 2) dst src n r s1 tr1 a1 hp
        (by omega) hps hal hlt
      rw [e2, hrun3] at hrun2
      simp only [Option.map_some'] at hrun2
      injection hrun2 with hrun2
      injection hrun2 with _ hst
      subst hst
      have hh : s1.heap = heap := hheap1.trans hheap
      have hlo0 : st.1.nalloc ≤ s1.nalloc := by
        rw [← hcn]
        exact Nat.le_add_right _ _
      have hpe : s1.heap s1.nalloc = heap s1.nalloc := by rw [hh]
      rw [hpe] at hpl3
      have htop3 : st3.1.nalloc ≤ st.1.nalloc + tables_below st.1.mem (d + 2) src :=
        hpost2.nalloc_le (by omega)
      have hn13 : s1.nalloc + 1 ≤ st3.1.nalloc := by
        have := hpost3.nalloc_eq
        have h2 : s1.nalloc + 1 ≤ st3.1.nalloc := by rw [this]; exact Nat.le_add_right _ _
        exact h2
      have hfr := hpost3.frame
      have keep : ∀ k j, st.1.nalloc ≤ k → k < s1.nalloc →
          st3.1.mem (heap k) j = s1.mem (heap k) j := by
        intro k j k1 k2
        obtain ⟨o1, o2, o3⟩ := hold k k1 k2
        rcases hfr (heap k) j with e | ⟨k3, q1, q2, q3⟩ | dd | ⟨hv, _⟩
        · rw [e]
          show Mem.write _ dst n _ _ j = _
          rw [Mem.write_other _ _ _ _ _ _ (fun c => o1 c.1),
            Mem.zero_other _ _ _ _ (fun c => o3 s1.nalloc (le_refl _) (by omega) (by rw [c, hh]))]
        · have q1b : s1.nalloc + 1 ≤ k3 := q1
          have q2b : k3 < st3.1.nalloc := q2
          have q3b : heap k = s1.heap k3 := q3
          exact absurd (by rw [q3b, hh]) (o3 k3 (by omega) (by omega))
        · exact absurd (by rw [dd.1, hh]) (o3 s1.nalloc (le_refl _) (by omega))
        · exact absurd hv (o2 1)
      have keepd : ∀ i, i < 512 → st3.1.mem dst i
          = ((s1.mem.zero (s1.heap s1.nalloc)).write dst n
              (s1.heap s1.nalloc ||| (s1.mem src n &&& PTE_FLAGS))) dst i := by
        intro i _
        rcases hfr dst i with e | ⟨k3, q1, q2, q3⟩ | dd | ⟨hv, _⟩
        · exact e
        · exfalso
          have q1b : s1.nalloc + 1 ≤ k3 := q1
          have q2b : k3 < st3.1.nalloc := q2
          have q3b : dst = s1.heap k3 := q3
          rw [hheap1] at q3b
          exact hpre.dst_fresh k3 (by omega) (by omega) q3b.symm
        · exact absurd dd.1.symm hpd
        · exact absurd hv (hpre.dst_out 1)
      intro i hi
      by_cases hin : i = n
      · subst hin
        intro _ _
        have hdv : st3.1.mem dst i = s1.heap s1.nalloc ||| (s1.mem src i &&& PTE_FLAGS) := by
          rw [keepd i hn5]; exact Mem.write_same _ _ _ _
        rw [hcn, hcn2, hdv, (copied_entry hal hplt).1]
        exact ⟨by omega, hpe, hpl3⟩
      · refine placed_keep hmono h00 (le_of_eq hcn) ?_ keep hpl i (by omega)
        intro j hj
        rw [keepd j (by omega), Mem.write_other _ _ _ _ _ _ (fun c => by omega),
          Mem.zero_other _ _ _ _ hpd.symm]

/-- The function `copy_pmap1` returns, what it returns is a copy, and the
tables of the copy are placed. -/
theorem copy_pmap1_placed {heap : Nat → Nat} (hyp : CopyHyp ptemod c V E J heap) :
    ∀ (d dst src : Nat) (st : CopySt α), st.1.heap = heap → CopyPre V E J d dst src st →
      ∃ r st2, copy_pmap1 ptemod d dst src st = some (r, st2) ∧
        CopyPost c V J d dst src 512 st r st2 ∧
        Placed heap st2.1.mem d dst st.1.nalloc st2.1.nalloc
  | 0, _, _, _, _, hpre => absurd hpre.depth (by decide)
  | 1, dst, src, st, hheap, hpre =>
    (copy_pmap1_spec hyp 1 dst src st hheap hpre).imp
      (fun _ h => h.imp (fun _ h2 => ⟨h2.1, h2.2, trivial⟩))
  | d + 2, dst, src, st, hheap, hpre => by
    obtain ⟨r, st2, hrun, hpost, hpl⟩ :=
      copy_loop_placed hyp hheap hpre (copy_pmap1 ptemod (d + 1))
        (fun dst2 src2 st2 h1 h2 => copy_pmap1_placed hyp (d + 1) dst2 src2 st2 h1 h2)
        512 (le_refl _)
    refine ⟨r, st2, hrun, hpost, copy_cut st.1.mem (d + 2) src st.1.nalloc, rfl,
      hpost.nalloc_eq.symm, fun i hi => ⟨copy_cut_mono _ _ _ _ (Nat.le_succ i), hpl i hi⟩⟩

end CopyPlaced

/-! ## The tables of the copy as a typed family -/

section CopyFamily

variable {α : Type} {ptemod : Option (Ptemod α)} {c : Nat → Nat} {V : Nat → Nat → Prop}
  {E : Nat → Prop} {J : Nat → Tracker × α → Prop}

/-- The function `copy_pmap` returns, the table it returns is a copy of the
source, and the tables of the copy under the new root are placed. -/
theorem copy_pmap_placed {heap : Nat → Nat} (hyp : CopyHyp ptemod c V E J heap)
    {pm : Nat} {st : CopySt α} (hheap : st.1.heap = heap) (hpre : PmapPre V E J pm st) :
    ∃ r st2, copy_pmap ptemod pm st
        = some (st.1.heap st.1.nalloc, st.1.heap st.1.nalloc, r, st2) ∧
      PmapCopied c V J pm st (st.1.heap st.1.nalloc) r st2 ∧
      Placed heap st2.1.mem 4 (st.1.heap st.1.nalloc) (st.1.nalloc + 1) st2.1.nalloc := by
  obtain ⟨r0, st0, hrun0, hcop⟩ := copy_pmap_spec hyp hheap hpre
  obtain ⟨s, tr, a⟩ := st
  have hheap0 : s.heap = heap := hheap
  have hgood : GoodHeap s.heap V s.nalloc (s.nalloc + 1 + tables_below s.mem 4 pm) := hpre.good
  have hal : s.heap s.nalloc % 4096 = 0 := hgood.aligned _ (le_refl _) (by omega)
  have hout : ∀ k, ¬ V k (s.heap s.nalloc) := fun k =>
    hgood.fresh _ k (le_refl _) (by omega)
  have hm1 : ∀ f i k, V k f → (s.mem.zero (s.heap s.nalloc)) f i = s.mem f i := by
    intro f i k hV
    exact Mem.zero_other _ _ _ _ (fun h => hout k (by rw [← h]; exact hV))
  have htb : tables_below (s.mem.zero (s.heap s.nalloc)) 4 pm = tables_below s.mem 4 pm :=
    tables_below_congr hpre.shape (fun f i k hV => hm1 f i _ hV) 4 pm hpre.root_in
  have hpre1 : CopyPre V E J 4 (s.heap s.nalloc) pm
      ({ s with mem := s.mem.zero (s.heap s.nalloc), nalloc := s.nalloc + 1 },
        mapSet tr (s.heap s.nalloc) (s.heap s.nalloc), a) :=
    { depth := by decide
      src_in := hpre.root_in
      shape := hpre.shape.shape_congr (fun f i k hV => hm1 f i _ hV)
      leaf := fun f i hV hi hp => by
        have := hm1 f i 1 hV
        simp only at hp ⊢
        rw [this] at hp ⊢
        exact hpre.leaf f i hV hi hp
      dst_zero := fun i _ => Mem.zero_same _ _ _
      dst_out := hout
      good := by
        show GoodHeap s.heap V (s.nalloc + 1) (s.nalloc + 1 + tables_below _ 4 pm)
        rw [htb]
        exact
        { aligned := fun k h1 h2 => hgood.aligned k (by omega) h2
          low := fun k h1 h2 => hgood.low k (by omega) h2
          inj := fun k1 k2 h1 h2 h3 h4 => hgood.inj k1 k2 (by omega) h2 (by omega) h4
          fresh := fun k j h1 h2 => hgood.fresh k j (by omega) h2 }
      dst_fresh := fun k h1 h2 heq => by
        have h1b : s.nalloc + 1 ≤ k := h1
        have h2b : k < s.nalloc + 1 + tables_below _ 4 pm := h2
        rw [htb] at h2b
        have := hgood.inj k s.nalloc (by omega) h2b (le_refl _) (by omega) heq
        omega
      inv := by
        show J (s.nalloc + 1) (mapSet tr (s.heap s.nalloc) (s.heap s.nalloc), a)
        rw [hheap0]
        exact hyp.alloc s.nalloc tr a hpre.inv }
  obtain ⟨r, st2, hrun, _, hpl⟩ := copy_pmap1_placed hyp 4 _ pm _ hheap0 hpre1
  have hrun2 : copy_pmap ptemod pm (s, tr, a)
      = some (s.heap s.nalloc, s.heap s.nalloc, r, st2) := by
    simp only [copy_pmap, pg_new_eq tr hal, hrun]
  rw [hrun2] at hrun0
  injection hrun0 with hrun0
  injection hrun0 with _ hrun0
  injection hrun0 with _ hrun0
  injection hrun0 with h1 h2
  subst h1; subst h2
  exact ⟨r, st2, hrun2, hcop, hpl⟩

/-- A table of leaf entries of a copy holds, at each index, zero or the entry
of one table of leaf entries of the source. -/
theorem IsCopy.copy_leaf {A : Nat → Prop} {m : Mem} (hsh : Shape m V) :
    ∀ (d src dst g : Nat), V d src → IsCopy c A m d src dst → Subtable m d dst 1 g →
      ∃ f, V 1 f ∧ ∀ i, i < 512 → m g i = 0 ∨ m g i = m f i
  | 0, _, _, _, _, _, h => h.elim
  | 1, src, dst, g, hV, hc, h => by
    refine ⟨src, hV, fun i hi => ?_⟩
    rw [h.2]
    by_cases hp : m src i &&& PTE_P = 0
    · exact Or.inl ((hc i hi).1 hp)
    · exact Or.inr ((hc i hi).2 hp).1
  | d + 2, src, dst, g, hV, hc, h => by
    rcases h with h | ⟨i, hi, hp, hps, hs⟩
    · have := h.1; omega
    · obtain ⟨c1, c2, c3⟩ := hc i hi
      by_cases sp : m src i &&& PTE_P = 0
      · rw [c1 sp] at hp; exact absurd rfl hp
      by_cases sps : m src i &&& PTE_PS = 0
      · obtain ⟨p, _, hal, hlt, hval, hsub⟩ := c3 sp sps
        rw [hval, (copied_entry hal hlt).1] at hs
        exact IsCopy.copy_leaf hsh (d + 1) _ p g (hsh d src i hV hi sp sps).2 hsub hs
      · rw [c2 sp sps] at hps; exact absurd hps sps

/-- The entry `copy_pmap1` installs for a table has COW clear. -/
theorem copied_no_cow {p : Nat} (c : Nat) (hp : p % 4096 = 0) :
    (p ||| (c &&& PTE_FLAGS)) &&& PTE_COW = 0 := by
  rw [PTE_COW_eq, entry_bit 9 (by decide) hp, flags_bit_high c 9 (by decide)]

/-- A table above the leaf level of a copy holds, at each index, zero, or
the entry of one table of the source of the same depth, or an entry with COW
clear. -/
theorem IsCopy.copy_upper {A : Nat → Prop} {m : Mem} (hsh : Shape m V) :
    ∀ (d src dst e g : Nat), V d src → IsCopy c A m d src dst → Subtable m d dst (e + 2) g →
      ∃ f, V (e + 2) f ∧ ∀ i, i < 512 →
        m g i = 0 ∨ m g i = m f i ∨ m g i &&& PTE_COW = 0
  | 0, _, _, _, _, _, _, h => h.elim
  | 1, _, _, _, _, _, _, h => by have := h.1; omega
  | d + 2, src, dst, e, g, hV, hc, h => by
    rcases h with ⟨h1, h2⟩ | ⟨i, hi, hp, hps, hs⟩
    · have he : e = d := by omega
      subst he; subst h2
      refine ⟨src, hV, fun i hi => ?_⟩
      obtain ⟨c1, c2, c3⟩ := hc i hi
      by_cases sp : m src i &&& PTE_P = 0
      · exact Or.inl (c1 sp)
      by_cases sps : m src i &&& PTE_PS = 0
      · obtain ⟨p, _, hal, _, hval, _⟩ := c3 sp sps
        exact Or.inr (Or.inr (by rw [hval]; exact copied_no_cow _ hal))
      · exact Or.inr (Or.inl (c2 sp sps))
    · obtain ⟨c1, c2, c3⟩ := hc i hi
      by_cases sp : m src i &&& PTE_P = 0
      · rw [c1 sp] at hp; exact absurd rfl hp
      by_cases sps : m src i &&& PTE_PS = 0
      · obtain ⟨p, _, hal, hlt, hval, hsub⟩ := c3 sp sps
        rw [hval, (copied_entry hal hlt).1] at hs
        exact IsCopy.copy_upper hsh (d + 1) _ p e g (hsh d src i hV hi sp sps).2 hsub hs
      · rw [c2 sp sps] at hps; exact absurd hps sps

end CopyFamily

/-! ## Steps on the page tables of the processes -/

theorem PtStep.step_refl {V : Nat → Nat → Prop} {s : Phys} (hty : Typed V)
    (hsh : Shape s.mem V) : PtStep V V s s :=
  { heap_eq := rfl
    lo := le_refl _
    sub := fun _ _ h => h
    new := fun _ _ h => Or.inl h
    typed := hty
    shape := hsh
    cow := fun h => h
    frame := fun _ _ _ _ => rfl }

theorem PtStep.step_trans {V V2 V3 : Nat → Nat → Prop} {s s2 s3 : Phys}
    (h1 : PtStep V V2 s s2) (h2 : PtStep V2 V3 s2 s3) : PtStep V V3 s s3 :=
  { heap_eq := h2.heap_eq.trans h1.heap_eq
    lo := le_trans h1.lo h2.lo
    sub := fun d g h => h2.sub d g (h1.sub d g h)
    new := fun d g h => by
      rcases h2.new d g h with a | a
      · rcases h1.new d g a with b | b
        · exact Or.inl b
        · exact Or.inr (b.window_mono (le_refl _) h2.lo)
      · rw [h1.heap_eq] at a
        exact Or.inr (a.window_mono h1.lo (le_refl _))
    typed := h2.typed
    shape := h2.shape
    cow := fun h => h2.cow (h1.cow h)
    frame := fun g j hV hW => by
      have hW1 : ¬ Window s.heap s.nalloc s2.nalloc g :=
        fun w => hW (w.window_mono (le_refl _) h2.lo)
      have hW2 : ¬ Window s2.heap s2.nalloc s3.nalloc g := by
        rw [h1.heap_eq]
        exact fun w => hW (w.window_mono h1.lo (le_refl _))
      have hV2 : ∀ d, ¬ V2 d g := fun d a => by
        rcases h1.new d g a with b | b
        · exact hV d b
        · exact hW1 b
      rw [h2.frame g j hV2 hW2, h1.frame g j hV hW1] }

theorem CowOk_zero : CowOk 0 := CowOk_of_no_cow (by decide)

section CopyStepFamily

variable {α : Type} {ptemod : Option (Ptemod α)} {c : Nat → Nat} {S : Nat → Nat → Prop}
  {E : Nat → Prop} {J : Nat → Tracker × α → Prop}

/-- What `copy_pmap` of a page table with the tables `S` does to the page
tables of the processes: the tables of the copy join their family. -/
theorem copy_pt_step {heap : Nat → Nat} (hyp : CopyHyp ptemod c S E J heap)
    {pm : Nat} {st : CopySt α} {cap : Nat} (hheap : st.1.heap = heap)
    (hpre : PmapPre S E J pm st) {V : Nat → Nat → Prop} (hty : Typed V)
    (hsh : Shape st.1.mem V) (hgood : GoodHeap st.1.heap V st.1.nalloc cap)
    (hroom : st.1.nalloc + 1 + tables_below st.1.mem 4 pm ≤ cap)
    (hap : ∀ f d, S 1 f → ¬ V (d + 2) f)
    (hfix : (∀ v, c v = v) ∨ (∀ f, S 1 f → V 1 f))
    (hck : ∀ e, CowOk e → CowOk (c e))
    (hcowS : CowAll V st.1.mem → ∀ d f i, S d f → i < 512 → CowOk (st.1.mem f i)) :
    ∃ r st2, copy_pmap ptemod pm st
        = some (st.1.heap st.1.nalloc, st.1.heap st.1.nalloc, r, st2) ∧
      PmapCopied c S J pm st (st.1.heap st.1.nalloc) r st2 ∧
      PtStep V (fun d g => V d g ∨ Subtable st2.1.mem 4 (st.1.heap st.1.nalloc) d g)
        st.1 st2.1 := by
  obtain ⟨r, st2, hrun, hcop, hpl⟩ := copy_pmap_placed hyp hheap hpre
  refine ⟨r, st2, hrun, hcop, ?_⟩
  have hn2 := hcop.nalloc_eq
  have hfr := hcop.frame
  have hUwin : ∀ d g, Subtable st2.1.mem 4 (st.1.heap st.1.nalloc) d g →
      Window st.1.heap st.1.nalloc st2.1.nalloc g := by
    intro d g h
    rcases Placed.sub_window 4 _ _ _ d g hpl h with ⟨_, b⟩ | ⟨_, k, k1, k2, b⟩
    · exact ⟨st.1.nalloc, le_refl _, by omega, b⟩
    · exact ⟨k, by omega, k2, by rw [hheap]; exact b⟩
  have hVout : ∀ d g, V d g → ¬ Window st.1.heap st.1.nalloc st2.1.nalloc g := by
    rintro d g hV ⟨k, k1, k2, rfl⟩
    exact hgood.fresh k d k1 (by omega) hV
  have hSout : ∀ f d, Window st.1.heap st.1.nalloc st2.1.nalloc f → ¬ S d f := by
    rintro f d ⟨k, k1, k2, rfl⟩
    exact hpre.good.fresh k d k1 (by omega)
  have hVup : ∀ f i k, V (k + 2) f → st2.1.mem f i = st.1.mem f i := by
    intro f i k hV
    rcases hfr f i with e | w | d | ⟨hS1, _⟩
    · exact e
    · exact absurd w (hVout _ f hV)
    · exact d.elim
    · exact absurd hV (hap f k hS1)
  have hshS : Shape st2.1.mem S :=
    hpre.shape.shape_congr (hfr.frame_inner hyp.sep hSout (fun _ _ _ h => h.elim))
  have hcell : CowAll V st.1.mem → ∀ d f i, S d f → i < 512 → CowOk (st2.1.mem f i) := by
    intro hcow d f i hS hi
    rcases hfr f i with e | w | dd | ⟨hS1, _, _, e⟩
    · rw [e]; exact hcowS hcow d f i hS hi
    · exact absurd hS (hSout f d w)
    · exact dd.elim
    · rw [e]; exact hck _ (hcowS hcow d f i hS hi)
  exact
  { heap_eq := hcop.heap_eq
    lo := by omega
    sub := fun _ _ h => Or.inl h
    new := fun d g h => h.imp (fun a => a) (hUwin d g)
    typed := by
      intro d1 d2 g h1 h2
      rcases h1 with h1 | h1
      · rcases h2 with h2 | h2
        · exact hty d1 d2 g h1 h2
        · exact absurd (hUwin d2 g h2) (hVout d1 g h1)
      · rcases h2 with h2 | h2
        · exact absurd (hUwin d1 g h1) (hVout d2 g h2)
        · refine Placed.sub_typed 4 _ _ _ d1 d2 g hpl ?_ ?_ h1 h2
          · intro k1 k2 a1 a2 b1 b2 e
            rw [← hheap] at e
            exact hgood.inj k1 k2 (by omega) (by omega) (by omega) (by omega) e
          · intro k a1 a2 e
            rw [← hheap] at e
            have := hgood.inj k st.1.nalloc (by omega) (by omega) (le_refl _) (by omega) e
            omega
    shape := by
      intro d f i hV hi hp hps
      rcases hV with hV | hU
      · rw [hVup f i d hV] at hp hps ⊢
        exact ⟨(hsh d f i hV hi hp hps).1, Or.inl (hsh d f i hV hi hp hps).2⟩
      · have hnx := Subtable.sub_next 4 _ d f i hU hi hp hps
        obtain ⟨k, k1, k2, e⟩ := hUwin _ _ hnx
        exact ⟨by rw [e]; exact hgood.low k k1 (by omega), Or.inr hnx⟩
    cow := by
      intro hcow d g i hg hi
      rcases hg with hg | hU
      · rcases hfr g i with e | w | dd | ⟨_, _, _, e⟩
        · rw [e]; exact hcow d g i hg hi
        · exact absurd w (hVout d g hg)
        · exact dd.elim
        · rw [e]; exact hck _ (hcow d g i hg hi)
      · obtain ⟨d1, d2⟩ := Subtable.sub_depth 4 _ d g hU
        by_cases hd : d = 1
        · subst hd
          obtain ⟨f, hf, hcp⟩ := IsCopy.copy_leaf hshS 4 pm _ g hpre.root_in hcop.copy hU
          rcases hcp i hi with e | e
          · rw [e]; exact CowOk_zero
          · rw [e]; exact hcell hcow 1 f i hf hi
        · obtain ⟨e, rfl⟩ : ∃ e, d = e + 2 := ⟨d - 2, by omega⟩
          obtain ⟨f, hf, hcp⟩ := IsCopy.copy_upper hshS 4 pm _ e g hpre.root_in hcop.copy hU
          rcases hcp i hi with z | z | z
          · rw [z]; exact CowOk_zero
          · rw [z]; exact hcell hcow _ f i hf hi
          · exact CowOk_of_no_cow z
    frame := by
      intro g j hV hW
      rcases hfr g j with e | w | d | ⟨hS1, _, _, e⟩
      · exact e
      · exact absurd w hW
      · exact d.elim
      · rcases hfix with hid | hin
        · rw [e, hid]
        · exact absurd (hin g hS1) (hV 1) }

end CopyStepFamily

/-! ## What `pmap_walk` writes -/

/-- A returning `pmap_walk` with `create` writes into tables of the page
table and into the pages it takes from the allocator only. -/
theorem pmap_walk_touch {V : Nat → Nat → Prop} {s : Phys} {tr : Tracker}
    {pml4 v perms : Nat} {r : Option (Nat × Nat)} {s1 : Phys} {tr1 : Tracker}
    (hroot : V 4 pml4) (hshape : Shape s.mem V)
    (hgood : GoodHeap s.heap V s.nalloc (s.nalloc + 3)) (hperm : FlagsOnly perms)
    (h : pmap_walk s tr pml4 v true perms = some (r, s1, tr1)) :
    ∀ g j, (∀ d, ¬ V d g) → ¬ Window s.heap s.nalloc s1.nalloc g → s1.mem g j = s.mem g j := by
  obtain ⟨hleg, hps⟩ := pmap_walk_create_some h hroot hshape
  obtain ⟨b4, b3, b2, b1⟩ := pgbits_lt v
  have ha0 := hgood.aligned s.nalloc (le_refl _) (by omega)
  have hl0 := hgood.low s.nalloc (le_refl _) (by omega)
  have ha1 := hgood.aligned (s.nalloc + 1) (by omega) (by omega)
  have hl1 := hgood.low (s.nalloc + 1) (by omega) (by omega)
  have ha2 := hgood.aligned (s.nalloc + 2) (by omega) (by omega)
  have hl2 := hgood.low (s.nalloc + 2) (by omega) (by omega)
  have hf0 : ∀ d g, V d g → s.heap s.nalloc ≠ g :=
    fun d g hg => hgood.ne (le_refl _) (by omega) hg
  have h01 : s.heap (s.nalloc + 1) ≠ s.heap s.nalloc := fun c => by
    have := hgood.inj _ _ (by omega) (by omega) (le_refl _) (by omega) c
    omega
  have h12 : s.heap (s.nalloc + 2) ≠ s.heap (s.nalloc + 1) := fun c => by
    have := hgood.inj _ _ (by omega) (by omega) (by omega) (by omega) c
    omega
  intro g j hV hW
  by_cases a4 : s.mem pml4 (pgbits v).1 &&& PTE_P = 0
  · have z1 : (install perms s tr pml4 (pgbits v).1).1.mem (s.heap s.nalloc) (pgbits v).2.1
        &&& PTE_P = 0 := zero_absent (install_new_zero perms s tr pml4 _ _ (hf0 _ _ hroot))
    have z2 : (install perms (install perms s tr pml4 (pgbits v).1).1
        (install perms s tr pml4 (pgbits v).1).2 (s.heap s.nalloc) (pgbits v).2.1).1.mem
        (s.heap (s.nalloc + 1)) (pgbits v).2.2.1 &&& PTE_P = 0 :=
      zero_absent (install_new_zero perms _ _ (s.heap s.nalloc) _ _ h01)
    have he := pmap_walk_create_of_levels s tr pml4 v perms hleg
      (walk_level_install perms s tr pml4 _ hperm a4 ha0 hl0)
      (walk_level_install perms _ _ (s.heap s.nalloc) _ hperm z1 ha1 hl1)
      (walk_level_install perms _ _ (s.heap (s.nalloc + 1)) _ hperm z2 ha2 hl2)
    rw [he] at h
    injection h with h
    injection h with _ h
    injection h with h _
    subst h
    have hW3 : ¬ Window s.heap s.nalloc (s.nalloc + 1 + 1 + 1) g := hW
    have g0 : g ≠ s.heap s.nalloc := fun c => hW3 ⟨s.nalloc, le_refl _, by omega, c⟩
    have g1 : g ≠ s.heap (s.nalloc + 1) := fun c => hW3 ⟨s.nalloc + 1, by omega, by omega, c⟩
    have g2 : g ≠ s.heap (s.nalloc + 2) := fun c => hW3 ⟨s.nalloc + 2, by omega, by omega, c⟩
    have gp : g ≠ pml4 := fun c => hV 4 (by rw [c]; exact hroot)
    rw [install_other perms _ _ _ _ g j g2 (fun c => g1 c.1),
      install_other perms _ _ _ _ g j g1 (fun c => g0 c.1),
      install_other perms _ _ _ _ g j g0 (fun c => gp c.1)]
  obtain ⟨p4, hps3⟩ := hps a4
  have h4 := level_ro_next a4 p4 (hshape 2 pml4 _ hroot b4 a4 p4).1
  have hn1 : V 3 _ := hshape.next hroot b4 h4
  by_cases a3 : s.mem (s.mem pml4 (pgbits v).1 &&& PTE_ADDR) (pgbits v).2.1 &&& PTE_P = 0
  · have z1 : (install perms s tr (s.mem pml4 (pgbits v).1 &&& PTE_ADDR) (pgbits v).2.1).1.mem
        (s.heap s.nalloc) (pgbits v).2.2.1 &&& PTE_P = 0 :=
      zero_absent (install_new_zero perms s tr _ _ _ (hf0 _ _ hn1))
    have he := pmap_walk_create_of_levels s tr pml4 v perms hleg
      (walk_level_of_ro _ _ _ _ _ _ _ h4)
      (walk_level_install perms s tr _ _ hperm a3 ha0 hl0)
      (walk_level_install perms _ _ (s.heap s.nalloc) _ hperm z1 ha1 hl1)
    rw [he] at h
    injection h with h
    injection h with _ h
    injection h with h _
    subst h
    have hW2 : ¬ Window s.heap s.nalloc (s.nalloc + 1 + 1) g := hW
    have g0 : g ≠ s.heap s.nalloc := fun c => hW2 ⟨s.nalloc, le_refl _, by omega, c⟩
    have g1 : g ≠ s.heap (s.nalloc + 1) := fun c => hW2 ⟨s.nalloc + 1, by omega, by omega, c⟩
    have gp : g ≠ s.mem pml4 (pgbits v).1 &&& PTE_ADDR := fun c => hV 3 (by rw [c]; exact hn1)
    rw [install_other perms _ _ _ _ g j g1 (fun c => g0 c.1),
      install_other perms _ _ _ _ g j g0 (fun c => gp c.1)]
  obtain ⟨p3, hps2⟩ := hps3 a3
  have h3 := level_ro_next a3 p3 (hshape 1 _ _ hn1 b3 a3 p3).1
  have hn2 : V 2 _ := hshape.next hn1 b3 h3
  by_cases a2 : s.mem (s.mem (s.mem pml4 (pgbits v).1 &&& PTE_ADDR) (pgbits v).2.1 &&& PTE_ADDR)
      (pgbits v).2.2.1 &&& PTE_P = 0
  · have he := pmap_walk_create_of_levels s tr pml4 v perms hleg
      (walk_level_of_ro _ _ _ _ _ _ _ h4) (walk_level_of_ro _ _ _ _ _ _ _ h3)
      (walk_level_install perms s tr _ _ hperm a2 ha0 hl0)
    rw [he] at h
    injection h with h
    injection h with _ h
    injection h with h _
    subst h
    have hW1 : ¬ Window s.heap s.nalloc (s.nalloc + 1) g := hW
    have g0 : g ≠ s.heap s.nalloc := fun c => hW1 ⟨s.nalloc, le_refl _, by omega, c⟩
    have gp : g ≠ s.mem (s.mem pml4 (pgbits v).1 &&& PTE_ADDR) (pgbits v).2.1 &&& PTE_ADDR :=
      fun c => hV 2 (by rw [c]; exact hn2)
    rw [install_other perms _ _ _ _ g j g0 (fun c => gp c.1)]
  have h2 := level_ro_next a2 (hps2 a2) (hshape 0 _ _ hn2 b2 a2 (hps2 a2)).1
  have he := pmap_walk_create_of_levels s tr pml4 v perms hleg
    (walk_level_of_ro _ _ _ _ _ _ _ h4) (walk_level_of_ro _ _ _ _ _ _ _ h3)
    (walk_level_of_ro _ _ _ _ _ _ _ h2)
  rw [he] at h
  injection h with h
  injection h with _ h
  injection h with h _
  subst h
  rfl

/-! ## The step of `page_insert` -/

/-- What a returning `page_insert` of an aligned frame with flags without COW
does to the page tables of the processes. -/
theorem page_insert_step {V : Nat → Nat → Prop} {s : Phys} {p : proc_t}
    {va pg p_pg perms cap : Nat} {vempty : Bool} {s3 : Phys} {p2 : proc_t}
    (hE : Env V s p.pmap cap) (hroom : s.nalloc + 3 ≤ cap) (hperm : FlagsOnly perms)
    (hnc : perms &&& PTE_COW = 0) (hal : p_pg % 4096 = 0)
    (h : page_insert s p va pg p_pg perms vempty = some (s3, p2)) :
    ∃ V2, PtStep V V2 s s3 ∧ s3.nalloc ≤ s.nalloc + 3 ∧ p2.pmap = p.pmap := by
  obtain ⟨f, i, s1, pages1, hw, hc⟩ := page_insert_cases h
  obtain ⟨hleg, hnops⟩ := pmap_walk_create_some hw hE.root hE.shape
  have hml := missing_levels_le s.mem p.pmap va
  obtain ⟨f2, s12, tr2, hrun, hwc⟩ :=
    pmap_walk_create_spec V perms p.pmap va s p.pages hleg hperm hE.root hE.shape hnops
      (hE.fresh.upto (by omega))
  rw [hw] at hrun
  injection hrun with hrun
  injection hrun with e1 e2
  injection e1 with e1
  injection e1 with a1 a2
  injection e2 with a3 a4
  subst a1; subst a2; subst a3; subst a4
  obtain ⟨V2, hF⟩ := hwc.family hE.typed
  have hn : s.nalloc ≤ s1.nalloc := by rw [hwc.nalloc_eq]; exact Nat.le_add_right _ _
  have hcap : s1.nalloc ≤ s.nalloc + 3 := by rw [hwc.nalloc_eq]; omega
  have h3 : s3.mem = s1.mem.write f (pgbits va).2.2.2 (p_pg ||| perms ||| PTE_P) ∧
      s3.heap = s1.heap ∧ s3.nalloc = s1.nalloc ∧ p2.pmap = p.pmap := by
    rcases hc with ⟨_, e3, e2⟩ | ⟨_, _, _, _, e3, e2⟩
    · rw [e3, e2]; exact ⟨rfl, rfl, rfl, rfl⟩
    · rw [e3, e2]; exact ⟨rfl, rfl, rfl, rfl⟩
  obtain ⟨hmem, hheap3, hn3, hpm⟩ := h3
  have hWV : ∀ d q, V d q → ¬ Window s.heap s.nalloc s1.nalloc q := by
    rintro d q hq ⟨k, a, b, rfl⟩
    exact hE.fresh.fresh k d a (by omega) hq
  have hinst : ∀ q, Window s.heap s.nalloc s1.nalloc q → CowOk (q ||| perms ||| PTE_P) := by
    rintro q ⟨k, h1, h2, rfl⟩
    exact CowOk_of_no_cow (entry_no_cow (hE.fresh.aligned k h1 (by omega)) hnc)
  have htouch := pmap_walk_touch hE.root hE.shape (hE.fresh.upto (by omega)) hperm hw
  refine ⟨V2, ?_, by omega, hpm⟩
  exact
  { heap_eq := hheap3.trans hwc.heap_eq
    lo := by omega
    sub := hF.sub
    new := fun d g hg => by rw [hn3]; exact hF.new d g hg
    typed := hF.typed
    shape := by
      rw [hmem]
      exact hF.shape.shape_congr (fun g j k hg =>
        Mem.write_other _ _ _ _ _ _ (fun c => by
          have := hF.typed _ _ _ hF.leaf (by rw [← c.1]; exact hg)
          omega))
    cow := by
      intro hI d g j hg hj
      rw [hmem]
      by_cases hc2 : g = f ∧ j = (pgbits va).2.2.2
      · obtain ⟨rfl, rfl⟩ := hc2
        rw [Mem.write_same]
        exact CowOk_of_no_cow (entry_no_cow hal hnc)
      · rw [Mem.write_other _ _ _ _ _ _ hc2]
        rcases hF.new d g hg with hv | hw2
        · rcases (hwc.grown g j).1 (hWV d g hv) with e | ⟨_, q, hq, e⟩
          · rw [e]; exact hI d g j hv hj
          · rw [e]; exact hinst q hq
        · rcases (hwc.grown g j).2 hw2 with e | ⟨q, hq, e⟩
          · rw [e]; exact CowOk_zero
          · rw [e]; exact hinst q hq
    frame := by
      intro g j hV hW
      rw [hn3] at hW
      have hgf : g ≠ f := fun c => by
        rcases hF.new 1 f hF.leaf with a | a
        · exact hV 1 (by rw [c]; exact a)
        · exact hW (by rw [c]; exact a)
      rw [hmem, Mem.write_other _ _ _ _ _ _ (fun c => hgf c.1)]
      exact htouch g j hV hW }

/-! ## The steps of `elf_segload` and `sys_pgfault` -/

theorem PtStep.step_good {V V2 : Nat → Nat → Prop} {s s2 : Phys} {cap : Nat}
    (h : PtStep V V2 s s2) (hg : GoodHeap s.heap V s.nalloc cap) :
    GoodHeap s2.heap V2 s2.nalloc cap := by
  rw [h.heap_eq]
  exact
  { aligned := fun k h1 h2 => hg.aligned k (le_trans h.lo h1) h2
    low := fun k h1 h2 => hg.low k (le_trans h.lo h1) h2
    inj := fun k1 k2 a1 a2 b1 b2 e =>
      hg.inj k1 k2 (le_trans h.lo a1) a2 (le_trans h.lo b1) b2 e
    fresh := fun k d h1 h2 c => by
      rcases h.new d _ c with c | c
      · exact hg.fresh k d (le_trans h.lo h1) h2 c
      · exact GoodHeap.not_window hg h1 h2 c }

theorem PtStep.step_env {V V2 : Nat → Nat → Prop} {s s2 : Phys} {pm cap : Nat}
    (h : PtStep V V2 s s2) (hE : Env V s pm cap) : Env V2 s2 pm cap :=
  { typed := h.typed
    root := h.sub _ _ hE.root
    shape := h.shape
    fresh := h.step_good hE.fresh }

/-- A page taken from the allocator and filled in some way: the page tables
of the processes are as they were. -/
theorem fresh_page_step {V : Nat → Nat → Prop} {s : Phys} {cap : Nat} {m2 : Mem}
    (hty : Typed V) (hsh : Shape s.mem V) (hgood : GoodHeap s.heap V s.nalloc cap)
    (hroom : s.nalloc + 1 ≤ cap)
    (hm2 : ∀ g j, g ≠ s.heap s.nalloc → m2 g j = s.mem g j) (iv : List Nat) :
    PtStep V V s ⟨m2, s.heap, s.nalloc + 1, iv⟩ := by
  have hne : ∀ d g, V d g → g ≠ s.heap s.nalloc := fun d g hg c =>
    hgood.fresh s.nalloc d (le_refl _) (by omega) (by rw [← c]; exact hg)
  have hm : ∀ d g j, V d g → m2 g j = s.mem g j := fun d g j hg => hm2 g j (hne d g hg)
  exact
  { heap_eq := rfl
    lo := Nat.le_succ _
    sub := fun _ _ h => h
    new := fun _ _ h => Or.inl h
    typed := hty
    shape := hsh.shape_congr (fun g j _ hg => hm _ g j hg)
    cow := fun hc d g i hg hi => by
      show CowOk (m2 g i)
      rw [hm d g i hg]; exact hc d g i hg hi
    frame := fun g j _ hW =>
      hm2 g j (fun c => hW ⟨s.nalloc, le_refl _, Nat.lt_succ_self _, c⟩) }

/-- A page taken from the allocator, filled in some way and inserted with
flags without COW. -/
theorem fresh_insert_step {V : Nat → Nat → Prop} {s : Phys} {p : proc_t} {dst : Nat}
    {m2 : Mem} {va perms cap : Nat} {vempty : Bool} {s3 : Phys} {p2 : proc_t}
    (hE : Env V s p.pmap cap) (hroom : s.nalloc + 4 ≤ cap)
    (hdst : dst = s.heap s.nalloc) (hal : dst % 4096 = 0)
    (hm2 : ∀ g j, g ≠ dst → m2 g j = s.mem g j) (hperm : FlagsOnly perms)
    (hnc : perms &&& PTE_COW = 0)
    (hi : page_insert ⟨m2, s.heap, s.nalloc + 1, s.inval⟩
      { p with pages := mapSet p.pages dst dst } va dst dst perms vempty = some (s3, p2)) :
    ∃ V2, PtStep V V2 s s3 ∧ s3.nalloc ≤ s.nalloc + 4 ∧ p2.pmap = p.pmap := by
  subst hdst
  have st1 := fresh_page_step hE.typed hE.shape hE.fresh (by omega) hm2 s.inval
  have e1 : Env V ⟨m2, s.heap, s.nalloc + 1, s.inval⟩ p.pmap cap := st1.step_env hE
  obtain ⟨V2, st2, hn, hpm⟩ :=
    page_insert_step (p := { p with pages := mapSet p.pages (s.heap s.nalloc) (s.heap s.nalloc) })
      e1 (by show s.nalloc + 1 + 3 ≤ cap; omega) hperm hnc hal hi
  refine ⟨V2, st1.step_trans st2, ?_, hpm⟩
  have : s3.nalloc ≤ s.nalloc + 1 + 3 := hn
  omega

theorem elf_segload_page_step {V : Nat → Nat → Prop} {s : Phys} {p : proc_t} {hdr : elf_phdr}
    {perms : Nat} {i : Int} {s3 : Phys} {p2 : proc_t} {cap : Nat} (hE : Env V s p.pmap cap)
    (hroom : s.nalloc + 4 ≤ cap) (hperm : FlagsOnly perms) (hnc : perms &&& PTE_COW = 0)
    (h : elf_segload_page s p hdr perms i = some (s3, p2)) :
    ∃ V2, PtStep V V2 s s3 ∧ s3.nalloc ≤ s.nalloc + 4 ∧ p2.pmap = p.pmap := by
  obtain ⟨dst, m2, hdst, hal, hm2, hi⟩ := elf_segload_page_some h
  exact fresh_insert_step hE hroom hdst hal hm2 hperm hnc hi

theorem elf_segload_loop_step (hdr : elf_phdr) (perms : Nat) (hperm : FlagsOnly perms)
    (hnc : perms &&& PTE_COW = 0) (cap : Nat) :
    ∀ (n : Nat) (i : Int) (V : Nat → Nat → Prop) (s : Phys) (p : proc_t) (s3 : Phys)
      (p2 : proc_t), Env V s p.pmap cap → s.nalloc + 4 * n ≤ cap →
      elf_segload_loop hdr perms n i s p = some (s3, p2) →
      ∃ V2, PtStep V V2 s s3 ∧ s3.nalloc ≤ s.nalloc + 4 * n ∧ p2.pmap = p.pmap := by
  intro n
  induction n with
  | zero =>
    intro i V s p s3 p2 hE _ h
    simp only [elf_segload_loop, Option.some.injEq, Prod.mk.injEq] at h
    obtain ⟨rfl, rfl⟩ := h
    exact ⟨V, PtStep.step_refl hE.typed hE.shape, le_refl _, rfl⟩
  | succ n ih =>
    intro i V s p s3 p2 hE hroom h
    unfold elf_segload_loop at h
    cases hp : elf_segload_page s p hdr perms i with
    | none => rw [hp] at h; cases h
    | some r =>
      obtain ⟨s1, p1⟩ := r
      rw [hp] at h
      dsimp only at h
      obtain ⟨V1, st1, hn1, hpm1⟩ := elf_segload_page_step hE (by omega) hperm hnc hp
      have e1 : Env V1 s1 p1.pmap cap := by
        rw [hpm1]; exact st1.step_env hE
      obtain ⟨V2, st2, hn2, hpm2⟩ := ih (i + 4096) V1 s1 p1 s3 p2 e1 (by omega) h
      exact ⟨V2, st1.step_trans st2, by omega, hpm2.trans hpm1⟩

/-- What a returning `elf_segload` does to the page tables of the processes,
with room in the allocator for four pages for each page of the segment. -/
theorem elf_segload_step {V : Nat → Nat → Prop} {s : Phys} {p : proc_t} {hdr : elf_phdr}
    {s3 : Phys} {p2 : proc_t} {cap : Nat} (hE : Env V s p.pmap cap)
    (hroom : s.nalloc + 4 * elf_segload_pages hdr ≤ cap)
    (h : elf_segload s p hdr = some (s3, p2)) :
    ∃ V2, PtStep V V2 s s3 ∧ s3.nalloc ≤ s.nalloc + 4 * elf_segload_pages hdr ∧
      p2.pmap = p.pmap := by
  unfold elf_segload at h
  dsimp only at h
  split at h
  · cases h
  · have hperm : FlagsOnly (if Int.land hdr.flags 2 ≠ 0 then PTE_U ||| PTE_W else PTE_U) ∧
        (if Int.land hdr.flags 2 ≠ 0 then PTE_U ||| PTE_W else PTE_U) &&& PTE_COW = 0 := by
      split
      · exact ⟨⟨by decide, by decide⟩, by decide⟩
      · exact ⟨⟨by decide, by decide⟩, by decide⟩
    exact elf_segload_loop_step hdr _ hperm.1 hperm.2 cap _ _ V s p s3 p2 hE hroom h

/-- What a returning `sys_pgfault` does to the page tables of the
processes. -/
theorem sys_pgfault_step {V : Nat → Nat → Prop} {k : Kernel} {proc : proc_t} {pte : Nat × Nat}
    {fa cap : Nat} {proc1 : proc_t} {k2 : Kernel} (hE : Env V k.phys proc.pmap cap)
    (hroom : k.phys.nalloc + 4 ≤ cap)
    (h : sys_pgfault k proc pte fa = some (proc1, k2)) :
    ∃ V2, PtStep V V2 k.phys k2.phys ∧ k2.phys.nalloc ≤ k.phys.nalloc + 4 ∧
      proc1.pmap = proc.pmap := by
  obtain ⟨dst, src, x, s3, hdst, hal, hi, hk⟩ := sys_pgfault_some h
  obtain ⟨hp1, hp2⟩ := pgfault_perms x
  have hm2 : ∀ g j, g ≠ dst → copy_page (k.phys.mem.zero dst) dst src g j = k.phys.mem g j :=
    fun g j hg => by rw [copy_page_other _ _ _ _ _ hg, Mem.zero_other _ _ _ _ hg]
  rw [hk]
  exact fresh_insert_step hE hroom hdst hal hm2 hp1 hp2 hi

/-! ## The copy does not depend on the tracking of the callback -/

section CopySim

variable {α β : Type} {f : Option (Ptemod α)} {g : Option (Ptemod β)}

/-- One turn of the loop of `copy_pmap1` under two callbacks that return the
same entries: the machine state after is the same. -/
theorem copy_entry_sim
    (hfg : ∀ v st res st2, run_ptemod f v st = some (res, st2) →
      ∀ st3, ∃ st4, run_ptemod g v st3 = some (res, st4))
    (rf : Nat → Nat → CopySt α → Option (Bool × CopySt α))
    (rg : Nat → Nat → CopySt β → Option (Bool × CopySt β))
    (hrec : ∀ dst src s tr a r s2 tr2 a2, rf dst src (s, tr, a) = some (r, s2, tr2, a2) →
      ∀ tr3 a3, ∃ tr4 a4, rg dst src (s, tr3, a3) = some (r, s2, tr4, a4))
    (depth dst src i : Nat) (r0 : Bool) (s : Phys) (tr : Tracker) (a : α) (r : Bool) (s2 : Phys)
    (tr2 : Tracker) (a2 : α)
    (h : copy_entry f rf depth dst src (r0, s, tr, a) i = some (r, s2, tr2, a2))
    (tr3 : Tracker) (a3 : β) :
    ∃ tr4 a4, copy_entry g rg depth dst src (r0, s, tr3, a3) i = some (r, s2, tr4, a4) := by
  unfold copy_entry at h ⊢
  dsimp only at h ⊢
  by_cases hp : s.mem src i &&& PTE_P = 0
  · rw [if_pos hp] at h ⊢
    injection h with h
    injection h with h1 h
    injection h with h2 _
    exact ⟨tr3, a3, by rw [h1, h2]⟩
  rw [if_neg hp] at h ⊢
  by_cases hd : depth = 1
  · rw [if_pos hd] at h ⊢
    cases hr : run_ptemod f (s.mem src i) (tr, a) with
    | none => rw [hr] at h; cases h
    | some q =>
      obtain ⟨⟨sv, dv⟩, ⟨t1, b1⟩⟩ := q
      obtain ⟨⟨t4, b4⟩, hg⟩ := hfg _ _ _ _ hr (tr3, a3)
      rw [hr] at h
      rw [hg]
      dsimp only at h ⊢
      injection h with h
      injection h with h1 h
      injection h with h2 _
      exact ⟨t4, b4, by rw [h1, h2]⟩
  rw [if_neg hd] at h ⊢
  by_cases hps : s.mem src i &&& PTE_PS ≠ 0
  · rw [if_pos hps] at h ⊢
    injection h with h
    injection h with h1 h
    injection h with h2 _
    exact ⟨tr3, a3, by rw [h1, h2]⟩
  rw [if_neg hps] at h ⊢
  by_cases hal : s.heap s.nalloc % 4096 = 0
  swap
  · rw [pg_new_none tr hal] at h; cases h
  rw [pg_new_eq tr hal] at h
  rw [pg_new_eq tr3 hal]
  dsimp only at h ⊢
  cases hpe : pe2pg (s.mem src i) with
  | none => rw [hpe] at h; cases h
  | some nsrc =>
    rw [hpe] at h
    dsimp only at h ⊢
    cases hrf : rf (s.heap s.nalloc) nsrc
        ({ s with
            mem := (s.mem.zero (s.heap s.nalloc)).write dst i
              (s.heap s.nalloc ||| (s.mem src i &&& PTE_FLAGS))
            nalloc := s.nalloc + 1 },
          mapSet tr (s.heap s.nalloc) (s.heap s.nalloc), a) with
    | none => rw [hrf] at h; cases h
    | some q =>
      obtain ⟨r3, s3, t3, b3⟩ := q
      obtain ⟨t4, b4, hg⟩ := hrec _ _ _ _ _ _ _ _ _ hrf
        (mapSet tr3 (s.heap s.nalloc) (s.heap s.nalloc)) a3
      rw [hrf] at h
      rw [hg]
      dsimp only at h ⊢
      injection h with h
      injection h with h1 h
      injection h with h2 _
      exact ⟨t4, b4, by rw [h1, h2]⟩

theorem copy_fold_sim
    (hfg : ∀ v st res st2, run_ptemod f v st = some (res, st2) →
      ∀ st3, ∃ st4, run_ptemod g v st3 = some (res, st4))
    (rf : Nat → Nat → CopySt α → Option (Bool × CopySt α))
    (rg : Nat → Nat → CopySt β → Option (Bool × CopySt β))
    (hrec : ∀ dst src s tr a r s2 tr2 a2, rf dst src (s, tr, a) = some (r, s2, tr2, a2) →
      ∀ tr3 a3, ∃ tr4 a4, rg dst src (s, tr3, a3) = some (r, s2, tr4, a4))
    (depth dst src : Nat) :
    ∀ (l : List Nat) (r0 : Bool) (s : Phys) (tr : Tracker) (a : α) (r : Bool) (s2 : Phys)
      (tr2 : Tracker) (a2 : α),
      l.foldlM (copy_entry f rf depth dst src) (r0, s, tr, a) = some (r, s2, tr2, a2) →
      ∀ (tr3 : Tracker) (a3 : β), ∃ tr4 a4,
        l.foldlM (copy_entry g rg depth dst src) (r0, s, tr3, a3) = some (r, s2, tr4, a4) := by
  intro l
  induction l with
  | nil =>
    intro r0 s tr a r s2 tr2 a2 h tr3 a3
    simp only [List.foldlM, pure, Option.some.injEq, Prod.mk.injEq] at h
    obtain ⟨h1, h2, _⟩ := h
    exact ⟨tr3, a3, by rw [h1, h2]; rfl⟩
  | cons x l ih =>
    intro r0 s tr a r s2 tr2 a2 h tr3 a3
    rw [List.foldlM_cons] at h ⊢
    cases he : copy_entry f rf depth dst src (r0, s, tr, a) x with
    | none => rw [he] at h; cases h
    | some q =>
      obtain ⟨r1, s1, t1, b1⟩ := q
      obtain ⟨t4, b4, hg⟩ := copy_entry_sim hfg rf rg hrec depth dst src x r0 s tr a r1 s1 t1 b1
        he tr3 a3
      rw [he] at h
      rw [hg]
      exact ih r1 s1 t1 b1 r s2 tr2 a2 h t4 b4

/-- The function `copy_pmap1` under two callbacks that return the same
entries: when it returns under the first, it returns under the second with the
same machine state. -/
theorem copy_pmap1_sim
    (hfg : ∀ v st res st2, run_ptemod f v st = some (res, st2) →
      ∀ st3, ∃ st4, run_ptemod g v st3 = some (res, st4)) (d : Nat) :
    ∀ (dst src : Nat) (s : Phys) (tr : Tracker) (a : α) (r : Bool) (s2 : Phys)
      (tr2 : Tracker) (a2 : α),
      copy_pmap1 f d dst src (s, tr, a) = some (r, s2, tr2, a2) →
      ∀ (tr3 : Tracker) (a3 : β), ∃ tr4 a4,
        copy_pmap1 g d dst src (s, tr3, a3) = some (r, s2, tr4, a4) := by
  induction d with
  | zero =>
    intro dst src s tr a r s2 tr2 a2 h
    rw [copy_pmap1] at h
    cases h
  | succ d ih =>
    intro dst src s tr a r s2 tr2 a2 h tr3 a3
    rw [copy_pmap1] at h ⊢
    exact copy_fold_sim hfg (copy_pmap1 f d) (copy_pmap1 g d) ih (d + 1) dst src _ false s tr a
      r s2 tr2 a2 h tr3 a3

theorem copy_pmap_sim
    (hfg : ∀ v st res st2, run_ptemod f v st = some (res, st2) →
      ∀ st3, ∃ st4, run_ptemod g v st3 = some (res, st4))
    {pm : Nat} {s : Phys} {tr : Tracker} {a : α} {npm p_npm : Nat} {r : Bool} {s2 : Phys}
    {tr2 : Tracker} {a2 : α}
    (h : copy_pmap f pm (s, tr, a) = some (npm, p_npm, r, s2, tr2, a2))
    (tr3 : Tracker) (a3 : β) :
    ∃ tr4 a4, copy_pmap g pm (s, tr3, a3) = some (npm, p_npm, r, s2, tr4, a4) := by
  unfold copy_pmap at h ⊢
  dsimp only at h ⊢
  by_cases hal : s.heap s.nalloc % 4096 = 0
  swap
  · rw [pg_new_none tr hal] at h; cases h
  rw [pg_new_eq tr hal] at h
  rw [pg_new_eq tr3 hal]
  dsimp only at h ⊢
  cases hc : copy_pmap1 f 4 (s.heap s.nalloc) pm
      ({ s with mem := s.mem.zero (s.heap s.nalloc), nalloc := s.nalloc + 1 },
        mapSet tr (s.heap s.nalloc) (s.heap s.nalloc), a) with
  | none => rw [hc] at h; cases h
  | some q =>
    obtain ⟨r1, s1, t1, b1⟩ := q
    obtain ⟨t4, b4, hg⟩ := copy_pmap1_sim hfg 4 _ pm _ _ _ _ _ _ _ hc
      (mapSet tr3 (s.heap s.nalloc) (s.heap s.nalloc)) a3
    rw [hc] at h
    rw [hg]
    dsimp only at h ⊢
    injection h with h
    injection h with h1 h
    injection h with h2 h
    injection h with h3 h
    injection h with h4 _
    subst h1; subst h2; subst h3; subst h4
    exact ⟨t4, b4, rfl⟩

end CopySim

theorem mk_cow_sim (ppages : Tracker) (pupages : Nat → Option Nat) :
    ∀ v st res st2, run_ptemod (some (mk_cow ppages pupages)) v st = some (res, st2) →
      ∀ st3, ∃ st4, run_ptemod (some cow_all) v st3 = some (res, st4) := by
  intro v st res st2 h st3
  have h2 : mk_cow ppages pupages v st = some (res, st2) := h
  obtain ⟨e1, e2⟩ := mk_cow_eq h2
  refine ⟨st3, ?_⟩
  show some ((cow_entry v, cow_entry v), st3) = some (res, st3)
  have : res = (cow_entry v, cow_entry v) := Prod.ext e1 e2
  rw [this]

theorem copyHyp_cow_all (heap : Nat → Nat) (V : Nat → Nat → Prop)
    (hsep : ∀ f d, V 1 f → ¬ V (d + 2) f) :
    CopyHyp (some cow_all) cow_entry V (fun _ => True) (fun _ _ => True) heap :=
  { idem := cow_entry_idem
    keepP := cow_entry_P
    keepE := fun _ _ => trivial
    run := fun _ _ st _ _ _ => ⟨st, rfl, trivial⟩
    alloc := fun _ _ _ _ => trivial
    sep := Or.inr hsep }

/-! ## The step of `sys_fork` -/

theorem GoodHeap.good_sub {heap : Nat → Nat} {V S : Nat → Nat → Prop} {lo hi : Nat}
    (h : GoodHeap heap V lo hi) (hS : ∀ d g, S d g → V d g) : GoodHeap heap S lo hi :=
  { aligned := h.aligned
    low := h.low
    inj := h.inj
    fresh := fun k d h1 h2 c => h.fresh k d h1 h2 (hS d _ c) }

/-- The tables under a table of a closed family form a closed family. -/
theorem Subtable.sub_shape {m : Mem} {V : Nat → Nat → Prop} (hsh : Shape m V) {d t : Nat}
    (ht : V d t) : Shape m (Subtable m d t) := by
  intro e f i hS hi hp hps
  exact ⟨(hsh e f i (Subtable.sub_family hsh d t _ f ht hS) hi hp hps).1,
    Subtable.sub_next d t e f i hS hi hp hps⟩

/-- What a returning `sys_fork` does to the page tables of the processes:
the tables of the child's page table, a copy of the parent's, join their
family. -/
theorem sys_fork_step {V : Nat → Nat → Prop} {k : Kernel} {parent : proc_t} {ptf : Tf}
    {cap : Nat} {pid : Int} {child : proc_t} {k2 : Kernel}
    (hE : Env V k.phys parent.pmap cap)
    (hroom : k.phys.nalloc + 1 + tables_below k.phys.mem 4 parent.pmap ≤ cap)
    (h : sys_fork k parent ptf = some (pid, child, k2)) :
    PtStep V (fun d g => V d g ∨ Subtable k2.phys.mem 4 child.pmap d g) k.phys k2.phys ∧
      k2.phys.nalloc = k.phys.nalloc + 1 + tables_below k.phys.mem 4 parent.pmap ∧
      child.pmap = k.phys.heap k.phys.nalloc := by
  have hsub : ∀ d g, Subtable k.phys.mem 4 parent.pmap d g → V d g :=
    fun d g hg => Subtable.sub_family hE.shape 4 _ d g hE.root hg
  have hsep : ∀ f d, Subtable k.phys.mem 4 parent.pmap 1 f →
      ¬ Subtable k.phys.mem 4 parent.pmap (d + 2) f := fun f d h1 h2 => by
    have := hE.typed _ _ _ (hsub _ _ h1) (hsub _ _ h2)
    omega
  have hyp := copyHyp_cow_all k.phys.heap (Subtable k.phys.mem 4 parent.pmap) hsep
  have hpre : PmapPre (Subtable k.phys.mem 4 parent.pmap) (fun _ => True)
      (fun _ (_ : Tracker × Unit) => True) parent.pmap (k.phys, fun _ => none, ()) :=
    { root_in := Subtable.sub_self _ _ _ (by decide)
      shape := Subtable.sub_shape hE.shape hE.root
      leaf := fun _ _ _ _ _ => trivial
      good := (hE.fresh.upto hroom).good_sub hsub
      inv := trivial }
  obtain ⟨r, st2, hrun, hcop, hstep⟩ :=
    copy_pt_step hyp rfl hpre hE.typed hE.shape hE.fresh hroom
      (fun f d h1 h2 => by
        have := hE.typed _ _ _ (hsub _ _ h1) h2
        omega)
      (Or.inr (fun f hf => hsub 1 f hf)) (fun e he => cow_entry_ok he)
      (fun hcow d f i hf hi => hcow d f i (hsub d f hf) hi)
  simp only [sys_fork, proc_new] at h
  cases hc : copy_pmap (some (mk_cow parent.pages parent.upages)) parent.pmap
      (k.phys, fun _ => none, fun _ => none) with
  | none => rw [hc] at h; cases h
  | some q =>
    obtain ⟨pmap, p_pmap, r1, s2, cp, cu⟩ := q
    rw [hc] at h
    dsimp only at h
    injection h with h
    injection h with _ h
    injection h with h1 h2
    obtain ⟨t4, a4, hg⟩ := copy_pmap_sim (mk_cow_sim parent.pages parent.upages) hc
      (fun _ => none) ()
    rw [hrun] at hg
    injection hg with hg
    injection hg with e1 hg
    injection hg with _ hg
    injection hg with _ hg
    have e2 : st2.1 = s2 := congrArg Prod.fst hg
    subst h1; subst h2
    subst e1; subst e2
    exact ⟨hstep, hcop.nalloc_eq, rfl⟩

/-! ## The step of program loading -/

theorem copyHyp_nil_all (heap : Nat → Nat) (V : Nat → Nat → Prop) :
    CopyHyp (none : Option (Ptemod Unit)) id V (fun _ => True) (fun _ _ => True) heap :=
  { idem := fun _ => rfl
    keepP := fun _ => rfl
    keepE := fun _ _ => trivial
    run := fun _ _ st _ _ _ => ⟨st, rfl, trivial⟩
    alloc := fun _ _ _ _ => trivial
    sep := Or.inl (fun _ => rfl) }

theorem elf_load_loop_nil (s : Phys) (p : proc_t) : elf_load_loop s p [] = some (s, p) := rfl

theorem elf_load_loop_cons (s : Phys) (p : proc_t) (hdr : elf_phdr) (rest : List elf_phdr) :
    elf_load_loop s p (hdr :: rest)
      = if hdr.etype = 1 ∧ hdr.vaddr ≥ (USERMIN : Int) then
          match elf_segload s p hdr with
          | none => none
          | some (s1, p1) => elf_load_loop s1 p1 rest
        else elf_load_loop s p rest := rfl

theorem elf_load_room_cons (hdr : elf_phdr) (rest : List elf_phdr) :
    elf_load_room (hdr :: rest)
      = (if hdr.etype = 1 ∧ hdr.vaddr ≥ (USERMIN : Int) then 4 * elf_segload_pages hdr else 0)
        + elf_load_room rest := rfl

theorem elf_load_loop_step (cap : Nat) :
    ∀ (hdrs : List elf_phdr) (V : Nat → Nat → Prop) (s : Phys) (p : proc_t) (s3 : Phys)
      (p2 : proc_t), Env V s p.pmap cap → s.nalloc + elf_load_room hdrs ≤ cap →
      elf_load_loop s p hdrs = some (s3, p2) →
      ∃ V2, PtStep V V2 s s3 ∧ s3.nalloc ≤ s.nalloc + elf_load_room hdrs ∧ p2.pmap = p.pmap := by
  intro hdrs
  induction hdrs with
  | nil =>
    intro V s p s3 p2 hE _ h
    rw [elf_load_loop_nil] at h
    injection h with h
    injection h with h1 h2
    subst h1; subst h2
    exact ⟨V, PtStep.step_refl hE.typed hE.shape, Nat.le_add_right _ _, rfl⟩
  | cons hdr rest ih =>
    intro V s p s3 p2 hE hroom h
    rw [elf_load_loop_cons] at h
    rw [elf_load_room_cons] at hroom ⊢
    by_cases hc : hdr.etype = 1 ∧ hdr.vaddr ≥ (USERMIN : Int)
    · rw [if_pos hc] at h hroom ⊢
      cases hp : elf_segload s p hdr with
      | none => rw [hp] at h; cases h
      | some r =>
        obtain ⟨s1, p1⟩ := r
        rw [hp] at h
        dsimp only at h
        obtain ⟨V1, st1, hn1, hpm1⟩ := elf_segload_step hE (by omega) hp
        have e1 : Env V1 s1 p1.pmap cap := by
          rw [hpm1]; exact st1.step_env hE
        obtain ⟨V2, st2, hn2, hpm2⟩ := ih V1 s1 p1 s3 p2 e1 (by omega) h
        exact ⟨V2, st1.step_trans st2, by omega, hpm2.trans hpm1⟩
    · rw [if_neg hc] at h hroom ⊢
      obtain ⟨V2, st2, hn2, hpm2⟩ := ih V s p s3 p2 hE (by omega) h
      exact ⟨V2, st2, by omega, hpm2⟩

/-- What a returning `exec_image` does to the page tables of the processes:
the page table of the new process, a copy of the kernel page table with the
stack and the segments mapped, joins their family. The tables `S` of the kernel
page table need not have one depth each. -/
theorem exec_image_step {S V : Nat → Nat → Prop} {kpm cap : Nat} {k : Kernel} {proc : proc_t}
    {elf : elf_t} {proc1 : proc_t} {k2 : Kernel}
    (hroot : S 4 kpm) (hshS : Shape k.phys.mem S) (hcowS : CowAll S k.phys.mem)
    (hgS : GoodHeap k.phys.heap S k.phys.nalloc cap)
    (hty : Typed V) (hsh : Shape k.phys.mem V)
    (hgood : GoodHeap k.phys.heap V k.phys.nalloc cap)
    (hap : ∀ f d, S 1 f → ¬ V (d + 2) f)
    (hroom : k.phys.nalloc + exec_room k.phys.mem kpm elf ≤ cap)
    (h : exec_image kpm k proc elf = some (proc1, k2)) :
    ∃ V2, PtStep V V2 k.phys k2.phys ∧ V2 4 proc1.pmap ∧ k2.phys.nalloc ≤ cap := by
  unfold exec_image at h
  cases hn : pg_new k.phys proc.pages with
  | none => rw [hn] at h; cases h
  | some q =>
    obtain ⟨stack, p_stack, s1, pages1⟩ := q
    obtain ⟨hal, rfl, rfl, rfl, rfl⟩ := pg_new_some hn
    rw [hn] at h
    dsimp only at h
    cases hen : elf.entry with
    | none => rw [hen] at h; cases h
    | some rip =>
      rw [hen] at h
      dsimp only at h
      -- the stack page
      have hm1 : ∀ g j, g ≠ k.phys.heap k.phys.nalloc →
          (k.phys.mem.zero (k.phys.heap k.phys.nalloc)) g j = k.phys.mem g j :=
        fun g j hg => Mem.zero_other _ _ _ _ hg
      have hroom0 : k.phys.nalloc + (1 + (1 + tables_below k.phys.mem 4 kpm) + 3) ≤ cap := by
        unfold exec_room at hroom
        omega
      have st1 := fresh_page_step hty hsh hgood (by omega) hm1 k.phys.inval
      have hSm : ∀ f i d, S d f →
          (k.phys.mem.zero (k.phys.heap k.phys.nalloc)) f i = k.phys.mem f i :=
        fun f i d hf => hm1 f i (fun c =>
          hgS.fresh k.phys.nalloc d (le_refl _) (by omega) (by rw [← c]; exact hf))
      have htb : tables_below (k.phys.mem.zero (k.phys.heap k.phys.nalloc)) 4 kpm
          = tables_below k.phys.mem 4 kpm :=
        tables_below_congr hshS (fun f i d hf => hSm f i _ hf) 4 kpm hroot
      -- the copy of the kernel page table
      have hpre : PmapPre S (fun _ => True) (fun _ (_ : Tracker × Unit) => True) kpm
          (⟨k.phys.mem.zero (k.phys.heap k.phys.nalloc), k.phys.heap, k.phys.nalloc + 1,
              k.phys.inval⟩,
            mapSet proc.pages (k.phys.heap k.phys.nalloc) (k.phys.heap k.phys.nalloc), ()) :=
        { root_in := hroot
          shape := hshS.shape_congr (fun f i d hf => hSm f i _ hf)
          leaf := fun _ _ _ _ _ => trivial
          good := by
            show GoodHeap k.phys.heap S (k.phys.nalloc + 1) (k.phys.nalloc + 1 + 1 + tables_below _ 4 kpm)
            rw [htb]
            exact (hgS.from (Nat.le_succ _)).upto (by omega)
          inv := trivial }
      obtain ⟨r, st2, hrun, hcop, st12⟩ :=
        copy_pt_step (copyHyp_nil_all k.phys.heap S) rfl hpre st1.typed st1.shape
          (st1.step_good hgood)
          (by show k.phys.nalloc + 1 + 1 + tables_below _ 4 kpm ≤ cap; rw [htb]; omega)
          hap (Or.inl (fun _ => rfl)) (fun _ he => he)
          (fun _ d f i hf hi => by
            show CowOk ((k.phys.mem.zero (k.phys.heap k.phys.nalloc)) f i)
            rw [hSm f i d hf]; exact hcowS d f i hf hi)
      have hrun2 : copy_pmap (none : Option (Ptemod Unit)) kpm
          ({ k.phys with mem := k.phys.mem.zero (k.phys.heap k.phys.nalloc),
                         nalloc := k.phys.nalloc + 1 },
            mapSet proc.pages (k.phys.heap k.phys.nalloc) (k.phys.heap k.phys.nalloc), ())
          = some (k.phys.heap (k.phys.nalloc + 1), k.phys.heap (k.phys.nalloc + 1), r, st2) :=
        hrun
      rw [hrun2] at h
      obtain ⟨s2, pages2, u2⟩ := st2
      dsimp only at h
      have hn2 : s2.nalloc = k.phys.nalloc + 1 + 1 + tables_below k.phys.mem 4 kpm := by
        have := hcop.nalloc_eq
        rw [htb] at this
        exact this
      -- the stack
      have hE2 : Env (fun d g => V d g ∨ Subtable s2.mem 4 (k.phys.heap (k.phys.nalloc + 1)) d g)
          s2 (k.phys.heap (k.phys.nalloc + 1)) cap :=
        { typed := st12.typed
          root := Or.inr (Subtable.sub_self _ _ _ (by decide))
          shape := st12.shape
          fresh := st12.step_good (st1.step_good hgood) }
      cases hpi : page_insert s2
          { proc with pages := pages2, pmap := k.phys.heap (k.phys.nalloc + 1),
                      p_pmap := k.phys.heap (k.phys.nalloc + 1) }
          (bits64 (wrap64 (wrap64 ((mkpg (VUSER + 1) 0 0 0 : Nat) : Int) - (PGSIZE : Int))))
          (k.phys.heap k.phys.nalloc) (k.phys.heap k.phys.nalloc) (PTE_U ||| PTE_W) true with
      | none => rw [hpi] at h; cases h
      | some q =>
        obtain ⟨s3, proc2⟩ := q
        rw [hpi] at h
        dsimp only at h
        obtain ⟨V3, st23, hn3, hpm3⟩ :=
          page_insert_step
            (p := { proc with pages := pages2, pmap := k.phys.heap (k.phys.nalloc + 1),
                              p_pmap := k.phys.heap (k.phys.nalloc + 1) })
            hE2 (by omega) ⟨by decide, by decide⟩ (by decide) hal hpi
        have hpm3b : proc2.pmap = k.phys.heap (k.phys.nalloc + 1) := hpm3
        have hE3 : Env V3 s3 proc2.pmap cap := by
          rw [hpm3b]; exact st23.step_env hE2
        -- the segments
        unfold elf_load at h
        cases hh : elf.headers with
        | none => rw [hh] at h; cases h
        | some hdrs =>
          rw [hh] at h
          dsimp only at h
          have hroom4 : k.phys.nalloc + (1 + (1 + tables_below k.phys.mem 4 kpm) + 3
              + elf_load_room hdrs) ≤ cap := by
            have := hroom
            unfold exec_room at this
            rw [hh] at this
            exact this
          cases hl : elf_load_loop s3 proc2 hdrs with
          | none => rw [hl] at h; cases h
          | some q =>
            obtain ⟨s4, proc3⟩ := q
            rw [hl] at h
            dsimp only at h
            obtain ⟨V4, st34, hn4, hpm4⟩ :=
              elf_load_loop_step cap hdrs V3 s3 proc2 s4 proc3 hE3 (by omega) hl
            injection h with h
            injection h with h1 h2
            subst h1; subst h2
            refine ⟨V4, (st1.step_trans st12).step_trans (st23.step_trans st34), ?_, ?_⟩
            · rw [hpm4, hpm3b]
              exact st34.sub _ _ (st23.sub _ _ (Or.inr (Subtable.sub_self _ _ _ (by decide))))
            · show s4.nalloc ≤ cap
              omega

/-! ## The invariant of the reached states -/

theorem BootOk.kshape {kpm cap : Nat} {s : Phys} (h : BootOk kpm cap s) :
    Shape s.mem (Subtable s.mem 4 kpm) := by
  intro d f i hS hi hp hps
  exact ⟨h.low d f i hS hi hp hps, Subtable.sub_next 4 kpm d f i hS hi hp hps⟩

theorem PtInv.boot {kpm cap : Nat} {s0 : Phys} :
    PtInv (fun _ _ => False) kpm cap s0 s0 (fun _ => False) :=
  { heap_eq := rfl
    lo := le_refl _
    kmem := fun _ _ _ _ => rfl
    vwin := fun _ _ h => h.elim
    typed := fun _ _ _ h => h.elim
    roots := fun _ h => h.elim
    shape := fun _ _ _ h => h.elim
    cow := fun _ _ _ h => h.elim }

/-- The allocator's pages ahead are fresh for the tables of the processes. -/
theorem PtInv.inv_good {V : Nat → Nat → Prop} {kpm cap : Nat} {s0 s : Phys} {R : Nat → Prop}
    (h : PtInv V kpm cap s0 s R) (hb : BootOk kpm cap s0) :
    GoodHeap s.heap V s.nalloc cap := by
  rw [h.heap_eq]
  exact
  { aligned := fun k h1 h2 => hb.heap.aligned k (le_trans h.lo h1) h2
    low := fun k h1 h2 => hb.heap.low k (le_trans h.lo h1) h2
    inj := fun k1 k2 a1 a2 b1 b2 e =>
      hb.heap.inj k1 k2 (le_trans h.lo a1) a2 (le_trans h.lo b1) b2 e
    fresh := fun k d h1 h2 c => by
      obtain ⟨j, j1, j2, e⟩ := h.vwin d _ c
      have hj : j < s.nalloc := lt_of_lt_of_le j2 (Nat.min_le_left _ _)
      have := hb.heap.inj k j (le_trans h.lo h1) h2 j1 (by omega) e
      omega }

/-- The allocator's pages ahead are fresh for the tables of the kernel page
table, which are none of the tables of the processes. -/
theorem PtInv.kgood {V : Nat → Nat → Prop} {kpm cap : Nat} {s0 s : Phys} {R : Nat → Prop}
    (h : PtInv V kpm cap s0 s R) (hb : BootOk kpm cap s0) :
    GoodHeap s.heap (Subtable s0.mem 4 kpm) s.nalloc cap ∧
      ∀ d g e, Subtable s0.mem 4 kpm d g → ¬ V e g := by
  constructor
  · rw [h.heap_eq]
    exact hb.heap.from h.lo
  · intro d g e hS hV
    obtain ⟨j, j1, j2, rfl⟩ := h.vwin e g hV
    exact hb.heap.fresh j d j1 (lt_of_lt_of_le j2 (Nat.min_le_right _ _)) hS

theorem PtInv.inv_kshape {V : Nat → Nat → Prop} {kpm cap : Nat} {s0 s : Phys} {R : Nat → Prop}
    (h : PtInv V kpm cap s0 s R) (hb : BootOk kpm cap s0) :
    Shape s.mem (Subtable s0.mem 4 kpm) ∧ CowAll (Subtable s0.mem 4 kpm) s.mem :=
  ⟨hb.kshape.shape_congr (fun f i k hS => h.kmem _ f i hS),
    fun d g i hg hi => by rw [h.kmem d g i hg]; exact hb.cow d g i hg hi⟩

theorem PtInv.inv_env {V : Nat → Nat → Prop} {kpm cap : Nat} {s0 s : Phys} {R : Nat → Prop}
    (h : PtInv V kpm cap s0 s R) (hb : BootOk kpm cap s0) {pm : Nat} (hR : R pm) :
    Env V s pm cap :=
  { typed := h.typed
    root := h.roots pm hR
    shape := h.shape
    fresh := h.inv_good hb }

/-- The invariant of the reached states after an operation. -/
theorem PtInv.inv_step {V V2 : Nat → Nat → Prop} {kpm cap : Nat} {s0 s s2 : Phys}
    {R R2 : Nat → Prop} (h : PtInv V kpm cap s0 s R) (hb : BootOk kpm cap s0)
    (st : PtStep V V2 s s2) (hcap : s2.nalloc ≤ cap) (hR : ∀ pm, R2 pm → V2 4 pm) :
    PtInv V2 kpm cap s0 s2 R2 :=
  { heap_eq := st.heap_eq.trans h.heap_eq
    lo := le_trans h.lo st.lo
    kmem := fun d g j hS => by
      have hnV : ∀ e, ¬ V e g := fun e => (h.kgood hb).2 d g e hS
      have hnW : ¬ Window s.heap s.nalloc s2.nalloc g := by
        rintro ⟨i, i1, i2, rfl⟩
        exact (h.kgood hb).1.fresh i d i1 (by omega) hS
      rw [st.frame g j hnV hnW]
      exact h.kmem d g j hS
    vwin := fun d g hV => by
      rcases st.new d g hV with a | a
      · exact (h.vwin d g a).window_mono (le_refl _)
          (by have := st.lo; omega)
      · rw [h.heap_eq] at a
        exact a.window_mono h.lo (by omega)
    typed := st.typed
    roots := hR
    shape := st.shape
    cow := st.cow h.cow }

/-- Every reached state satisfies the invariant, for some family of
tables. -/
theorem ptreach_inv {kpm cap : Nat} {s0 : Phys} (hb : BootOk kpm cap s0) {s : Phys}
    {R : Nat → Prop} (h : PtReach kpm cap s0 s R) : ∃ V, PtInv V kpm cap s0 s R := by
  induction h with
  | boot => exact ⟨_, PtInv.boot⟩
  | test k R allbins program elf proc k2 _ hbin hroom hrun ih =>
    obtain ⟨V, hI⟩ := ih
    have hx : exec_image kpm (proc_new k (program ++ "test")).2
        (proc_new k (program ++ "test")).1 elf = some (proc, k2) := by
      unfold sys_test at hrun
      dsimp only at hrun
      rw [hbin] at hrun
      exact hrun
    obtain ⟨V2, st, hroot, hcap⟩ :=
      exec_image_step (k := (proc_new k (program ++ "test")).2)
        (Subtable.sub_self _ _ _ (by decide)) (hI.inv_kshape hb).1 (hI.inv_kshape hb).2
        (hI.kgood hb).1 hI.typed hI.shape (hI.inv_good hb)
        (fun f d hS hV => (hI.kgood hb).2 1 f _ hS hV) hroom hx
    refine ⟨V2, hI.inv_step hb st hcap ?_⟩
    rintro pm (hp | rfl)
    · exact st.sub _ _ (hI.roots pm hp)
    · exact hroot
  | execv k R eobj path args ret proc k2 _ hroom hrun ih =>
    obtain ⟨V, hI⟩ := ih
    have hx : exec_image kpm
        (proc_new k ("/" ++ String.intercalate "/" path ++ String.intercalate " " args)).2
        (proc_new k ("/" ++ String.intercalate "/" path ++ String.intercalate " " args)).1
        ⟨eobj⟩ = some (proc, k2) := by
      unfold sys_execv at hrun
      split at hrun
      · cases hrun
      · dsimp only at hrun
        cases hc : exec_image kpm
            (proc_new k ("/" ++ String.intercalate "/" path ++ String.intercalate " " args)).2
            (proc_new k ("/" ++ String.intercalate "/" path ++ String.intercalate " " args)).1
            ⟨eobj⟩ with
        | none => rw [hc] at hrun; cases hrun
        | some q =>
          obtain ⟨p1, k3⟩ := q
          rw [hc] at hrun
          dsimp only at hrun
          injection hrun with hrun
          injection hrun with _ hrun
          injection hrun with h1 h2
          injection h1 with h1
          rw [h1, h2]
    obtain ⟨V2, st, hroot, hcap⟩ :=
      exec_image_step
        (k := (proc_new k ("/" ++ String.intercalate "/" path ++ String.intercalate " " args)).2)
        (Subtable.sub_self _ _ _ (by decide)) (hI.inv_kshape hb).1 (hI.inv_kshape hb).2
        (hI.kgood hb).1 hI.typed hI.shape (hI.inv_good hb)
        (fun f d hS hV => (hI.kgood hb).2 1 f _ hS hV) hroom hx
    refine ⟨V2, hI.inv_step hb st hcap ?_⟩
    rintro pm (hp | rfl)
    · exact st.sub _ _ (hI.roots pm hp)
    · exact hroot
  | fork k R parent ptf pid child k2 _ hpar hroom hrun ih =>
    obtain ⟨V, hI⟩ := ih
    obtain ⟨st, hn, _⟩ := sys_fork_step (hI.inv_env hb hpar) hroom hrun
    refine ⟨_, hI.inv_step hb st (by omega) ?_⟩
    rintro pm (hp | rfl)
    · exact Or.inl (hI.roots pm hp)
    · exact Or.inr (Subtable.sub_self _ _ _ (by decide))
  | pgfault k R proc pte fa proc1 k2 _ hpr hroom hrun ih =>
    obtain ⟨V, hI⟩ := ih
    obtain ⟨V2, st, hn, _⟩ := sys_pgfault_step (hI.inv_env hb hpr) hroom hrun
    exact ⟨V2, hI.inv_step hb st (by omega) (fun pm hp => st.sub _ _ (hI.roots pm hp))⟩

/-! ## The flag discipline in the reached states -/

theorem CowOk.flags {e : Nat} (h : CowOk e) :
    (e &&& PTE_COW ≠ 0 → e &&& PTE_W = 0 ∧ e &&& PTE_U ≠ 0) ∧
      (e &&& PTE_U = 0 → e &&& PTE_COW = 0) :=
  ⟨h, fun hu => by
    by_contra hc
    exact (h hc).2 hu⟩

/-- The flag discipline in the page table of a process of a reached state:
on every entry of every table, and on every entry that a walk returns. -/
theorem ptreach_cow {kpm cap : Nat} {s0 : Phys} (hb : BootOk kpm cap s0) {s : Phys}
    {R : Nat → Prop} (h : PtReach kpm cap s0 s R) {pm : Nat} (hR : R pm) :
    (∀ d g i, Subtable s.mem 4 pm d g → i < 512 → CowOk (s.mem g i)) ∧
      (∀ v e, leaf_entry s.mem pm v = some e → CowOk e) := by
  obtain ⟨V, hI⟩ := ptreach_inv hb h
  refine ⟨fun d g i hg hi =>
      hI.cow d g i (Subtable.sub_family hI.shape 4 pm d g (hI.roots pm hR) hg) hi, ?_⟩
  intro v e he
  obtain ⟨f, i, hw, hv⟩ := walk_of_leaf_entry he
  obtain ⟨hf, hi⟩ := walk_ro_leaf hI.shape (hI.roots pm hR) hw
  rw [← hv]
  exact hI.cow 1 f i hf hi

/-! ## The kernel page table and a concrete run -/

theorem kern_mem_present {f i : Nat} (h : kern_mem f i &&& PTE_P ≠ 0) :
    f = 0x1000 ∧ i = VREC ∧ kern_mem f i = 0x1000 ||| PTE_P ||| PTE_W := by
  unfold kern_mem at h ⊢
  by_cases hf : f = 0x1000
  · by_cases hi : i = VREC
    · simp only [hf, hi, if_true, and_self]
    · rw [if_pos hf, if_neg hi] at h
      exact absurd rfl h
  · rw [if_neg hf] at h
    exact absurd rfl h

/-- The tables of the kernel page table `kern_mem`: its root, at every
depth, through the recursive slot. -/
theorem kern_sub : ∀ (d t e g : Nat), t = 0x1000 → Subtable kern_mem d t e g → g = 0x1000
  | 0, _, _, _, _, h => h.elim
  | 1, _, _, _, ht, h => by rw [h.2, ht]
  | d + 2, t, e, g, ht, h => by
    rcases h with h | ⟨i, _, hp, _, hs⟩
    · rw [h.2, ht]
    · obtain ⟨_, _, hv⟩ := kern_mem_present hp
      exact kern_sub (d + 1) _ e g (by rw [hv]; decide) hs

theorem kern_boot : BootOk 0x1000 1000 kern_phys :=
  { low := fun d g i _ _ hp _ => by
      obtain ⟨_, _, hv⟩ := kern_mem_present hp
      show kern_mem g i &&& PTE_ADDR < 2 ^ 39
      rw [hv]
      decide
    cow := fun d g i _ _ => by
      show CowOk (kern_mem g i)
      by_cases hp : kern_mem g i &&& PTE_P ≠ 0
      · rw [(kern_mem_present hp).2.2]
        exact CowOk_of_no_cow (by decide)
      · have hz : kern_mem g i = 0 := by
          unfold kern_mem at hp ⊢
          by_cases hf : g = 0x1000
          · by_cases hi : i = VREC
            · rw [if_pos hf, if_pos hi] at hp
              exact absurd (by decide) hp
            · rw [if_pos hf, if_neg hi]
          · rw [if_neg hf]
        rw [hz]
        exact CowOk_zero
    heap :=
      { aligned := fun k _ _ => by show ex_heap k % 4096 = 0; simp only [ex_heap]; omega
        low := fun k _ hk => by show ex_heap k < 2 ^ 39; simp only [ex_heap]; omega
        inj := fun k1 k2 _ _ _ _ h => by
          have h2 : ex_heap k1 = ex_heap k2 := h
          simp only [ex_heap] at h2
          omega
        fresh := fun k d _ _ hS => by
          have := kern_sub 4 0x1000 d _ rfl hS
          have h2 : ex_heap k = 0x1000 := this
          simp only [ex_heap] at h2
          omega } }

theorem getD_some {o : Option Nat} {v : Nat} (h : o.getD 0 = v) (hv : v ≠ 0) : o = some v := by
  cases o with
  | none => exact absurd h.symm hv
  | some x => exact congrArg some h

theorem ex_run_eq :
    ex_run = some [8, 6, 15, 0x101000, 0x108000, 0x108000, 0x100205, 0x100205, 0x100205,
      0x10f007] := by
  set_option maxRecDepth 100000 in decide!

theorem ex_exec_room :
    kern_kernel.phys.nalloc + exec_room kern_kernel.phys.mem 0x1000 ex_elf ≤ 1000 := by
  set_option maxRecDepth 100000 in decide!

/-- The run `ex_run` is a sequence of reached states, and in its last state
the stack page has the entry `0x100205` (P, U, COW) in the parent and the entry
`0x10f007` (P, W, U) in the child. -/
theorem ex_reach :
    ∃ (s : Phys) (R : Nat → Prop) (pm1 pm2 : Nat),
      PtReach 0x1000 1000 kern_phys s R ∧ R pm1 ∧ R pm2 ∧
      leaf_entry s.mem pm1 ex_stackva = some 0x100205 ∧
      leaf_entry s.mem pm2 ex_stackva = some 0x10f007 := by
  have h := ex_run_eq
  unfold ex_run at h
  cases h1 : sys_test ex_bins 0x1000 kern_kernel "init" with
  | none => rw [h1] at h; cases h
  | some q1 =>
    obtain ⟨parent, k1⟩ := q1
    rw [h1] at h
    dsimp only at h
    cases h2 : sys_fork k1 parent (fun _ => 0) with
    | none => rw [h2] at h; cases h
    | some q2 =>
      obtain ⟨pid, child, k2⟩ := q2
      rw [h2] at h
      dsimp only at h
      cases h3 : walk_ro k2.phys.mem child.pmap ex_stackva with
      | none => rw [h3] at h; cases h
      | some o =>
        cases o with
        | none => rw [h3] at h; cases h
        | some pte =>
          rw [h3] at h
          dsimp only at h
          cases h4 : sys_pgfault k2 child pte ex_stackva with
          | none => rw [h4] at h; cases h
          | some q4 =>
            obtain ⟨child1, k3⟩ := q4
            rw [h4] at h
            dsimp only at h
            injection h with h
            injection h with a1 h
            injection h with a2 h
            injection h with a3 h
            injection h with a4 h
            injection h with a5 h
            injection h with a6 h
            injection h with a7 h
            injection h with a8 h
            injection h with a9 h
            injection h with a10 _
            have r1 := @PtReach.test 0x1000 1000 kern_phys kern_kernel _
              ex_bins "init" ex_elf parent k1 PtReach.boot rfl ex_exec_room h1
            have r2 := PtReach.fork k1 _ parent _ pid child k2 r1 (Or.inr rfl)
              (by rw [a1, a2]; decide) h2
            have r3 := PtReach.pgfault k2 _ child pte ex_stackva child1 k3 r2 (Or.inr rfl)
              (by rw [a3]; decide) h4
            refine ⟨k3.phys, _, parent.pmap, child1.pmap, r3, Or.inl (Or.inr rfl),
              Or.inr (by rw [a5, a6]), getD_some a9 (by decide), getD_some a10 (by decide)⟩

/-! ## The copy-on-write flag invariant (C5) -/

/-- The page-fault handler `trap_pgfault` leads from a reached state to a
reached state, when the faulting process has one of the page tables made so far
and the allocator has four pages left: it calls `sys_pgfault` or leaves the
memory as it is. -/
theorem trap_pgfault_reach {kpm cap : Nat} {s0 : Phys} {k : Kernel} {R : Nat → Prop}
    {ts : trapstore_t} {proc : proc_t} {k2 : Kernel}
    (hr : PtReach kpm cap s0 k.phys R) (hp : proc_get k ts.pid = some proc)
    (hR : R proc.pmap) (hroom : k.phys.nalloc + 4 ≤ cap)
    (h : trap_pgfault k ts = some k2) : PtReach kpm cap s0 k2.phys R := by
  have hkill : ∀ q, proc_kill k ts.pid = some q → q.2.phys = k.phys := by
    intro q hq
    unfold proc_kill at hq
    cases ha : k.allprocs ts.pid with
    | none => rw [ha] at hq; cases hq
    | some p =>
      rw [ha] at hq
      injection hq with hq
      rw [← hq]
  unfold trap_pgfault at h
  dsimp only at h
  rw [hp] at h
  dsimp only at h
  cases hw : pmap_walk k.phys (fun _ => none) proc.pmap (bits64 ts.faultaddr) false 0 with
  | none => rw [hw] at h; cases h
  | some q =>
    obtain ⟨o, s1, t1⟩ := q
    rw [hw] at h
    cases o with
    | none =>
      dsimp only at h
      cases hk : proc_kill k ts.pid with
      | none => rw [hk] at h; cases h
      | some q =>
        rw [hk] at h
        injection h with h
        rw [← h, hkill q hk]
        exact hr
    | some pte =>
      dsimp only at h
      by_cases hc : k.phys.mem pte.1 pte.2 &&& PTE_COW ≠ 0
      · rw [if_pos hc] at h
        by_cases hu : ts.faultaddr < (USERMIN : Int)
        · rw [if_pos hu] at h; cases h
        · rw [if_neg hu] at h
          cases hs : sys_pgfault k proc pte (bits64 ts.faultaddr) with
          | none => rw [hs] at h; cases h
          | some q =>
            obtain ⟨proc1, k3⟩ := q
            rw [hs] at h
            injection h with h
            rw [← h]
            exact PtReach.pgfault k R proc pte _ proc1 k3 hr hR hroom hs
      · rw [if_neg hc] at h
        cases hk : proc_kill k ts.pid with
        | none => rw [hk] at h; cases h
        | some q =>
          rw [hk] at h
          injection h with h
          rw [← h, hkill q hk]
          exact hr

/-- C5: the copy-on-write flag invariant over the reached page tables. Let the
state `s0` in which the first process is made satisfy `BootOk`: the tables of
the kernel page table `kpm` (which may hold a table at more than one depth, as
with the recursive slot) lie inside the direct map and have no entry that
breaks the invariant, and the allocator's pages up to the `cap`-th are fresh.
Then in every state reached from `s0` by program loading (`sys_test` and
`sys_execv`, which call `proc_new` and build the page table from a copy of the
kernel page table), `sys_fork` and `sys_pgfault`, run in any order on any of
the processes made so far while the allocator has pages left (`PtReach`), and
for the page table `pm` of every process made so far: in every entry of every
table of `pm`, at every level, and so in every entry that a walk of `pm`
returns, COW set implies W clear and U set, and U clear implies COW clear. This
holds in particular after a `sys_fork` for the page tables of the parent, of
the child and of every other process, after a `sys_pgfault` for every process,
and after the handler `trap_pgfault`. The rewrite of `mk_cow` returns
`cow_entry` of the entry for both tables, `cow_entry` keeps the invariant on an
entry, and the entry that `sys_pgfault` inserts, made of an aligned frame and
the old flags with COW removed and W added, has COW clear. -/
theorem C5_cow_flag_invariant (kpm cap : Nat) (s0 : Phys) (hboot : BootOk kpm cap s0) :
    (∀ s R pm, PtReach kpm cap s0 s R → R pm →
      (∀ d g i, Subtable s.mem 4 pm d g → i < 512 →
        (s.mem g i &&& PTE_COW ≠ 0 → s.mem g i &&& PTE_W = 0 ∧ s.mem g i &&& PTE_U ≠ 0) ∧
        (s.mem g i &&& PTE_U = 0 → s.mem g i &&& PTE_COW = 0)) ∧
      (∀ v e, leaf_entry s.mem pm v = some e →
        (e &&& PTE_COW ≠ 0 → e &&& PTE_W = 0 ∧ e &&& PTE_U ≠ 0) ∧
        (e &&& PTE_U = 0 → e &&& PTE_COW = 0))) ∧
    (∀ (k : Kernel) (R : Nat → Prop) (parent : proc_t) (ptf : Tf) (pid : Int) (child : proc_t)
        (k2 : Kernel), PtReach kpm cap s0 k.phys R → R parent.pmap →
      k.phys.nalloc + 1 + tables_below k.phys.mem 4 parent.pmap ≤ cap →
      sys_fork k parent ptf = some (pid, child, k2) →
      ∀ pm, R pm ∨ pm = child.pmap →
        ∀ d g i, Subtable k2.phys.mem 4 pm d g → i < 512 → CowOk (k2.phys.mem g i)) ∧
    (∀ (k : Kernel) (R : Nat → Prop) (proc : proc_t) (pte : Nat × Nat) (fa : Nat)
        (proc1 : proc_t) (k2 : Kernel), PtReach kpm cap s0 k.phys R → R proc.pmap →
      k.phys.nalloc + 4 ≤ cap → sys_pgfault k proc pte fa = some (proc1, k2) →
      proc1.pmap = proc.pmap ∧
      ∀ pm, R pm → ∀ d g i, Subtable k2.phys.mem 4 pm d g → i < 512 → CowOk (k2.phys.mem g i)) ∧
    (∀ (k : Kernel) (R : Nat → Prop) (ts : trapstore_t) (proc : proc_t) (k2 : Kernel),
      PtReach kpm cap s0 k.phys R → proc_get k ts.pid = some proc → R proc.pmap →
      k.phys.nalloc + 4 ≤ cap → trap_pgfault k ts = some k2 →
      PtReach kpm cap s0 k2.phys R) ∧
    (∀ ppages pupages e st r, mk_cow ppages pupages e st = some r →
      r.1.1 = cow_entry e ∧ r.1.2 = cow_entry e) ∧
    (∀ e, CowOk e → CowOk (cow_entry e)) ∧
    (∀ x dst, dst % 4096 = 0 →
      (dst ||| (((x &&& PTE_FLAGS) &&& not64 PTE_COW) ||| PTE_W) ||| PTE_P) &&& PTE_COW = 0) := by
  refine ⟨fun s R pm hr hR => ?_, ?_, ?_, ?_, fun _ _ _ _ _ h => mk_cow_eq h,
    fun _ h => cow_entry_ok h, fun x dst hal => entry_no_cow hal (pgfault_perms x).2⟩
  · obtain ⟨h1, h2⟩ := ptreach_cow hboot hr hR
    exact ⟨fun d g i hg hi => (h1 d g i hg hi).flags, fun v e he => (h2 v e he).flags⟩
  · intro k R parent ptf pid child k2 hr hR hroom hrun pm hpm
    exact (ptreach_cow hboot (PtReach.fork k R parent ptf pid child k2 hr hR hroom hrun) hpm).1
  · intro k R proc pte fa proc1 k2 hr hR hroom hrun
    obtain ⟨V, hI⟩ := ptreach_inv hboot hr
    obtain ⟨_, _, _, hpm⟩ := sys_pgfault_step (hI.inv_env hboot hR) hroom hrun
    exact ⟨hpm, fun pm hp =>
      (ptreach_cow hboot (PtReach.pgfault k R proc pte fa proc1 k2 hr hR hroom hrun) hp).1⟩
  · intro k R ts proc k2 hr hp hR hroom hrun
    exact trap_pgfault_reach hr hp hR hroom hrun

theorem C5_witness :
    BootOk 0x1000 1000 kern_phys ∧
    ∃ (s : Phys) (R : Nat → Prop) (pm1 pm2 : Nat),
      PtReach 0x1000 1000 kern_phys s R ∧ R pm1 ∧ R pm2 ∧
      leaf_entry s.mem pm1 ex_stackva = some 0x100205 ∧
      leaf_entry s.mem pm2 ex_stackva = some 0x10f007 ∧
      (∀ d g i, Subtable s.mem 4 pm1 d g → i < 512 →
        (s.mem g i &&& PTE_COW ≠ 0 → s.mem g i &&& PTE_W = 0 ∧ s.mem g i &&& PTE_U ≠ 0) ∧
        (s.mem g i &&& PTE_U = 0 → s.mem g i &&& PTE_COW = 0)) ∧
      (∀ d g i, Subtable s.mem 4 pm2 d g → i < 512 →
        (s.mem g i &&& PTE_COW ≠ 0 → s.mem g i &&& PTE_W = 0 ∧ s.mem g i &&& PTE_U ≠ 0) ∧
        (s.mem g i &&& PTE_U = 0 → s.mem g i &&& PTE_COW = 0)) := by
  obtain ⟨s, R, pm1, pm2, hr, h1, h2, e1, e2⟩ := ex_reach
  exact ⟨kern_boot, s, R, pm1, pm2, hr, h1, h2, e1, e2,
    ((C5_cow_flag_invariant 0x1000 1000 kern_phys kern_boot).1 s R pm1 hr h1).1,
    ((C5_cow_flag_invariant 0x1000 1000 kern_phys kern_boot).1 s R pm2 hr h2).1⟩

end Biscuit
